import Mathlib

/-!
SCUMM graphics core (`src/scumm/gfx.cpp`): a shallow embedding

Byte buffers reached through C pointers are functions from an integer address to the
value stored there; a pointer is an integer address.  Loops of the source become
recursive functions.  A `do { ... } while (--n)` loop entered with a positive counter is a
recursion on that counter; a `for (;;)` or `while` loop whose trip count depends on the
data takes an explicit fuel argument and answers `none` when the fuel is used up.

Integers of the source: `byte` values are natural numbers reduced modulo 256 wherever the
source computes with them, `int` values are integers.
-/

namespace Scumm

/-! ## Memory -/

/-- Byte-addressed memory: the value stored at every (integer) address. -/
abbrev Mem := Int → Nat

/-- `*p = v`. -/
def poke (m : Mem) (p : Int) (v : Nat) : Mem := fun a => if a = p then v else m a

/-- A read-only byte stream reached through a `byte *src` pointer: `src i` is `src[i]`. -/
abbrev Src := Nat → Nat

/-- The byte read by `src[i]`: the stream's value reduced to a byte. -/
def rd (src : Src) (i : Nat) : Nat := src i % 256

/-- `--b` on a `byte`. -/
def decByte (b : Nat) : Nat := (b + 255) % 256

/-- The part of the `Gdi` object (and of the `Scumm` object behind `_vm`) that the routines
below read.  The feature bits `GF_AMIGA` and `GF_OLD256` are tested with
`_vm->_features & GF_x`; each is one Boolean here. -/
structure Gdi where
  /-- `_vm->_screenWidth`: the pitch of the pixel buffers. -/
  screenWidth : Int
  /-- `_numStrips`: the pitch of the mask buffer. -/
  numStrips : Int
  /-- `_vertStripNextInc`, set by `drawBitmap` to `height * _vm->_screenWidth - 1`. -/
  vertStripNextInc : Int
  /-- `_transparentColor`. -/
  transparentColor : Nat
  /-- `_palette_mod`. -/
  palette_mod : Nat
  /-- `_decomp_shr`. -/
  decomp_shr : Nat
  /-- `_decomp_mask`. -/
  decomp_mask : Nat
  /-- `_vm->_features & GF_AMIGA`. -/
  featAmiga : Bool
  /-- `_vm->_features & GF_OLD256`. -/
  featOld256 : Bool

/-! ## Dirty-strip tracking -/

/-- The dirty-span arrays of a `VirtScreen`, with its geometry.  The arrays are indexed by
strip number; the model keeps a value for every integer index so that a write outside the
array would be visible. -/
structure VirtScreen where
  width : Int
  height : Int
  tdirty : Int → Int
  bdirty : Int → Int

/-- `v >> n` on a signed `int` (arithmetic shift). -/
def sar (v : Int) (n : Nat) : Int := v >>> n

/-- `arr[i] = v`. -/
def setAt (arr : Int → Int) (i v : Int) : Int → Int := fun j => if j = i then v else arr j

/-- The loop `while (lp <= rp) { ...; lp++; }` of `Scumm::setVirtscreenDirty`. -/
def setVirtscreenDirty.loop (top bottom rp : Int) : Nat → Int → VirtScreen → VirtScreen
  | 0, _, vs => vs
  | fuel + 1, lp, vs =>
    if lp ≤ rp then
      let vs1 := if top < vs.tdirty lp then { vs with tdirty := setAt vs.tdirty lp top } else vs
      let vs2 := if bottom > vs1.bdirty lp then { vs1 with bdirty := setAt vs1.bdirty lp bottom } else vs1
      setVirtscreenDirty.loop top bottom rp fuel (lp + 1) vs2
    else vs

/-- `Scumm::setVirtscreenDirty`.  The loop runs `rp - lp + 1` times, which is the fuel. -/
def setVirtscreenDirty (g : Gdi) (vs : VirtScreen) (left top right bottom : Int) : VirtScreen :=
  let lp := sar left 3
  let rp := sar right 3
  if lp ≥ g.numStrips ∨ rp < 0 then vs
  else
    let lp := if lp < 0 then 0 else lp
    let rp := if rp ≥ g.numStrips then g.numStrips - 1 else rp
    setVirtscreenDirty.loop top bottom rp (rp + 1 - lp).toNat lp vs

/-! ## Strip blitting -/

/-- `memcpy(dst, src, 8)` (the two `uint32` assignments of the unaligned build copy the same
eight bytes). -/
def copy8 (dst : Mem) (dp : Int) (src : Mem) (sp : Int) : Mem :=
  let d0 := poke dst dp (src sp)
  let d1 := poke d0 (dp + 1) (src (sp + 1))
  let d2 := poke d1 (dp + 2) (src (sp + 2))
  let d3 := poke d2 (dp + 3) (src (sp + 3))
  let d4 := poke d3 (dp + 4) (src (sp + 4))
  let d5 := poke d4 (dp + 5) (src (sp + 5))
  let d6 := poke d5 (dp + 6) (src (sp + 6))
  poke d6 (dp + 7) (src (sp + 7))

/-- `if (!(maskbits & bit)) *p = v;`. -/
def pokeUnlessMasked (maskbits bit : Nat) (m : Mem) (p : Int) (v : Nat) : Mem :=
  if maskbits &&& bit = 0 then poke m p v else m

/-- One row of `Gdi::draw8ColWithMasking`: the body of its `do` loop up to the pointer
increments. -/
def draw8ColWithMasking.row (dst : Mem) (dp : Int) (src : Mem) (sp : Int) (maskbits : Nat) : Mem :=
  if maskbits ≠ 0 then
    let d0 := pokeUnlessMasked maskbits 0x80 dst dp (src sp)
    let d1 := pokeUnlessMasked maskbits 0x40 d0 (dp + 1) (src (sp + 1))
    let d2 := pokeUnlessMasked maskbits 0x20 d1 (dp + 2) (src (sp + 2))
    let d3 := pokeUnlessMasked maskbits 0x10 d2 (dp + 3) (src (sp + 3))
    let d4 := pokeUnlessMasked maskbits 0x08 d3 (dp + 4) (src (sp + 4))
    let d5 := pokeUnlessMasked maskbits 0x04 d4 (dp + 5) (src (sp + 5))
    let d6 := pokeUnlessMasked maskbits 0x02 d5 (dp + 6) (src (sp + 6))
    pokeUnlessMasked maskbits 0x01 d6 (dp + 7) (src (sp + 7))
  else copy8 dst dp src sp

/-- `Gdi::draw8ColWithMasking(dst, src, height, mask)`.  `dst`, `src` and `mask` point into
three different buffers (the screen, the background copy and the mask buffer); the result is
the screen buffer.  The `do ... while (--height)` loop is entered with `height ≥ 1`. -/
def draw8ColWithMasking (g : Gdi) (dst : Mem) (dp : Int) (src : Mem) (sp : Int) :
    Nat → Mem → Int → Mem
  | 0, _, _ => dst
  | height + 1, mask, mp =>
    let dst1 := draw8ColWithMasking.row dst dp src sp (mask mp)
    draw8ColWithMasking g dst1 (dp + g.screenWidth) src (sp + g.screenWidth) height mask
      (mp + g.numStrips)

/-- `Gdi::draw8Col(dst, src, height)`. -/
def draw8Col (g : Gdi) (dst : Mem) (dp : Int) (src : Mem) (sp : Int) : Nat → Mem
  | 0 => dst
  | height + 1 =>
    draw8Col g (copy8 dst dp src sp) (dp + g.screenWidth) src (sp + g.screenWidth) height

/-! ## Z-plane mask decoding -/

/-- The run loop of `Gdi::decompressMaskImg`:
`do { *dst = c; dst += _numStrips; --height; } while (--b && height);`
entered with `height ≠ 0`.  The result is the remaining height, the advanced `dst` and the
memory. -/
def decompressMaskImg.fill (g : Gdi) (c : Nat) : Nat → Nat → Int → Mem → Nat × Int × Mem
  | 0, _, dp, m => (0, dp, m)
  | height + 1, b, dp, m =>
    let m1 := poke m dp c
    let dp1 := dp + g.numStrips
    let b1 := decByte b
    if b1 ≠ 0 ∧ height ≠ 0 then decompressMaskImg.fill g c height b1 dp1 m1
    else (height, dp1, m1)

/-- The literal loop of `Gdi::decompressMaskImg`:
`do { *dst = *src++; dst += _numStrips; --height; } while (--b && height);`. -/
def decompressMaskImg.copy (g : Gdi) (src : Src) :
    Nat → Nat → Nat → Int → Mem → Nat × Nat × Int × Mem
  | 0, _, sp, dp, m => (0, sp, dp, m)
  | height + 1, b, sp, dp, m =>
    let m1 := poke m dp (rd src sp)
    let sp1 := sp + 1
    let dp1 := dp + g.numStrips
    let b1 := decByte b
    if b1 ≠ 0 ∧ height ≠ 0 then decompressMaskImg.copy g src height b1 sp1 dp1 m1
    else (height, sp1, dp1, m1)

/-- The loop `while (height) { ... }` of `Gdi::decompressMaskImg`. -/
def decompressMaskImg.loop (g : Gdi) (src : Src) : Nat → Nat → Nat → Int → Mem → Option (Mem × Nat)
  | _, 0, sp, _, m => some (m, sp)
  | 0, _ + 1, _, _, _ => none
  | fuel + 1, height + 1, sp, dp, m =>
    let b := rd src sp
    let sp1 := sp + 1
    if b &&& 0x80 ≠ 0 then
      let b1 := b &&& 0x7F
      let c := rd src sp1
      let sp2 := sp1 + 1
      let r := decompressMaskImg.fill g c (height + 1) b1 dp m
      decompressMaskImg.loop g src fuel r.1 sp2 r.2.1 r.2.2
    else
      let r := decompressMaskImg.copy g src (height + 1) b sp1 dp m
      decompressMaskImg.loop g src fuel r.1 r.2.1 r.2.2.1 r.2.2.2

/-- `Gdi::decompressMaskImg(dst, src, height)`: the memory after the call and the final
source position, or `none` when the fuel does not cover the outer loop. -/
def decompressMaskImg (g : Gdi) (fuel : Nat) (m : Mem) (dp : Int) (src : Src) (sp : Nat)
    (height : Nat) : Option (Mem × Nat) :=
  decompressMaskImg.loop g src fuel height sp dp m

/-- The run loop of `Gdi::decompressMaskImgOr`:
`do { *dst |= c; dst += _numStrips; --height; } while (--b && height);`. -/
def decompressMaskImgOr.fill (g : Gdi) (c : Nat) : Nat → Nat → Int → Mem → Nat × Int × Mem
  | 0, _, dp, m => (0, dp, m)
  | height + 1, b, dp, m =>
    let m1 := poke m dp (m dp ||| c)
    let dp1 := dp + g.numStrips
    let b1 := decByte b
    if b1 ≠ 0 ∧ height ≠ 0 then decompressMaskImgOr.fill g c height b1 dp1 m1
    else (height, dp1, m1)

/-- The literal loop of `Gdi::decompressMaskImgOr`:
`do { *dst |= *src++; dst += _numStrips; --height; } while (--b && height);`. -/
def decompressMaskImgOr.copy (g : Gdi) (src : Src) :
    Nat → Nat → Nat → Int → Mem → Nat × Nat × Int × Mem
  | 0, _, sp, dp, m => (0, sp, dp, m)
  | height + 1, b, sp, dp, m =>
    let m1 := poke m dp (m dp ||| rd src sp)
    let sp1 := sp + 1
    let dp1 := dp + g.numStrips
    let b1 := decByte b
    if b1 ≠ 0 ∧ height ≠ 0 then decompressMaskImgOr.copy g src height b1 sp1 dp1 m1
    else (height, sp1, dp1, m1)

/-- The loop `while (height) { ... }` of `Gdi::decompressMaskImgOr`. -/
def decompressMaskImgOr.loop (g : Gdi) (src : Src) :
    Nat → Nat → Nat → Int → Mem → Option (Mem × Nat)
  | _, 0, sp, _, m => some (m, sp)
  | 0, _ + 1, _, _, _ => none
  | fuel + 1, height + 1, sp, dp, m =>
    let b := rd src sp
    let sp1 := sp + 1
    if b &&& 0x80 ≠ 0 then
      let b1 := b &&& 0x7F
      let c := rd src sp1
      let sp2 := sp1 + 1
      let r := decompressMaskImgOr.fill g c (height + 1) b1 dp m
      decompressMaskImgOr.loop g src fuel r.1 sp2 r.2.1 r.2.2
    else
      let r := decompressMaskImgOr.copy g src (height + 1) b sp1 dp m
      decompressMaskImgOr.loop g src fuel r.1 r.2.1 r.2.2.1 r.2.2.2

/-- `Gdi::decompressMaskImgOr(dst, src, height)`. -/
def decompressMaskImgOr (g : Gdi) (fuel : Nat) (m : Mem) (dp : Int) (src : Src) (sp : Nat)
    (height : Nat) : Option (Mem × Nat) :=
  decompressMaskImgOr.loop g src fuel height sp dp m

/-- The run-length expansion of a mask stream as the specification words it, for `n`
records starting at `sp`: a count byte `b` with bit 7 set repeats the following byte
`b & 0x7F` times; otherwise the following `b` bytes are literal. -/
def maskExpand (src : Src) : Nat → Nat → List Nat
  | 0, _ => []
  | n + 1, sp =>
    let b := rd src sp
    if b &&& 0x80 ≠ 0 then
      List.replicate (b &&& 0x7F) (rd src (sp + 1)) ++ maskExpand src n (sp + 2)
    else
      (List.range b).map (fun i => rd src (sp + 1 + i)) ++ maskExpand src n (sp + 1 + b)

/-- Every count field of the first `n` records from `sp` is non-zero. -/
def maskCountsNonZero (src : Src) : Nat → Nat → Prop
  | 0, _ => True
  | n + 1, sp =>
    let b := rd src sp
    if b &&& 0x80 ≠ 0 then b &&& 0x7F ≠ 0 ∧ maskCountsNonZero src n (sp + 2)
    else b ≠ 0 ∧ maskCountsNonZero src n (sp + 1 + b)

/-- The number of times a `do { ... } while (--b)` loop on a `byte` counter runs: a counter
that starts at 0 wraps round and gives 256 passes. -/
def passes (b : Nat) : Nat := if b % 256 = 0 then 256 else b % 256

/-- The bytes the mask decoders produce from `n` records starting at `sp`: as `maskExpand`,
with the loop count of the code (`passes`). -/
def maskRuns (src : Src) : Nat → Nat → List Nat
  | 0, _ => []
  | n + 1, sp =>
    let b := rd src sp
    if b &&& 0x80 ≠ 0 then
      List.replicate (passes (b &&& 0x7F)) (rd src (sp + 1)) ++ maskRuns src n (sp + 2)
    else
      (List.range (passes b)).map (fun i => rd src (sp + 1 + i))
        ++ maskRuns src n (sp + 1 + passes b)

/-- Store the bytes of a list at `dp`, `dp + stride`, `dp + 2 * stride`, ... -/
def pokeList (stride : Int) : Mem → Int → List Nat → Mem
  | m, _, [] => m
  | m, dp, v :: l => pokeList stride (poke m dp v) (dp + stride) l

/-- Or the bytes of a list into `dp`, `dp + stride`, `dp + 2 * stride`, ... -/
def orList (stride : Int) : Mem → Int → List Nat → Mem
  | m, _, [] => m
  | m, dp, v :: l => orList stride (poke m dp (m dp ||| v)) (dp + stride) l

/-! ## Bitmap strip decoders

Every decoder threads an `Out`: the destination memory together with a trace of the pixel
positions it has passed, in order, each with the colour decoded for it.  The trace is
bookkeeping only; no decoder reads it. -/

/-- The destination of a decoder and the trace of the pixels it has visited. -/
structure Out where
  mem : Mem
  log : List (Int × Nat)

/-- `*p = v` for a pixel whose decoded colour is `c`. -/
def Out.store (o : Out) (p : Int) (c v : Nat) : Out :=
  { mem := poke o.mem p v, log := o.log ++ [(p, c)] }

/-- A pixel of colour `c` at `p` that is stepped over without a write. -/
def Out.pass (o : Out) (p : Int) (c : Nat) : Out :=
  { mem := o.mem, log := o.log ++ [(p, c)] }

/-- `if (color != _transparentColor) *dst = color + _palette_mod;`. -/
def Out.storeUnlessTransparent (g : Gdi) (o : Out) (p : Int) (color : Nat) : Out :=
  if color ≠ g.transparentColor then o.store p color ((color + g.palette_mod) % 256)
  else o.pass p color

/-- `a -= b` on a `byte`. -/
def subByte (a b : Nat) : Nat := (a + 256 - b % 256) % 256

/-- `color += inc` for a `byte color` and a signed `inc`. -/
def addInc (color : Nat) (inc : Int) : Nat := (((color : Int) + inc) % 256).toNat

/-! ### The bit reader of `unkDecodeA`/`B`/`C` -/

/-- The variables `src`, `bits` (a `uint`) and `cl` (a `byte`) of those decoders. -/
structure BitRd where
  sp : Nat
  bits : Nat
  cl : Nat

/-- The macro `FILL_BITS`. -/
def FILL_BITS (src : Src) (r : BitRd) : BitRd :=
  if r.cl ≤ 8 then
    { sp := r.sp + 1, bits := (r.bits ||| (rd src r.sp <<< r.cl)) % 2 ^ 32, cl := r.cl + 8 }
  else r

/-- The macro `READ_BIT`: the bit read and the reader afterwards. -/
def READ_BIT (r : BitRd) : Nat × BitRd :=
  (r.bits &&& 1, { sp := r.sp, bits := r.bits >>> 1, cl := decByte r.cl })

/-- The literal read that follows the control bits `1, 0`:
`FILL_BITS; color = bits & _decomp_mask; bits >>= _decomp_shr; cl -= _decomp_shr;`. -/
def readLiteral (g : Gdi) (src : Src) (r : BitRd) : Nat × BitRd :=
  let r1 := FILL_BITS src r
  ((r1.bits &&& g.decomp_mask) % 256,
    { sp := r1.sp, bits := r1.bits >>> g.decomp_shr, cl := subByte r1.cl g.decomp_shr })

/-- The variables of `unkDecodeB`/`C` that live across pixels. -/
structure BSt where
  rd : BitRd
  color : Nat
  inc : Int

/-- The control bits read after a pixel in `unkDecodeB`:
`if (!READ_BIT) {} else if (!READ_BIT) {...} else if (!READ_BIT) {...} else {...}`. -/
def unkDecodeB.ctl (g : Gdi) (src : Src) (s : BSt) : BSt :=
  let b1 := READ_BIT s.rd
  if b1.1 = 0 then { s with rd := b1.2 }
  else
    let b2 := READ_BIT b1.2
    if b2.1 = 0 then
      let l := readLiteral g src b2.2
      { rd := l.2, color := l.1, inc := -1 }
    else
      let b3 := READ_BIT b2.2
      if b3.1 = 0 then { rd := b3.2, color := addInc s.color s.inc, inc := s.inc }
      else { rd := b3.2, color := addInc s.color (-s.inc), inc := -s.inc }

/-- The inner loop `do { ... } while (--x)` of `unkDecodeB`, for `x` more pixels. -/
def unkDecodeB.row (g : Gdi) (src : Src) : Nat → BSt → Int → Out → BSt × Int × Out
  | 0, s, dst, o => (s, dst, o)
  | x + 1, s, dst, o =>
    let r := FILL_BITS src s.rd
    let o1 := o.store dst s.color ((s.color + g.palette_mod) % 256)
    let s1 := unkDecodeB.ctl g src { s with rd := r }
    unkDecodeB.row g src x s1 (dst + 1) o1

/-- The outer loop `do { int x = 8; ...; dst += _vm->_screenWidth - 8; } while (--height)`
of `unkDecodeB`. -/
def unkDecodeB.rows (g : Gdi) (src : Src) : Nat → BSt → Int → Out → BSt × Out
  | 0, s, _, o => (s, o)
  | height + 1, s, dst, o =>
    let r := unkDecodeB.row g src 8 s dst o
    unkDecodeB.rows g src height r.1 (r.2.1 + g.screenWidth - 8) r.2.2

/-- `Gdi::unkDecodeB(dst, src, height)`, for `height ≥ 1`: the final decoder variables and
the output. -/
def unkDecodeB (g : Gdi) (m : Mem) (dst : Int) (src : Src) (sp : Nat) (height : Nat) :
    BSt × Out :=
  unkDecodeB.rows g src height
    { rd := { sp := sp + 2, bits := rd src (sp + 1), cl := 8 }, color := rd src sp, inc := -1 }
    dst { mem := m, log := [] }

/-- The control bits read after a pixel in `unkDecodeB_trans`. -/
def unkDecodeB_trans.ctl (g : Gdi) (src : Src) (s : BSt) : BSt :=
  let b1 := READ_BIT s.rd
  if b1.1 = 0 then { s with rd := b1.2 }
  else
    let b2 := READ_BIT b1.2
    if b2.1 = 0 then
      let l := readLiteral g src b2.2
      { rd := l.2, color := l.1, inc := -1 }
    else
      let b3 := READ_BIT b2.2
      if b3.1 = 0 then { rd := b3.2, color := addInc s.color s.inc, inc := s.inc }
      else { rd := b3.2, color := addInc s.color (-s.inc), inc := -s.inc }

/-- The inner loop of `unkDecodeB_trans`. -/
def unkDecodeB_trans.row (g : Gdi) (src : Src) : Nat → BSt → Int → Out → BSt × Int × Out
  | 0, s, dst, o => (s, dst, o)
  | x + 1, s, dst, o =>
    let r := FILL_BITS src s.rd
    let o1 := o.storeUnlessTransparent g dst s.color
    let s1 := unkDecodeB_trans.ctl g src { s with rd := r }
    unkDecodeB_trans.row g src x s1 (dst + 1) o1

/-- The outer loop of `unkDecodeB_trans`. -/
def unkDecodeB_trans.rows (g : Gdi) (src : Src) : Nat → BSt → Int → Out → BSt × Out
  | 0, s, _, o => (s, o)
  | height + 1, s, dst, o =>
    let r := unkDecodeB_trans.row g src 8 s dst o
    unkDecodeB_trans.rows g src height r.1 (r.2.1 + g.screenWidth - 8) r.2.2

/-- `Gdi::unkDecodeB_trans(dst, src, height)`, for `height ≥ 1`. -/
def unkDecodeB_trans (g : Gdi) (m : Mem) (dst : Int) (src : Src) (sp : Nat) (height : Nat) :
    BSt × Out :=
  unkDecodeB_trans.rows g src height
    { rd := { sp := sp + 2, bits := rd src (sp + 1), cl := 8 }, color := rd src sp, inc := -1 }
    dst { mem := m, log := [] }

/-- The control bits read after a pixel in `unkDecodeC`. -/
def unkDecodeC.ctl (g : Gdi) (src : Src) (s : BSt) : BSt :=
  let b1 := READ_BIT s.rd
  if b1.1 = 0 then { s with rd := b1.2 }
  else
    let b2 := READ_BIT b1.2
    if b2.1 = 0 then
      let l := readLiteral g src b2.2
      { rd := l.2, color := l.1, inc := -1 }
    else
      let b3 := READ_BIT b2.2
      if b3.1 = 0 then { rd := b3.2, color := addInc s.color s.inc, inc := s.inc }
      else { rd := b3.2, color := addInc s.color (-s.inc), inc := -s.inc }

/-- The inner loop `do { ... } while (--h)` of `unkDecodeC`, for `h` more pixels of the
column. -/
def unkDecodeC.col (g : Gdi) (src : Src) : Nat → BSt → Int → Out → BSt × Int × Out
  | 0, s, dst, o => (s, dst, o)
  | h + 1, s, dst, o =>
    let r := FILL_BITS src s.rd
    let o1 := o.store dst s.color ((s.color + g.palette_mod) % 256)
    let s1 := unkDecodeC.ctl g src { s with rd := r }
    unkDecodeC.col g src h s1 (dst + g.screenWidth) o1

/-- The outer loop `do { int h = height; ...; dst -= _vertStripNextInc; } while (--x)` of
`unkDecodeC`, for `x` more columns. -/
def unkDecodeC.cols (g : Gdi) (src : Src) (height : Nat) : Nat → BSt → Int → Out → BSt × Out
  | 0, s, _, o => (s, o)
  | x + 1, s, dst, o =>
    let r := unkDecodeC.col g src height s dst o
    unkDecodeC.cols g src height x r.1 (r.2.1 - g.vertStripNextInc) r.2.2

/-- `Gdi::unkDecodeC(dst, src, height)`, for `height ≥ 1`. -/
def unkDecodeC (g : Gdi) (m : Mem) (dst : Int) (src : Src) (sp : Nat) (height : Nat) :
    BSt × Out :=
  unkDecodeC.cols g src height 8
    { rd := { sp := sp + 2, bits := rd src (sp + 1), cl := 8 }, color := rd src sp, inc := -1 }
    dst { mem := m, log := [] }

/-- The control bits read after a pixel in `unkDecodeC_trans`. -/
def unkDecodeC_trans.ctl (g : Gdi) (src : Src) (s : BSt) : BSt :=
  let b1 := READ_BIT s.rd
  if b1.1 = 0 then { s with rd := b1.2 }
  else
    let b2 := READ_BIT b1.2
    if b2.1 = 0 then
      let l := readLiteral g src b2.2
      { rd := l.2, color := l.1, inc := -1 }
    else
      let b3 := READ_BIT b2.2
      if b3.1 = 0 then { rd := b3.2, color := addInc s.color s.inc, inc := s.inc }
      else { rd := b3.2, color := addInc s.color (-s.inc), inc := -s.inc }

/-- The inner loop of `unkDecodeC_trans`. -/
def unkDecodeC_trans.col (g : Gdi) (src : Src) : Nat → BSt → Int → Out → BSt × Int × Out
  | 0, s, dst, o => (s, dst, o)
  | h + 1, s, dst, o =>
    let r := FILL_BITS src s.rd
    let o1 := o.storeUnlessTransparent g dst s.color
    let s1 := unkDecodeC_trans.ctl g src { s with rd := r }
    unkDecodeC_trans.col g src h s1 (dst + g.screenWidth) o1

/-- The outer loop of `unkDecodeC_trans`. -/
def unkDecodeC_trans.cols (g : Gdi) (src : Src) (height : Nat) :
    Nat → BSt → Int → Out → BSt × Out
  | 0, s, _, o => (s, o)
  | x + 1, s, dst, o =>
    let r := unkDecodeC_trans.col g src height s dst o
    unkDecodeC_trans.cols g src height x r.1 (r.2.1 - g.vertStripNextInc) r.2.2

/-- `Gdi::unkDecodeC_trans(dst, src, height)`, for `height ≥ 1`. -/
def unkDecodeC_trans (g : Gdi) (m : Mem) (dst : Int) (src : Src) (sp : Nat) (height : Nat) :
    BSt × Out :=
  unkDecodeC_trans.cols g src height 8
    { rd := { sp := sp + 2, bits := rd src (sp + 1), cl := 8 }, color := rd src sp, inc := -1 }
    dst { mem := m, log := [] }

/-! ### `unkDecodeA` and `unkDecodeA_trans` -/

/-- The variables of `unkDecodeA`: `x` and `height` are changed inside a run as well as by
the two `while` tests, so they are part of the state. -/
structure ASt where
  rd : BitRd
  color : Nat
  dst : Int
  x : Int
  height : Int
  out : Out

/-- The run loop of `unkDecodeA`, for `n` more passes:
`do { if (!--x) { x = 8; dst += _vm->_screenWidth - 8; if (!--height) return; }
*dst++ = color + _palette_mod; } while (--reps);`
The Boolean is `true` when the function returned from inside the loop. -/
def unkDecodeA.run (g : Gdi) : Nat → ASt → Bool × ASt
  | 0, s => (false, s)
  | n + 1, s =>
    let x1 := s.x - 1
    if x1 = 0 then
      let dst1 := s.dst + g.screenWidth - 8
      let h1 := s.height - 1
      if h1 = 0 then (true, { s with x := 8, dst := dst1, height := h1 })
      else
        let o1 := s.out.store dst1 s.color ((s.color + g.palette_mod) % 256)
        unkDecodeA.run g n { s with x := 8, dst := dst1 + 1, height := h1, out := o1 }
    else
      let o1 := s.out.store s.dst s.color ((s.color + g.palette_mod) % 256)
      unkDecodeA.run g n { s with x := x1, dst := s.dst + 1, out := o1 }

/-- The code of `unkDecodeA` from the label `againPos` to the end of the inner loop body.
`none`: out of fuel; `true`: the function returned from inside a run.  After `FILL_BITS` the
counter `cl` is at least 8 as long as it never wrapped round, so `cl - 8` is a valid shift
count; where C leaves a shift undefined the model shifts in the naturals. -/
def unkDecodeA.againPos (g : Gdi) (src : Src) : Nat → ASt → Option (Bool × ASt)
  | 0, _ => none
  | fuel + 1, s =>
    let b1 := READ_BIT s.rd
    if b1.1 = 0 then some (false, { s with rd := b1.2 })
    else
      let b2 := READ_BIT b1.2
      if b2.1 = 0 then
        let l := readLiteral g src b2.2
        some (false, { s with rd := l.2, color := l.1 })
      else
        let incm := ((b2.2.bits &&& 7) + 256 - 4) % 256
        let r3 : BitRd := { sp := b2.2.sp, bits := b2.2.bits >>> 3, cl := subByte b2.2.cl 3 }
        if incm ≠ 0 then some (false, { s with rd := r3, color := (s.color + incm) % 256 })
        else
          let r4 := FILL_BITS src r3
          let reps := r4.bits &&& 0xFF
          let t := unkDecodeA.run g (passes reps) { s with rd := r4 }
          if t.1 then some (true, t.2)
          else
            let bits5 := ((r4.bits >>> 8) ||| (rd src r4.sp <<< (r4.cl - 8))) % 2 ^ 32
            let r5 : BitRd := { sp := r4.sp + 1, bits := bits5, cl := r4.cl }
            unkDecodeA.againPos g src fuel { t.2 with rd := r5 }

/-- The two nested `do` loops of `unkDecodeA`, entered at the top of the inner loop body.
`none`: out of fuel. -/
def unkDecodeA.pixels (g : Gdi) (src : Src) : Nat → ASt → Option ASt
  | 0, _ => none
  | fuel + 1, s =>
    let r := FILL_BITS src s.rd
    let o1 := s.out.store s.dst s.color ((s.color + g.palette_mod) % 256)
    let s1 : ASt := { s with rd := r, dst := s.dst + 1, out := o1 }
    match unkDecodeA.againPos g src (fuel + 1) s1 with
    | none => none
    | some (true, s2) => some s2
    | some (false, s2) =>
      let x1 := s2.x - 1
      if x1 ≠ 0 then unkDecodeA.pixels g src fuel { s2 with x := x1 }
      else
        let dst1 := s2.dst + g.screenWidth - 8
        let h1 := s2.height - 1
        if h1 ≠ 0 then unkDecodeA.pixels g src fuel { s2 with x := 8, dst := dst1, height := h1 }
        else some { s2 with x := x1, dst := dst1, height := h1 }

/-- `Gdi::unkDecodeA(dst, src, height)`: the final state, or `none` when out of fuel. -/
def unkDecodeA (g : Gdi) (fuel : Nat) (m : Mem) (dst : Int) (src : Src) (sp : Nat)
    (height : Nat) : Option ASt :=
  let r : BitRd := { sp := sp + 2, bits := rd src (sp + 1), cl := 8 }
  let o : Out := { mem := m, log := [] }
  unkDecodeA.pixels g src fuel
    { rd := r, color := rd src sp, dst := dst, x := 8, height := height, out := o }

/-- The run loop of `unkDecodeA_trans`. -/
def unkDecodeA_trans.run (g : Gdi) : Nat → ASt → Bool × ASt
  | 0, s => (false, s)
  | n + 1, s =>
    let x1 := s.x - 1
    if x1 = 0 then
      let dst1 := s.dst + g.screenWidth - 8
      let h1 := s.height - 1
      if h1 = 0 then (true, { s with x := 8, dst := dst1, height := h1 })
      else
        let o1 := s.out.storeUnlessTransparent g dst1 s.color
        unkDecodeA_trans.run g n { s with x := 8, dst := dst1 + 1, height := h1, out := o1 }
    else
      let o1 := s.out.storeUnlessTransparent g s.dst s.color
      unkDecodeA_trans.run g n { s with x := x1, dst := s.dst + 1, out := o1 }

/-- The code of `unkDecodeA_trans` from the label `againPos` to the end of the inner loop
body. -/
def unkDecodeA_trans.againPos (g : Gdi) (src : Src) : Nat → ASt → Option (Bool × ASt)
  | 0, _ => none
  | fuel + 1, s =>
    let b1 := READ_BIT s.rd
    if b1.1 = 0 then some (false, { s with rd := b1.2 })
    else
      let b2 := READ_BIT b1.2
      if b2.1 = 0 then
        let l := readLiteral g src b2.2
        some (false, { s with rd := l.2, color := l.1 })
      else
        let incm := ((b2.2.bits &&& 7) + 256 - 4) % 256
        let r3 : BitRd := { sp := b2.2.sp, bits := b2.2.bits >>> 3, cl := subByte b2.2.cl 3 }
        if incm ≠ 0 then some (false, { s with rd := r3, color := (s.color + incm) % 256 })
        else
          let r4 := FILL_BITS src r3
          let reps := r4.bits &&& 0xFF
          let t := unkDecodeA_trans.run g (passes reps) { s with rd := r4 }
          if t.1 then some (true, t.2)
          else
            let bits5 := ((r4.bits >>> 8) ||| (rd src r4.sp <<< (r4.cl - 8))) % 2 ^ 32
            let r5 : BitRd := { sp := r4.sp + 1, bits := bits5, cl := r4.cl }
            unkDecodeA_trans.againPos g src fuel { t.2 with rd := r5 }

/-- The two nested `do` loops of `unkDecodeA_trans`. -/
def unkDecodeA_trans.pixels (g : Gdi) (src : Src) : Nat → ASt → Option ASt
  | 0, _ => none
  | fuel + 1, s =>
    let r := FILL_BITS src s.rd
    let o1 := s.out.storeUnlessTransparent g s.dst s.color
    let s1 : ASt := { s with rd := r, dst := s.dst + 1, out := o1 }
    match unkDecodeA_trans.againPos g src (fuel + 1) s1 with
    | none => none
    | some (true, s2) => some s2
    | some (false, s2) =>
      let x1 := s2.x - 1
      if x1 ≠ 0 then unkDecodeA_trans.pixels g src fuel { s2 with x := x1 }
      else
        let dst1 := s2.dst + g.screenWidth - 8
        let h1 := s2.height - 1
        if h1 ≠ 0 then
          unkDecodeA_trans.pixels g src fuel { s2 with x := 8, dst := dst1, height := h1 }
        else some { s2 with x := x1, dst := dst1, height := h1 }

/-- `Gdi::unkDecodeA_trans(dst, src, height)`. -/
def unkDecodeA_trans (g : Gdi) (fuel : Nat) (m : Mem) (dst : Int) (src : Src) (sp : Nat)
    (height : Nat) : Option ASt :=
  let r : BitRd := { sp := sp + 2, bits := rd src (sp + 1), cl := 8 }
  let o : Out := { mem := m, log := [] }
  unkDecodeA_trans.pixels g src fuel
    { rd := r, color := rd src sp, dst := dst, x := 8, height := height, out := o }

/-! ### The Zak256/Indy256 decoders: `unkDecode7` to `unkDecode11` -/

/-- The variables `dst`, `h` and `x` that the macro `NEXT_ROW` works on. -/
structure Cur where
  dst : Int
  h : Int
  x : Int

/-- The macro `NEXT_ROW`; `none` stands for its `return`. -/
def NEXT_ROW (g : Gdi) (height : Int) (c : Cur) : Option Cur :=
  let dst := c.dst + g.screenWidth
  let h := c.h - 1
  if h = 0 then
    let x := c.x - 1
    if x = 0 then none
    else some { dst := dst - g.vertStripNextInc, h := height, x := x }
  else some { dst := dst, h := h, x := c.x }

/-- The loop `for (;;) { *dst = *src++; NEXT_ROW }` of `unkDecode7` (`GF_OLD256` branch). -/
def unkDecode7.old (g : Gdi) (src : Src) (height : Int) : Nat → Nat → Cur → Out → Option (Out × Nat)
  | 0, _, _, _ => none
  | fuel + 1, sp, c, o =>
    let o1 := o.store c.dst (rd src sp) (rd src sp)
    match NEXT_ROW g height c with
    | none => some (o1, sp + 1)
    | some c1 => unkDecode7.old g src height fuel (sp + 1) c1 o1

/-- `memcpy(dst, src, 8)` of `unkDecode7`, pixel by pixel. -/
def unkDecode7.copy8 (src : Src) (sp : Nat) (dst : Int) (o : Out) : Out :=
  let o0 := o.store dst (rd src sp) (rd src sp)
  let o1 := o0.store (dst + 1) (rd src (sp + 1)) (rd src (sp + 1))
  let o2 := o1.store (dst + 2) (rd src (sp + 2)) (rd src (sp + 2))
  let o3 := o2.store (dst + 3) (rd src (sp + 3)) (rd src (sp + 3))
  let o4 := o3.store (dst + 4) (rd src (sp + 4)) (rd src (sp + 4))
  let o5 := o4.store (dst + 5) (rd src (sp + 5)) (rd src (sp + 5))
  let o6 := o5.store (dst + 6) (rd src (sp + 6)) (rd src (sp + 6))
  o6.store (dst + 7) (rd src (sp + 7)) (rd src (sp + 7))

/-- The loop `do { memcpy(dst, src, 8); dst += _vm->_screenWidth; src += 8; }
while (--height)` of `unkDecode7`. -/
def unkDecode7.rows (g : Gdi) (src : Src) : Nat → Nat → Int → Out → Out × Nat
  | 0, sp, _, o => (o, sp)
  | height + 1, sp, dst, o =>
    unkDecode7.rows g src height (sp + 8) (dst + g.screenWidth) (unkDecode7.copy8 src sp dst o)

/-- `Gdi::unkDecode7(dst, src, height)`: the output and the final source position. -/
def unkDecode7 (g : Gdi) (fuel : Nat) (m : Mem) (dst : Int) (src : Src) (sp : Nat)
    (height : Nat) : Option (Out × Nat) :=
  if g.featOld256 then
    unkDecode7.old g src height fuel sp { dst := dst, h := height, x := 8 } { mem := m, log := [] }
  else some (unkDecode7.rows g src height sp dst { mem := m, log := [] })

/-- `n` passes of `*dst = color; NEXT_ROW`: the loop `do { *dst = color; NEXT_ROW }
while (--run)` of `unkDecode8` and `unkDecode10` and the `for` loop of case 0 of
`unkDecode9`.  The cursor is `none` when `NEXT_ROW` returned from the function. -/
def putRun (g : Gdi) (height : Int) (color : Nat) : Nat → Cur → Out → Option Cur × Out
  | 0, c, o => (some c, o)
  | n + 1, c, o =>
    let o1 := o.store c.dst color color
    match NEXT_ROW g height c with
    | none => (none, o1)
    | some c1 => putRun g height color n c1 o1

/-- The loop `for (;;) { ... }` of `unkDecode8`. -/
def unkDecode8.loop (g : Gdi) (src : Src) (height : Int) :
    Nat → Nat → Cur → Out → Option (Out × Nat)
  | 0, _, _, _ => none
  | fuel + 1, sp, c, o =>
    let run := rd src sp + 1
    let color := rd src (sp + 1)
    match putRun g height color run c o with
    | (none, o1) => some (o1, sp + 2)
    | (some c1, o1) => unkDecode8.loop g src height fuel (sp + 2) c1 o1

/-- `Gdi::unkDecode8(dst, src, height)`. -/
def unkDecode8 (g : Gdi) (fuel : Nat) (m : Mem) (dst : Int) (src : Src) (sp : Nat)
    (height : Nat) : Option (Out × Nat) :=
  unkDecode8.loop g src height fuel sp { dst := dst, h := height, x := 8 } { mem := m, log := [] }

/-- The variables `src`, `buffer` and `mask` of the macro `READ_256BIT`. -/
structure Rd256 where
  sp : Nat
  buffer : Nat
  mask : Nat

/-- The macro `READ_256BIT`: the value of `bits` and the reader afterwards. -/
def READ_256BIT (src : Src) (r : Rd256) : Nat × Rd256 :=
  let mask := (r.mask <<< 1) % 2 ^ 32
  let r1 : Rd256 :=
    if mask = 256 then { sp := r.sp + 1, buffer := rd src r.sp, mask := 1 }
    else { sp := r.sp, buffer := r.buffer, mask := mask }
  (if r1.buffer &&& r1.mask ≠ 0 then 1 else 0, r1)

/-- `for (i = i0; i < i0 + n; i++) { READ_256BIT; acc += bits << i; }` on a `byte`
accumulator. -/
def readBits256 (src : Src) : Nat → Nat → Nat → Rd256 → Nat × Rd256
  | 0, _, acc, r => (acc, r)
  | n + 1, i, acc, r =>
    let b := READ_256BIT src r
    readBits256 src n (i + 1) ((acc + (b.1 <<< i)) % 256) b.2

/-- Case 1 of `unkDecode9`, for `n` more pixels: each pixel reads its own 4-bit colour. -/
def unkDecode9.lits (g : Gdi) (src : Src) (height : Int) (run : Nat) :
    Nat → Rd256 → Cur → Out → Option (Rd256 × Cur) × Out
  | 0, r, c, o => (some (r, c), o)
  | n + 1, r, c, o =>
    let col := readBits256 src 4 0 0 r
    let v := (run * 16 + col.1) % 256
    let o1 := o.store c.dst v v
    match NEXT_ROW g height c with
    | none => (none, o1)
    | some c1 => unkDecode9.lits g src height run n col.2 c1 o1

/-- The loop `for (;;) { ... }` of `unkDecode9`. -/
def unkDecode9.loop (g : Gdi) (src : Src) (height : Int) :
    Nat → Rd256 → Nat → Cur → Out → Option (Out × Nat)
  | 0, _, _, _, _ => none
  | fuel + 1, r, run, c, o =>
    let cc := readBits256 src 4 0 0 r
    if cc.1 >>> 2 = 0 then
      let col := readBits256 src 4 0 0 cc.2
      let v := (run * 16 + col.1) % 256
      match putRun g height v ((cc.1 &&& 3) + 2) c o with
      | (none, o1) => some (o1, col.2.sp)
      | (some c1, o1) => unkDecode9.loop g src height fuel col.2 run c1 o1
    else if cc.1 >>> 2 = 1 then
      match unkDecode9.lits g src height run ((cc.1 &&& 3) + 1) cc.2 c o with
      | (none, o1) => some (o1, cc.2.sp)
      | (some (r1, c1), o1) => unkDecode9.loop g src height fuel r1 run c1 o1
    else if cc.1 >>> 2 = 2 then
      let rn := readBits256 src 4 0 0 cc.2
      unkDecode9.loop g src height fuel rn.2 rn.1 c o
    else unkDecode9.loop g src height fuel cc.2 run c o

/-- `Gdi::unkDecode9(dst, src, height)`. -/
def unkDecode9 (g : Gdi) (fuel : Nat) (m : Mem) (dst : Int) (src : Src) (sp : Nat)
    (height : Nat) : Option (Out × Nat) :=
  unkDecode9.loop g src height fuel { sp := sp, buffer := 0, mask := 128 } 0
    { dst := dst, h := height, x := 8 } { mem := m, log := [] }

/-- The loop `for (;;) { ... }` of `unkDecode10`; `pal` is `local_palette`. -/
def unkDecode10.loop (g : Gdi) (src : Src) (height : Int) (numcolors : Nat) (pal : Nat → Nat) :
    Nat → Nat → Cur → Out → Option (Out × Nat)
  | 0, _, _, _ => none
  | fuel + 1, sp, c, o =>
    let color := rd src sp
    if color < numcolors then
      let o1 := o.store c.dst (pal color) (pal color)
      match NEXT_ROW g height c with
      | none => some (o1, sp + 1)
      | some c1 => unkDecode10.loop g src height numcolors pal fuel (sp + 1) c1 o1
    else
      let run := color - numcolors + 1
      let color1 := rd src (sp + 1)
      match putRun g height color1 run c o with
      | (none, o1) => some (o1, sp + 2)
      | (some c1, o1) => unkDecode10.loop g src height numcolors pal fuel (sp + 2) c1 o1

/-- `Gdi::unkDecode10(dst, src, height)`.  The loop that fills `local_palette` leaves
`local_palette[i] = src[1 + i]` for `i < numcolors`; the entries above are never read. -/
def unkDecode10 (g : Gdi) (fuel : Nat) (m : Mem) (dst : Int) (src : Src) (sp : Nat)
    (height : Nat) : Option (Out × Nat) :=
  let numcolors := rd src sp
  unkDecode10.loop g src height numcolors (fun i => rd src (sp + 1 + i)) fuel
    (sp + 1 + numcolors) { dst := dst, h := height, x := 8 } { mem := m, log := [] }

/-- The variables of `unkDecode11` that live across pixels (`inc` is an `unsigned char`). -/
structure St11 where
  rd : Rd256
  color : Nat
  inc : Nat

/-- `for (i = 0; i < 3; i++) { READ_256BIT if (!bits) break; }`: the final `i`. -/
def unkDecode11.ones (src : Src) (r : Rd256) : Nat × Rd256 :=
  let b1 := READ_256BIT src r
  if b1.1 = 0 then (0, b1.2)
  else
    let b2 := READ_256BIT src b1.2
    if b2.1 = 0 then (1, b2.2)
    else
      let b3 := READ_256BIT src b2.2
      if b3.1 = 0 then (2, b3.2) else (3, b3.2)

/-- The control bits read after a pixel in `unkDecode11`, with the `switch (i)`. -/
def unkDecode11.ctl (src : Src) (s : St11) : St11 :=
  let i := unkDecode11.ones src s.rd
  if i.1 = 1 then
    let inc := subByte 0 s.inc
    { rd := i.2, color := subByte s.color inc, inc := inc }
  else if i.1 = 2 then { rd := i.2, color := subByte s.color s.inc, inc := s.inc }
  else if i.1 = 3 then
    let col := readBits256 src 8 0 0 i.2
    { rd := col.2, color := col.1, inc := 1 }
  else { s with rd := i.2 }

/-- The inner loop `do { ... } while (--h)` of `unkDecode11`. -/
def unkDecode11.col (g : Gdi) (src : Src) : Nat → St11 → Int → Out → St11 × Int × Out
  | 0, s, dst, o => (s, dst, o)
  | h + 1, s, dst, o =>
    let o1 := o.store dst s.color s.color
    unkDecode11.col g src h (unkDecode11.ctl src s) (dst + g.screenWidth) o1

/-- The outer loop `do { ...; dst -= _vertStripNextInc; } while (--x)` of `unkDecode11`. -/
def unkDecode11.cols (g : Gdi) (src : Src) (height : Nat) : Nat → St11 → Int → Out → St11 × Out
  | 0, s, _, o => (s, o)
  | x + 1, s, dst, o =>
    let r := unkDecode11.col g src height s dst o
    unkDecode11.cols g src height x r.1 (r.2.1 - g.vertStripNextInc) r.2.2

/-- `Gdi::unkDecode11(dst, src, height)`, for `height ≥ 1`. -/
def unkDecode11 (g : Gdi) (m : Mem) (dst : Int) (src : Src) (sp : Nat) (height : Nat) :
    St11 × Out :=
  let r : Rd256 := { sp := sp + 1, buffer := 0, mask := 128 }
  unkDecode11.cols g src height 8 { rd := r, color := rd src sp, inc := 1 } dst
    { mem := m, log := [] }

/-! ### `decodeStripEGA` -/

/-- The variables `x` and `y` of `decodeStripEGA` and the destination memory. -/
structure EgaSt where
  x : Int
  y : Int
  mem : Mem

/-- The step `y++; if (y >= height) { y = 0; x++; }` that ends every pass of the three run
loops of `decodeStripEGA`. -/
def decodeStripEGA.advance (height : Int) (s : EgaSt) : EgaSt :=
  let y := s.y + 1
  if y ≥ height then { s with y := 0, x := s.x + 1 } else { s with y := y }

/-- The loop `for (z = 0; z < run; z++) { *(dst + y * W + x) = colors[z & 1]; ... }`, from
`z` on for `n` more passes. -/
def decodeStripEGA.dither (g : Gdi) (dst : Int) (height : Int) (c0 c1 : Nat) :
    Nat → Nat → EgaSt → EgaSt
  | 0, _, s => s
  | n + 1, z, s =>
    let v := if z &&& 1 = 0 then c0 else c1
    let m1 := poke s.mem (dst + s.y * g.screenWidth + s.x) v
    decodeStripEGA.dither g dst height c0 c1 n (z + 1)
      (decodeStripEGA.advance height { s with mem := m1 })

/-- The loop `for (z = 0; z < run; z++) { *(dst + y * W + x) = *(dst + y * W + x - 1); ... }`,
for `n` more passes. -/
def decodeStripEGA.repeatLeft (g : Gdi) (dst : Int) (height : Int) : Nat → EgaSt → EgaSt
  | 0, s => s
  | n + 1, s =>
    let p := dst + s.y * g.screenWidth + s.x
    let m1 := poke s.mem p (s.mem (p - 1))
    decodeStripEGA.repeatLeft g dst height n (decodeStripEGA.advance height { s with mem := m1 })

/-- The loop `for (z = 0; z < run; z++) { *(dst + y * W + x) = color & 0xf; ... }`, for `n`
more passes. -/
def decodeStripEGA.fill (g : Gdi) (dst : Int) (height : Int) (v : Nat) : Nat → EgaSt → EgaSt
  | 0, s => s
  | n + 1, s =>
    let m1 := poke s.mem (dst + s.y * g.screenWidth + s.x) v
    decodeStripEGA.fill g dst height v n (decodeStripEGA.advance height { s with mem := m1 })

/-- The loop `while (x < 8) { ... }` of `decodeStripEGA`. -/
def decodeStripEGA.loop (g : Gdi) (dst : Int) (src : Src) (height : Int) :
    Nat → Nat → EgaSt → Option (EgaSt × Nat)
  | 0, _, _ => none
  | fuel + 1, sp, s =>
    if s.x < 8 then
      let color := rd src sp
      if color &&& 0x80 ≠ 0 then
        let run := color &&& 0x3f
        if color &&& 0x40 ≠ 0 then
          let color1 := rd src (sp + 1)
          let run1 := if run = 0 then rd src (sp + 2) else run
          let sp1 := if run = 0 then sp + 3 else sp + 2
          decodeStripEGA.loop g dst src height fuel sp1
            (decodeStripEGA.dither g dst height (color1 >>> 4) (color1 &&& 0xf) run1 0 s)
        else
          let run1 := if run = 0 then rd src (sp + 1) else run
          let sp1 := if run = 0 then sp + 2 else sp + 1
          decodeStripEGA.loop g dst src height fuel sp1
            (decodeStripEGA.repeatLeft g dst height run1 s)
      else
        let run := color >>> 4
        let run1 := if run = 0 then rd src (sp + 1) else run
        let sp1 := if run = 0 then sp + 2 else sp + 1
        decodeStripEGA.loop g dst src height fuel sp1
          (decodeStripEGA.fill g dst height (color &&& 0xf) run1 s)
    else some (s, sp)

/-- `Gdi::decodeStripEGA(dst, src, height)`: the memory afterwards and the final source
position, or `none` when out of fuel. -/
def decodeStripEGA (g : Gdi) (fuel : Nat) (m : Mem) (dst : Int) (src : Src) (sp : Nat)
    (height : Nat) : Option (Mem × Nat) :=
  match decodeStripEGA.loop g dst src height fuel sp { x := 0, y := 0, mem := m } with
  | none => none
  | some r => some (r.1.mem, r.2)

/-! ### `decompressBitmap` -/

/-- How a call of `decompressBitmap` ends. -/
inductive Outcome where
  /-- Normal return: the value of `useOrDecompress`, the `Gdi` fields as the call left them
  and the decoder's output. -/
  | returned (useOrDecompress : Bool) (g : Gdi) (out : Out)
  /-- `error("Gdi::decompressBitmap: default case %d", code)`. -/
  | fatal (code : Nat)
  /-- `assert(numLinesToProcess)` failed. -/
  | assertFailed
  /-- The selected decoder did not return within the fuel. -/
  | outOfFuel

/-- A decoder result turned into the outcome of `decompressBitmap`. -/
def Outcome.ofOption (useOrDecompress : Bool) (g : Gdi) : Option Out → Outcome
  | none => Outcome.outOfFuel
  | some o => Outcome.returned useOrDecompress g o

/-- The format codes the `switch` of `decompressBitmap` has a `case` for. -/
def knownCodes : List Nat :=
  [1, 2, 3, 4, 7, 14, 15, 16, 17, 18, 24, 25, 26, 27, 28, 34, 35, 36, 37, 38, 44, 45, 46, 47,
    48, 64, 65, 66, 67, 68, 84, 85, 86, 87, 88, 104, 105, 106, 107, 108, 124, 125, 126, 127,
    128]

/-- The assignments to `_palette_mod`, `_decomp_shr` and `_decomp_mask` at the head of
`decompressBitmap`.  `0xFF >> (8 - _decomp_shr)` is computed with a shift count of 0 when
`_decomp_shr > 8` (in C the count is negative there; no accepted code has such a shift). -/
def decompressBitmap.setup (g : Gdi) (code : Nat) : Gdi :=
  let shr := code % 10
  let g1 : Gdi := { g with palette_mod := if g.featAmiga then 16 else 0, decomp_shr := shr }
  { g1 with decomp_mask := 0xFF >>> (8 - shr) }

/-- `Gdi::decompressBitmap(bgbak_ptr, smap_ptr, numLinesToProcess)`. -/
def decompressBitmap (g : Gdi) (fuel : Nat) (m : Mem) (bgbak_ptr : Int) (smap : Src)
    (smap_ptr : Nat) (numLinesToProcess : Nat) : Outcome :=
  if numLinesToProcess = 0 then Outcome.assertFailed
  else
    let code := rd smap smap_ptr
    let sp := smap_ptr + 1
    let g2 := decompressBitmap.setup g code
    let h := numLinesToProcess
    if code = 1 then
      Outcome.ofOption false g2 ((unkDecode7 g2 fuel m bgbak_ptr smap sp h).map Prod.fst)
    else if code = 2 then
      Outcome.ofOption false g2 ((unkDecode8 g2 fuel m bgbak_ptr smap sp h).map Prod.fst)
    else if code = 3 then
      Outcome.ofOption false g2 ((unkDecode9 g2 fuel m bgbak_ptr smap sp h).map Prod.fst)
    else if code = 4 then
      Outcome.ofOption false g2 ((unkDecode10 g2 fuel m bgbak_ptr smap sp h).map Prod.fst)
    else if code = 7 then
      Outcome.returned false g2 (unkDecode11 g2 m bgbak_ptr smap sp h).2
    else if 14 ≤ code ∧ code ≤ 18 then
      Outcome.returned false g2 (unkDecodeC g2 m bgbak_ptr smap sp h).2
    else if 24 ≤ code ∧ code ≤ 28 then
      Outcome.returned false g2 (unkDecodeB g2 m bgbak_ptr smap sp h).2
    else if 34 ≤ code ∧ code ≤ 38 then
      Outcome.returned true g2 (unkDecodeC_trans g2 m bgbak_ptr smap sp h).2
    else if 44 ≤ code ∧ code ≤ 48 then
      Outcome.returned true g2 (unkDecodeB_trans g2 m bgbak_ptr smap sp h).2
    else if (64 ≤ code ∧ code ≤ 68) ∨ (104 ≤ code ∧ code ≤ 108) then
      Outcome.ofOption false g2 ((unkDecodeA g2 fuel m bgbak_ptr smap sp h).map ASt.out)
    else if (84 ≤ code ∧ code ≤ 88) ∨ (124 ≤ code ∧ code ≤ 128) then
      Outcome.ofOption true g2 ((unkDecodeA_trans g2 fuel m bgbak_ptr smap sp h).map ASt.out)
    else Outcome.fatal code

/-! ## Notions used to state and prove the decoder properties -/

/-- The memory that results from a trace: a pixel of colour `c` is written with `v` when
`pol c = some v` and left alone when `pol c = none`. -/
def replay (pol : Nat → Option Nat) : Mem → List (Int × Nat) → Mem
  | m, [] => m
  | m, (a, c) :: l =>
    replay pol (match pol c with
      | some v => poke m a v
      | none => m) l

/-- The output `o` is what `k` pixel visits, at the addresses `addr 0`, ..., `addr (k - 1)` in
this order, make of the memory `m0`. -/
def Visited (pol : Nat → Option Nat) (m0 : Mem) (addr : Nat → Int) (k : Nat) (o : Out) : Prop :=
  o.mem = replay pol m0 o.log ∧ o.log.map Prod.fst = (List.range k).map addr

/-- The address of the `k`-th pixel of a strip of height `H` taken column by column. -/
def colAddr (g : Gdi) (base : Int) (H : Nat) (k : Nat) : Int :=
  base + ((k % H : Nat) : Int) * g.screenWidth + ((k / H : Nat) : Int)

/-- The address of the `k`-th pixel of a strip taken row by row. -/
def rowAddr (g : Gdi) (base : Int) (k : Nat) : Int :=
  base + ((k / 8 : Nat) : Int) * g.screenWidth + ((k % 8 : Nat) : Int)

/-- The `NEXT_ROW` variables stand at the `k`-th pixel (column by column) of the strip. -/
def CurAt (g : Gdi) (base : Int) (H : Nat) (k : Nat) (c : Cur) : Prop :=
  c.dst = colAddr g base H k ∧ c.h = (H : Int) - ((k % H : Nat) : Int) ∧
    c.x = 8 - ((k / H : Nat) : Int)

/-- Every colour is written as it is (the decoders `unkDecode7` to `unkDecode11`). -/
def polPlain : Nat → Option Nat := fun c => some c

/-- Every colour is written with `_palette_mod` added (`unkDecodeA`/`B`/`C`). -/
def polBase (g : Gdi) : Nat → Option Nat := fun c => some ((c + g.palette_mod) % 256)

/-- As `polBase`, but the transparent colour is not written (the `_trans` decoders). -/
def polTrans (g : Gdi) : Nat → Option Nat :=
  fun c => if c ≠ g.transparentColor then some ((c + g.palette_mod) % 256) else none

/-- The pixel positions `(row, column)` of a strip of height `h`. -/
def stripPositions (h : Nat) : List (Nat × Nat) := List.product (List.range h) (List.range 8)

/-- The address of the pixel at `(row, column)` of the strip that starts at `dst`. -/
def pixelAddr (g : Gdi) (dst : Int) (p : Nat × Nat) : Int :=
  dst + (p.1 : Int) * g.screenWidth + (p.2 : Int)

/-- `unkDecodeA` at the top of its inner loop body with `k` pixels done. -/
def ACleanAt (g : Gdi) (pol : Nat → Option Nat) (m0 : Mem) (base : Int) (H : Nat) (k : Nat)
    (s : ASt) : Prop :=
  k < 8 * H ∧ s.dst = rowAddr g base k ∧ s.x = 8 - ((k % 8 : Nat) : Int) ∧
    s.height = (H : Int) - ((k / 8 : Nat) : Int) ∧ Visited pol m0 (rowAddr g base) k s.out

/-- `unkDecodeA` just after pixel `j` has been visited, before `x` is decremented for it. -/
def ADirtyAt (g : Gdi) (pol : Nat → Option Nat) (m0 : Mem) (base : Int) (H : Nat) (j : Nat)
    (s : ASt) : Prop :=
  j < 8 * H ∧ s.dst = rowAddr g base j + 1 ∧ s.x = 8 - ((j % 8 : Nat) : Int) ∧
    s.height = (H : Int) - ((j / 8 : Nat) : Int) ∧ Visited pol m0 (rowAddr g base) (j + 1) s.out

/-- The strip positions in the order of a column-by-column pass. -/
def colPositions (h : Nat) : List (Nat × Nat) := (List.range (8 * h)).map (fun k => (k % h, k / h))

/-- The strip positions in the order of a row-by-row pass. -/
def rowPositions (h : Nat) : List (Nat × Nat) := (List.range (8 * h)).map (fun k => (k / 8, k % 8))

/-- The decoders `decompressBitmap` can dispatch to. -/
inductive Decoder where
  | d7 | d8 | d9 | d10 | d11 | dA | dB | dC | dA_trans | dB_trans | dC_trans

/-- The output of a decoder, `none` when it does not return within the fuel. -/
def Decoder.run (d : Decoder) (g : Gdi) (fuel : Nat) (m : Mem) (dst : Int) (src : Src) (sp : Nat)
    (height : Nat) : Option Out :=
  match d with
  | .d7 => (unkDecode7 g fuel m dst src sp height).map Prod.fst
  | .d8 => (unkDecode8 g fuel m dst src sp height).map Prod.fst
  | .d9 => (unkDecode9 g fuel m dst src sp height).map Prod.fst
  | .d10 => (unkDecode10 g fuel m dst src sp height).map Prod.fst
  | .d11 => some (unkDecode11 g m dst src sp height).2
  | .dA => (unkDecodeA g fuel m dst src sp height).map ASt.out
  | .dB => some (unkDecodeB g m dst src sp height).2
  | .dC => some (unkDecodeC g m dst src sp height).2
  | .dA_trans => (unkDecodeA_trans g fuel m dst src sp height).map ASt.out
  | .dB_trans => some (unkDecodeB_trans g m dst src sp height).2
  | .dC_trans => some (unkDecodeC_trans g m dst src sp height).2

/-- The output `oT` of a transparent decoder against the output `oB` of its base decoder on
the same input and initial memory `m`: at a pixel whose decoded colour is not the
transparent one the two agree, and at a pixel whose decoded colour is the transparent one
`oT` still holds what `m` held. -/
def TransOf (g : Gdi) (m : Mem) (oB oT : Out) : Prop :=
  ∀ (a : Int) (c : Nat), (a, c) ∈ oB.log →
    (c ≠ g.transparentColor → oT.mem a = oB.mem a) ∧
    (c = g.transparentColor → oT.mem a = m a)

/-- Whether a call of `decompressBitmap` returned normally. -/
def Outcome.isReturned : Outcome → Bool
  | .returned _ _ _ => true
  | _ => false

/-- Whether a call of `decompressBitmap` ended in its `error(...)`. -/
def Outcome.isFatal : Outcome → Bool
  | .fatal _ => true
  | _ => false

/-- The pixel a returned call of `decompressBitmap` left at address `a`. -/
def Outcome.pixel (r : Outcome) (a : Int) : Option Nat :=
  match r with
  | .returned _ _ o => some (o.mem a)
  | _ => none

/-! ## Concrete inputs -/

/-- A 320-pixel wide screen of 40 strips, set up for a strip of height 1; no feature bit set. -/
def demoGdi : Gdi :=
  { screenWidth := 320, numStrips := 40, vertStripNextInc := 319, transparentColor := 255,
    palette_mod := 0, decomp_shr := 0, decomp_mask := 0, featAmiga := false,
    featOld256 := false }

/-- `demoGdi` with `GF_OLD256` set, set up for a strip of height 2. -/
def demoGdiOld : Gdi :=
  { demoGdi with vertStripNextInc := 639, featOld256 := true }

/-- All-zero memory. -/
def zeroMem : Mem := fun _ => 0

/-- A stream that starts with the bytes of `l` and goes on with `fill`. -/
def streamOf (l : List Nat) (fill : Nat) : Src := fun i => l.getD i fill

/-- The counters `h` and `x` of `NEXT_ROW` stand at the `k`-th pixel of the strip. -/
def CurCnt (H : Nat) (k : Nat) (c : Cur) : Prop :=
  c.h = (H : Int) - ((k % H : Nat) : Int) ∧ c.x = 8 - ((k / H : Nat) : Int)

/-- A strip of format code 3 whose data is all `0xFF`: every 4-bit command read by
`unkDecode9` is 15, which selects no case of its `switch`. -/
def endlessCode3 : Src := fun i => if i = 0 then 3 else 255

/-- The states of the `READ_256BIT` reader that occur on `endlessCode3`. -/
def Endless9 (r : Rd256) : Prop :=
  1 ≤ r.sp ∧ (r.mask = 128 ∨ (r.mask = 8 ∧ r.buffer = 255))

/-- A mask stream: a run of two `0xAA` bytes, then runs of one `0x81` byte for ever. -/
def demoMask : Src := streamOf [0x82, 0xAA] 0x81

/-- A literal strip of height 1: format code 1 and eight bytes `0x05`. -/
def demoLiteral : Src := streamOf [1, 5, 5, 5, 5, 5, 5, 5, 5] 0

/-- A bit-packed strip (format code 28) with arbitrary data. -/
def demoPacked : Src := streamOf [28, 3, 0xFF, 0x01, 0x34, 0x56, 0x78] 0

/-- The colours in the trace are `col 0`, `col 1`, ... in this order. -/
def ColoursAre (col : Nat → Nat) (o : Out) : Prop :=
  o.log.map Prod.snd = (List.range o.log.length).map col

/-- A literal strip (format code 1) whose `k`-th payload byte is `k + 10`. -/
def demoRamp : Src := fun i => if i = 0 then 1 else i + 9

/-! ## Encoders for the round trip -/

/-- The part of the `Scumm` object (`_vm`) that the dirty tracker, the presenter and
`resetBackground` read. -/
structure Vm where
  /-- `_features & GF_AFTER_V6`. -/
  featAfterV6 : Bool
  /-- `_features & GF_AFTER_V7`. -/
  featAfterV7 : Bool
  /-- `camera._cur.y`. -/
  cameraCurY : Int
  /-- `camera._last.y`. -/
  cameraLastY : Int
  /-- `_screenHeight`. -/
  screenHeight : Int
  /-- `_screenTop`. -/
  screenTop : Int
  /-- `_screenStartStrip`. -/
  screenStartStrip : Int
  /-- `_roomHeight`. -/
  roomHeight : Int
  /-- `VAR(VAR_CURRENT_LIGHTS) & LIGHTMODE_screen`. -/
  lightsScreen : Bool
  /-- `_charset->_hasMask`. -/
  charsetHasMask : Bool
  /-- `gdi._mask_left`. -/
  mask_left : Int
  /-- `gdi._mask_top`. -/
  mask_top : Int
  /-- `gdi._mask_right`. -/
  mask_right : Int
  /-- `gdi._mask_bottom`. -/
  mask_bottom : Int

/-- `v << n` on an `int`. -/
def shl (v : Int) (n : Nat) : Int := v * 2 ^ n

/-- The loop of `Scumm::setDirtyRange`, from index `i` on. -/
def setDirtyRange.loop (numStrips top bottom : Int) : Nat → Int → VirtScreen → VirtScreen
  | 0, _, vs => vs
  | fuel + 1, i, vs =>
    if i < numStrips then
      let vs1 := { vs with tdirty := setAt vs.tdirty i top }
      let vs2 := { vs1 with bdirty := setAt vs1.bdirty i bottom }
      setDirtyRange.loop numStrips top bottom fuel (i + 1) vs2
    else vs

/-- `Scumm::setDirtyRange(slot, top, bottom)` on the screen `vs = virtscr[slot]`.  The loop
runs `_numStrips` times, which is the fuel. -/
def setDirtyRange (g : Gdi) (vs : VirtScreen) (top bottom : Int) : VirtScreen :=
  setDirtyRange.loop g.numStrips top bottom g.numStrips.toNat 0 vs

/-- `Scumm::initVirtScreen` on `vs = virtscr[slot]`, as far as the geometry and the dirty
arrays go (the pixel buffers it allocates are zero-filled and not part of `VirtScreen`; the
arguments `top`, `width`, `twobufs` and `scrollable` do not reach the dirty arrays).
`none`: one of the two `assert`s fails. -/
def initVirtScreen (vm : Vm) (g : Gdi) (vs : VirtScreen) (slot _top _width height : Int)
    (_twobufs _scrollable : Bool) : Option VirtScreen :=
  if ¬ (height ≥ 0) then none
  else if ¬ (slot ≥ 0 ∧ slot < 4) then none
  else
    let height := if vm.featAfterV7 ∧ slot = 0 ∧ vm.roomHeight ≠ 0 then vm.roomHeight else height
    let vs1 := { vs with width := g.screenWidth, height := height }
    if slot ≠ 3 then some (setDirtyRange g vs1 0 height) else some vs1

/-- The strips `lp, lp + 1, ..., rp` handed to `setGfxUsageBit` by the loop
`for (; lp <= rp; lp++)` of `Scumm::updateDirtyRect`. -/
def updateDirtyRect.usage (vm : Vm) (left right : Int) : List Int :=
  let lp := sar left 3 + vm.screenStartStrip
  let lp := if lp < 0 then 0 else lp
  let rp := sar right 3 + vm.screenStartStrip
  let rp := if vm.featAfterV7 then (if rp > 409 then 409 else rp)
    else (if rp ≥ 200 then 200 else rp)
  (List.range (rp + 1 - lp).toNat).map (fun k => lp + (k : Int))

/-- `Scumm::updateDirtyRect(virt, left, right, top, bottom, dirtybit)` on
`vs = virtscr[virt]` (built without `V7_SMOOTH_SCROLLING_HACK`).  The result is the screen
and the list of strips whose usage bit `dirtybit` was set. -/
def updateDirtyRect (vm : Vm) (g : Gdi) (vs : VirtScreen) (virt left right top bottom : Int)
    (dirtybit : Int) : VirtScreen × List Int :=
  if top > vs.height ∨ left > vs.width ∨ right < 0 ∨ bottom < 0 then (vs, [])
  else
    let top := if top < 0 then 0 else top
    let left := if left < 0 then 0 else left
    let bottom := if bottom > vs.height then vs.height else bottom
    let right := if right > vs.width then vs.width else right
    let bits := if virt = 0 ∧ dirtybit ≠ 0 then updateDirtyRect.usage vm left right else []
    (setVirtscreenDirty g vs left top right bottom, bits)

/-- The arguments `(x, w, t, b)` of one call of `Gdi::drawStripToScreen`. -/
structure StripRect where
  x : Int
  w : Int
  t : Int
  b : Int
deriving DecidableEq

/-- `Gdi::drawStripToScreen(vs, x, w, t, b)` for a screen whose `topline` is `topline`: the
arguments `(x, y, w, h)` of the `copy_rect` call it makes (`none` when it returns early),
and the value it leaves in `_screenTop`. -/
def drawStripToScreen (vm : Vm) (vs : VirtScreen) (topline : Int) (r : StripRect) :
    Option (Int × Int × Int × Int) × Int :=
  if r.b ≤ r.t then (none, vm.screenTop)
  else
    let t := if r.t > vs.height then 0 else r.t
    let b := if r.b > vs.height then vs.height else r.b
    let height := b - t
    let height := if height > vm.screenHeight then vm.screenHeight else height
    let screenTop := if vm.screenTop < 0 then 0 else vm.screenTop
    (some (r.x, topline + t, r.w, height), screenTop)

/-- The `for` loop of `Gdi::updateDirtyScreen` from strip `i` on, with the locals `start`
and `w`; `calls` collects the calls of `drawStripToScreen` in order. -/
def updateDirtyScreen.loop (vm : Vm) (g : Gdi) :
    Nat → Int → Int → Int → VirtScreen → List StripRect → VirtScreen × List StripRect
  | 0, _, _, _, vs, calls => (vs, calls)
  | fuel + 1, i, start, w, vs, calls =>
    if i < g.numStrips then
      let bottom := vs.bdirty i
      if bottom ≠ 0 then
        let top := vs.tdirty i
        let vs1 := { vs with tdirty := setAt vs.tdirty i vs.height }
        let vs2 := { vs1 with bdirty := setAt vs1.bdirty i 0 }
        if i ≠ g.numStrips - 1 ∧ vs2.bdirty (i + 1) = bottom ∧ vs2.tdirty (i + 1) = top then
          updateDirtyScreen.loop vm g fuel (i + 1) start (w + 8) vs2 calls
        else
          let call : StripRect :=
            if vm.featAfterV7 then ⟨start * 8, w, 0, vs2.height⟩ else ⟨start * 8, w, top, bottom⟩
          updateDirtyScreen.loop vm g fuel (i + 1) (i + 1) 8 vs2 (calls ++ [call])
      else
        updateDirtyScreen.loop vm g fuel (i + 1) (i + 1) w vs calls
    else (vs, calls)

/-- `Gdi::updateDirtyScreen(vs)`: the screen afterwards and the calls of
`drawStripToScreen` it made. -/
def updateDirtyScreen (vm : Vm) (g : Gdi) (vs : VirtScreen) : VirtScreen × List StripRect :=
  if vs.height = 0 then (vs, [])
  else if vm.featAfterV7 ∧ vm.cameraCurY ≠ vm.cameraLastY then
    (vs, [⟨0, shl g.numStrips 3, 0, vs.height⟩])
  else updateDirtyScreen.loop vm g g.numStrips.toNat 0 0 8 vs []

/-- `Scumm::hasCharsetMask(x, y, x2, y2)`. -/
def hasCharsetMask (vm : Vm) (x y x2 y2 : Int) : Bool :=
  if ¬ vm.charsetHasMask ∨ y > vm.mask_bottom ∨ x > vm.mask_right ∨ y2 < vm.mask_top
      ∨ x2 < vm.mask_left then false
  else true

/-- `memset(dst, 0, 8)`. -/
def zero8 (dst : Mem) (dp : Int) : Mem :=
  let d0 := poke dst dp 0
  let d1 := poke d0 (dp + 1) 0
  let d2 := poke d1 (dp + 2) 0
  let d3 := poke d2 (dp + 3) 0
  let d4 := poke d3 (dp + 4) 0
  let d5 := poke d4 (dp + 5) 0
  let d6 := poke d5 (dp + 6) 0
  poke d6 (dp + 7) 0

/-- `Gdi::clear8Col(dst, height)`. -/
def clear8Col (g : Gdi) (dst : Mem) (dp : Int) : Nat → Mem
  | 0 => dst
  | height + 1 => clear8Col g (zero8 dst dp) (dp + g.screenWidth) height

/-- The number of passes of a `do { ... } while (--height)` loop over a 32-bit `int`
entered with `height = n ≠ 0`: `n` itself when it is positive; a negative counter only
reaches zero after wrapping round. -/
def passes32 (n : Int) : Nat := (n % 2 ^ 32).toNat

/-- Virtual screen 0 with the three buffers `resetBackground` works on: the screen's own
pixels (`vs->screenPtr`), the background copy (buffer resource 5) and the mask buffer
(buffer resource 9).  Each buffer is addressed from its own start. -/
structure Screen0 where
  vs : VirtScreen
  screen : Mem
  bgbak : Mem
  mask : Mem

/-- `Gdi::resetBackground(top, bottom, strip)`. -/
def resetBackground (vm : Vm) (g : Gdi) (s : Screen0) (top bottom strip : Int) : Screen0 :=
  let vs := s.vs
  let vs1 := if top < vs.tdirty strip then { vs with tdirty := setAt vs.tdirty strip top } else vs
  let vs2 :=
    if bottom > vs1.bdirty strip then { vs1 with bdirty := setAt vs1.bdirty strip bottom } else vs1
  let offs := top * g.numStrips + vm.screenStartStrip + strip
  let mask_ptr := offs
  let bgbak_ptr := shl offs 3
  let backbuff_ptr := shl offs 3
  let numLinesToProcess := bottom - top
  if numLinesToProcess ≠ 0 then
    let n := passes32 numLinesToProcess
    if vm.featAfterV6 ∨ vm.lightsScreen then
      if hasCharsetMask vm (shl strip 3) top (shl (strip + 1) 3) bottom then
        let scr := draw8ColWithMasking g s.screen backbuff_ptr s.bgbak bgbak_ptr n s.mask mask_ptr
        { s with vs := vs2, screen := scr }
      else
        let scr := draw8Col g s.screen backbuff_ptr s.bgbak bgbak_ptr n
        { s with vs := vs2, screen := scr }
    else
      let scr := clear8Col g s.screen backbuff_ptr n
      { s with vs := vs2, screen := scr }
  else { s with vs := vs2 }

/-! ## Dirty-strip tracking: the properties stated about it -/

/-- The dirty-span invariant: every strip is clean (`bdirty = 0`) or has `tdirty ≤ bdirty`. -/
def DirtyInv (g : Gdi) (vs : VirtScreen) : Prop :=
  ∀ i : Int, 0 ≤ i → i < g.numStrips → vs.bdirty i = 0 ∨ vs.tdirty i ≤ vs.bdirty i

/-- Strip `i` lies in the column range of a `setVirtscreenDirty` request from `left` to
`right`. -/
def Covers (g : Gdi) (left right i : Int) : Prop :=
  max 0 (sar left 3) ≤ i ∧ i ≤ min (g.numStrips - 1) (sar right 3)

instance (g : Gdi) (left right i : Int) : Decidable (Covers g left right i) := by
  unfold Covers
  exact inferInstance

/-- The cleared tracker: every strip has `tdirty = height` and `bdirty = 0`. -/
def Cleared (g : Gdi) (vs : VirtScreen) : Prop :=
  ∀ i : Int, 0 ≤ i → i < g.numStrips → vs.tdirty i = vs.height ∧ vs.bdirty i = 0

/-- The pixel at column `col`, row `row` lies in the rectangle `r`. -/
def StripRect.Holds (r : StripRect) (col row : Int) : Prop :=
  r.x ≤ col ∧ col < r.x + r.w ∧ r.t ≤ row ∧ row < r.b

/-- A 200-line screen in the cleared state. -/
def cleanScreen : VirtScreen :=
  { width := 320, height := 200, tdirty := fun _ => 200, bdirty := fun _ => 0 }

/-- A pre-V7 engine with the lights on and no charset mask. -/
def demoVm : Vm :=
  { featAfterV6 := true, featAfterV7 := false, cameraCurY := 100, cameraLastY := 100,
    screenHeight := 200, screenTop := 0, screenStartStrip := 0, roomHeight := 200,
    lightsScreen := true, charsetHasMask := false, mask_left := 0, mask_top := 0,
    mask_right := 0, mask_bottom := 0 }

/-- A V7 engine whose camera has moved vertically since the last frame. -/
def demoVm7 : Vm :=
  { demoVm with featAfterV7 := true, cameraCurY := 120 }

/-- Virtual screen 0 in the cleared state, with all-zero buffers. -/
def demoScreen0 : Screen0 :=
  { vs := cleanScreen, screen := zeroMem, bgbak := zeroMem, mask := zeroMem }

/-- A 200-line screen whose strips 0, 1 and 2 are dirty with the span `[10, 20]`. -/
def demoDirty : VirtScreen :=
  { width := 320, height := 200, tdirty := fun i => if i < 3 then 10 else 200,
    bdirty := fun i => if i < 3 then 20 else 0 }

/-- The rectangle `r` is a run of whole dirty strips, none before strip `lo`, which all have
the span `[r.t, r.b)` in the arrays `T`, `B`. -/
def IsRun (g : Gdi) (T B : Int → Int) (lo : Int) (r : StripRect) : Prop :=
  ∃ s n : Int, lo ≤ s ∧ 0 < n ∧ s + n ≤ g.numStrips ∧ r.x = 8 * s ∧ r.w = 8 * n ∧
    ∀ j : Int, s ≤ j → j < s + n → B j ≠ 0 ∧ T j = r.t ∧ B j = r.b


/-! ## Colour cycling -/

/-- One entry of `_colorCycle`.  The `ColorCycle` struct is declared in `scumm.h`, outside
the sources at hand, so the widths of its fields are not fixed here: the routines below take
the modulus of the type of `counter` as a parameter, and `start` and `end` (`end_` here) are
natural numbers. -/
structure ColorCycle where
  delay : Int
  counter : Int
  flags : Nat
  start : Nat
  end_ : Nat

/-- The part of the `Scumm` object that `cyclePalette` works on.  Each palette buffer is
addressed from its own start; `palManipPaletteAddr` is the machine address held by the
pointer `_palManipPalette`. -/
structure PalState where
  colorCycle : Nat → ColorCycle
  currentPalette : Mem
  palDirtyMin : Int
  palDirtyMax : Int
  palManipCounter : Int
  palManipPaletteAddr : Int
  palManipPalette : Mem
  palManipIntermediatePal : Mem

/-- `memmove(dst + dp, src + sp, n)`: the `n` bytes are read before any of them is
written, so the two ranges may overlap. -/
def memmove (dst : Mem) (dp : Int) (src : Mem) (sp : Int) (n : Nat) : Mem :=
  fun a => if dp ≤ a ∧ a < dp + n then src (a - dp + sp) else dst a

/-- The conversion of an `int` length to the `size_t` parameter of `memmove` (32 bits). -/
def toSize (v : Int) : Nat := (v % 2 ^ 32).toNat

/-- The three `memmove`s that `cyclePalette` (entries of `k = 3` bytes) and
`moveMemInPalRes` (`k = 3` and `k = 6`) apply to a table: through the local buffer `tmp`,
either the entry at `end` goes to `start` and the entries before it move up by one
(`direction` zero), or the entry at `start` goes to `end` and the entries after it move
down by one. -/
def rotateEntries (m : Mem) (k : Nat) (start end_ : Nat) (direction : Nat) : Mem :=
  let startptr : Int := (start : Int) * k
  let endptr : Int := (end_ : Int) * k
  let num : Int := (end_ : Int) - start
  if direction = 0 then
    let tmp := memmove zeroMem 0 m endptr k
    let m1 := memmove m (startptr + k) m startptr (toSize (num * k))
    memmove m1 startptr tmp 0 k
  else
    let tmp := memmove zeroMem 0 m startptr k
    let m1 := memmove m startptr m (startptr + k) (toSize (num * k))
    memmove m1 endptr tmp 0 k

/-- `Scumm::setDirtyColors(min, max)`. -/
def setDirtyColors (st : PalState) (min max : Int) : PalState :=
  let st1 := if st.palDirtyMin > min then { st with palDirtyMin := min } else st
  if st1.palDirtyMax < max then { st1 with palDirtyMax := max } else st1

/-- `Scumm::moveMemInPalRes(start, end, direction)`. -/
def moveMemInPalRes (st : PalState) (start end_ : Nat) (direction : Nat) : PalState :=
  if st.palManipCounter = 0 then st
  else if st.palManipPaletteAddr + (end_ : Int) * 3 = 0 then st
  else
    let p1 := rotateEntries st.palManipPalette 3 start end_ direction
    let p2 := rotateEntries st.palManipIntermediatePal 6 start end_ direction
    { st with palManipPalette := p1, palManipIntermediatePal := p2 }

/-- The loop `do { counter -= delay; } while (delay <= counter);` of `cyclePalette`, for a
counter whose type has `M` values (`M = 0`: no wrapping).  `none`: out of fuel. -/
def cyclePalette.reduce (M : Nat) (delay : Int) : Nat → Int → Option Int
  | 0, _ => none
  | fuel + 1, counter =>
    let c := (counter - delay) % (M : Int)
    if delay ≤ c then cyclePalette.reduce M delay fuel c else some c

/-- `_colorCycle[i] = c`. -/
def setCycle (st : PalState) (i : Nat) (c : ColorCycle) : PalState :=
  { st with colorCycle := fun j => if j = i then c else st.colorCycle j }

/-- The body of the `for` loop of `Scumm::cyclePalette` for the cycle `_colorCycle[i]`.
The subtraction loop is given the counter itself as fuel: every pass lowers the counter by
`delay`, so that is enough whenever `delay` is positive. -/
def cyclePalette.cycle (M : Nat) (valueToAdd : Int) (i : Nat) (st : PalState) :
    Option PalState :=
  let cycl := st.colorCycle i
  if cycl.delay ≠ 0 then
    let counter := (cycl.counter + valueToAdd) % (M : Int)
    if counter ≥ cycl.delay then
      match cyclePalette.reduce M cycl.delay counter.toNat counter with
      | none => none
      | some c =>
        let st1 := setCycle st i { cycl with counter := c }
        let st2 := setDirtyColors st1 cycl.start cycl.end_
        let st3 := moveMemInPalRes st2 cycl.start cycl.end_ (cycl.flags &&& 2)
        let pal := rotateEntries st3.currentPalette 3 cycl.start cycl.end_ (cycl.flags &&& 2)
        some { st3 with currentPalette := pal }
    else some (setCycle st i { cycl with counter := counter })
  else some st

/-- The `for` loop of `Scumm::cyclePalette`: `n` cycles from `_colorCycle[i]` on. -/
def cyclePalette.loop (M : Nat) (valueToAdd : Int) : Nat → Nat → PalState → Option PalState
  | 0, _, st => some st
  | n + 1, i, st =>
    match cyclePalette.cycle M valueToAdd i st with
    | none => none
    | some st1 => cyclePalette.loop M valueToAdd n (i + 1) st1

/-- The time `cyclePalette` adds to the counters, from the script variables `vars`. -/
def cyclePalette.valueToAdd (VAR_TIMER VAR_TIMER_NEXT : Nat) (vars : Nat → Int) : Int :=
  if VAR_TIMER = 0xFF then vars VAR_TIMER_NEXT
  else
    let valueToAdd := vars VAR_TIMER
    if valueToAdd < vars VAR_TIMER_NEXT then vars VAR_TIMER_NEXT else valueToAdd

/-- `Scumm::cyclePalette()`.  `_colorCycle` is an array of 16 entries (`initCycl` takes its
`sizeof`), so the test `!_colorCycle` never holds. -/
def cyclePalette (M : Nat) (VAR_TIMER VAR_TIMER_NEXT : Nat) (vars : Nat → Int)
    (st : PalState) : Option PalState :=
  cyclePalette.loop M (cyclePalette.valueToAdd VAR_TIMER VAR_TIMER_NEXT vars) 16 0 st

/-! ## Colour cycling: the properties stated about it -/

/-- The cycle `c` triggers in a call of `cyclePalette` that adds `v`. -/
def Triggers (M : Nat) (v : Int) (c : ColorCycle) : Prop :=
  c.delay ≠ 0 ∧ (c.counter + v) % (M : Int) ≥ c.delay

instance (M : Nat) (v : Int) (c : ColorCycle) : Decidable (Triggers M v c) := by
  unfold Triggers
  exact inferInstance

/-- Consecutive calls of `cyclePalette`, one for each snapshot of the script variables. -/
def cyclePaletteCalls (M : Nat) (VAR_TIMER VAR_TIMER_NEXT : Nat) :
    List (Nat → Int) → PalState → Option PalState
  | [], st => some st
  | vars :: rest, st =>
    match cyclePalette M VAR_TIMER VAR_TIMER_NEXT vars st with
    | none => none
    | some st1 => cyclePaletteCalls M VAR_TIMER VAR_TIMER_NEXT rest st1

/-- Every call of the sequence returns and triggers the cycle `_colorCycle[i]`. -/
def AllTrigger (M : Nat) (VAR_TIMER VAR_TIMER_NEXT : Nat) (i : Nat) :
    List (Nat → Int) → PalState → Prop
  | [], _ => True
  | vars :: rest, st =>
    Triggers M (cyclePalette.valueToAdd VAR_TIMER VAR_TIMER_NEXT vars) (st.colorCycle i) ∧
      match cyclePalette M VAR_TIMER VAR_TIMER_NEXT vars st with
      | none => False
      | some st1 => AllTrigger M VAR_TIMER VAR_TIMER_NEXT i rest st1

/-- The cycle `c` leaves the palette entries `s .. e` alone: it is stopped, or it is a
well-formed cycle over a range that does not meet `s .. e`. -/
def LeavesAlone (s e : Nat) (c : ColorCycle) : Prop :=
  c.delay = 0 ∨ (0 < c.delay ∧ c.start ≤ c.end_ ∧ c.end_ < 256 ∧ (c.end_ < s ∨ e < c.start))

/-- A stopped cycle. -/
def idleCycle : ColorCycle := { delay := 0, counter := 0, flags := 0, start := 0, end_ := 0 }

/-- A palette whose byte at offset `a` is `a` (for `a ≥ 0`). -/
def rampPalette : Mem := fun a => a.toNat

/-- One active cycle over the entries 1 .. 3 with delay 10, moving entries up (`flags = 0`);
the other fifteen are stopped. -/
def demoPal : PalState :=
  { colorCycle := fun j =>
      if j = 0 then { delay := 10, counter := 0, flags := 0, start := 1, end_ := 3 }
      else idleCycle,
    currentPalette := rampPalette, palDirtyMin := 256, palDirtyMax := 0 - 1,
    palManipCounter := 0, palManipPaletteAddr := 0, palManipPalette := zeroMem,
    palManipIntermediatePal := zeroMem }

/-- Script variables whose timer (variable 0) and next timer (variable 1) are both `v`. -/
def timerVars (v : Int) : Nat → Int := fun _ => v

/-- The bytes of the `L`-byte block of `m1` that starts at entry `s` are those of `m`, moved
up by `c` bytes round the block. -/
def Shifted (s L c : Nat) (m m1 : Mem) : Prop :=
  ∀ d : Nat, d < L → m1 (3 * (s : Int) + (d : Int)) = m (3 * (s : Int) + (((d + c) % L : Nat) : Int))

/-- The two cycles differ at most in their counters. -/
def SameStatic (c c1 : ColorCycle) : Prop :=
  c1.delay = c.delay ∧ c1.flags = c.flags ∧ c1.start = c.start ∧ c1.end_ = c.end_

/-- The number of bytes by which one triggering of a cycle over a block of `L` bytes moves
the block up: one entry for `flags & 2 = 0`, all but one entry (one entry down) otherwise. -/
def cycleShift (flags L : Nat) : Nat := if flags &&& 2 = 0 then L - 3 else 3

/-! ## Palette entries: nearest colour, direct load, entry operations -/

/-- `colorWeight(red, green, blue)`: the sum is formed in `int` and returned as `uint`. -/
def colorWeight (red green blue : Int) : Nat :=
  ((3 * red * red + 6 * green * green + 2 * blue * blue) % 2 ^ 32).toNat

/-- `v & ~3` on a two's complement `int`: the low two bits are cleared. -/
def andNot3 (v : Int) : Int := v - v % 4

/-- A `byte` stored from the `int` value `v`. -/
def toByte (v : Int) : Nat := (v % 256).toNat

/-- A `uint` read as an `int` (32 bits, two's complement). -/
def uintToInt (t : Nat) : Int := if t % 2 ^ 32 < 2 ^ 31 then (t % 2 ^ 32 : Nat) else (t % 2 ^ 32 : Nat) - 2 ^ 32

/-- `Scumm::setPalColor(idx, r, g, b)`. -/
def setPalColor (st : PalState) (idx r g b : Int) : PalState :=
  let p0 := poke st.currentPalette (idx * 3 + 0) (toByte r)
  let p1 := poke p0 (idx * 3 + 1) (toByte g)
  let p2 := poke p1 (idx * 3 + 2) (toByte b)
  setDirtyColors { st with currentPalette := p2 } idx idx

/-- The first loop of `Scumm::remapPaletteColor`, from entry `i` on, for the quantised
request `(r, g, b)`: the index of an exact match if the loop returns from inside, and the
values of `bestsum` and `bestitem`. -/
def remapPaletteColor.search (pal : Mem) (r g b : Int) :
    Nat → Nat → Nat → Nat → Option Nat × Nat × Nat
  | 0, _, bestsum, bestitem => (none, bestsum, bestitem)
  | n + 1, i, bestsum, bestitem =>
    let ar := andNot3 (pal (3 * (i : Int)) % 256 : Nat)
    let ag := andNot3 (pal (3 * (i : Int) + 1) % 256 : Nat)
    let ab := andNot3 (pal (3 * (i : Int) + 2) % 256 : Nat)
    if ar = r ∧ ag = g ∧ ab = b then (some i, bestsum, bestitem)
    else
      let sum := colorWeight (ar - r) (ag - g) (ab - b)
      if sum < bestsum then remapPaletteColor.search pal r g b n (i + 1) sum i
      else remapPaletteColor.search pal r g b n (i + 1) bestsum bestitem

/-- The second loop of `Scumm::remapPaletteColor`, `n` entries downwards from entry `i`:
the first entry met whose three channels are all at least 252. -/
def remapPaletteColor.spare (pal : Mem) : Nat → Int → Option Int
  | 0, _ => none
  | n + 1, i =>
    if pal (3 * i) % 256 ≥ 252 ∧ pal (3 * i + 1) % 256 ≥ 252 ∧ pal (3 * i + 2) % 256 ≥ 252 then
      some i
    else remapPaletteColor.spare pal n (i - 1)

/-- `Scumm::remapPaletteColor(r, g, b, threshold)`: the index returned and the state
afterwards.  `threshold` is a `uint`; `(uint) -1` is `2 ^ 32 - 1`. -/
def remapPaletteColor (st : PalState) (r g b : Int) (threshold : Nat) : Int × PalState :=
  let r := if r > 255 then 255 else r
  let g := if g > 255 then 255 else g
  let b := if b > 255 then 255 else b
  let r := andNot3 r
  let g := andNot3 g
  let b := andNot3 b
  match remapPaletteColor.search st.currentPalette r g b 256 0 (2 ^ 32 - 1) 0 with
  | (some i, _, _) => ((i : Int), st)
  | (none, bestsum, bestitem) =>
    if threshold ≠ 2 ^ 32 - 1 ∧
        bestsum > colorWeight (uintToInt threshold) (uintToInt threshold) (uintToInt threshold) then
      match remapPaletteColor.spare st.currentPalette 206 254 with
      | some i => (i, setPalColor st i r g b)
      | none => ((bestitem : Int), st)
    else ((bestitem : Int), st)

/-- `(uint) a >= 256` for an `int` `a`. -/
def uintGe256 (a : Int) : Prop := a % 2 ^ 32 ≥ 256

instance (a : Int) : Decidable (uintGe256 a) := by
  unfold uintGe256
  exact inferInstance

/-- `Scumm::swapPalColors(a, b)`; `none`: `error(...)`. -/
def swapPalColors (st : PalState) (a b : Int) : Option PalState :=
  if uintGe256 a ∨ uintGe256 b then none
  else
    let pal := st.currentPalette
    let t := pal (a * 3 + 0)
    let pal := poke pal (a * 3 + 0) (pal (b * 3 + 0))
    let pal := poke pal (b * 3 + 0) t
    let t := pal (a * 3 + 1)
    let pal := poke pal (a * 3 + 1) (pal (b * 3 + 1))
    let pal := poke pal (b * 3 + 1) t
    let t := pal (a * 3 + 2)
    let pal := poke pal (a * 3 + 2) (pal (b * 3 + 2))
    let pal := poke pal (b * 3 + 2) t
    some (setDirtyColors (setDirtyColors { st with currentPalette := pal } a a) b b)

/-- `Scumm::copyPalColor(dst, src)`; `none`: `error(...)`. -/
def copyPalColor (st : PalState) (dst src : Int) : Option PalState :=
  if uintGe256 dst ∨ uintGe256 src then none
  else
    let pal := st.currentPalette
    let pal := poke pal (dst * 3 + 0) (pal (src * 3 + 0))
    let pal := poke pal (dst * 3 + 1) (pal (src * 3 + 1))
    let pal := poke pal (dst * 3 + 2) (pal (src * 3 + 2))
    some (setDirtyColors { st with currentPalette := pal } dst dst)

/-- The game and feature tests of `Scumm::setPaletteFromPtr`. -/
structure PalCfg where
  /-- `_features & GF_SMALL_HEADER`. -/
  featSmallHeader : Bool
  /-- `_features & GF_OLD256`. -/
  featOld256 : Bool
  /-- `_features & GF_AFTER_V7`. -/
  featAfterV7 : Bool
  /-- `_gameId == GID_MONKEY_VGA`. -/
  gameMonkeyVGA : Bool

/-- Modelled from the spec: `checkRange(max, min, no, str)` is defined outside the sources
at hand; it rejects (raises an error for) a value `no` that is not within `min .. max`.
`true`: the value is accepted. -/
def checkRange (max min no : Int) : Bool := decide (min ≤ no ∧ no ≤ max)

/-- The loop of `Scumm::setPaletteFromPtr`: `n` triples from index `i` on, read from
`src[sp ...]`. -/
def setPaletteFromPtr.loop (cfg : PalCfg) (src : Src) : Nat → Int → Nat → Mem → Mem
  | 0, _, _, pal => pal
  | n + 1, i, sp, pal =>
    let r := rd src sp
    let g := rd src (sp + 1)
    let b := rd src (sp + 2)
    if cfg.gameMonkeyVGA ∨ cfg.featAfterV7 ∨ (i ≤ 15 ∨ r < 252 ∨ g < 252 ∨ b < 252) then
      let p0 := poke pal (3 * i) r
      let p1 := poke p0 (3 * i + 1) g
      let p2 := poke p1 (3 * i + 2) b
      setPaletteFromPtr.loop cfg src n (i + 1) (sp + 3) p2
    else setPaletteFromPtr.loop cfg src n (i + 1) (sp + 3) pal

/-- The value of `numcolor` in `Scumm::setPaletteFromPtr(ptr)` for the resource at
`src[ptr ...]`.  `dataSize` is the value `getResourceDataSize(ptr)` returns (the function is
defined outside the sources at hand). -/
def setPaletteFromPtr.numcolor (cfg : PalCfg) (dataSize : Int) (src : Src) (ptr : Nat) : Int :=
  if cfg.featSmallHeader then
    if cfg.featOld256 then 256
    else Int.tdiv ((rd src (ptr + 6) + 256 * rd src (ptr + 7) : Nat) : Int) 3
  else Int.tdiv dataSize 3

/-- Where the colour triples start: `ptr += 8` for a small header. -/
def setPaletteFromPtr.data (cfg : PalCfg) (ptr : Nat) : Nat :=
  if cfg.featSmallHeader then ptr + 8 else ptr

/-- `Scumm::setPaletteFromPtr(ptr)`.  `none`: `checkRange` raises its error. -/
def setPaletteFromPtr (cfg : PalCfg) (dataSize : Int) (st : PalState) (src : Src) (ptr : Nat) :
    Option PalState :=
  let numcolor := setPaletteFromPtr.numcolor cfg dataSize src ptr
  let data := setPaletteFromPtr.data cfg ptr
  if checkRange 256 0 numcolor then
    let pal := setPaletteFromPtr.loop cfg src numcolor.toNat 0 data st.currentPalette
    some (setDirtyColors { st with currentPalette := pal } 0 (numcolor - 1))
  else none

/-! ## Palette fade: `palManipulateInit`, `palManipulate` -/

/-- The palette state together with the other members the fade works on. -/
structure PalManip extends PalState where
  /-- `_palManipStart`. -/
  palManipStart : Int
  /-- `_palManipEnd`. -/
  palManipEnd : Int
  /-- The machine address held by the pointer `_palManipIntermediatePal`. -/
  palManipIntermediatePalAddr : Int

/-- `*(uint16 *)p` read from byte memory (the low byte first; reads and writes use the same
byte order, that of the host). -/
def rd16 (m : Mem) (p : Int) : Nat := m p % 256 + 256 * (m (p + 1) % 256)

/-- `*(uint16 *)p = v` on byte memory; `v` is reduced to 16 bits. -/
def wr16 (m : Mem) (p : Int) (v : Int) : Mem :=
  poke (poke m p ((v % 65536).toNat % 256)) (p + 1) ((v % 65536).toNat / 256)

/-- The loop of `Scumm::palManipulateInit`: `n` entries from entry `i` on.  `s1`, `s2`, `s3`
are the three strings, addressed from their own start (the loop reads `string[i]` because the
pointers were advanced by `start`). -/
def palManipulateInit.loop (s1 s2 s3 : Mem) (pal : Mem) : Nat → Int → Mem → Mem → Mem × Mem
  | 0, _, target, between => (target, between)
  | n + 1, i, target, between =>
    let t0 := poke target (3 * i) (s1 i % 256)
    let t1 := poke t0 (3 * i + 1) (s2 i % 256)
    let t2 := poke t1 (3 * i + 2) (s3 i % 256)
    let b0 := wr16 between (6 * i) (((pal (3 * i) % 256 : Nat) : Int) * 256)
    let b1 := wr16 b0 (6 * i + 2) (((pal (3 * i + 1) % 256 : Nat) : Int) * 256)
    let b2 := wr16 b1 (6 * i + 4) (((pal (3 * i + 2) % 256 : Nat) : Int) * 256)
    palManipulateInit.loop s1 s2 s3 pal n (i + 1) t2 b2

/-- `Scumm::palManipulateInit(start, end, string_id, time)`.  `string1`, `string2`, `string3`
are what `getStringAddress` returns for the three strings (`none`: a null pointer);
`calloc1` and `calloc2` are the addresses the two `calloc` calls return if they are made
(0: the allocation fails); `M` is the number of values of the type of `_palManipCounter`
(0: no wrapping).  `none`: a store through a null pointer. -/
def palManipulateInit (M : Nat) (calloc1 calloc2 : Int) (s : PalManip) (start end_ : Int)
    (string1 string2 string3 : Option Mem) (time : Int) : Option PalManip :=
  match string1, string2, string3 with
  | some s1, some s2, some s3 =>
    let addrP := if s.palManipPaletteAddr = 0 then calloc1 else s.palManipPaletteAddr
    let memP := if s.palManipPaletteAddr = 0 then zeroMem else s.palManipPalette
    let addrI :=
      if s.palManipIntermediatePalAddr = 0 then calloc2 else s.palManipIntermediatePalAddr
    let memI := if s.palManipIntermediatePalAddr = 0 then zeroMem else s.palManipIntermediatePal
    if end_ > start ∧ (addrP = 0 ∨ addrI = 0) then none
    else
      let tb := palManipulateInit.loop s1 s2 s3 s.currentPalette (end_ - start).toNat start memP memI
      some { s with palManipStart := start, palManipEnd := end_, palManipPaletteAddr := addrP,
                    palManipPalette := tb.1, palManipIntermediatePalAddr := addrI,
                    palManipIntermediatePal := tb.2, palManipCounter := time % (M : Int) }
  | _, _, _ => some s

/-- One channel of `Scumm::palManipulate`: the statement
`j = (*((uint16 *)between) += ((*target++ << 8) - *((uint16 *)between)) / _palManipCounter);`
followed by `*pal++ = j >> 8;`.  The division is that of C on `int`s. -/
def palManipulate.channel (counter : Int) (target : Mem) (tp : Int) (bp : Int) (pp : Int)
    (pal between : Mem) : Mem × Mem :=
  let cur : Int := (rd16 between bp : Nat)
  let j : Int := (cur + Int.tdiv (((target tp % 256 : Nat) : Int) * 256 - cur) counter) % 65536
  (poke pal pp (toByte (j / 256)), wr16 between bp j)

/-- The loop of `Scumm::palManipulate`: `n` entries from entry `i` on. -/
def palManipulate.loop (counter : Int) (target : Mem) : Nat → Int → Mem → Mem → Mem × Mem
  | 0, _, pal, between => (pal, between)
  | n + 1, i, pal, between =>
    let c0 := palManipulate.channel counter target (3 * i) (6 * i) (3 * i) pal between
    let c1 := palManipulate.channel counter target (3 * i + 1) (6 * i + 2) (3 * i + 1) c0.1 c0.2
    let c2 := palManipulate.channel counter target (3 * i + 2) (6 * i + 4) (3 * i + 2) c1.1 c1.2
    palManipulate.loop counter target n (i + 1) c2.1 c2.2

/-- `Scumm::palManipulate()`. -/
def palManipulate (M : Nat) (s : PalManip) : PalManip :=
  if s.palManipCounter = 0 ∨ s.palManipPaletteAddr = 0 ∨ s.palManipIntermediatePalAddr = 0 then s
  else
    let pb := palManipulate.loop s.palManipCounter s.palManipPalette
      (s.palManipEnd - s.palManipStart).toNat s.palManipStart s.currentPalette
      s.palManipIntermediatePal
    let st1 := setDirtyColors { s.toPalState with currentPalette := pb.1, palManipIntermediatePal := pb.2 } s.palManipStart s.palManipEnd
    { s with toPalState := { st1 with palManipCounter := (st1.palManipCounter - 1) % (M : Int) } }

/-! ## The camera -/

/-- A `ScummPoint`. -/
structure ScummPoint where
  x : Int
  y : Int
deriving DecidableEq

/-- The camera modes `CM_NORMAL`, `CM_FOLLOW_ACTOR` and `CM_PANNING` (the numeric values of
the constants are declared outside the sources at hand and are never used as numbers). -/
inductive CameraMode where
  | CM_NORMAL
  | CM_FOLLOW_ACTOR
  | CM_PANNING
deriving DecidableEq

/-- The `camera` member of `Scumm`. -/
structure Camera where
  cur : ScummPoint
  dest : ScummPoint
  accel : ScummPoint
  mode : CameraMode
  follows : Nat
  movingToActor : Bool
  leftTrigger : Int
  rightTrigger : Int

/-- The part of the `Scumm` object that the camera routines read and write.  A script
variable `VAR(VAR_X)` is the field `varX`; for the two variables whose index is tested against
`0xFF` the index is kept as well.  `scriptsRun` records the calls of `runScript` (what the
script then does is outside these routines). -/
structure CamState where
  camera : Camera
  featAfterV7 : Bool
  screenWidth : Int
  screenHeight : Int
  roomWidth : Int
  numStrips : Int
  screenStartStrip : Int
  screenEndStrip : Int
  screenTop : Int
  screenLeft : Int
  xstart : Int
  VAR_CAMERA_FAST_X : Nat
  VAR_SCROLL_SCRIPT : Nat
  varCameraMinX : Int
  varCameraMaxX : Int
  varCameraMinY : Int
  varCameraMaxY : Int
  varCameraThresholdX : Int
  varCameraThresholdY : Int
  varCameraSpeedX : Int
  varCameraSpeedY : Int
  varCameraAccelX : Int
  varCameraAccelY : Int
  varCameraDestX : Int
  varCameraDestY : Int
  varCameraPosX : Int
  varCameraPosY : Int
  varCameraFastX : Int
  varScrollScript : Int
  varCameraFollowedActor : Int
  scriptsRun : List Int

/-- `Scumm::clampCameraPos(pt)`. -/
def clampCameraPos (s : CamState) (pt : ScummPoint) : ScummPoint :=
  let x1 := if pt.x < s.varCameraMinX then s.varCameraMinX else pt.x
  let x2 := if x1 > s.varCameraMaxX then s.varCameraMaxX else x1
  let y1 := if pt.y < s.varCameraMinY then s.varCameraMinY else pt.y
  let y2 := if y1 > s.varCameraMaxY then s.varCameraMaxY else y1
  ⟨x2, y2⟩

/-- `Scumm::cameraMoved()` (built without `V7_SMOOTH_SCROLLING_HACK`).  `none`: the `assert`
of the V7 branch fails. -/
def cameraMoved (s : CamState) : Option CamState :=
  let half := Int.tdiv s.screenWidth 2
  if s.featAfterV7 ∧ ¬ (s.camera.cur.x ≥ half ∧ s.camera.cur.y ≥ Int.tdiv s.screenHeight 2) then
    none
  else
    let cx :=
      if s.featAfterV7 then s.camera.cur.x
      else if s.camera.cur.x < half then half
      else if s.camera.cur.x > s.roomWidth - half then s.roomWidth - half
      else s.camera.cur.x
    let cam : Camera := { s.camera with cur := ⟨cx, s.camera.cur.y⟩ }
    let screenStartStrip := sar (cx - half) 3
    let screenEndStrip := screenStartStrip + s.numStrips - 1
    let screenTop := cam.cur.y - Int.tdiv s.screenHeight 2
    let screenLeft := if s.featAfterV7 then cx - half else shl screenStartStrip 3
    some { s with camera := cam, screenStartStrip := screenStartStrip,
                  screenEndStrip := screenEndStrip, screenTop := screenTop,
                  screenLeft := screenLeft, xstart := shl screenStartStrip 3 }

/-- One axis of the V7 camera step: the two `if` statements that move `cur` towards `dest`
by `speed` and stop it at `dest`. -/
def moveCamera.step (cur dest speed : Int) : Int :=
  let c1 := if cur < dest then (if cur + speed > dest then dest else cur + speed) else cur
  if c1 > dest then (if c1 - speed < dest then dest else c1 - speed) else c1

/-- The V7 branch of `Scumm::moveCamera()`.  `actor n` is what `derefActorSafe(n, ...)`
returns: the position of actor `n`, or `none` for a null pointer.  `none`: a null actor is
dereferenced or an `assert` fails. -/
def moveCamera.v7 (actor : Nat → Option ScummPoint) (s : CamState) : Option CamState :=
  let old := s.camera.cur
  let a : Option ScummPoint := if s.camera.follows ≠ 0 then actor s.camera.follows else none
  if s.camera.follows ≠ 0 ∧ a = none then none
  else
    let ap : ScummPoint := a.getD ⟨0, 0⟩
    let cam1 : Camera :=
      if s.camera.follows ≠ 0 then
        if ((s.camera.cur.x - ap.x).natAbs : Int) > s.varCameraThresholdX ∨
            ((s.camera.cur.y - ap.y).natAbs : Int) > s.varCameraThresholdY then
          let cx := if s.varCameraThresholdX = 0 then ap.x else s.camera.cur.x
          let cy := if s.varCameraThresholdY = 0 then ap.y else s.camera.cur.y
          { s.camera with movingToActor := true, cur := clampCameraPos s ⟨cx, cy⟩ }
        else s.camera
      else { s.camera with movingToActor := false }
    let cam2 : Camera := if cam1.movingToActor then { cam1 with dest := ap } else cam1
    let destX := if cam1.movingToActor then ap.x else s.varCameraDestX
    let destY := if cam1.movingToActor then ap.y else s.varCameraDestY
    if ¬ (cam2.cur.x ≥ Int.tdiv s.screenWidth 2 ∧ cam2.cur.y ≥ Int.tdiv s.screenHeight 2) then
      none
    else
      let dest := clampCameraPos s cam2.dest
      let cx := moveCamera.step cam2.cur.x dest.x s.varCameraSpeedX
      let cy := moveCamera.step cam2.cur.y dest.y s.varCameraSpeedY
      let arrived : Bool := decide (cx = dest.x ∧ cy = dest.y)
      let accelX := if arrived then 0 else cam2.accel.x + s.varCameraAccelX
      let accelY := if arrived then 0 else cam2.accel.y + s.varCameraAccelY
      let speedX0 := s.varCameraSpeedX + Int.tdiv accelX 100
      let speedY0 := s.varCameraSpeedY + Int.tdiv accelY 100
      let speedX := if arrived then 0 else if speedX0 < 8 then 8 else speedX0
      let speedY := if arrived then 0 else if speedY0 < 8 then 8 else speedY0
      let moving := if arrived then false else cam2.movingToActor
      let cam3 : Camera :=
        { cam2 with dest := dest, cur := ⟨cx, cy⟩, accel := ⟨accelX, accelY⟩,
                    movingToActor := moving }
      let s1 : CamState :=
        { s with camera := cam3, varCameraDestX := destX, varCameraDestY := destY,
                 varCameraSpeedX := speedX, varCameraSpeedY := speedY }
      match cameraMoved s1 with
      | none => none
      | some s2 =>
        if s2.camera.cur.x ≠ old.x ∨ s2.camera.cur.y ≠ old.y then
          let s3 := { s2 with varCameraPosX := s2.camera.cur.x, varCameraPosY := s2.camera.cur.y }
          if s3.varScrollScript ≠ 0 then
            some { s3 with scriptsRun := s3.scriptsRun ++ [s3.varScrollScript] }
          else some s3
        else some s2

/-- `x & 0xFFF8` on a two's complement `int`. -/
def and0xFFF8 (x : Int) : Int := x % 65536 - x % 8

/-- `VAR_CAMERA_FAST_X != 0xFF && VAR(VAR_CAMERA_FAST_X)`. -/
def cameraFast (s : CamState) : Bool := decide (s.VAR_CAMERA_FAST_X ≠ 0xFF ∧ s.varCameraFastX ≠ 0)

/-- The pre-V7 branch of `Scumm::moveCamera()`. -/
def moveCamera.old (actor : Nat → Option ScummPoint) (s : CamState) : Option CamState :=
  let pos := s.camera.cur.x
  let cx0 := and0xFFF8 s.camera.cur.x
  if cx0 < s.varCameraMinX then
    let cx := if cameraFast s then s.varCameraMinX else cx0 + 8
    cameraMoved { s with camera := { s.camera with cur := ⟨cx, s.camera.cur.y⟩ } }
  else if cx0 > s.varCameraMaxX then
    let cx := if cameraFast s then s.varCameraMaxX else cx0 - 8
    cameraMoved { s with camera := { s.camera with cur := ⟨cx, s.camera.cur.y⟩ } }
  else
    let cam0 : Camera := { s.camera with cur := ⟨cx0, s.camera.cur.y⟩ }
    let follow : Bool := decide (cam0.mode = CameraMode.CM_FOLLOW_ACTOR)
    if follow ∧ actor cam0.follows = none then none
    else
      let ap : ScummPoint := (actor cam0.follows).getD ⟨0, 0⟩
      let t := sar ap.x 3 - s.screenStartStrip
      let cam1 : Camera :=
        if follow ∧ (t < cam0.leftTrigger ∨ t > cam0.rightTrigger) then
          if cameraFast s then
            let d1 := if t > 35 then ap.x + 80 else cam0.dest.x
            let d2 := if t < 5 then ap.x - 80 else d1
            { cam0 with dest := ⟨d2, cam0.dest.y⟩ }
          else { cam0 with movingToActor := true }
        else cam0
      if cam1.movingToActor ∧ actor cam1.follows = none then none
      else
        let ap2 : ScummPoint := (actor cam1.follows).getD ⟨0, 0⟩
        let d0 := if cam1.movingToActor then ap2.x else cam1.dest.x
        let d1 := if d0 < s.varCameraMinX then s.varCameraMinX else d0
        let d2 := if d1 > s.varCameraMaxX then s.varCameraMaxX else d1
        let c1 :=
          if cameraFast s then d2
          else
            let c := if cam1.cur.x < d2 then cam1.cur.x + 8 else cam1.cur.x
            if c > d2 then c - 8 else c
        let moving : Bool :=
          if cam1.movingToActor ∧ sar c1 3 = sar ap2.x 3 then false else cam1.movingToActor
        let cam2 : Camera :=
          { cam1 with dest := ⟨d2, cam1.dest.y⟩, cur := ⟨c1, cam1.cur.y⟩, movingToActor := moving }
        match cameraMoved { s with camera := cam2 } with
        | none => none
        | some s2 =>
          if s2.VAR_SCROLL_SCRIPT ≠ 0xFF ∧ s2.varScrollScript ≠ 0 ∧ pos ≠ s2.camera.cur.x then
            some { s2 with varCameraPosX := s2.camera.cur.x,
                           scriptsRun := s2.scriptsRun ++ [s2.varScrollScript] }
          else some s2

/-- `Scumm::moveCamera()`. -/
def moveCamera (actor : Nat → Option ScummPoint) (s : CamState) : Option CamState :=
  if s.featAfterV7 then moveCamera.v7 actor s else moveCamera.old actor s

/-- `Scumm::panCameraTo(x, y)`. -/
def panCameraTo (s : CamState) (x y : Int) : CamState :=
  if s.featAfterV7 then
    { s with camera := { s.camera with follows := 0, dest := ⟨x, y⟩ },
             varCameraFollowedActor := 0, varCameraDestX := x, varCameraDestY := y }
  else
    { s with camera := { s.camera with dest := ⟨x, s.camera.dest.y⟩,
                                       mode := CameraMode.CM_PANNING, movingToActor := false } }

/-! ## The dissolve transition -/

/-- The fields of `virtscr[0]` that `dissolveEffect` reads. -/
structure VsGeom where
  width : Int
  height : Int
  size : Int
  topline : Int
  xstart : Int

/-- A call made to the backend: `copy_rect(buf, pitch, x, y, w, h)`, with `buf` given as an
offset from `vs->screenPtr`, or `update_screen()`. -/
inductive Present where
  | copy_rect (buf pitch x y w h : Int)
  | update_screen
deriving DecidableEq

/-- How a call of `dissolveEffect` ends: it returns, having made the given backend calls; or
it divides by zero; or the model runs out of fuel. -/
inductive Dissolve where
  | returned (calls : List Present)
  | divisionByZero
  | outOfFuel
deriving DecidableEq

/-- `for (i = 0; i < vs->size; i++) offsets[i] = i;`: `n` passes from `i` on. -/
def dissolveEffect.identity : Nat → Int → (Int → Int) → (Int → Int)
  | 0, _, offsets => offsets
  | n + 1, i, offsets => dissolveEffect.identity n (i + 1) (setAt offsets i i)

/-- The inner loop `for (y = 0; y < vs->height; y += height) offsets[i++] = y * vs->width + x;`
from `y` on.  `none`: out of fuel. -/
def dissolveEffect.column (vs : VsGeom) (height x : Int) :
    Nat → Int → Int → (Int → Int) → Option (Int × (Int → Int))
  | 0, _, _, _ => none
  | fuel + 1, y, i, offsets =>
    if y < vs.height then
      dissolveEffect.column vs height x fuel (y + height) (i + 1)
        (setAt offsets i (y * vs.width + x))
    else some (i, offsets)

/-- The outer loop `for (i = 0, x = 0; x < vs->width; x += width)` from `x` on.  `none`: out
of fuel. -/
def dissolveEffect.grid (vs : VsGeom) (width height : Int) (inner : Nat) :
    Nat → Int → Int → (Int → Int) → Option (Int → Int)
  | 0, _, _, _ => none
  | fuel + 1, x, i, offsets =>
    if x < vs.width then
      match dissolveEffect.column vs height x inner 0 i offsets with
      | none => none
      | some r => dissolveEffect.grid vs width height inner fuel (x + width) r.1 r.2
    else some offsets

/-- The shuffling loop `for (i = 1; i < w * h; i++)`, `n` passes from `i` on: `j` is a random
number in `0 .. i - 1` (the `k`-th value of the generator, reduced), `offsets[i] = offsets[j]`
and `offsets[j] = fresh i`, where `fresh i` is `i` in the pixel-by-pixel case and
`offsets2[i]` otherwise. -/
def dissolveEffect.shuffle (rnd : Nat → Nat) (fresh : Int → Int) :
    Nat → Int → Nat → (Int → Int) → (Int → Int)
  | 0, _, _, offsets => offsets
  | n + 1, i, k, offsets =>
    let j : Int := ((rnd k % i.toNat : Nat) : Int)
    let o1 := setAt offsets i (offsets j)
    let o2 := setAt o1 j (fresh i)
    dissolveEffect.shuffle rnd fresh n (i + 1) (k + 1) o2

/-- The blitting loop `for (i = 0; i < w * h; i++)`, `n` passes from `i` on, with the counter
`blits`; the result is the final value of `blits` and the backend calls made, or `none` for
a division by zero (`vs->width` is zero). -/
def dissolveEffect.blit (vs : VsGeom) (width height blits_before_refresh : Int)
    (offsets : Int → Int) : Nat → Int → Int → List Present → Option (Int × List Present)
  | 0, _, blits, calls => some (blits, calls)
  | n + 1, i, blits, calls =>
    if vs.width = 0 then none
    else
      let x := Int.tmod (offsets i) vs.width
      let y := Int.tdiv (offsets i) vs.width
      let calls1 := calls ++
        [Present.copy_rect (vs.xstart + y * vs.width + x) vs.width x (y + vs.topline) width height]
      if blits + 1 ≥ blits_before_refresh then
        dissolveEffect.blit vs width height blits_before_refresh offsets n (i + 1) 0
          (calls1 ++ [Present.update_screen])
      else
        dissolveEffect.blit vs width height blits_before_refresh offsets n (i + 1) (blits + 1)
          calls1

/-- `Scumm::dissolveEffect(width, height)` on `vs = virtscr[0]`.  `loom` is
`_gameId == GID_LOOM256`; `malloc1` and `malloc2` tell whether the two `malloc` calls
succeed; `garbage` is the content of freshly allocated memory; `rnd k` is the `k`-th value
of the random number generator; `fuel` bounds the passes of the two grid loops.  The calls
of `waitForTimer` are not recorded. -/
def dissolveEffect (vs : VsGeom) (loom malloc1 malloc2 : Bool) (garbage : Int → Int)
    (rnd : Nat → Nat) (fuel : Nat) (width height : Int) : Dissolve :=
  if width = 0 then Dissolve.divisionByZero
  else if height = 0 then Dissolve.divisionByZero
  else
    let w := Int.tdiv vs.width width
    let h := Int.tdiv vs.height height
    let w := if Int.tmod vs.width width ≠ 0 then w + 1 else w
    let h := if Int.tmod vs.height height ≠ 0 then h + 1 else h
    if ¬ malloc1 then Dissolve.returned []
    else
      let shuffled : Option (Option (Int → Int)) :=
        if width = 1 ∧ height = 1 then
          let o := dissolveEffect.identity vs.size.toNat 0 garbage
          some (some (dissolveEffect.shuffle rnd (fun i => i) (w * h - 1).toNat 1 0 o))
        else
          match dissolveEffect.grid vs width height fuel fuel 0 0 garbage with
          | none => none
          | some o =>
            if ¬ malloc2 then some none
            else
              let offsets2 : Int → Int := fun i => if 0 ≤ i ∧ i < w * h then o i else garbage i
              some (some (dissolveEffect.shuffle rnd offsets2 (w * h - 1).toNat 1 0 o))
      match shuffled with
      | none => Dissolve.outOfFuel
      | some none => Dissolve.returned []
      | some (some offsets) =>
        let bbr := Int.tdiv (3 * w * h) 25
        let blits_before_refresh := if loom then bbr * 4 else bbr
        match dissolveEffect.blit vs width height blits_before_refresh offsets (w * h).toNat 0 0
            [] with
        | none => Dissolve.divisionByZero
        | some r => if r.1 ≠ 0 then Dissolve.returned (r.2 ++ [Present.update_screen])
                    else Dissolve.returned r.2

/-! ## Palette entries, fade and camera: values used in the statements -/

/-- A palette whose 256 entries are all `(252, 252, 252)`. -/
def whitePalette : Mem := fun _ => 252

/-- `demoPal` with the all-`(252, 252, 252)` palette. -/
def demoPalWhite : PalState := { demoPal with currentPalette := whitePalette }

/-- A pre-V7 engine, 320 pixels wide in a room of 640, the camera at the right edge
(`cur.x = 480 = VAR_CAMERA_MAX_X`) in follow-actor mode behind actor 3, with a destination
left over at `x = 200`; no fast mode, no scroll script. -/
def demoCamOld : CamState :=
  { camera :=
      { cur := ⟨480, 100⟩, dest := ⟨200, 50⟩, accel := ⟨0, 0⟩, mode := CameraMode.CM_FOLLOW_ACTOR,
        follows := 3, movingToActor := false, leftTrigger := 10, rightTrigger := 30 },
    featAfterV7 := false, screenWidth := 320, screenHeight := 200, roomWidth := 640,
    numStrips := 40, screenStartStrip := 40, screenEndStrip := 79, screenTop := 0,
    screenLeft := 320, xstart := 320, VAR_CAMERA_FAST_X := 0xFF, VAR_SCROLL_SCRIPT := 0xFF,
    varCameraMinX := 160, varCameraMaxX := 480, varCameraMinY := 100, varCameraMaxY := 100,
    varCameraThresholdX := 0, varCameraThresholdY := 0, varCameraSpeedX := 0,
    varCameraSpeedY := 0, varCameraAccelX := 0, varCameraAccelY := 0, varCameraDestX := 0,
    varCameraDestY := 0, varCameraPosX := 0, varCameraPosY := 0, varCameraFastX := 0,
    varScrollScript := 0, varCameraFollowedActor := 0, scriptsRun := [] }

/-- Actor 3 stands at `(500, 100)`; there is no other actor. -/
def demoActors : Nat → Option ScummPoint := fun n => if n = 3 then some ⟨500, 100⟩ else none

/-- `demoCamOld` panning (no actor followed) from the strip-aligned `x = 176` to the
destination `x = 170`. -/
def demoCamPan : CamState :=
  { demoCamOld with
    camera := { demoCamOld.camera with cur := ⟨176, 100⟩, dest := ⟨170, 50⟩,
                                       mode := CameraMode.CM_PANNING } }

/-- A V7 engine, 200 pixels wide and high: the camera at `(100, 100)` panning to
`(200, 100)` with speed 8, no acceleration, no actor followed, camera bounds
`100 ≤ x ≤ 540`, `y = 100`. -/
def demoCam7 : CamState :=
  { demoCamOld with
    camera :=
      { cur := ⟨100, 100⟩, dest := ⟨200, 100⟩, accel := ⟨0, 0⟩, mode := CameraMode.CM_NORMAL,
        follows := 0, movingToActor := false, leftTrigger := 10, rightTrigger := 30 },
    featAfterV7 := true, screenWidth := 200, screenHeight := 200, varCameraMinX := 100,
    varCameraMaxX := 540, varCameraSpeedX := 8, varCameraSpeedY := 8 }

/-- `k` consecutive calls of `moveCamera`. -/
def moveCameraTicks (actor : Nat → Option ScummPoint) : Nat → CamState → Option CamState
  | 0, s => some s
  | k + 1, s =>
    match moveCamera actor s with
    | none => none
    | some s1 => moveCameraTicks actor k s1

/-- `k` consecutive calls of `palManipulate`. -/
def palManipulateCalls (M : Nat) : Nat → PalManip → PalManip
  | 0, s => s
  | k + 1, s => palManipulateCalls M k (palManipulate M s)

/-- The channel `c` of the palette entry `i` with its low two bits cleared, as
`remapPaletteColor` compares it. -/
def quantPal (pal : Mem) (i : Nat) (c : Nat) : Int :=
  andNot3 ((pal (3 * (i : Int) + (c : Int)) % 256 : Nat) : Int)

/-- A requested channel as `remapPaletteColor` compares it: clamped to 255, low two bits
cleared. -/
def quantReq (v : Int) : Int := andNot3 (if v > 255 then 255 else v)

/-- The weighted squared distance `3 dr² + 6 dg² + 2 db²` between the quantised request
`(r, g, b)` and the quantised palette entry `i`. -/
def remapDist (pal : Mem) (r g b : Int) (i : Nat) : Int :=
  3 * (quantPal pal i 0 - r) * (quantPal pal i 0 - r)
    + 6 * (quantPal pal i 1 - g) * (quantPal pal i 1 - g)
    + 2 * (quantPal pal i 2 - b) * (quantPal pal i 2 - b)

/-- The palette slot `i` is spare: all three of its channels are at least 252. -/
def SpareSlot (pal : Mem) (i : Int) : Prop :=
  pal (3 * i) % 256 ≥ 252 ∧ pal (3 * i + 1) % 256 ≥ 252 ∧ pal (3 * i + 2) % 256 ≥ 252

instance (pal : Mem) (i : Int) : Decidable (SpareSlot pal i) := by
  unfold SpareSlot
  exact inferInstance

/-- The triple `i` of a palette resource is skipped by `setPaletteFromPtr`: the game is
neither Monkey Island VGA nor V7, `i > 15`, and all three channels are at least 252. -/
def SkipsTriple (cfg : PalCfg) (i : Int) (r g b : Nat) : Prop :=
  ¬ (cfg.gameMonkeyVGA ∨ cfg.featAfterV7 ∨ (i ≤ 15 ∨ r < 252 ∨ g < 252 ∨ b < 252))

instance (cfg : PalCfg) (i : Int) (r g b : Nat) : Decidable (SkipsTriple cfg i r g b) := by
  unfold SkipsTriple
  exact inferInstance

/-- A 16-pixel by 8-line screen. -/
def demoGeom : VsGeom := { width := 16, height := 8, size := 128, topline := 0, xstart := 0 }

/-- A fade state built on `demoPal`, with both work buffers allocated. -/
def demoManip : PalManip :=
  { toPalState := { demoPal with palManipPaletteAddr := 4096 },
    palManipStart := 0, palManipEnd := 0, palManipIntermediatePalAddr := 8192 }

/-- A pre-V7 game that is not Monkey Island VGA, with large resource headers. -/
def demoPalCfg : PalCfg :=
  { featSmallHeader := false, featOld256 := false, featAfterV7 := false, gameMonkeyVGA := false }

/-- A palette resource whose triple 17 is `(255, 255, 255)`; all its other bytes are 7. -/
def demoPalRes : Src := fun i => if i / 3 = 17 then 255 else 7

/-- The palette entry `j` matches the quantised request exactly. -/
def ExactAt (pal : Mem) (r g b : Int) (j : Nat) : Prop :=
  quantPal pal j 0 = r ∧ quantPal pal j 1 = g ∧ quantPal pal j 2 = b

/-- The sum `remapPaletteColor` computes for the palette entry `j`. -/
def sumAt (pal : Mem) (r g b : Int) (j : Nat) : Nat :=
  colorWeight (quantPal pal j 0 - r) (quantPal pal j 1 - g) (quantPal pal j 2 - b)

/-- The index of the nearest palette entry: the first entry of least weighted distance. -/
def IsNearest (pal : Mem) (r g b : Int) (i : Nat) : Prop :=
  i < 256 ∧ (∀ j, j < 256 → remapDist pal r g b i ≤ remapDist pal r g b j) ∧
    ∀ j, j < i → remapDist pal r g b i < remapDist pal r g b j

/-- The members that no camera routine writes are the same in both states. -/
def CamStatic (s s1 : CamState) : Prop :=
  s1.featAfterV7 = s.featAfterV7 ∧ s1.screenWidth = s.screenWidth ∧
  s1.screenHeight = s.screenHeight ∧ s1.roomWidth = s.roomWidth ∧
  s1.VAR_CAMERA_FAST_X = s.VAR_CAMERA_FAST_X ∧ s1.VAR_SCROLL_SCRIPT = s.VAR_SCROLL_SCRIPT ∧
  s1.varCameraMinX = s.varCameraMinX ∧ s1.varCameraMaxX = s.varCameraMaxX ∧
  s1.varCameraMinY = s.varCameraMinY ∧ s1.varCameraMaxY = s.varCameraMaxY ∧
  s1.varCameraAccelX = s.varCameraAccelX ∧ s1.varCameraAccelY = s.varCameraAccelY ∧
  s1.varCameraFastX = s.varCameraFastX ∧ s1.varScrollScript = s.varScrollScript

/-- The state of the pan from `x = 100` to `x = 200` with speed 8 after `j` ticks. -/
def PanInv (j : Nat) (s : CamState) : Prop :=
  s.featAfterV7 = true ∧ s.camera.follows = 0 ∧ s.varCameraAccelX = 0 ∧
  s.varCameraMinX ≤ 100 ∧ 200 ≤ s.varCameraMaxX ∧ Int.tdiv s.screenWidth 2 ≤ 100 ∧
  s.camera.dest.x = 200 ∧
  ((j ≤ 12 ∧ s.camera.cur.x = 100 + 8 * (j : Int) ∧ s.varCameraSpeedX = 8 ∧
      s.camera.accel.x = 0) ∨
    (13 ≤ j ∧ s.camera.cur.x = 200))

/-- The vertical assertions of the V7 camera hold and keep holding. -/
def PanSafeY (s : CamState) : Prop :=
  0 ≤ s.varCameraSpeedY ∧ Int.tdiv s.screenHeight 2 ≤ s.camera.cur.y ∧
  Int.tdiv s.screenHeight 2 ≤ (clampCameraPos s s.camera.dest).y

/-- The fade of the entries 1 and 2 of `demoManip` to `(200, 100, 0)` in 4 ticks, as
`palManipulateInit` sets it up. -/
def demoFade : PalManip :=
  (palManipulateInit 65536 4096 8192 demoManip 1 3 (some (fun _ => 200)) (some (fun _ => 100))
    (some (fun _ => 0)) 4).getD demoManip

/-- `demoCamPan` with the strip-aligned destination `x = 168`. -/
def demoCamPan8 : CamState :=
  { demoCamPan with camera := { demoCamPan.camera with dest := ⟨168, 50⟩ } }

/-- `demoCamOld` with the destination at the edge, `x = 480`. -/
def demoCamEdge : CamState :=
  { demoCamOld with camera := { demoCamOld.camera with dest := ⟨480, 50⟩ } }

/-! ## Shadow palettes and brightness scaling -/

/-- A value brought into the range of a 32-bit `int` (two's complement wrap-around). -/
def toInt32 (v : Int) : Int := (v + 2 ^ 31) % 2 ^ 32 - 2 ^ 31

/-- The loop `for (i = 0; i < 256; i++) table[i] = i;` of `Scumm::setupShadowPalette`, `n`
passes from `i` on; `table` is `_shadowPalette + slot * 256`. -/
def setupShadowPalette.identity (slot : Int) : Nat → Int → Mem → Mem
  | 0, _, shadow => shadow
  | n + 1, i, shadow =>
    setupShadowPalette.identity slot n (i + 1) (poke shadow (slot * 256 + i) (toByte i))

/-- The loop `for (i = startColor; i <= endColor; i++)` of `Scumm::setupShadowPalette`, `n`
passes from `i` on. -/
def setupShadowPalette.loop (slot redScale greenScale blueScale : Int) :
    Nat → Int → PalState → Mem → PalState × Mem
  | 0, _, st, shadow => (st, shadow)
  | n + 1, i, st, shadow =>
    let c0 : Int := (st.currentPalette (3 * i) % 256 : Nat)
    let c1 : Int := (st.currentPalette (3 * i + 1) % 256 : Nat)
    let c2 : Int := (st.currentPalette (3 * i + 2) % 256 : Nat)
    let r := remapPaletteColor st (sar (toInt32 (c0 * redScale)) 8)
      (sar (toInt32 (c1 * greenScale)) 8) (sar (toInt32 (c2 * blueScale)) 8) (2 ^ 32 - 1)
    setupShadowPalette.loop slot redScale greenScale blueScale n (i + 1) r.2
      (poke shadow (slot * 256 + i) (toByte r.1))

/-- `Scumm::setupShadowPalette(slot, redScale, greenScale, blueScale, startColor, endColor)`:
the state and the bytes of `_shadowPalette` afterwards.  `none`: one of the two `error(...)`
calls. -/
def setupShadowPalette (st : PalState) (shadow : Mem)
    (slot redScale greenScale blueScale startColor endColor : Int) : Option (PalState × Mem) :=
  if slot < 0 ∨ slot > 7 then none
  else if startColor < 0 ∨ startColor > 255 ∨ endColor < 0 ∨ startColor > 255 ∨
      endColor < startColor then none
  else
    let table := setupShadowPalette.identity slot 256 0 shadow
    some (setupShadowPalette.loop slot redScale greenScale blueScale
      (endColor + 1 - startColor).toNat startColor st table)

/-- One channel of `Scumm::darkenPalette`:
`color = *cptr++; color = color * scale / 0xFF; if (color > 255) color = 255; *cur++ = color;`
for the base byte `base`.  The product is formed in `int`. -/
def darkenPalette.channel (base : Nat) (scale : Int) : Nat :=
  let color : Int := (base % 256 : Nat)
  let color := Int.tdiv (toInt32 (color * scale)) 255
  let color := if color > 255 then 255 else color
  toByte color

/-- The loop `for (j = startColor; j <= endColor; j++)` of `Scumm::darkenPalette`, `n` passes
from `j` on; `base` is the room palette `getPalettePtr()` points to. -/
def darkenPalette.loop (redScale greenScale blueScale : Int) (base : Mem) :
    Nat → Int → Mem → Mem
  | 0, _, cur => cur
  | n + 1, j, cur =>
    let c0 := poke cur (3 * j) (darkenPalette.channel (base (3 * j)) redScale)
    let c1 := poke c0 (3 * j + 1) (darkenPalette.channel (base (3 * j + 1)) greenScale)
    let c2 := poke c1 (3 * j + 2) (darkenPalette.channel (base (3 * j + 2)) blueScale)
    darkenPalette.loop redScale greenScale blueScale base n (j + 1) c2

/-- `Scumm::darkenPalette(redScale, greenScale, blueScale, startColor, endColor)`.
`roomResource` is `_roomResource`; `palettePtr` is what `getPalettePtr()` gives: the bytes
of the room's palette, addressed from the pointer it returns, or `none` when one of its
`assert`s fails.  `none`: that assertion failure. -/
def darkenPalette (roomResource : Int) (palettePtr : Option Mem) (st : PalState)
    (redScale greenScale blueScale startColor endColor : Int) : Option PalState :=
  if roomResource = 0 then some st
  else if startColor ≤ endColor then
    match palettePtr with
    | none => none
    | some base =>
      let cur := darkenPalette.loop redScale greenScale blueScale base
        (endColor + 1 - startColor).toNat startColor st.currentPalette
      some (setDirtyColors { st with currentPalette := cur } startColor endColor)
  else some st

/-! ## The table-driven transitions -/

/-- One entry of the table `transitionEffects`. -/
structure TransitionEffect where
  numOfIterations : Nat
  /-- Four times `l / t / r / b`. -/
  deltaTable : List Int
  /-- Four times `l / t / r / b`. -/
  stripTable : List Nat

/-- The table `transitionEffects[4]`: the iris and the three box wipes. -/
def transitionEffects : List TransitionEffect :=
  [ { numOfIterations := 13,
      deltaTable := [1, 1, -1, 1, -1, 1, -1, -1, 1, -1, -1, -1, 1, 1, 1, -1],
      stripTable := [0, 0, 39, 0, 39, 0, 39, 24, 0, 24, 39, 24, 0, 0, 0, 24] },
    { numOfIterations := 25,
      deltaTable := [0, 1, 2, 1, 2, 0, 2, 1, 2, 0, 2, 1, 0, 0, 0, 0],
      stripTable := [0, 0, 0, 0, 0, 0, 0, 0, 1, 0, 1, 0, 255, 0, 0, 0] },
    { numOfIterations := 25,
      deltaTable := [-2, -1, 0, -1, -2, -1, -2, 0, -2, -1, -2, 0, 0, 0, 0, 0],
      stripTable := [39, 24, 39, 24, 39, 24, 39, 24, 38, 24, 38, 24, 255, 0, 0, 0] },
    { numOfIterations := 25,
      deltaTable := [0, -1, -2, -1, -2, 0, -2, -1, -2, 0, -2, -1, 0, 0, 0, 0],
      stripTable := [0, 24, 39, 24, 39, 0, 39, 24, 38, 0, 38, 24, 255, 0, 0, 0] } ]

/-- What a call of `transitionEffect` has done so far: `virtscr[0]`, the writes
`tdirty[l] = top; bdirty[l] = bottom` it has made (as triples `(l, top, bottom)`), the calls
of `drawStripToScreen` made by `updateDirtyScreen(0)`, and the number of calls of
`update_screen`. -/
structure TransSt where
  vs : VirtScreen
  writes : List (Int × Int × Int)
  calls : List StripRect
  updates : Nat

/-- `virtscr[0].tdirty[l] = top; virtscr[0].bdirty[l] = bottom;`. -/
def transitionEffect.mark (s : TransSt) (l top bottom : Int) : TransSt :=
  let vs1 := { s.vs with tdirty := setAt s.vs.tdirty l top }
  let vs2 := { vs1 with bdirty := setAt vs1.bdirty l bottom }
  { s with vs := vs2, writes := s.writes ++ [(l, top, bottom)] }

/-- `updateDirtyScreen(0)`. -/
def transitionEffect.present (vm : Vm) (g : Gdi) (s : TransSt) : TransSt :=
  let r := updateDirtyScreen vm g s.vs
  { s with vs := r.1, calls := s.calls ++ r.2 }

/-- The loop `while (l <= r) { if (l >= 0 && l < gdi._numStrips && (uint) t < (uint) bottom)
{ ... } l++; }`, from `l` on. -/
def transitionEffect.row (g : Gdi) (t bottom r : Int) : Nat → Int → TransSt → TransSt
  | 0, _, s => s
  | fuel + 1, l, s =>
    if l ≤ r then
      let s1 :=
        if l ≥ 0 ∧ l < g.numStrips ∧ t % 2 ^ 32 < bottom % 2 ^ 32 then
          transitionEffect.mark s l (shl t 3) (shl (t + 1) 3)
        else s
      transitionEffect.row g t bottom r fuel (l + 1) s1
    else s

/-- The body of the loop `for (i = 0; i < 4; i++)` for the quadrant `i`.  The `while` loop
makes `r + 1 - l` passes, which is the fuel. -/
def transitionEffect.quadrant (vm : Vm) (g : Gdi) (bottom : Int) (tab_2 : Nat → Int) (i : Nat)
    (s : TransSt) : TransSt :=
  let l := tab_2 (i * 4)
  let t := tab_2 (i * 4 + 1)
  let r := tab_2 (i * 4 + 2)
  let b := tab_2 (i * 4 + 3)
  if t = b then
    transitionEffect.present vm g (transitionEffect.row g t bottom r (r + 1 - l).toNat l s)
  else if l < 0 ∨ l ≥ g.numStrips ∨ b ≤ t then s
  else
    let b1 := if b > bottom then bottom else b
    transitionEffect.present vm g (transitionEffect.mark s l (shl t 3) (shl (b1 + 1) 3))

/-- The loop `for (j = 0; j < numOfIterations; j++)`, for `n` more iterations. -/
def transitionEffect.iterations (vm : Vm) (g : Gdi) (bottom : Int) (delta : Nat → Int) :
    Nat → (Nat → Int) → TransSt → TransSt
  | 0, _, s => s
  | n + 1, tab_2, s =>
    let s1 := [0, 1, 2, 3].foldl (fun s i => transitionEffect.quadrant vm g bottom tab_2 i s) s
    let tab1 : Nat → Int := fun i => if i < 16 then tab_2 i + delta i else tab_2 i
    transitionEffect.iterations vm g bottom delta n tab1 { s1 with updates := s1.updates + 1 }

/-- `Scumm::transitionEffect(a)` on `vs = virtscr[0]`.  `none`: `a` is not an index of the
table.  The calls of `waitForTimer` are not recorded. -/
def transitionEffect (vm : Vm) (g : Gdi) (vs : VirtScreen) (a : Int) : Option TransSt :=
  if a < 0 then none
  else
    match transitionEffects.get? a.toNat with
    | none => none
    | some e =>
      let delta : Nat → Int := fun i => e.deltaTable.getD i 0
      let tab_2 : Nat → Int := fun i =>
        let j : Int := (e.stripTable.getD i 0 : Nat)
        if j = 24 then sar vs.height 3 - 1 else j
      let bottom := sar vs.height 3
      some (transitionEffect.iterations vm g bottom delta e.numOfIterations tab_2
        { vs := vs, writes := [], calls := [], updates := 0 })

/-! ## Notions used to state the later properties -/

/-- The 16-bit intermediate value of a fading channel after a tick with `counter` ticks
left: the value `cur` moved by the `counter`-th part (rounded towards zero) of its distance
to `256 * target`. -/
def fadeStep (counter : Int) (cur target : Nat) : Nat :=
  (((cur : Int) + Int.tdiv ((target : Int) * 256 - (cur : Int)) counter) % 65536).toNat

/-- The entry whose bytes one rotation of the entries `s .. e` moves into entry `i`: with
`direction` zero the entries move up and `e` comes round to `s`; otherwise they move down
and `s` comes round to `e`. -/
def rotSource (s e direction i : Nat) : Nat :=
  if direction = 0 then (if i = s then e else i - 1) else (if i = e then s else i + 1)

/-- The decoder variables of `unkDecodeB` and `unkDecodeC` before their `k`-th pixel
(counting from 0): each pixel does `FILL_BITS` and then reads the control bits. -/
def decodedState (g : Gdi) (src : Src) (s0 : BSt) : Nat → BSt
  | 0 => s0
  | k + 1 =>
    unkDecodeB.ctl g src
      { decodedState g src s0 k with rd := FILL_BITS src (decodedState g src s0 k).rd }

/-- The decoder variables with which `unkDecodeB` and `unkDecodeC` start on the stream at
`sp`: `color = *src++; bits = *src++; cl = 8; inc = -1`. -/
def decodedStart (src : Src) (sp : Nat) : BSt :=
  { rd := { sp := sp + 2, bits := rd src (sp + 1), cl := 8 }, color := rd src sp, inc := -1 }

/-- The `k`-th colour decoded from the stream at `sp`. -/
def decodedColour (g : Gdi) (src : Src) (sp : Nat) (k : Nat) : Nat :=
  (decodedState g src (decodedStart src sp) k).color

/-- The run-colour format as it is described: the stream at `sp` is a sequence of
`(n, colour)` byte pairs and each pair stands for `n + 1` copies of `colour`; this is the
expansion of the first `pairs` pairs. -/
def expandRuns (src : Src) : Nat → Nat → List Nat
  | _, 0 => []
  | sp, pairs + 1 =>
    List.replicate (rd src sp + 1) (rd src (sp + 1)) ++ expandRuns src (sp + 2) pairs

/-- The call `copy_rect(vs->screenPtr + vs->xstart + y * vs->width + x, vs->width, x,
y + vs->topline, width, height)` that the reveal loop of `dissolveEffect` makes for the
offset `off`, where `x = off % vs->width` and `y = off / vs->width`. -/
def dissolveEffect.blockCopy (vs : VsGeom) (width height : Int) (off : Int) : Present :=
  Present.copy_rect (vs.xstart + Int.tdiv off vs.width * vs.width + Int.tmod off vs.width)
    vs.width (Int.tmod off vs.width) (Int.tdiv off vs.width + vs.topline) width height

/-- The first `n` entries of the array `offsets`. -/
def offsetsView (offsets : Int → Int) (n : Nat) : List Int :=
  (List.range n).map (fun k : Nat => offsets (k : Int))

/-- The backend call is a `copy_rect`. -/
def Present.isCopy (p : Present) : Bool :=
  match p with
  | Present.copy_rect _ _ _ _ _ _ => true
  | Present.update_screen => false

/-- A run-colour strip (format code 2): 4 pixels of colour 7, then 10 of colour 9. -/
def demoRuns : Src := streamOf [2, 3, 7, 9, 9] 0

/-- A zero-size virtual screen. -/
def demoGeomEmpty : VsGeom := { width := 0, height := 0, size := 0, topline := 0, xstart := 0 }

/-! ## Dirty-strip tracking: `setVirtscreenDirty` -/

theorem sar_three (v : Int) : sar v 3 = v / 8 := by
  unfold sar
  rw [Int.shiftRight_eq_div_pow]
  norm_num

theorem setVirtscreenDirty_loop_width (top bottom rp : Int) (fuel : Nat) (lp : Int)
    (vs : VirtScreen) :
    (setVirtscreenDirty.loop top bottom rp fuel lp vs).width = vs.width ∧
      (setVirtscreenDirty.loop top bottom rp fuel lp vs).height = vs.height := by
  induction fuel generalizing lp vs with
  | zero => simp [setVirtscreenDirty.loop]
  | succ n ih =>
    simp only [setVirtscreenDirty.loop]
    split
    · rw [(ih _ _).1, (ih _ _).2]
      split <;> split <;> simp
    · simp

theorem setVirtscreenDirty_loop_spec (top bottom rp : Int) (i : Int) (fuel : Nat) (lp : Int)
    (vs : VirtScreen) (hfuel : (rp + 1 - lp).toNat ≤ fuel) :
    (setVirtscreenDirty.loop top bottom rp fuel lp vs).tdirty i
        = (if lp ≤ i ∧ i ≤ rp then min (vs.tdirty i) top else vs.tdirty i) ∧
      (setVirtscreenDirty.loop top bottom rp fuel lp vs).bdirty i
        = (if lp ≤ i ∧ i ≤ rp then max (vs.bdirty i) bottom else vs.bdirty i) := by
  induction fuel generalizing lp vs with
  | zero =>
    have h : ¬ (lp ≤ i ∧ i ≤ rp) := by omega
    simp [setVirtscreenDirty.loop, h]
  | succ n ih =>
    simp only [setVirtscreenDirty.loop]
    by_cases hle : lp ≤ rp
    · rw [if_pos hle]
      have hf : (rp + 1 - (lp + 1)).toNat ≤ n := by omega
      rw [(ih (lp + 1) _ hf).1, (ih (lp + 1) _ hf).2]
      by_cases hi : i = lp
      · subst hi
        have h1 : ¬ (i + 1 ≤ i ∧ i ≤ rp) := by omega
        have h2 : i ≤ i ∧ i ≤ rp := ⟨le_refl _, hle⟩
        rw [if_neg h1, if_neg h1, if_pos h2, if_pos h2]
        constructor
        · by_cases ht : top < vs.tdirty i
          · simp [ht, setAt, min_eq_right (le_of_lt ht)]
            split <;> simp [setAt]
          · simp [ht, min_eq_left (not_lt.mp ht)]
            split <;> simp
        · by_cases ht : top < vs.tdirty i
          · simp only [ht, if_true]
            by_cases hb : bottom > vs.bdirty i
            · simp [hb, setAt, max_eq_right (le_of_lt hb)]
            · simp [hb, max_eq_left (not_lt.mp hb)]
          · simp only [ht, if_false]
            by_cases hb : bottom > vs.bdirty i
            · simp [hb, setAt, max_eq_right (le_of_lt hb)]
            · simp [hb, max_eq_left (not_lt.mp hb)]
      · have hiff : (lp + 1 ≤ i ∧ i ≤ rp) ↔ (lp ≤ i ∧ i ≤ rp) := by omega
        simp only [hiff]
        constructor
        · congr 1
          · split <;> split <;> simp [setAt, hi]
          · split <;> split <;> simp [setAt, hi]
        · congr 1
          · split <;> split <;> simp [setAt, hi]
          · split <;> split <;> simp [setAt, hi]
    · rw [if_neg hle]
      have h : ¬ (lp ≤ i ∧ i ≤ rp) := by omega
      simp [h]

/-- The effect of `setVirtscreenDirty` on one strip index, for arbitrary integer arguments. -/
theorem setVirtscreenDirty_at (g : Gdi) (vs : VirtScreen) (left top right bottom i : Int) :
    (setVirtscreenDirty g vs left top right bottom).tdirty i
        = (if max 0 (sar left 3) ≤ i ∧ i ≤ min (g.numStrips - 1) (sar right 3)
            then min (vs.tdirty i) top else vs.tdirty i) ∧
      (setVirtscreenDirty g vs left top right bottom).bdirty i
        = (if max 0 (sar left 3) ≤ i ∧ i ≤ min (g.numStrips - 1) (sar right 3)
            then max (vs.bdirty i) bottom else vs.bdirty i) := by
  unfold setVirtscreenDirty
  simp only []
  by_cases hret : sar left 3 ≥ g.numStrips ∨ sar right 3 < 0
  · rw [if_pos hret]
    have h : ¬ (max 0 (sar left 3) ≤ i ∧ i ≤ min (g.numStrips - 1) (sar right 3)) := by
      omega
    rw [if_neg h, if_neg h]
    exact ⟨rfl, rfl⟩
  · rw [if_neg hret]
    have hs := setVirtscreenDirty_loop_spec top bottom
      (if sar right 3 ≥ g.numStrips then g.numStrips - 1 else sar right 3) i
      ((if sar right 3 ≥ g.numStrips then g.numStrips - 1 else sar right 3) + 1
        - (if sar left 3 < 0 then 0 else sar left 3)).toNat
      (if sar left 3 < 0 then 0 else sar left 3) vs (le_refl _)
    have hl : (if sar left 3 < 0 then 0 else sar left 3) = max 0 (sar left 3) := by
      split <;> omega
    have hr : (if sar right 3 ≥ g.numStrips then g.numStrips - 1 else sar right 3)
        = min (g.numStrips - 1) (sar right 3) := by
      split <;> omega
    rw [hl, hr] at hs
    rw [hl, hr]
    exact hs

/-- C10: `setVirtscreenDirty(vs, left, top, right, bottom)` sets `tdirty[i]` to
`min(tdirty[i], top)` and `bdirty[i]` to `max(bdirty[i], bottom)` for exactly the strips `i`
with `max(0, left>>3) ≤ i ≤ min(numStrips-1, right>>3)` and leaves every other index as it
was; so `tdirty` never increases and `bdirty` never decreases, no index outside
`0..numStrips-1` is touched whatever `left` and `right` are, and a column range that lies
entirely off-screen changes nothing. -/
theorem setVirtscreenDirty_spec (g : Gdi) (vs : VirtScreen) (left top right bottom : Int) :
    (∀ i : Int,
      ((setVirtscreenDirty g vs left top right bottom).tdirty i
          = (if max 0 (sar left 3) ≤ i ∧ i ≤ min (g.numStrips - 1) (sar right 3)
              then min (vs.tdirty i) top else vs.tdirty i)) ∧
      ((setVirtscreenDirty g vs left top right bottom).bdirty i
          = (if max 0 (sar left 3) ≤ i ∧ i ≤ min (g.numStrips - 1) (sar right 3)
              then max (vs.bdirty i) bottom else vs.bdirty i)) ∧
      (setVirtscreenDirty g vs left top right bottom).tdirty i ≤ vs.tdirty i ∧
      vs.bdirty i ≤ (setVirtscreenDirty g vs left top right bottom).bdirty i ∧
      ((i < 0 ∨ g.numStrips ≤ i) →
        (setVirtscreenDirty g vs left top right bottom).tdirty i = vs.tdirty i ∧
        (setVirtscreenDirty g vs left top right bottom).bdirty i = vs.bdirty i)) ∧
    ((sar right 3 < 0 ∨ g.numStrips ≤ sar left 3) →
      setVirtscreenDirty g vs left top right bottom = vs) ∧
    sar left 3 = left / 8 ∧ sar right 3 = right / 8 := by
  refine ⟨fun i => ?_, ?_, sar_three left, sar_three right⟩
  · obtain ⟨ht, hb⟩ := setVirtscreenDirty_at g vs left top right bottom i
    refine ⟨ht, hb, ?_, ?_, ?_⟩
    · rw [ht]; split
      · exact min_le_left _ _
      · exact le_refl _
    · rw [hb]; split
      · exact le_max_left _ _
      · exact le_refl _
    · intro hout
      have h : ¬ (max 0 (sar left 3) ≤ i ∧ i ≤ min (g.numStrips - 1) (sar right 3)) := by
        omega
      rw [ht, hb, if_neg h, if_neg h]
      exact ⟨rfl, rfl⟩
  · intro hoff
    unfold setVirtscreenDirty
    simp only []
    rw [if_pos (by omega)]

/-! ## Strip blitting: `draw8ColWithMasking` and `draw8Col` -/

theorem poke_same (m : Mem) (p : Int) (v : Nat) : poke m p v p = v := by
  simp [poke]

theorem poke_other (m : Mem) (p a : Int) (v : Nat) (h : a ≠ p) : poke m p v a = m a := by
  simp [poke, h]

theorem and_bit_of_zero (c : Nat) : (0 : Nat) &&& (0x80 >>> c) = 0 := by
  simp

theorem pokeUnlessMasked_apply (m bit : Nat) (d : Mem) (p a : Int) (v : Nat) :
    pokeUnlessMasked m bit d p v a = if m &&& bit = 0 ∧ a = p then v else d a := by
  unfold pokeUnlessMasked
  by_cases hc : m &&& bit = 0 <;> simp [hc, poke]

theorem draw8ColWithMasking_row_frame (dst src : Mem) (dp sp : Int) (m : Nat) (a : Int)
    (ha : a < dp ∨ dp + 8 ≤ a) : draw8ColWithMasking.row dst dp src sp m a = dst a := by
  have h0 : a ≠ dp := by omega
  have h1 : a ≠ dp + 1 := by omega
  have h2 : a ≠ dp + 2 := by omega
  have h3 : a ≠ dp + 3 := by omega
  have h4 : a ≠ dp + 4 := by omega
  have h5 : a ≠ dp + 5 := by omega
  have h6 : a ≠ dp + 6 := by omega
  have h7 : a ≠ dp + 7 := by omega
  unfold draw8ColWithMasking.row copy8
  simp only []
  split
  · simp only [pokeUnlessMasked_apply, h0, h1, h2, h3, h4, h5, h6, h7, and_false, if_false]
  · simp only [poke, h0, h1, h2, h3, h4, h5, h6, h7, if_false]

theorem draw8ColWithMasking_row_pixel (dst src : Mem) (dp sp : Int) (m : Nat) (c : Nat)
    (hc : c < 8) :
    draw8ColWithMasking.row dst dp src sp m (dp + c)
      = if m &&& (0x80 >>> c) = 0 then src (sp + c) else dst (dp + c) := by
  unfold draw8ColWithMasking.row copy8
  simp only []
  by_cases hm : m = 0
  · subst hm
    interval_cases c <;> simp [poke]
  · rw [if_pos hm]
    interval_cases c <;> simp [pokeUnlessMasked_apply]

theorem draw8ColWithMasking_frame (g : Gdi) (h8 : 8 ≤ g.screenWidth) (src mask : Mem)
    (sp : Int) (h : Nat) (dst : Mem) (dp mp a : Int)
    (ha : a < dp ∨ ∀ y : Nat, y < h → a < dp + y * g.screenWidth ∨ dp + y * g.screenWidth + 8 ≤ a) :
    draw8ColWithMasking g dst dp src sp h mask mp a = dst a := by
  induction h generalizing dst dp sp mp with
  | zero => simp [draw8ColWithMasking]
  | succ n ih =>
    simp only [draw8ColWithMasking]
    rw [ih]
    · apply draw8ColWithMasking_row_frame
      rcases ha with ha | ha
      · exact Or.inl ha
      · have := ha 0 (Nat.succ_pos n)
        simpa using this
    · rcases ha with ha | ha
      · left; omega
      · right
        intro y hy
        have := ha (y + 1) (Nat.succ_lt_succ hy)
        push_cast at this
        have e : dp + (↑y + 1) * g.screenWidth = dp + g.screenWidth + ↑y * g.screenWidth := by
          ring
        rw [e] at this
        exact this

theorem draw8ColWithMasking_pixel (g : Gdi) (h8 : 8 ≤ g.screenWidth) (src mask : Mem)
    (h : Nat) (dst : Mem) (dp sp mp : Int) (y c : Nat) (hy : y < h) (hc : c < 8) :
    draw8ColWithMasking g dst dp src sp h mask mp (dp + y * g.screenWidth + c)
      = if mask (mp + y * g.numStrips) &&& (0x80 >>> c) = 0
          then src (sp + y * g.screenWidth + c) else dst (dp + y * g.screenWidth + c) := by
  induction h generalizing dst dp sp mp y with
  | zero => omega
  | succ n ih =>
    simp only [draw8ColWithMasking]
    cases y with
    | zero =>
      simp only [Nat.cast_zero, zero_mul, add_zero]
      rw [draw8ColWithMasking_frame g h8 src mask _ n _ _ _ _ (Or.inl (by omega))]
      exact draw8ColWithMasking_row_pixel dst src dp sp (mask mp) c hc
    | succ y =>
      have hw : (0 : Int) ≤ (y : Int) * g.screenWidth :=
        mul_nonneg (Int.ofNat_nonneg y) (by omega)
      have e1 : dp + ((y + 1 : Nat) : Int) * g.screenWidth + c
          = dp + g.screenWidth + y * g.screenWidth + c := by push_cast; ring
      have e2 : sp + ((y + 1 : Nat) : Int) * g.screenWidth + c
          = sp + g.screenWidth + y * g.screenWidth + c := by push_cast; ring
      have e3 : mp + ((y + 1 : Nat) : Int) * g.numStrips
          = mp + g.numStrips + y * g.numStrips := by push_cast; ring
      rw [e1, e2, e3, ih _ _ _ _ y (Nat.lt_of_succ_lt_succ hy)]
      rw [draw8ColWithMasking_row_frame dst src dp sp (mask mp) _ (Or.inr (by omega))]

theorem draw8ColWithMasking_zero_mask (g : Gdi) (src mask : Mem) (h : Nat) (dst : Mem)
    (dp sp mp : Int) (hm : ∀ y : Nat, y < h → mask (mp + y * g.numStrips) = 0) :
    draw8ColWithMasking g dst dp src sp h mask mp = draw8Col g dst dp src sp h := by
  induction h generalizing dst dp sp mp with
  | zero => simp [draw8ColWithMasking, draw8Col]
  | succ n ih =>
    simp only [draw8ColWithMasking, draw8Col]
    have h0 : mask mp = 0 := by simpa using hm 0 (Nat.succ_pos n)
    have hr : draw8ColWithMasking.row dst dp src sp (mask mp) = copy8 dst dp src sp := by
      rw [h0]; simp [draw8ColWithMasking.row]
    rw [hr]
    apply ih
    intro y hy
    have := hm (y + 1) (Nat.succ_lt_succ hy)
    have e : mp + ((y + 1 : Nat) : Int) * g.numStrips = mp + g.numStrips + y * g.numStrips := by
      push_cast; ring
    rw [e] at this
    exact this

theorem draw8ColWithMasking_full_mask (g : Gdi) (src mask : Mem) (h : Nat) (dst : Mem)
    (dp sp mp : Int) (hm : ∀ y : Nat, y < h → mask (mp + y * g.numStrips) = 0xFF) :
    draw8ColWithMasking g dst dp src sp h mask mp = dst := by
  induction h generalizing dst dp sp mp with
  | zero => simp [draw8ColWithMasking]
  | succ n ih =>
    simp only [draw8ColWithMasking]
    have h0 : mask mp = 0xFF := by simpa using hm 0 (Nat.succ_pos n)
    have hr : draw8ColWithMasking.row dst dp src sp (mask mp) = dst := by
      rw [h0]; simp [draw8ColWithMasking.row, pokeUnlessMasked]
    rw [hr]
    apply ih
    intro y hy
    have := hm (y + 1) (Nat.succ_lt_succ hy)
    have e : mp + ((y + 1 : Nat) : Int) * g.numStrips = mp + g.numStrips + y * g.numStrips := by
      push_cast; ring
    rw [e] at this
    exact this

/-- C9: `draw8ColWithMasking(dst, src, h, mask)` with `h ≥ 1` (rows `_screenWidth ≥ 8`
apart): for every row `y < h` and column `c < 8` the resulting `dst` pixel is the `src`
pixel at `(y, c)` when bit `0x80 >> c` of the mask byte of row `y` is clear and the previous
`dst` pixel when it is set; with an all-zero mask the result is that of `draw8Col`, and with
an all-`0xFF` mask `dst` is unchanged. -/
theorem draw8ColWithMasking_spec (g : Gdi) (h8 : 8 ≤ g.screenWidth) (dst src mask : Mem)
    (dp sp mp : Int) (h : Nat) (hh : 1 ≤ h) :
    (∀ y c : Nat, y < h → c < 8 →
      draw8ColWithMasking g dst dp src sp h mask mp (dp + y * g.screenWidth + c)
        = if mask (mp + y * g.numStrips) &&& (0x80 >>> c) = 0
            then src (sp + y * g.screenWidth + c) else dst (dp + y * g.screenWidth + c)) ∧
    ((∀ y : Nat, y < h → mask (mp + y * g.numStrips) = 0) →
      draw8ColWithMasking g dst dp src sp h mask mp = draw8Col g dst dp src sp h) ∧
    ((∀ y : Nat, y < h → mask (mp + y * g.numStrips) = 0xFF) →
      draw8ColWithMasking g dst dp src sp h mask mp = dst) := by
  have _ := hh
  exact ⟨fun y c hy hc => draw8ColWithMasking_pixel g h8 src mask h dst dp sp mp y c hy hc,
    draw8ColWithMasking_zero_mask g src mask h dst dp sp mp,
    draw8ColWithMasking_full_mask g src mask h dst dp sp mp⟩

/-! ## Z-plane mask decoding: `decompressMaskImg` and `decompressMaskImgOr` -/

theorem passes_pos (b : Nat) : 1 ≤ passes b := by
  unfold passes; split <;> omega

theorem passes_dec (b : Nat) (h : decByte b ≠ 0) : passes b = passes (decByte b) + 1 := by
  unfold passes decByte at *; split <;> split <;> omega

theorem passes_last (b : Nat) (h : decByte b = 0) : passes b = 1 := by
  unfold passes decByte at *; split <;> omega

theorem passes_of_pos (b : Nat) (h0 : b ≠ 0) (h : b < 256) : passes b = b := by
  unfold passes; split <;> omega

theorem rd_lt (src : Src) (i : Nat) : rd src i < 256 := by
  unfold rd; omega

theorem pokeList_append (S : Int) (m : Mem) (dp : Int) (l1 l2 : List Nat) :
    pokeList S m dp (l1 ++ l2) = pokeList S (pokeList S m dp l1) (dp + l1.length * S) l2 := by
  induction l1 generalizing m dp with
  | nil => simp [pokeList]
  | cons v l ih =>
    rw [List.cons_append, pokeList, pokeList, ih, List.length_cons]
    have e : dp + S + (l.length : Int) * S = dp + ((l.length + 1 : Nat) : Int) * S := by
      push_cast; ring
    rw [e]

theorem orList_append (S : Int) (m : Mem) (dp : Int) (l1 l2 : List Nat) :
    orList S m dp (l1 ++ l2) = orList S (orList S m dp l1) (dp + l1.length * S) l2 := by
  induction l1 generalizing m dp with
  | nil => simp [orList]
  | cons v l ih =>
    rw [List.cons_append, orList, orList, ih, List.length_cons]
    have e : dp + S + (l.length : Int) * S = dp + ((l.length + 1 : Nat) : Int) * S := by
      push_cast; ring
    rw [e]

theorem pokeList_frame (S : Int) (l : List Nat) (m : Mem) (dp a : Int)
    (ha : ∀ k : Nat, k < l.length → a ≠ dp + k * S) : pokeList S m dp l a = m a := by
  induction l generalizing m dp with
  | nil => rfl
  | cons v l ih =>
    simp only [pokeList]
    rw [ih]
    · apply poke_other
      simpa using ha 0 (by simp)
    · intro k hk
      have := ha (k + 1) (by simpa using hk)
      intro e
      apply this
      rw [e]; push_cast; ring

theorem orList_frame (S : Int) (l : List Nat) (m : Mem) (dp a : Int)
    (ha : ∀ k : Nat, k < l.length → a ≠ dp + k * S) : orList S m dp l a = m a := by
  induction l generalizing m dp with
  | nil => rfl
  | cons v l ih =>
    simp only [orList]
    rw [ih]
    · apply poke_other
      simpa using ha 0 (by simp)
    · intro k hk
      have := ha (k + 1) (by simpa using hk)
      intro e
      apply this
      rw [e]; push_cast; ring

theorem stride_ne (S : Int) (hS : 0 < S) (dp : Int) (k : Nat) : dp ≠ dp + S + k * S := by
  have : (0 : Int) ≤ k * S := mul_nonneg (Int.ofNat_nonneg k) (le_of_lt hS)
  omega

theorem pokeList_get (S : Int) (hS : 0 < S) (l : List Nat) (m : Mem) (dp : Int) (k : Nat)
    (hk : k < l.length) : pokeList S m dp l (dp + k * S) = l.getD k 0 := by
  induction l generalizing m dp k with
  | nil => simp at hk
  | cons v l ih =>
    simp only [pokeList]
    cases k with
    | zero =>
      simp only [Nat.cast_zero, zero_mul, add_zero, List.getD_cons_zero]
      rw [pokeList_frame]
      · exact poke_same m dp v
      · intro j _
        exact stride_ne S hS dp j
    | succ k =>
      have e : dp + ((k + 1 : Nat) : Int) * S = dp + S + k * S := by push_cast; ring
      rw [e, ih _ _ k (by simpa using hk)]
      simp

theorem orList_get (S : Int) (hS : 0 < S) (l : List Nat) (m : Mem) (dp : Int) (k : Nat)
    (hk : k < l.length) : orList S m dp l (dp + k * S) = m (dp + k * S) ||| l.getD k 0 := by
  induction l generalizing m dp k with
  | nil => simp at hk
  | cons v l ih =>
    simp only [orList]
    cases k with
    | zero =>
      simp only [Nat.cast_zero, zero_mul, add_zero, List.getD_cons_zero]
      rw [orList_frame]
      · exact poke_same m dp _
      · intro j _
        exact stride_ne S hS dp j
    | succ k =>
      have e : dp + ((k + 1 : Nat) : Int) * S = dp + S + k * S := by push_cast; ring
      rw [e, ih _ _ k (by simpa using hk)]
      have hne : dp + S + k * S ≠ dp := fun h => stride_ne S hS dp k h.symm
      rw [poke_other _ _ _ _ hne]
      simp

theorem decompressMaskImg_fill_spec (g : Gdi) (c : Nat) (height b : Nat) (dp : Int) (m : Mem)
    (hh : 1 ≤ height) :
    decompressMaskImg.fill g c height b dp m
      = (height - min (passes b) height, dp + (min (passes b) height : Nat) * g.numStrips,
          pokeList g.numStrips m dp (List.replicate (min (passes b) height) c)) := by
  induction height generalizing b dp m with
  | zero => omega
  | succ k ih =>
    simp only [decompressMaskImg.fill]
    by_cases hc : decByte b ≠ 0 ∧ k ≠ 0
    · rw [if_pos hc, ih _ _ _ (by omega)]
      have hp := passes_dec b hc.1
      have e : min (passes b) (k + 1) = min (passes (decByte b)) k + 1 := by omega
      rw [e]
      simp only [List.replicate_succ, pokeList]
      refine Prod.ext ?_ (Prod.ext ?_ rfl)
      · simp only; omega
      · simp only; push_cast; ring
    · rw [if_neg hc]
      have e : min (passes b) (k + 1) = 1 := by
        have := passes_pos b
        by_cases h1 : decByte b = 0
        · have := passes_last b h1; omega
        · have : k = 0 := by
            by_contra hk; exact hc ⟨h1, hk⟩
          omega
      rw [e]
      simp [pokeList]

theorem range_map_rd_succ (src : Src) (sp n : Nat) :
    (List.range (n + 1)).map (fun i => rd src (sp + i))
      = rd src sp :: (List.range n).map (fun i => rd src (sp + 1 + i)) := by
  rw [List.range_succ_eq_map, List.map_cons, List.map_map]
  congr 1
  apply List.map_congr_left
  intro i _
  simp only [Function.comp, Nat.succ_eq_add_one]
  rw [Nat.add_assoc, Nat.add_comm 1 i]

theorem decompressMaskImg_copy_spec (g : Gdi) (src : Src) (height b sp : Nat) (dp : Int)
    (m : Mem) (hh : 1 ≤ height) :
    decompressMaskImg.copy g src height b sp dp m
      = (height - min (passes b) height, sp + min (passes b) height,
          dp + (min (passes b) height : Nat) * g.numStrips,
          pokeList g.numStrips m dp
            ((List.range (min (passes b) height)).map (fun i => rd src (sp + i)))) := by
  induction height generalizing b sp dp m with
  | zero => omega
  | succ k ih =>
    simp only [decompressMaskImg.copy]
    by_cases hc : decByte b ≠ 0 ∧ k ≠ 0
    · rw [if_pos hc, ih _ _ _ _ (by omega)]
      have hp := passes_dec b hc.1
      have e : min (passes b) (k + 1) = min (passes (decByte b)) k + 1 := by omega
      rw [e, range_map_rd_succ, pokeList]
      refine Prod.ext ?_ (Prod.ext ?_ (Prod.ext ?_ rfl))
      · simp only; omega
      · simp only; omega
      · simp only; push_cast; ring
    · rw [if_neg hc]
      have e : min (passes b) (k + 1) = 1 := by
        have := passes_pos b
        by_cases h1 : decByte b = 0
        · have := passes_last b h1; omega
        · have : k = 0 := by
            by_contra hk; exact hc ⟨h1, hk⟩
          omega
      rw [e]
      simp [pokeList]

theorem maskRuns_length (src : Src) (n sp : Nat) : n ≤ (maskRuns src n sp).length := by
  induction n generalizing sp with
  | zero => simp
  | succ n ih =>
    simp only [maskRuns]
    split
    · have := ih (sp + 2)
      have := passes_pos (rd src sp &&& 0x7F)
      simp only [List.length_append, List.length_replicate]
      omega
    · have := ih (sp + 1 + passes (rd src sp))
      have := passes_pos (rd src sp)
      simp only [List.length_append, List.length_map, List.length_range]
      omega

theorem maskRuns_take (src : Src) (n : Nat) :
    ∀ k sp : Nat, k ≤ n → (maskRuns src n sp).take k = (maskRuns src k sp).take k := by
  induction n using Nat.strong_induction_on with
  | _ n ih =>
    intro k sp hk
    cases k with
    | zero => simp
    | succ k =>
      cases n with
      | zero => omega
      | succ n =>
        simp only [maskRuns]
        split
        · have hp := passes_pos (rd src sp &&& 0x7F)
          rw [List.take_append_eq_append_take, List.take_append_eq_append_take]
          congr 1
          simp only [List.length_replicate]
          rw [ih n (by omega) _ _ (by omega), ih k (by omega) _ _ (by omega)]
        · have hp := passes_pos (rd src sp)
          rw [List.take_append_eq_append_take, List.take_append_eq_append_take]
          congr 1
          simp only [List.length_map, List.length_range]
          rw [ih n (by omega) _ _ (by omega), ih k (by omega) _ _ (by omega)]

theorem take_replicate_append (n P : Nat) (c : Nat) (R : List Nat) :
    (List.replicate P c ++ R).take n = List.replicate (min P n) c ++ R.take (n - min P n) := by
  rw [List.take_append_eq_append_take, List.take_replicate, List.length_replicate,
    Nat.min_comm n P]
  congr 2
  omega

theorem take_range_map_append (n P : Nat) (f : Nat → Nat) (R : List Nat) :
    ((List.range P).map f ++ R).take n
      = (List.range (min P n)).map f ++ R.take (n - min P n) := by
  rw [List.take_append_eq_append_take, List.length_map, List.length_range, ← List.map_take,
    List.take_range, Nat.min_comm n P]
  congr 2
  omega

/-- The memory `decompressMaskImg` leaves: the first `height` bytes of the decoded runs,
stored `_numStrips` apart. -/
theorem decompressMaskImg_loop_spec (g : Gdi) (src : Src) (fuel : Nat) :
    ∀ (height sp : Nat) (dp : Int) (m : Mem), height ≤ fuel →
      ∃ sp1, decompressMaskImg.loop g src fuel height sp dp m
        = some (pokeList g.numStrips m dp ((maskRuns src height sp).take height), sp1) := by
  induction fuel with
  | zero =>
    intro height sp dp m hf
    have : height = 0 := by omega
    subst this
    exact ⟨sp, by simp [decompressMaskImg.loop, pokeList]⟩
  | succ f ih =>
    intro height sp dp m hf
    cases height with
    | zero => exact ⟨sp, by simp [decompressMaskImg.loop, pokeList]⟩
    | succ k =>
      simp only [decompressMaskImg.loop, maskRuns]
      split
      · rw [decompressMaskImg_fill_spec g _ _ _ _ _ (by omega)]
        simp only
        have hp := passes_pos (rd src sp &&& 0x7F)
        obtain ⟨sp1, h1⟩ := ih (k + 1 - min (passes (rd src sp &&& 0x7F)) (k + 1)) (sp + 1 + 1)
          (dp + (min (passes (rd src sp &&& 0x7F)) (k + 1) : Nat) * g.numStrips)
          (pokeList g.numStrips m dp
            (List.replicate (min (passes (rd src sp &&& 0x7F)) (k + 1)) (rd src (sp + 1))))
          (by omega)
        refine ⟨sp1, ?_⟩
        rw [h1, take_replicate_append, pokeList_append, List.length_replicate]
        rw [maskRuns_take src k _ _ (by omega)]
      · rw [decompressMaskImg_copy_spec g _ _ _ _ _ _ (by omega)]
        simp only
        have hp := passes_pos (rd src sp)
        obtain ⟨sp1, h1⟩ := ih (k + 1 - min (passes (rd src sp)) (k + 1))
          (sp + 1 + min (passes (rd src sp)) (k + 1))
          (dp + (min (passes (rd src sp)) (k + 1) : Nat) * g.numStrips)
          (pokeList g.numStrips m dp
            ((List.range (min (passes (rd src sp)) (k + 1))).map (fun i => rd src (sp + 1 + i))))
          (by omega)
        refine ⟨sp1, ?_⟩
        rw [h1, take_range_map_append, pokeList_append, List.length_map, List.length_range]
        rw [maskRuns_take src k _ _ (by omega)]
        by_cases hle : passes (rd src sp) ≤ k + 1
        · rw [Nat.min_eq_left hle]
        · have e : k + 1 - min (passes (rd src sp)) (k + 1) = 0 := by omega
          rw [e]; simp

theorem decompressMaskImgOr_fill_spec (g : Gdi) (c : Nat) (height b : Nat) (dp : Int) (m : Mem)
    (hh : 1 ≤ height) :
    decompressMaskImgOr.fill g c height b dp m
      = (height - min (passes b) height, dp + (min (passes b) height : Nat) * g.numStrips,
          orList g.numStrips m dp (List.replicate (min (passes b) height) c)) := by
  induction height generalizing b dp m with
  | zero => omega
  | succ k ih =>
    simp only [decompressMaskImgOr.fill]
    by_cases hc : decByte b ≠ 0 ∧ k ≠ 0
    · rw [if_pos hc, ih _ _ _ (by omega)]
      have hp := passes_dec b hc.1
      have e : min (passes b) (k + 1) = min (passes (decByte b)) k + 1 := by omega
      rw [e]
      simp only [List.replicate_succ, orList]
      refine Prod.ext ?_ (Prod.ext ?_ rfl)
      · simp only; omega
      · simp only; push_cast; ring
    · rw [if_neg hc]
      have e : min (passes b) (k + 1) = 1 := by
        have := passes_pos b
        by_cases h1 : decByte b = 0
        · have := passes_last b h1; omega
        · have : k = 0 := by
            by_contra hk; exact hc ⟨h1, hk⟩
          omega
      rw [e]
      simp [orList]

theorem decompressMaskImgOr_copy_spec (g : Gdi) (src : Src) (height b sp : Nat) (dp : Int)
    (m : Mem) (hh : 1 ≤ height) :
    decompressMaskImgOr.copy g src height b sp dp m
      = (height - min (passes b) height, sp + min (passes b) height,
          dp + (min (passes b) height : Nat) * g.numStrips,
          orList g.numStrips m dp
            ((List.range (min (passes b) height)).map (fun i => rd src (sp + i)))) := by
  induction height generalizing b sp dp m with
  | zero => omega
  | succ k ih =>
    simp only [decompressMaskImgOr.copy]
    by_cases hc : decByte b ≠ 0 ∧ k ≠ 0
    · rw [if_pos hc, ih _ _ _ _ (by omega)]
      have hp := passes_dec b hc.1
      have e : min (passes b) (k + 1) = min (passes (decByte b)) k + 1 := by omega
      rw [e, range_map_rd_succ, orList]
      refine Prod.ext ?_ (Prod.ext ?_ (Prod.ext ?_ rfl))
      · simp only; omega
      · simp only; omega
      · simp only; push_cast; ring
    · rw [if_neg hc]
      have e : min (passes b) (k + 1) = 1 := by
        have := passes_pos b
        by_cases h1 : decByte b = 0
        · have := passes_last b h1; omega
        · have : k = 0 := by
            by_contra hk; exact hc ⟨h1, hk⟩
          omega
      rw [e]
      simp [orList]

/-- The memory `decompressMaskImgOr` leaves: the same bytes as `decompressMaskImg`, or-ed
into the buffer. -/
theorem decompressMaskImgOr_loop_spec (g : Gdi) (src : Src) (fuel : Nat) :
    ∀ (height sp : Nat) (dp : Int) (m : Mem), height ≤ fuel →
      ∃ sp1, decompressMaskImgOr.loop g src fuel height sp dp m
        = some (orList g.numStrips m dp ((maskRuns src height sp).take height), sp1) := by
  induction fuel with
  | zero =>
    intro height sp dp m hf
    have : height = 0 := by omega
    subst this
    exact ⟨sp, by simp [decompressMaskImgOr.loop, orList]⟩
  | succ f ih =>
    intro height sp dp m hf
    cases height with
    | zero => exact ⟨sp, by simp [decompressMaskImgOr.loop, orList]⟩
    | succ k =>
      simp only [decompressMaskImgOr.loop, maskRuns]
      split
      · rw [decompressMaskImgOr_fill_spec g _ _ _ _ _ (by omega)]
        simp only
        have hp := passes_pos (rd src sp &&& 0x7F)
        obtain ⟨sp1, h1⟩ := ih (k + 1 - min (passes (rd src sp &&& 0x7F)) (k + 1)) (sp + 1 + 1)
          (dp + (min (passes (rd src sp &&& 0x7F)) (k + 1) : Nat) * g.numStrips)
          (orList g.numStrips m dp
            (List.replicate (min (passes (rd src sp &&& 0x7F)) (k + 1)) (rd src (sp + 1))))
          (by omega)
        refine ⟨sp1, ?_⟩
        rw [h1, take_replicate_append, orList_append, List.length_replicate]
        rw [maskRuns_take src k _ _ (by omega)]
      · rw [decompressMaskImgOr_copy_spec g _ _ _ _ _ _ (by omega)]
        simp only
        have hp := passes_pos (rd src sp)
        obtain ⟨sp1, h1⟩ := ih (k + 1 - min (passes (rd src sp)) (k + 1))
          (sp + 1 + min (passes (rd src sp)) (k + 1))
          (dp + (min (passes (rd src sp)) (k + 1) : Nat) * g.numStrips)
          (orList g.numStrips m dp
            ((List.range (min (passes (rd src sp)) (k + 1))).map (fun i => rd src (sp + 1 + i))))
          (by omega)
        refine ⟨sp1, ?_⟩
        rw [h1, take_range_map_append, orList_append, List.length_map, List.length_range]
        rw [maskRuns_take src k _ _ (by omega)]
        by_cases hle : passes (rd src sp) ≤ k + 1
        · rw [Nat.min_eq_left hle]
        · have e : k + 1 - min (passes (rd src sp)) (k + 1) = 0 := by omega
          rw [e]; simp

theorem maskRuns_eq_maskExpand (src : Src) (n sp : Nat) (hc : maskCountsNonZero src n sp) :
    maskRuns src n sp = maskExpand src n sp := by
  induction n generalizing sp with
  | zero => rfl
  | succ n ih =>
    simp only [maskRuns, maskExpand]
    simp only [maskCountsNonZero] at hc
    split
    · rename_i hb
      rw [if_pos hb] at hc
      have hlt : rd src sp &&& 0x7F < 256 :=
        lt_of_le_of_lt Nat.and_le_left (rd_lt src sp)
      rw [passes_of_pos _ hc.1 hlt, ih _ hc.2]
    · rename_i hb
      rw [if_neg hb] at hc
      rw [passes_of_pos _ hc.1 (rd_lt src sp), ih _ hc.2]

/-- C7: for every height `h ≥ 1`, stride `S = _numStrips ≥ 1` and source whose count fields
are non-zero, `decompressMaskImg` returns (fuel `h` covers its outer loop), writes the
`k`-th byte of the run-length expansion of the source to offset `k * S` for each `k < h`,
writes nothing else (so it stops after `h` bytes, also inside a run), and the `h` bytes
written are the same whatever the buffer held before. -/
theorem decompressMaskImg_spec (g : Gdi) (hS : 0 < g.numStrips) (src : Src) (sp : Nat)
    (h : Nat) (hh : 1 ≤ h) (hcnt : maskCountsNonZero src h sp) (fuel : Nat) (hf : h ≤ fuel)
    (m : Mem) (dp : Int) :
    ∃ m1 sp1, decompressMaskImg g fuel m dp src sp h = some (m1, sp1) ∧
      h ≤ (maskExpand src h sp).length ∧
      (∀ k : Nat, k < h → m1 (dp + k * g.numStrips) = (maskExpand src h sp).getD k 0) ∧
      (∀ a : Int, (∀ k : Nat, k < h → a ≠ dp + k * g.numStrips) → m1 a = m a) ∧
      (∀ m' : Mem, ∃ m2 sp2, decompressMaskImg g fuel m' dp src sp h = some (m2, sp2) ∧
        ∀ k : Nat, k < h → m2 (dp + k * g.numStrips) = m1 (dp + k * g.numStrips)) := by
  have _ := hh
  have hlen : h ≤ (maskExpand src h sp).length := by
    rw [← maskRuns_eq_maskExpand src h sp hcnt]; exact maskRuns_length src h sp
  have hlt : ((maskExpand src h sp).take h).length = h := by
    rw [List.length_take]; omega
  have hval : ∀ (mm : Mem) (k : Nat), k < h →
      pokeList g.numStrips mm dp ((maskExpand src h sp).take h) (dp + k * g.numStrips)
        = (maskExpand src h sp).getD k 0 := by
    intro mm k hk
    rw [pokeList_get g.numStrips hS _ mm dp k (by omega)]
    simp only [List.getD_eq_getElem?_getD, List.getElem?_take]
    rw [if_pos hk]
  obtain ⟨sp1, h1⟩ := decompressMaskImg_loop_spec g src fuel h sp dp m hf
  rw [maskRuns_eq_maskExpand src h sp hcnt] at h1
  refine ⟨_, sp1, h1, hlen, hval m, ?_, ?_⟩
  · intro a ha
    apply pokeList_frame
    intro k hk
    exact ha k (by omega)
  · intro m'
    obtain ⟨sp2, h2⟩ := decompressMaskImg_loop_spec g src fuel h sp dp m' hf
    rw [maskRuns_eq_maskExpand src h sp hcnt] at h2
    refine ⟨_, sp2, h2, ?_⟩
    intro k hk
    rw [hval m' k hk, hval m k hk]

/-- C8: for every mask buffer, source and height `h ≥ 1` (stride `_numStrips ≥ 1`), after
`decompressMaskImgOr` each of the `h` addressed bytes is the bitwise or of its previous
value and the byte `decompressMaskImg` writes there from the same source (whatever buffer
that one starts from); every other byte is unchanged, no set bit is cleared anywhere, and on
an all-zero buffer the two decoders leave the same memory. -/
theorem decompressMaskImgOr_spec (g : Gdi) (hS : 0 < g.numStrips) (src : Src) (sp : Nat)
    (h : Nat) (hh : 1 ≤ h) (fuel : Nat) (hf : h ≤ fuel) (m : Mem) (dp : Int) :
    ∃ mo so, decompressMaskImgOr g fuel m dp src sp h = some (mo, so) ∧
      (∀ m' : Mem, ∃ mi si, decompressMaskImg g fuel m' dp src sp h = some (mi, si) ∧
        ∀ k : Nat, k < h →
          mo (dp + k * g.numStrips) = m (dp + k * g.numStrips) ||| mi (dp + k * g.numStrips)) ∧
      (∀ a : Int, (∀ k : Nat, k < h → a ≠ dp + k * g.numStrips) → mo a = m a) ∧
      (∀ (a : Int) (j : Nat), (m a).testBit j = true → (mo a).testBit j = true) ∧
      ((∀ a : Int, m a = 0) →
        ∃ mi si, decompressMaskImg g fuel m dp src sp h = some (mi, si) ∧ mo = mi) := by
  have _ := hh
  have hlen : ((maskRuns src h sp).take h).length = h := by
    have := maskRuns_length src h sp
    rw [List.length_take]; omega
  obtain ⟨so, ho⟩ := decompressMaskImgOr_loop_spec g src fuel h sp dp m hf
  have hframe : ∀ a : Int, (∀ k : Nat, k < h → a ≠ dp + k * g.numStrips) →
      orList g.numStrips m dp ((maskRuns src h sp).take h) a = m a := by
    intro a ha
    apply orList_frame
    intro k hk
    exact ha k (by omega)
  have hor : ∀ (m' : Mem) (k : Nat), k < h →
      orList g.numStrips m dp ((maskRuns src h sp).take h) (dp + k * g.numStrips)
        = m (dp + k * g.numStrips)
          ||| pokeList g.numStrips m' dp ((maskRuns src h sp).take h) (dp + k * g.numStrips) := by
    intro m' k hk
    rw [orList_get g.numStrips hS _ m dp k (by omega),
      pokeList_get g.numStrips hS _ m' dp k (by omega)]
  refine ⟨_, so, ho, ?_, hframe, ?_, ?_⟩
  · intro m'
    obtain ⟨si, hi⟩ := decompressMaskImg_loop_spec g src fuel h sp dp m' hf
    exact ⟨_, si, hi, hor m'⟩
  · intro a j hj
    by_cases ha : ∃ k : Nat, k < h ∧ a = dp + k * g.numStrips
    · obtain ⟨k, hk, rfl⟩ := ha
      rw [hor m k hk, Nat.testBit_or, hj]
      rfl
    · rw [hframe a]
      · exact hj
      · intro k hk e
        exact ha ⟨k, hk, e⟩
  · intro hz
    obtain ⟨si, hi⟩ := decompressMaskImg_loop_spec g src fuel h sp dp m hf
    refine ⟨_, si, hi, ?_⟩
    funext a
    by_cases ha : ∃ k : Nat, k < h ∧ a = dp + k * g.numStrips
    · obtain ⟨k, hk, rfl⟩ := ha
      rw [hor m k hk, hz]
      simp
    · have hn : ∀ k : Nat, k < h → a ≠ dp + k * g.numStrips := fun k hk e => ha ⟨k, hk, e⟩
      rw [hframe a hn]
      symm
      apply pokeList_frame
      intro k hk
      exact hn k (by omega)

/-! ## Bitmap strip decoders: traces and visited positions -/

theorem replay_append (pol : Nat → Option Nat) (m : Mem) (l1 l2 : List (Int × Nat)) :
    replay pol m (l1 ++ l2) = replay pol (replay pol m l1) l2 := by
  induction l1 generalizing m with
  | nil => rfl
  | cons e l ih =>
    obtain ⟨a, c⟩ := e
    rw [List.cons_append, replay, replay, ih]

theorem replay_frame (pol : Nat → Option Nat) (l : List (Int × Nat)) (m : Mem) (a : Int)
    (ha : a ∉ l.map Prod.fst) : replay pol m l a = m a := by
  induction l generalizing m with
  | nil => rfl
  | cons e l ih =>
    obtain ⟨p, c⟩ := e
    simp only [List.map_cons, List.mem_cons, not_or] at ha
    rw [replay, ih _ ha.2]
    cases pol c with
    | none => rfl
    | some v => exact poke_other m p a v ha.1

theorem Visited_init (pol : Nat → Option Nat) (m : Mem) (addr : Nat → Int) :
    Visited pol m addr 0 { mem := m, log := [] } := by
  constructor <;> simp [replay]

theorem Visited_store (pol : Nat → Option Nat) (m0 : Mem) (addr : Nat → Int) (k : Nat)
    (o : Out) (h : Visited pol m0 addr k o) (c v : Nat) (hp : pol c = some v) :
    Visited pol m0 addr (k + 1) (o.store (addr k) c v) := by
  obtain ⟨hm, hl⟩ := h
  constructor
  · simp only [Out.store]
    rw [replay_append, ← hm]
    simp only [replay, hp]
  · simp only [Out.store, List.map_append, List.map_cons, List.map_nil, hl,
      List.range_succ]

theorem Visited_pass (pol : Nat → Option Nat) (m0 : Mem) (addr : Nat → Int) (k : Nat)
    (o : Out) (h : Visited pol m0 addr k o) (c : Nat) (hp : pol c = none) :
    Visited pol m0 addr (k + 1) (o.pass (addr k) c) := by
  obtain ⟨hm, hl⟩ := h
  constructor
  · simp only [Out.pass]
    rw [replay_append, ← hm]
    simp only [replay, hp]
  · simp only [Out.pass, List.map_append, List.map_cons, List.map_nil, hl,
      List.range_succ]

theorem Visited_storeUnlessTransparent (g : Gdi) (m0 : Mem) (addr : Nat → Int) (k : Nat)
    (o : Out) (h : Visited (polTrans g) m0 addr k o) (c : Nat) :
    Visited (polTrans g) m0 addr (k + 1) (o.storeUnlessTransparent g (addr k) c) := by
  unfold Out.storeUnlessTransparent
  split
  · rename_i hc
    exact Visited_store _ _ _ _ _ h _ _ (by simp [polTrans, hc])
  · rename_i hc
    exact Visited_pass _ _ _ _ _ h _ (by simp [polTrans, hc])

/-- Memory outside the visited addresses is as it was. -/
theorem Visited_frame (pol : Nat → Option Nat) (m0 : Mem) (addr : Nat → Int) (k : Nat)
    (o : Out) (h : Visited pol m0 addr k o) (a : Int) (ha : ∀ j : Nat, j < k → a ≠ addr j) :
    o.mem a = m0 a := by
  rw [h.1]
  apply replay_frame
  rw [h.2]
  simp only [List.mem_map, List.mem_range, not_exists, not_and]
  intro j hj e
  exact ha j hj e.symm

theorem divmod_of_eq (H k q r : Nat) (hr : r < H) (hk : k = H * q + r) :
    k / H = q ∧ k % H = r := by
  have hH : 0 < H := by omega
  subst hk
  constructor
  · rw [Nat.mul_add_div hH, Nat.div_eq_of_lt hr, Nat.add_zero]
  · rw [Nat.mul_add_mod, Nat.mod_eq_of_lt hr]

theorem NEXT_ROW_spec (g : Gdi) (base : Int) (H : Nat) (hH : 0 < H)
    (hv : g.vertStripNextInc = H * g.screenWidth - 1) (k : Nat) (hk : k < 8 * H) (c : Cur)
    (hc : CurAt g base H k c) :
    (k + 1 < 8 * H → ∃ c1, NEXT_ROW g H c = some c1 ∧ CurAt g base H (k + 1) c1) ∧
    (¬ k + 1 < 8 * H → NEXT_ROW g H c = none) := by
  obtain ⟨hd, hh, hx⟩ := hc
  have hr : k % H < H := Nat.mod_lt _ hH
  have hq : k / H < 8 := by
    rw [Nat.div_lt_iff_lt_mul hH]; exact hk
  have hkk : k = H * (k / H) + k % H := (Nat.div_add_mod k H).symm
  unfold NEXT_ROW
  simp only [hh, hx, hd, colAddr]
  by_cases hr1 : k % H + 1 < H
  · have hne : ¬ ((H : Int) - ((k % H : Nat) : Int) - 1 = 0) := by omega
    rw [if_neg hne]
    obtain ⟨e1, e2⟩ := divmod_of_eq H (k + 1) (k / H) (k % H + 1) hr1 (by omega)
    constructor
    · intro _
      refine ⟨_, rfl, ?_, ?_, ?_⟩
      · simp only [colAddr, e1, e2]; push_cast; ring
      · simp only [e2]; push_cast; ring
      · simp only [e1]
    · intro hn
      exfalso
      apply hn
      have h2 : H * (k / H) ≤ H * 7 := Nat.mul_le_mul_left H (by omega)
      omega
  · have hrH : k % H + 1 = H := by omega
    have he : ((H : Int) - ((k % H : Nat) : Int) - 1 = 0) := by omega
    rw [if_pos he]
    obtain ⟨e1, e2⟩ := divmod_of_eq H (k + 1) (k / H + 1) 0 hH (by
      rw [Nat.mul_add, Nat.mul_one]; omega)
    by_cases hq1 : k / H + 1 < 8
    · have hne : ¬ ((8 : Int) - ((k / H : Nat) : Int) - 1 = 0) := by omega
      rw [if_neg hne]
      constructor
      · intro _
        refine ⟨_, rfl, ?_, ?_, ?_⟩
        · simp only [colAddr, e1, e2, hv]
          have hHi : (H : Int) = ((k % H : Nat) : Int) + 1 := by omega
          rw [hHi]; push_cast; ring
        · simp only [e2]; simp
        · simp only [e1]; push_cast; ring
      · intro hn
        exfalso; apply hn
        have h2 : (k / H + 1) * H ≤ 7 * H := Nat.mul_le_mul_right H (by omega)
        have h3 : (k / H + 1) * H = H * (k / H) + H := by ring
        omega
    · have he2 : ((8 : Int) - ((k / H : Nat) : Int) - 1 = 0) := by omega
      rw [if_pos he2]
      constructor
      · intro hlt
        exfalso
        have h7 : k / H = 7 := by omega
        rw [h7] at hkk
        omega
      · intro _; rfl


theorem putRun_spec (g : Gdi) (base : Int) (H : Nat) (hH : 0 < H)
    (hv : g.vertStripNextInc = H * g.screenWidth - 1) (m0 : Mem) (color : Nat) (n : Nat) :
    ∀ (k : Nat) (c : Cur) (o : Out), k < 8 * H → CurAt g base H k c →
      Visited polPlain m0 (colAddr g base H) k o →
      Visited polPlain m0 (colAddr g base H) (min (k + n) (8 * H)) (putRun g H color n c o).2 ∧
      (k + n < 8 * H → ∃ c1, (putRun g H color n c o).1 = some c1 ∧ CurAt g base H (k + n) c1) ∧
      (¬ k + n < 8 * H → (putRun g H color n c o).1 = none) := by
  induction n with
  | zero =>
    intro k c o hk hc ho
    simp only [putRun, Nat.add_zero]
    rw [Nat.min_eq_left (le_of_lt hk)]
    exact ⟨ho, fun _ => ⟨c, rfl, hc⟩, fun h => absurd hk h⟩
  | succ n ih =>
    intro k c o hk hc ho
    have ho1 := Visited_store polPlain m0 (colAddr g base H) k o ho color color rfl
    rw [← hc.1] at ho1
    obtain ⟨hs, hn⟩ := NEXT_ROW_spec g base H hH hv k hk c hc
    simp only [putRun]
    by_cases hk1 : k + 1 < 8 * H
    · obtain ⟨c1, e1, hc1⟩ := hs hk1
      rw [e1]
      simp only
      have := ih (k + 1) c1 _ hk1 hc1 ho1
      have e : k + 1 + n = k + (n + 1) := by omega
      rw [e] at this
      exact this
    · rw [hn hk1]
      simp only
      have e : min (k + (n + 1)) (8 * H) = k + 1 := by omega
      rw [e]
      exact ⟨ho1, fun h => by omega, fun _ => trivial⟩

theorem unkDecode8_loop_spec (g : Gdi) (base : Int) (H : Nat) (hH : 0 < H)
    (hv : g.vertStripNextInc = H * g.screenWidth - 1) (m0 : Mem) (src : Src) (fuel : Nat) :
    ∀ (sp k : Nat) (c : Cur) (o : Out), k < 8 * H → CurAt g base H k c →
      Visited polPlain m0 (colAddr g base H) k o → 8 * H - k ≤ fuel →
      ∃ o1 sp1, unkDecode8.loop g src H fuel sp c o = some (o1, sp1) ∧
        Visited polPlain m0 (colAddr g base H) (8 * H) o1 := by
  induction fuel with
  | zero => intro sp k c o hk _ _ hf; omega
  | succ f ih =>
    intro sp k c o hk hc ho hf
    obtain ⟨hvis, hsome, hnone⟩ :=
      putRun_spec g base H hH hv m0 (rd src (sp + 1)) (rd src sp + 1) k c o hk hc ho
    simp only [unkDecode8.loop]
    by_cases hlt : k + (rd src sp + 1) < 8 * H
    · obtain ⟨c1, e1, hc1⟩ := hsome hlt
      rw [Nat.min_eq_left (le_of_lt hlt)] at hvis
      generalize putRun g (↑H) (rd src (sp + 1)) (rd src sp + 1) c o = r at *
      obtain ⟨rc, ro⟩ := r
      simp only at e1 hvis
      subst e1
      simp only
      exact ih _ _ c1 ro hlt hc1 hvis (by omega)
    · have e1 := hnone hlt
      rw [Nat.min_eq_right (by omega)] at hvis
      generalize putRun g (↑H) (rd src (sp + 1)) (rd src sp + 1) c o = r at *
      obtain ⟨rc, ro⟩ := r
      simp only at e1 hvis
      subst e1
      exact ⟨ro, sp + 2, rfl, hvis⟩

theorem CurAt_init (g : Gdi) (base : Int) (H : Nat) :
    CurAt g base H 0 { dst := base, h := H, x := 8 } := by
  refine ⟨?_, ?_, ?_⟩ <;> simp [colAddr]

/-- `unkDecode8` returns once the fuel covers the `8 * height` pixels, having visited the
strip column by column. -/
theorem unkDecode8_visited (g : Gdi) (H : Nat) (hH : 0 < H)
    (hv : g.vertStripNextInc = H * g.screenWidth - 1) (fuel : Nat) (hf : 8 * H ≤ fuel)
    (m : Mem) (dst : Int) (src : Src) (sp : Nat) :
    ∃ o1 sp1, unkDecode8 g fuel m dst src sp H = some (o1, sp1) ∧
      Visited polPlain m (colAddr g dst H) (8 * H) o1 :=
  unkDecode8_loop_spec g dst H hH hv m src fuel sp 0 _ _ (by omega) (CurAt_init g dst H)
    (Visited_init _ _ _) (by omega)

theorem unkDecode7_old_spec (g : Gdi) (base : Int) (H : Nat) (hH : 0 < H)
    (hv : g.vertStripNextInc = H * g.screenWidth - 1) (m0 : Mem) (src : Src) (fuel : Nat) :
    ∀ (sp k : Nat) (c : Cur) (o : Out), k < 8 * H → CurAt g base H k c →
      Visited polPlain m0 (colAddr g base H) k o → 8 * H - k ≤ fuel →
      ∃ o1 sp1, unkDecode7.old g src H fuel sp c o = some (o1, sp1) ∧
        Visited polPlain m0 (colAddr g base H) (8 * H) o1 := by
  induction fuel with
  | zero => intro sp k c o hk _ _ hf; omega
  | succ f ih =>
    intro sp k c o hk hc ho hf
    have ho1 := Visited_store polPlain m0 (colAddr g base H) k o ho (rd src sp) (rd src sp) rfl
    rw [← hc.1] at ho1
    obtain ⟨hs, hn⟩ := NEXT_ROW_spec g base H hH hv k hk c hc
    simp only [unkDecode7.old]
    by_cases hk1 : k + 1 < 8 * H
    · obtain ⟨c1, e1, hc1⟩ := hs hk1
      rw [e1]
      exact ih _ _ c1 _ hk1 hc1 ho1 (by omega)
    · rw [hn hk1]
      have e : 8 * H = k + 1 := by omega
      rw [e]
      exact ⟨_, _, rfl, ho1⟩

theorem unkDecode10_loop_spec (g : Gdi) (base : Int) (H : Nat) (hH : 0 < H)
    (hv : g.vertStripNextInc = H * g.screenWidth - 1) (m0 : Mem) (src : Src) (numcolors : Nat)
    (pal : Nat → Nat) (fuel : Nat) :
    ∀ (sp k : Nat) (c : Cur) (o : Out), k < 8 * H → CurAt g base H k c →
      Visited polPlain m0 (colAddr g base H) k o → 8 * H - k ≤ fuel →
      ∃ o1 sp1, unkDecode10.loop g src H numcolors pal fuel sp c o = some (o1, sp1) ∧
        Visited polPlain m0 (colAddr g base H) (8 * H) o1 := by
  induction fuel with
  | zero => intro sp k c o hk _ _ hf; omega
  | succ f ih =>
    intro sp k c o hk hc ho hf
    simp only [unkDecode10.loop]
    split
    · have ho1 := Visited_store polPlain m0 (colAddr g base H) k o ho (pal (rd src sp))
        (pal (rd src sp)) rfl
      rw [← hc.1] at ho1
      obtain ⟨hs, hn⟩ := NEXT_ROW_spec g base H hH hv k hk c hc
      by_cases hk1 : k + 1 < 8 * H
      · obtain ⟨c1, e1, hc1⟩ := hs hk1
        rw [e1]
        exact ih _ _ c1 _ hk1 hc1 ho1 (by omega)
      · rw [hn hk1]
        have e : 8 * H = k + 1 := by omega
        rw [e]
        exact ⟨_, _, rfl, ho1⟩
    · obtain ⟨hvis, hsome, hnone⟩ :=
        putRun_spec g base H hH hv m0 (rd src (sp + 1)) (rd src sp - numcolors + 1) k c o hk hc ho
      by_cases hlt : k + (rd src sp - numcolors + 1) < 8 * H
      · obtain ⟨c1, e1, hc1⟩ := hsome hlt
        rw [Nat.min_eq_left (le_of_lt hlt)] at hvis
        generalize putRun g (↑H) (rd src (sp + 1)) (rd src sp - numcolors + 1) c o = r at *
        obtain ⟨rc, ro⟩ := r
        simp only at e1 hvis
        subst e1
        simp only
        exact ih _ _ c1 ro hlt hc1 hvis (by omega)
      · have e1 := hnone hlt
        rw [Nat.min_eq_right (by omega)] at hvis
        generalize putRun g (↑H) (rd src (sp + 1)) (rd src sp - numcolors + 1) c o = r at *
        obtain ⟨rc, ro⟩ := r
        simp only at e1 hvis
        subst e1
        exact ⟨ro, sp + 2, rfl, hvis⟩



theorem unkDecode9_lits_spec (g : Gdi) (base : Int) (H : Nat) (hH : 0 < H)
    (hv : g.vertStripNextInc = H * g.screenWidth - 1) (m0 : Mem) (src : Src) (run : Nat)
    (n : Nat) :
    ∀ (k : Nat) (r : Rd256) (c : Cur) (o : Out), k < 8 * H → CurAt g base H k c →
      Visited polPlain m0 (colAddr g base H) k o →
      Visited polPlain m0 (colAddr g base H) (min (k + n) (8 * H))
        (unkDecode9.lits g src H run n r c o).2 ∧
      (k + n < 8 * H → ∃ r1 c1, (unkDecode9.lits g src H run n r c o).1 = some (r1, c1) ∧
        CurAt g base H (k + n) c1) ∧
      (¬ k + n < 8 * H → (unkDecode9.lits g src H run n r c o).1 = none) := by
  induction n with
  | zero =>
    intro k r c o hk hc ho
    simp only [unkDecode9.lits, Nat.add_zero]
    rw [Nat.min_eq_left (le_of_lt hk)]
    exact ⟨ho, fun _ => ⟨r, c, rfl, hc⟩, fun h => absurd hk h⟩
  | succ n ih =>
    intro k r c o hk hc ho
    have ho1 := Visited_store polPlain m0 (colAddr g base H) k o ho
      ((run * 16 + (readBits256 src 4 0 0 r).1) % 256)
      ((run * 16 + (readBits256 src 4 0 0 r).1) % 256) rfl
    rw [← hc.1] at ho1
    obtain ⟨hs, hn⟩ := NEXT_ROW_spec g base H hH hv k hk c hc
    simp only [unkDecode9.lits]
    by_cases hk1 : k + 1 < 8 * H
    · obtain ⟨c1, e1, hc1⟩ := hs hk1
      rw [e1]
      simp only
      have := ih (k + 1) (readBits256 src 4 0 0 r).2 c1 _ hk1 hc1 ho1
      have e : k + 1 + n = k + (n + 1) := by omega
      rw [e] at this
      exact this
    · rw [hn hk1]
      simp only
      have e : min (k + (n + 1)) (8 * H) = k + 1 := by omega
      rw [e]
      exact ⟨ho1, fun h => by omega, fun _ => trivial⟩

theorem unkDecode9_loop_spec (g : Gdi) (base : Int) (H : Nat) (hH : 0 < H)
    (hv : g.vertStripNextInc = H * g.screenWidth - 1) (m0 : Mem) (src : Src) (fuel : Nat) :
    ∀ (r : Rd256) (run k : Nat) (c : Cur) (o : Out) (o1 : Out) (sp1 : Nat), k < 8 * H →
      CurAt g base H k c → Visited polPlain m0 (colAddr g base H) k o →
      unkDecode9.loop g src H fuel r run c o = some (o1, sp1) →
      Visited polPlain m0 (colAddr g base H) (8 * H) o1 := by
  induction fuel with
  | zero => intro r run k c o o1 sp1 _ _ _ h; simp [unkDecode9.loop] at h
  | succ f ih =>
    intro r run k c o o1 sp1 hk hc ho h
    simp only [unkDecode9.loop] at h
    split at h
    · obtain ⟨hvis, hsome, hnone⟩ := putRun_spec g base H hH hv m0
        ((run * 16 + (readBits256 src 4 0 0 (readBits256 src 4 0 0 r).2).1) % 256)
        (((readBits256 src 4 0 0 r).1 &&& 3) + 2) k c o hk hc ho
      generalize putRun g (↑H)
        ((run * 16 + (readBits256 src 4 0 0 (readBits256 src 4 0 0 r).2).1) % 256)
        (((readBits256 src 4 0 0 r).1 &&& 3) + 2) c o = t at *
      obtain ⟨tc, tq⟩ := t
      by_cases hlt : k + (((readBits256 src 4 0 0 r).1 &&& 3) + 2) < 8 * H
      · obtain ⟨c1, e1, hc1⟩ := hsome hlt
        rw [Nat.min_eq_left (le_of_lt hlt)] at hvis
        simp only at e1 hvis
        subst e1
        simp only at h
        exact ih _ _ _ c1 tq o1 sp1 hlt hc1 hvis h
      · have e1 := hnone hlt
        rw [Nat.min_eq_right (by omega)] at hvis
        simp only at e1 hvis
        subst e1
        simp only [Option.some.injEq, Prod.mk.injEq] at h
        rw [← h.1]
        exact hvis
    · split at h
      · obtain ⟨hvis, hsome, hnone⟩ := unkDecode9_lits_spec g base H hH hv m0 src run
          (((readBits256 src 4 0 0 r).1 &&& 3) + 1) k (readBits256 src 4 0 0 r).2 c o hk hc ho
        generalize unkDecode9.lits g src (↑H) run (((readBits256 src 4 0 0 r).1 &&& 3) + 1)
          (readBits256 src 4 0 0 r).2 c o = t at *
        obtain ⟨tc, tq⟩ := t
        by_cases hlt : k + (((readBits256 src 4 0 0 r).1 &&& 3) + 1) < 8 * H
        · obtain ⟨r1, c1, e1, hc1⟩ := hsome hlt
          rw [Nat.min_eq_left (le_of_lt hlt)] at hvis
          simp only at e1 hvis
          subst e1
          simp only at h
          exact ih _ _ _ c1 tq o1 sp1 hlt hc1 hvis h
        · have e1 := hnone hlt
          rw [Nat.min_eq_right (by omega)] at hvis
          simp only at e1 hvis
          subst e1
          simp only [Option.some.injEq, Prod.mk.injEq] at h
          rw [← h.1]
          exact hvis
      · split at h
        · exact ih _ _ _ c o o1 sp1 hk hc ho h
        · exact ih _ _ _ c o o1 sp1 hk hc ho h

/-- Whenever `unkDecode9` returns, it has visited the strip column by column. -/
theorem unkDecode9_visited (g : Gdi) (H : Nat) (hH : 0 < H)
    (hv : g.vertStripNextInc = H * g.screenWidth - 1) (fuel : Nat) (m : Mem) (dst : Int)
    (src : Src) (sp : Nat) (o1 : Out) (sp1 : Nat)
    (h : unkDecode9 g fuel m dst src sp H = some (o1, sp1)) :
    Visited polPlain m (colAddr g dst H) (8 * H) o1 :=
  unkDecode9_loop_spec g dst H hH hv m src fuel _ _ 0 _ _ o1 sp1 (by omega) (CurAt_init g dst H)
    (Visited_init _ _ _) h

/-- `unkDecode7` returns once the fuel covers the `8 * height` pixels; with `GF_OLD256` it
has visited the strip column by column. -/
theorem unkDecode7_old_visited (g : Gdi) (hold : g.featOld256 = true) (H : Nat) (hH : 0 < H)
    (hv : g.vertStripNextInc = H * g.screenWidth - 1) (fuel : Nat) (hf : 8 * H ≤ fuel)
    (m : Mem) (dst : Int) (src : Src) (sp : Nat) :
    ∃ o1 sp1, unkDecode7 g fuel m dst src sp H = some (o1, sp1) ∧
      Visited polPlain m (colAddr g dst H) (8 * H) o1 := by
  unfold unkDecode7
  rw [if_pos hold]
  exact unkDecode7_old_spec g dst H hH hv m src fuel sp 0 _ _ (by omega) (CurAt_init g dst H)
    (Visited_init _ _ _) (by omega)

/-- `unkDecode10` returns once the fuel covers the `8 * height` pixels, having visited the
strip column by column. -/
theorem unkDecode10_visited (g : Gdi) (H : Nat) (hH : 0 < H)
    (hv : g.vertStripNextInc = H * g.screenWidth - 1) (fuel : Nat) (hf : 8 * H ≤ fuel)
    (m : Mem) (dst : Int) (src : Src) (sp : Nat) :
    ∃ o1 sp1, unkDecode10 g fuel m dst src sp H = some (o1, sp1) ∧
      Visited polPlain m (colAddr g dst H) (8 * H) o1 :=
  unkDecode10_loop_spec g dst H hH hv m src _ _ fuel _ 0 _ _ (by omega) (CurAt_init g dst H)
    (Visited_init _ _ _) (by omega)



theorem unkDecodeC_col_spec (g : Gdi) (src : Src) (m0 : Mem) (addr : Nat → Int) (n : Nat) :
    ∀ (s : BSt) (dst : Int) (o : Out) (k : Nat), Visited (polBase g) m0 addr k o →
      (∀ j : Nat, j < n → addr (k + j) = dst + j * g.screenWidth) →
      Visited (polBase g) m0 addr (k + n) (unkDecodeC.col g src n s dst o).2.2 ∧
        (unkDecodeC.col g src n s dst o).2.1 = dst + n * g.screenWidth := by
  induction n with
  | zero =>
    intro s dst o k ho _
    simp only [unkDecodeC.col, Nat.add_zero]
    exact ⟨ho, by simp⟩
  | succ n ih =>
    intro s dst o k ho ha
    have h0 : addr k = dst := by simpa using ha 0 (Nat.succ_pos n)
    have ho1 := Visited_store (polBase g) m0 addr k o ho s.color ((s.color + g.palette_mod) % 256) rfl
    rw [h0] at ho1
    simp only [unkDecodeC.col]
    obtain ⟨h1, h2⟩ := ih (unkDecodeC.ctl g src { s with rd := FILL_BITS src s.rd }) (dst + g.screenWidth) _ (k + 1) ho1 (by
      intro j hj
      have := ha (j + 1) (by omega)
      rw [show k + 1 + j = k + (j + 1) by omega, this]
      push_cast; ring)
    rw [show k + (n + 1) = k + 1 + n by omega]
    refine ⟨h1, ?_⟩
    rw [h2]; push_cast; ring

theorem unkDecodeC_cols_spec (g : Gdi) (src : Src) (m0 : Mem) (base : Int) (H : Nat)
    (hv : g.vertStripNextInc = H * g.screenWidth - 1) (x : Nat) :
    ∀ (s : BSt) (dst : Int) (o : Out) (q : Nat),
      Visited (polBase g) m0 (colAddr g base H) (H * q) o → dst = base + q →
      Visited (polBase g) m0 (colAddr g base H) (H * (q + x)) (unkDecodeC.cols g src H x s dst o).2 := by
  induction x with
  | zero => intro s dst o q ho _; simpa [unkDecodeC.cols] using ho
  | succ x ih =>
    intro s dst o q ho hd
    simp only [unkDecodeC.cols]
    obtain ⟨h1, h2⟩ := unkDecodeC_col_spec g src m0 (colAddr g base H) H s dst o (H * q) ho (by
      intro j hj
      obtain ⟨e1, e2⟩ := divmod_of_eq H (H * q + j) q j hj rfl
      simp only [colAddr, e1, e2, hd]; ring)
    have := ih (unkDecodeC.col g src H s dst o).1 ((unkDecodeC.col g src H s dst o).2.1 - g.vertStripNextInc)
      (unkDecodeC.col g src H s dst o).2.2 (q + 1)
      (by rw [show H * (q + 1) = H * q + H by ring]; exact h1)
      (by rw [h2, hv, hd]; push_cast; ring)
    rw [show q + (x + 1) = q + 1 + x by omega]
    exact this

theorem unkDecodeC_trans_col_spec (g : Gdi) (src : Src) (m0 : Mem) (addr : Nat → Int) (n : Nat) :
    ∀ (s : BSt) (dst : Int) (o : Out) (k : Nat), Visited (polTrans g) m0 addr k o →
      (∀ j : Nat, j < n → addr (k + j) = dst + j * g.screenWidth) →
      Visited (polTrans g) m0 addr (k + n) (unkDecodeC_trans.col g src n s dst o).2.2 ∧
        (unkDecodeC_trans.col g src n s dst o).2.1 = dst + n * g.screenWidth := by
  induction n with
  | zero =>
    intro s dst o k ho _
    simp only [unkDecodeC_trans.col, Nat.add_zero]
    exact ⟨ho, by simp⟩
  | succ n ih =>
    intro s dst o k ho ha
    have h0 : addr k = dst := by simpa using ha 0 (Nat.succ_pos n)
    have ho1 := Visited_storeUnlessTransparent g m0 addr k o ho s.color
    rw [h0] at ho1
    simp only [unkDecodeC_trans.col]
    obtain ⟨h1, h2⟩ := ih (unkDecodeC_trans.ctl g src { s with rd := FILL_BITS src s.rd }) (dst + g.screenWidth) _ (k + 1) ho1 (by
      intro j hj
      have := ha (j + 1) (by omega)
      rw [show k + 1 + j = k + (j + 1) by omega, this]
      push_cast; ring)
    rw [show k + (n + 1) = k + 1 + n by omega]
    refine ⟨h1, ?_⟩
    rw [h2]; push_cast; ring

theorem unkDecodeC_trans_cols_spec (g : Gdi) (src : Src) (m0 : Mem) (base : Int) (H : Nat)
    (hv : g.vertStripNextInc = H * g.screenWidth - 1) (x : Nat) :
    ∀ (s : BSt) (dst : Int) (o : Out) (q : Nat),
      Visited (polTrans g) m0 (colAddr g base H) (H * q) o → dst = base + q →
      Visited (polTrans g) m0 (colAddr g base H) (H * (q + x)) (unkDecodeC_trans.cols g src H x s dst o).2 := by
  induction x with
  | zero => intro s dst o q ho _; simpa [unkDecodeC_trans.cols] using ho
  | succ x ih =>
    intro s dst o q ho hd
    simp only [unkDecodeC_trans.cols]
    obtain ⟨h1, h2⟩ := unkDecodeC_trans_col_spec g src m0 (colAddr g base H) H s dst o (H * q) ho (by
      intro j hj
      obtain ⟨e1, e2⟩ := divmod_of_eq H (H * q + j) q j hj rfl
      simp only [colAddr, e1, e2, hd]; ring)
    have := ih (unkDecodeC_trans.col g src H s dst o).1 ((unkDecodeC_trans.col g src H s dst o).2.1 - g.vertStripNextInc)
      (unkDecodeC_trans.col g src H s dst o).2.2 (q + 1)
      (by rw [show H * (q + 1) = H * q + H by ring]; exact h1)
      (by rw [h2, hv, hd]; push_cast; ring)
    rw [show q + (x + 1) = q + 1 + x by omega]
    exact this

theorem unkDecode11_col_spec (g : Gdi) (src : Src) (m0 : Mem) (addr : Nat → Int) (n : Nat) :
    ∀ (s : St11) (dst : Int) (o : Out) (k : Nat), Visited (polPlain) m0 addr k o →
      (∀ j : Nat, j < n → addr (k + j) = dst + j * g.screenWidth) →
      Visited (polPlain) m0 addr (k + n) (unkDecode11.col g src n s dst o).2.2 ∧
        (unkDecode11.col g src n s dst o).2.1 = dst + n * g.screenWidth := by
  induction n with
  | zero =>
    intro s dst o k ho _
    simp only [unkDecode11.col, Nat.add_zero]
    exact ⟨ho, by simp⟩
  | succ n ih =>
    intro s dst o k ho ha
    have h0 : addr k = dst := by simpa using ha 0 (Nat.succ_pos n)
    have ho1 := Visited_store polPlain m0 addr k o ho s.color s.color rfl
    rw [h0] at ho1
    simp only [unkDecode11.col]
    obtain ⟨h1, h2⟩ := ih (unkDecode11.ctl src s) (dst + g.screenWidth) _ (k + 1) ho1 (by
      intro j hj
      have := ha (j + 1) (by omega)
      rw [show k + 1 + j = k + (j + 1) by omega, this]
      push_cast; ring)
    rw [show k + (n + 1) = k + 1 + n by omega]
    refine ⟨h1, ?_⟩
    rw [h2]; push_cast; ring

theorem unkDecode11_cols_spec (g : Gdi) (src : Src) (m0 : Mem) (base : Int) (H : Nat)
    (hv : g.vertStripNextInc = H * g.screenWidth - 1) (x : Nat) :
    ∀ (s : St11) (dst : Int) (o : Out) (q : Nat),
      Visited (polPlain) m0 (colAddr g base H) (H * q) o → dst = base + q →
      Visited (polPlain) m0 (colAddr g base H) (H * (q + x)) (unkDecode11.cols g src H x s dst o).2 := by
  induction x with
  | zero => intro s dst o q ho _; simpa [unkDecode11.cols] using ho
  | succ x ih =>
    intro s dst o q ho hd
    simp only [unkDecode11.cols]
    obtain ⟨h1, h2⟩ := unkDecode11_col_spec g src m0 (colAddr g base H) H s dst o (H * q) ho (by
      intro j hj
      obtain ⟨e1, e2⟩ := divmod_of_eq H (H * q + j) q j hj rfl
      simp only [colAddr, e1, e2, hd]; ring)
    have := ih (unkDecode11.col g src H s dst o).1 ((unkDecode11.col g src H s dst o).2.1 - g.vertStripNextInc)
      (unkDecode11.col g src H s dst o).2.2 (q + 1)
      (by rw [show H * (q + 1) = H * q + H by ring]; exact h1)
      (by rw [h2, hv, hd]; push_cast; ring)
    rw [show q + (x + 1) = q + 1 + x by omega]
    exact this

theorem unkDecodeB_row_spec (g : Gdi) (src : Src) (m0 : Mem) (addr : Nat → Int) (n : Nat) :
    ∀ (s : BSt) (dst : Int) (o : Out) (k : Nat), Visited (polBase g) m0 addr k o →
      (∀ j : Nat, j < n → addr (k + j) = dst + j) →
      Visited (polBase g) m0 addr (k + n) (unkDecodeB.row g src n s dst o).2.2 ∧
        (unkDecodeB.row g src n s dst o).2.1 = dst + n := by
  induction n with
  | zero =>
    intro s dst o k ho _
    simp only [unkDecodeB.row, Nat.add_zero]
    exact ⟨ho, by simp⟩
  | succ n ih =>
    intro s dst o k ho ha
    have h0 : addr k = dst := by simpa using ha 0 (Nat.succ_pos n)
    have ho1 := Visited_store (polBase g) m0 addr k o ho s.color ((s.color + g.palette_mod) % 256) rfl
    rw [h0] at ho1
    simp only [unkDecodeB.row]
    obtain ⟨h1, h2⟩ := ih (unkDecodeB.ctl g src { s with rd := FILL_BITS src s.rd }) (dst + 1) _ (k + 1) ho1 (by
      intro j hj
      have := ha (j + 1) (by omega)
      rw [show k + 1 + j = k + (j + 1) by omega, this]
      push_cast; ring)
    rw [show k + (n + 1) = k + 1 + n by omega]
    refine ⟨h1, ?_⟩
    rw [h2]; push_cast; ring

theorem unkDecodeB_rows_spec (g : Gdi) (src : Src) (m0 : Mem) (base : Int) (h : Nat) :
    ∀ (s : BSt) (dst : Int) (o : Out) (r : Nat),
      Visited (polBase g) m0 (rowAddr g base) (8 * r) o → dst = base + r * g.screenWidth →
      Visited (polBase g) m0 (rowAddr g base) (8 * (r + h)) (unkDecodeB.rows g src h s dst o).2 := by
  induction h with
  | zero => intro s dst o r ho _; simpa [unkDecodeB.rows] using ho
  | succ h ih =>
    intro s dst o r ho hd
    simp only [unkDecodeB.rows]
    obtain ⟨h1, h2⟩ := unkDecodeB_row_spec g src m0 (rowAddr g base) 8 s dst o (8 * r) ho (by
      intro j hj
      have e1 : (8 * r + j) / 8 = r := by omega
      have e2 : (8 * r + j) % 8 = j := by omega
      simp only [rowAddr, e1, e2, hd])
    have := ih (unkDecodeB.row g src 8 s dst o).1 ((unkDecodeB.row g src 8 s dst o).2.1 + g.screenWidth - 8)
      (unkDecodeB.row g src 8 s dst o).2.2 (r + 1)
      (by rw [show 8 * (r + 1) = 8 * r + 8 by ring]; exact h1)
      (by rw [h2, hd]; push_cast; ring)
    rw [show r + (h + 1) = r + 1 + h by omega]
    exact this

theorem unkDecodeB_trans_row_spec (g : Gdi) (src : Src) (m0 : Mem) (addr : Nat → Int) (n : Nat) :
    ∀ (s : BSt) (dst : Int) (o : Out) (k : Nat), Visited (polTrans g) m0 addr k o →
      (∀ j : Nat, j < n → addr (k + j) = dst + j) →
      Visited (polTrans g) m0 addr (k + n) (unkDecodeB_trans.row g src n s dst o).2.2 ∧
        (unkDecodeB_trans.row g src n s dst o).2.1 = dst + n := by
  induction n with
  | zero =>
    intro s dst o k ho _
    simp only [unkDecodeB_trans.row, Nat.add_zero]
    exact ⟨ho, by simp⟩
  | succ n ih =>
    intro s dst o k ho ha
    have h0 : addr k = dst := by simpa using ha 0 (Nat.succ_pos n)
    have ho1 := Visited_storeUnlessTransparent g m0 addr k o ho s.color
    rw [h0] at ho1
    simp only [unkDecodeB_trans.row]
    obtain ⟨h1, h2⟩ := ih (unkDecodeB_trans.ctl g src { s with rd := FILL_BITS src s.rd }) (dst + 1) _ (k + 1) ho1 (by
      intro j hj
      have := ha (j + 1) (by omega)
      rw [show k + 1 + j = k + (j + 1) by omega, this]
      push_cast; ring)
    rw [show k + (n + 1) = k + 1 + n by omega]
    refine ⟨h1, ?_⟩
    rw [h2]; push_cast; ring

theorem unkDecodeB_trans_rows_spec (g : Gdi) (src : Src) (m0 : Mem) (base : Int) (h : Nat) :
    ∀ (s : BSt) (dst : Int) (o : Out) (r : Nat),
      Visited (polTrans g) m0 (rowAddr g base) (8 * r) o → dst = base + r * g.screenWidth →
      Visited (polTrans g) m0 (rowAddr g base) (8 * (r + h)) (unkDecodeB_trans.rows g src h s dst o).2 := by
  induction h with
  | zero => intro s dst o r ho _; simpa [unkDecodeB_trans.rows] using ho
  | succ h ih =>
    intro s dst o r ho hd
    simp only [unkDecodeB_trans.rows]
    obtain ⟨h1, h2⟩ := unkDecodeB_trans_row_spec g src m0 (rowAddr g base) 8 s dst o (8 * r) ho (by
      intro j hj
      have e1 : (8 * r + j) / 8 = r := by omega
      have e2 : (8 * r + j) % 8 = j := by omega
      simp only [rowAddr, e1, e2, hd])
    have := ih (unkDecodeB_trans.row g src 8 s dst o).1 ((unkDecodeB_trans.row g src 8 s dst o).2.1 + g.screenWidth - 8)
      (unkDecodeB_trans.row g src 8 s dst o).2.2 (r + 1)
      (by rw [show 8 * (r + 1) = 8 * r + 8 by ring]; exact h1)
      (by rw [h2, hd]; push_cast; ring)
    rw [show r + (h + 1) = r + 1 + h by omega]
    exact this

theorem unkDecode7_copy8_spec (src : Src) (m0 : Mem) (addr : Nat → Int) (sp : Nat) (dst : Int)
    (o : Out) (k : Nat) (ho : Visited polPlain m0 addr k o)
    (ha : ∀ j : Nat, j < 8 → addr (k + j) = dst + j) :
    Visited polPlain m0 addr (k + 8) (unkDecode7.copy8 src sp dst o) := by
  have a0 : addr k = dst := by simpa using ha 0 (by omega)
  have a1 : addr (k + 1) = dst + 1 := by simpa using ha 1 (by omega)
  have a2 : addr (k + 1 + 1) = dst + 2 := by simpa using ha 2 (by omega)
  have a3 : addr (k + 1 + 1 + 1) = dst + 3 := by simpa using ha 3 (by omega)
  have a4 : addr (k + 1 + 1 + 1 + 1) = dst + 4 := by simpa using ha 4 (by omega)
  have a5 : addr (k + 1 + 1 + 1 + 1 + 1) = dst + 5 := by simpa using ha 5 (by omega)
  have a6 : addr (k + 1 + 1 + 1 + 1 + 1 + 1) = dst + 6 := by simpa using ha 6 (by omega)
  have a7 : addr (k + 1 + 1 + 1 + 1 + 1 + 1 + 1) = dst + 7 := by simpa using ha 7 (by omega)
  have h0 := Visited_store polPlain m0 addr _ _ ho (rd src sp) (rd src sp) rfl
  rw [a0] at h0
  have h1 := Visited_store polPlain m0 addr _ _ h0 (rd src (sp + 1)) (rd src (sp + 1)) rfl
  rw [a1] at h1
  have h2 := Visited_store polPlain m0 addr _ _ h1 (rd src (sp + 2)) (rd src (sp + 2)) rfl
  rw [a2] at h2
  have h3 := Visited_store polPlain m0 addr _ _ h2 (rd src (sp + 3)) (rd src (sp + 3)) rfl
  rw [a3] at h3
  have h4 := Visited_store polPlain m0 addr _ _ h3 (rd src (sp + 4)) (rd src (sp + 4)) rfl
  rw [a4] at h4
  have h5 := Visited_store polPlain m0 addr _ _ h4 (rd src (sp + 5)) (rd src (sp + 5)) rfl
  rw [a5] at h5
  have h6 := Visited_store polPlain m0 addr _ _ h5 (rd src (sp + 6)) (rd src (sp + 6)) rfl
  rw [a6] at h6
  have h7 := Visited_store polPlain m0 addr _ _ h6 (rd src (sp + 7)) (rd src (sp + 7)) rfl
  rw [a7] at h7
  exact h7

theorem unkDecode7_rows_spec (g : Gdi) (src : Src) (m0 : Mem) (base : Int) (h : Nat) :
    ∀ (sp : Nat) (dst : Int) (o : Out) (r : Nat),
      Visited polPlain m0 (rowAddr g base) (8 * r) o → dst = base + r * g.screenWidth →
      Visited polPlain m0 (rowAddr g base) (8 * (r + h)) (unkDecode7.rows g src h sp dst o).1 := by
  induction h with
  | zero => intro sp dst o r ho _; simpa [unkDecode7.rows] using ho
  | succ h ih =>
    intro sp dst o r ho hd
    simp only [unkDecode7.rows]
    have h1 := unkDecode7_copy8_spec src m0 (rowAddr g base) sp dst o (8 * r) ho (by
      intro j hj
      have e1 : (8 * r + j) / 8 = r := by omega
      have e2 : (8 * r + j) % 8 = j := by omega
      simp only [rowAddr, e1, e2, hd])
    have := ih (sp + 8) (dst + g.screenWidth) _ (r + 1)
      (by rw [show 8 * (r + 1) = 8 * r + 8 by ring]; exact h1)
      (by rw [hd]; push_cast; ring)
    rw [show r + (h + 1) = r + 1 + h by omega]
    exact this

/-- Without `GF_OLD256`, `unkDecode7` visits the strip row by row. -/
theorem unkDecode7_new_visited (g : Gdi) (hold : g.featOld256 = false) (H : Nat) (fuel : Nat)
    (m : Mem) (dst : Int) (src : Src) (sp : Nat) :
    ∃ o1 sp1, unkDecode7 g fuel m dst src sp H = some (o1, sp1) ∧
      Visited polPlain m (rowAddr g dst) (8 * H) o1 := by
  unfold unkDecode7
  rw [hold]
  refine ⟨_, _, rfl, ?_⟩
  have := unkDecode7_rows_spec g src m dst H sp dst { mem := m, log := [] } 0
    (Visited_init _ _ _) (by simp)
  simpa using this

/-- `unkDecode11` visits the strip column by column. -/
theorem unkDecode11_visited (g : Gdi) (H : Nat)
    (hv : g.vertStripNextInc = H * g.screenWidth - 1) (m : Mem) (dst : Int) (src : Src)
    (sp : Nat) :
    Visited polPlain m (colAddr g dst H) (8 * H) (unkDecode11 g m dst src sp H).2 := by
  have := unkDecode11_cols_spec g src m dst H hv 8 { rd := { sp := sp + 1, buffer := 0, mask := 128 }, color := rd src sp, inc := 1 } dst { mem := m, log := [] } 0
    (Visited_init _ _ _) (by simp)
  rw [show H * (0 + 8) = 8 * H by ring] at this
  exact this

/-- `unkDecodeC` visits the strip column by column. -/
theorem unkDecodeC_visited (g : Gdi) (H : Nat)
    (hv : g.vertStripNextInc = H * g.screenWidth - 1) (m : Mem) (dst : Int) (src : Src)
    (sp : Nat) :
    Visited (polBase g) m (colAddr g dst H) (8 * H) (unkDecodeC g m dst src sp H).2 := by
  have := unkDecodeC_cols_spec g src m dst H hv 8 { rd := { sp := sp + 2, bits := rd src (sp + 1), cl := 8 }, color := rd src sp, inc := -1 } dst { mem := m, log := [] } 0
    (Visited_init _ _ _) (by simp)
  rw [show H * (0 + 8) = 8 * H by ring] at this
  exact this

/-- `unkDecodeC_trans` visits the strip column by column. -/
theorem unkDecodeC_trans_visited (g : Gdi) (H : Nat)
    (hv : g.vertStripNextInc = H * g.screenWidth - 1) (m : Mem) (dst : Int) (src : Src)
    (sp : Nat) :
    Visited (polTrans g) m (colAddr g dst H) (8 * H) (unkDecodeC_trans g m dst src sp H).2 := by
  have := unkDecodeC_trans_cols_spec g src m dst H hv 8 { rd := { sp := sp + 2, bits := rd src (sp + 1), cl := 8 }, color := rd src sp, inc := -1 } dst { mem := m, log := [] } 0
    (Visited_init _ _ _) (by simp)
  rw [show H * (0 + 8) = 8 * H by ring] at this
  exact this

/-- `unkDecodeB` visits the strip row by row. -/
theorem unkDecodeB_visited (g : Gdi) (H : Nat) (m : Mem) (dst : Int) (src : Src) (sp : Nat) :
    Visited (polBase g) m (rowAddr g dst) (8 * H) (unkDecodeB g m dst src sp H).2 := by
  have := unkDecodeB_rows_spec g src m dst H { rd := { sp := sp + 2, bits := rd src (sp + 1), cl := 8 }, color := rd src sp, inc := -1 } dst { mem := m, log := [] } 0
    (Visited_init _ _ _) (by simp)
  simpa using this

/-- `unkDecodeB_trans` visits the strip row by row. -/
theorem unkDecodeB_trans_visited (g : Gdi) (H : Nat) (m : Mem) (dst : Int) (src : Src)
    (sp : Nat) :
    Visited (polTrans g) m (rowAddr g dst) (8 * H) (unkDecodeB_trans g m dst src sp H).2 := by
  have := unkDecodeB_trans_rows_spec g src m dst H { rd := { sp := sp + 2, bits := rd src (sp + 1), cl := 8 }, color := rd src sp, inc := -1 } dst { mem := m, log := [] } 0
    (Visited_init _ _ _) (by simp)
  simpa using this



theorem ADirtyAt_congr {g : Gdi} {pol : Nat → Option Nat} {m0 : Mem} {base : Int} {H j : Nat}
    {s s1 : ASt} (h : ADirtyAt g pol m0 base H j s) (h1 : s1.dst = s.dst) (h2 : s1.x = s.x)
    (h3 : s1.height = s.height) (h4 : s1.out = s.out) : ADirtyAt g pol m0 base H j s1 := by
  unfold ADirtyAt at *
  rw [h1, h2, h3, h4]
  exact h

theorem rowAddr_succ_of_lt (g : Gdi) (base : Int) (j : Nat) (h : j % 8 ≠ 7) :
    rowAddr g base (j + 1) = rowAddr g base j + 1 := by
  have e1 : (j + 1) / 8 = j / 8 := by omega
  have e2 : (j + 1) % 8 = j % 8 + 1 := by omega
  simp only [rowAddr, e1, e2]; push_cast; ring

theorem rowAddr_succ_of_eq (g : Gdi) (base : Int) (j : Nat) (h : j % 8 = 7) :
    rowAddr g base (j + 1) = rowAddr g base j + g.screenWidth - 8 + 1 := by
  have e1 : (j + 1) / 8 = j / 8 + 1 := by omega
  have e2 : (j + 1) % 8 = 0 := by omega
  simp only [rowAddr, e1, e2, h]; push_cast; ring

theorem unkDecodeA_run_spec (g : Gdi) (m0 : Mem) (base : Int) (H : Nat) (n : Nat) :
    ∀ (s : ASt) (j : Nat), ADirtyAt g (polBase g) m0 base H j s →
      ((unkDecodeA.run g n s).1 = false → ADirtyAt g (polBase g) m0 base H (j + n) (unkDecodeA.run g n s).2) ∧
      ((unkDecodeA.run g n s).1 = true →
        Visited (polBase g) m0 (rowAddr g base) (8 * H) (unkDecodeA.run g n s).2.out) := by
  induction n with
  | zero =>
    intro s j hd
    simp only [unkDecodeA.run, Nat.add_zero]
    exact ⟨fun _ => hd, fun h => by simp at h⟩
  | succ n ih =>
    intro s j hd
    obtain ⟨hj, hdst, hx, hh, hvis⟩ := hd
    simp only [unkDecodeA.run]
    by_cases h7 : j % 8 = 7
    · have hx1 : s.x - 1 = 0 := by rw [hx, h7]; norm_num
      rw [if_pos hx1]
      by_cases hlast : j + 1 < 8 * H
      · have hne : ¬ (s.height - 1 = 0) := by rw [hh]; omega
        rw [if_neg hne]
        have hv1 := Visited_store (polBase g) m0 (rowAddr g base) (j + 1) s.out hvis s.color ((s.color + g.palette_mod) % 256) rfl
        have ea : rowAddr g base (j + 1) = s.dst + g.screenWidth - 8 := by
          rw [rowAddr_succ_of_eq g base j h7, hdst]; ring
        rw [ea] at hv1
        have hd1 : ADirtyAt g (polBase g) m0 base H (j + 1)
            { s with x := 8, dst := s.dst + g.screenWidth - 8 + 1, height := s.height - 1,
                     out := s.out.store (s.dst + g.screenWidth - 8) s.color ((s.color + g.palette_mod) % 256) } := by
          refine ⟨hlast, ?_, ?_, ?_, hv1⟩
          · simp only
            rw [rowAddr_succ_of_eq g base j h7, hdst]; ring
          · simp only
            have : (j + 1) % 8 = 0 := by omega
            rw [this]; norm_num
          · simp only
            rw [hh]
            have : (j + 1) / 8 = j / 8 + 1 := by omega
            rw [this]; push_cast; ring
        have := ih _ (j + 1) hd1
        rw [show j + (n + 1) = j + 1 + n by omega]
        exact this
      · have he : s.height - 1 = 0 := by rw [hh]; omega
        rw [if_pos he]
        simp only
        refine ⟨fun h => by simp at h, fun _ => ?_⟩
        have : 8 * H = j + 1 := by omega
        rw [this]
        exact hvis
    · have hx1 : ¬ (s.x - 1 = 0) := by rw [hx]; omega
      rw [if_neg hx1]
      have hlt : j + 1 < 8 * H := by omega
      have hv1 := Visited_store (polBase g) m0 (rowAddr g base) (j + 1) s.out hvis s.color ((s.color + g.palette_mod) % 256) rfl
      rw [rowAddr_succ_of_lt g base j h7, ← hdst] at hv1
      have hd1 : ADirtyAt g (polBase g) m0 base H (j + 1)
          { s with x := s.x - 1, dst := s.dst + 1, out := s.out.store s.dst s.color ((s.color + g.palette_mod) % 256) } := by
        refine ⟨hlt, ?_, ?_, ?_, hv1⟩
        · simp only
          rw [rowAddr_succ_of_lt g base j h7, hdst]
        · simp only
          rw [hx]
          have : (j + 1) % 8 = j % 8 + 1 := by omega
          rw [this]; push_cast; ring
        · simp only
          rw [hh]
          have : (j + 1) / 8 = j / 8 := by omega
          rw [this]
      have := ih _ (j + 1) hd1
      rw [show j + (n + 1) = j + 1 + n by omega]
      exact this

theorem unkDecodeA_againPos_spec (g : Gdi) (src : Src) (m0 : Mem) (base : Int) (H : Nat)
    (fuel : Nat) :
    ∀ (s : ASt) (j : Nat), ADirtyAt g (polBase g) m0 base H j s → 8 * H - j ≤ fuel →
      ∃ b s1, unkDecodeA.againPos g src fuel s = some (b, s1) ∧
        (b = true → Visited (polBase g) m0 (rowAddr g base) (8 * H) s1.out) ∧
        (b = false → ∃ j1, j ≤ j1 ∧ ADirtyAt g (polBase g) m0 base H j1 s1) := by
  induction fuel with
  | zero =>
    intro s j hd hf
    have := hd.1
    omega
  | succ f ih =>
    intro s j hd hf
    simp only [unkDecodeA.againPos]
    split
    · exact ⟨false, _, rfl, fun h => by simp at h, fun _ => ⟨j, le_refl _, ADirtyAt_congr hd rfl rfl rfl rfl⟩⟩
    · split
      · exact ⟨false, _, rfl, fun h => by simp at h, fun _ => ⟨j, le_refl _, ADirtyAt_congr hd rfl rfl rfl rfl⟩⟩
      · split
        · exact ⟨false, _, rfl, fun h => by simp at h, fun _ => ⟨j, le_refl _, ADirtyAt_congr hd rfl rfl rfl rfl⟩⟩
        · generalize hr4 : FILL_BITS src
            { sp := (READ_BIT (READ_BIT s.rd).2).2.sp,
              bits := (READ_BIT (READ_BIT s.rd).2).2.bits >>> 3,
              cl := subByte (READ_BIT (READ_BIT s.rd).2).2.cl 3 } = r4
          have hp := passes_pos (r4.bits &&& 0xFF)
          obtain ⟨hf1, ht1⟩ := unkDecodeA_run_spec g m0 base H (passes (r4.bits &&& 0xFF))
            { s with rd := r4 } j (ADirtyAt_congr hd rfl rfl rfl rfl)
          generalize unkDecodeA.run g (passes (r4.bits &&& 0xFF)) { s with rd := r4 } = t at *
          obtain ⟨tb, ts⟩ := t
          cases tb with
          | true =>
            simp only [if_true]
            exact ⟨true, ts, rfl, fun _ => ht1 rfl, fun h => by simp at h⟩
          | false =>
            simp only [Bool.false_eq_true, if_false]
            have hd2 := hf1 rfl
            simp only at hd2
            have hlt := hd2.1
            have key : ∀ r5 : BitRd, ∃ b s1,
                unkDecodeA.againPos g src f { ts with rd := r5 } = some (b, s1) ∧
                (b = true → Visited (polBase g) m0 (rowAddr g base) (8 * H) s1.out) ∧
                (b = false → ∃ j1, j + passes (r4.bits &&& 0xFF) ≤ j1 ∧
                  ADirtyAt g (polBase g) m0 base H j1 s1) :=
              fun r5 => ih { ts with rd := r5 } (j + passes (r4.bits &&& 0xFF))
                (ADirtyAt_congr hd2 rfl rfl rfl rfl) (by omega)
            obtain ⟨b, s1, e, hb1, hb2⟩ := key _
            refine ⟨b, s1, e, hb1, fun hb => ?_⟩
            obtain ⟨j1, hj1, hd3⟩ := hb2 hb
            exact ⟨j1, by omega, hd3⟩

theorem unkDecodeA_pixels_spec (g : Gdi) (src : Src) (m0 : Mem) (base : Int) (H : Nat)
    (fuel : Nat) :
    ∀ (s : ASt) (k : Nat), ACleanAt g (polBase g) m0 base H k s → 8 * H - k ≤ fuel →
      ∃ s1, unkDecodeA.pixels g src fuel s = some s1 ∧
        Visited (polBase g) m0 (rowAddr g base) (8 * H) s1.out := by
  induction fuel with
  | zero =>
    intro s k hc hf
    have := hc.1
    omega
  | succ f ih =>
    intro s k hc hf
    obtain ⟨hk, hdst, hx, hh, hvis⟩ := hc
    have hv1 := Visited_store (polBase g) m0 (rowAddr g base) k s.out hvis s.color ((s.color + g.palette_mod) % 256) rfl
    rw [← hdst] at hv1
    have hd1 : ADirtyAt g (polBase g) m0 base H k
        { s with rd := FILL_BITS src s.rd, dst := s.dst + 1, out := s.out.store s.dst s.color ((s.color + g.palette_mod) % 256) } :=
      ⟨hk, by simp only; rw [hdst], hx, hh, hv1⟩
    obtain ⟨b, s2, e, hb1, hb2⟩ := unkDecodeA_againPos_spec g src m0 base H (f + 1) _ k hd1 hf
    simp only [unkDecodeA.pixels]
    rw [e]
    cases b with
    | true => exact ⟨s2, rfl, hb1 rfl⟩
    | false =>
      simp only
      obtain ⟨j, hkj, hj, hdst2, hx2, hh2, hvis2⟩ := hb2 rfl
      by_cases h7 : j % 8 = 7
      · have hx1 : ¬ (s2.x - 1 ≠ 0) := by rw [hx2, h7]; norm_num
        rw [if_neg hx1]
        by_cases hlast : j + 1 < 8 * H
        · have hne : s2.height - 1 ≠ 0 := by rw [hh2]; omega
          rw [if_pos hne]
          apply ih _ (j + 1) _ (by omega)
          refine ⟨hlast, ?_, ?_, ?_, hvis2⟩
          · simp only
            rw [rowAddr_succ_of_eq g base j h7, hdst2]; ring
          · simp only
            have : (j + 1) % 8 = 0 := by omega
            rw [this]; norm_num
          · simp only
            rw [hh2]
            have : (j + 1) / 8 = j / 8 + 1 := by omega
            rw [this]; push_cast; ring
        · have he : ¬ (s2.height - 1 ≠ 0) := by rw [hh2]; omega
          rw [if_neg he]
          refine ⟨_, rfl, ?_⟩
          have : 8 * H = j + 1 := by omega
          rw [this]
          exact hvis2
      · have hx1 : s2.x - 1 ≠ 0 := by rw [hx2]; omega
        rw [if_pos hx1]
        apply ih _ (j + 1) _ (by omega)
        refine ⟨by omega, ?_, ?_, ?_, hvis2⟩
        · simp only
          rw [rowAddr_succ_of_lt g base j h7, hdst2]
        · simp only
          rw [hx2]
          have : (j + 1) % 8 = j % 8 + 1 := by omega
          rw [this]; push_cast; ring
        · simp only
          rw [hh2]
          have : (j + 1) / 8 = j / 8 := by omega
          rw [this]

/-- `unkDecodeA` returns once the fuel covers the `8 * height` pixels, having visited the strip
row by row. -/
theorem unkDecodeA_visited (g : Gdi) (H : Nat) (hH : 0 < H) (fuel : Nat) (hf : 8 * H ≤ fuel)
    (m : Mem) (dst : Int) (src : Src) (sp : Nat) :
    ∃ s1, unkDecodeA g fuel m dst src sp H = some s1 ∧
      Visited (polBase g) m (rowAddr g dst) (8 * H) s1.out := by
  apply unkDecodeA_pixels_spec g src m dst H fuel _ 0 _ (by omega)
  refine ⟨by omega, ?_, ?_, ?_, Visited_init _ _ _⟩ <;> simp [rowAddr]

theorem unkDecodeA_trans_run_spec (g : Gdi) (m0 : Mem) (base : Int) (H : Nat) (n : Nat) :
    ∀ (s : ASt) (j : Nat), ADirtyAt g (polTrans g) m0 base H j s →
      ((unkDecodeA_trans.run g n s).1 = false → ADirtyAt g (polTrans g) m0 base H (j + n) (unkDecodeA_trans.run g n s).2) ∧
      ((unkDecodeA_trans.run g n s).1 = true →
        Visited (polTrans g) m0 (rowAddr g base) (8 * H) (unkDecodeA_trans.run g n s).2.out) := by
  induction n with
  | zero =>
    intro s j hd
    simp only [unkDecodeA_trans.run, Nat.add_zero]
    exact ⟨fun _ => hd, fun h => by simp at h⟩
  | succ n ih =>
    intro s j hd
    obtain ⟨hj, hdst, hx, hh, hvis⟩ := hd
    simp only [unkDecodeA_trans.run]
    by_cases h7 : j % 8 = 7
    · have hx1 : s.x - 1 = 0 := by rw [hx, h7]; norm_num
      rw [if_pos hx1]
      by_cases hlast : j + 1 < 8 * H
      · have hne : ¬ (s.height - 1 = 0) := by rw [hh]; omega
        rw [if_neg hne]
        have hv1 := Visited_storeUnlessTransparent g m0 (rowAddr g base) (j + 1) s.out hvis s.color
        have ea : rowAddr g base (j + 1) = s.dst + g.screenWidth - 8 := by
          rw [rowAddr_succ_of_eq g base j h7, hdst]; ring
        rw [ea] at hv1
        have hd1 : ADirtyAt g (polTrans g) m0 base H (j + 1)
            { s with x := 8, dst := s.dst + g.screenWidth - 8 + 1, height := s.height - 1,
                     out := s.out.storeUnlessTransparent g (s.dst + g.screenWidth - 8) s.color } := by
          refine ⟨hlast, ?_, ?_, ?_, hv1⟩
          · simp only
            rw [rowAddr_succ_of_eq g base j h7, hdst]; ring
          · simp only
            have : (j + 1) % 8 = 0 := by omega
            rw [this]; norm_num
          · simp only
            rw [hh]
            have : (j + 1) / 8 = j / 8 + 1 := by omega
            rw [this]; push_cast; ring
        have := ih _ (j + 1) hd1
        rw [show j + (n + 1) = j + 1 + n by omega]
        exact this
      · have he : s.height - 1 = 0 := by rw [hh]; omega
        rw [if_pos he]
        simp only
        refine ⟨fun h => by simp at h, fun _ => ?_⟩
        have : 8 * H = j + 1 := by omega
        rw [this]
        exact hvis
    · have hx1 : ¬ (s.x - 1 = 0) := by rw [hx]; omega
      rw [if_neg hx1]
      have hlt : j + 1 < 8 * H := by omega
      have hv1 := Visited_storeUnlessTransparent g m0 (rowAddr g base) (j + 1) s.out hvis s.color
      rw [rowAddr_succ_of_lt g base j h7, ← hdst] at hv1
      have hd1 : ADirtyAt g (polTrans g) m0 base H (j + 1)
          { s with x := s.x - 1, dst := s.dst + 1, out := s.out.storeUnlessTransparent g s.dst s.color } := by
        refine ⟨hlt, ?_, ?_, ?_, hv1⟩
        · simp only
          rw [rowAddr_succ_of_lt g base j h7, hdst]
        · simp only
          rw [hx]
          have : (j + 1) % 8 = j % 8 + 1 := by omega
          rw [this]; push_cast; ring
        · simp only
          rw [hh]
          have : (j + 1) / 8 = j / 8 := by omega
          rw [this]
      have := ih _ (j + 1) hd1
      rw [show j + (n + 1) = j + 1 + n by omega]
      exact this

theorem unkDecodeA_trans_againPos_spec (g : Gdi) (src : Src) (m0 : Mem) (base : Int) (H : Nat)
    (fuel : Nat) :
    ∀ (s : ASt) (j : Nat), ADirtyAt g (polTrans g) m0 base H j s → 8 * H - j ≤ fuel →
      ∃ b s1, unkDecodeA_trans.againPos g src fuel s = some (b, s1) ∧
        (b = true → Visited (polTrans g) m0 (rowAddr g base) (8 * H) s1.out) ∧
        (b = false → ∃ j1, j ≤ j1 ∧ ADirtyAt g (polTrans g) m0 base H j1 s1) := by
  induction fuel with
  | zero =>
    intro s j hd hf
    have := hd.1
    omega
  | succ f ih =>
    intro s j hd hf
    simp only [unkDecodeA_trans.againPos]
    split
    · exact ⟨false, _, rfl, fun h => by simp at h, fun _ => ⟨j, le_refl _, ADirtyAt_congr hd rfl rfl rfl rfl⟩⟩
    · split
      · exact ⟨false, _, rfl, fun h => by simp at h, fun _ => ⟨j, le_refl _, ADirtyAt_congr hd rfl rfl rfl rfl⟩⟩
      · split
        · exact ⟨false, _, rfl, fun h => by simp at h, fun _ => ⟨j, le_refl _, ADirtyAt_congr hd rfl rfl rfl rfl⟩⟩
        · generalize hr4 : FILL_BITS src
            { sp := (READ_BIT (READ_BIT s.rd).2).2.sp,
              bits := (READ_BIT (READ_BIT s.rd).2).2.bits >>> 3,
              cl := subByte (READ_BIT (READ_BIT s.rd).2).2.cl 3 } = r4
          have hp := passes_pos (r4.bits &&& 0xFF)
          obtain ⟨hf1, ht1⟩ := unkDecodeA_trans_run_spec g m0 base H (passes (r4.bits &&& 0xFF))
            { s with rd := r4 } j (ADirtyAt_congr hd rfl rfl rfl rfl)
          generalize unkDecodeA_trans.run g (passes (r4.bits &&& 0xFF)) { s with rd := r4 } = t at *
          obtain ⟨tb, ts⟩ := t
          cases tb with
          | true =>
            simp only [if_true]
            exact ⟨true, ts, rfl, fun _ => ht1 rfl, fun h => by simp at h⟩
          | false =>
            simp only [Bool.false_eq_true, if_false]
            have hd2 := hf1 rfl
            simp only at hd2
            have hlt := hd2.1
            have key : ∀ r5 : BitRd, ∃ b s1,
                unkDecodeA_trans.againPos g src f { ts with rd := r5 } = some (b, s1) ∧
                (b = true → Visited (polTrans g) m0 (rowAddr g base) (8 * H) s1.out) ∧
                (b = false → ∃ j1, j + passes (r4.bits &&& 0xFF) ≤ j1 ∧
                  ADirtyAt g (polTrans g) m0 base H j1 s1) :=
              fun r5 => ih { ts with rd := r5 } (j + passes (r4.bits &&& 0xFF))
                (ADirtyAt_congr hd2 rfl rfl rfl rfl) (by omega)
            obtain ⟨b, s1, e, hb1, hb2⟩ := key _
            refine ⟨b, s1, e, hb1, fun hb => ?_⟩
            obtain ⟨j1, hj1, hd3⟩ := hb2 hb
            exact ⟨j1, by omega, hd3⟩

theorem unkDecodeA_trans_pixels_spec (g : Gdi) (src : Src) (m0 : Mem) (base : Int) (H : Nat)
    (fuel : Nat) :
    ∀ (s : ASt) (k : Nat), ACleanAt g (polTrans g) m0 base H k s → 8 * H - k ≤ fuel →
      ∃ s1, unkDecodeA_trans.pixels g src fuel s = some s1 ∧
        Visited (polTrans g) m0 (rowAddr g base) (8 * H) s1.out := by
  induction fuel with
  | zero =>
    intro s k hc hf
    have := hc.1
    omega
  | succ f ih =>
    intro s k hc hf
    obtain ⟨hk, hdst, hx, hh, hvis⟩ := hc
    have hv1 := Visited_storeUnlessTransparent g m0 (rowAddr g base) k s.out hvis s.color
    rw [← hdst] at hv1
    have hd1 : ADirtyAt g (polTrans g) m0 base H k
        { s with rd := FILL_BITS src s.rd, dst := s.dst + 1, out := s.out.storeUnlessTransparent g s.dst s.color } :=
      ⟨hk, by simp only; rw [hdst], hx, hh, hv1⟩
    obtain ⟨b, s2, e, hb1, hb2⟩ := unkDecodeA_trans_againPos_spec g src m0 base H (f + 1) _ k hd1 hf
    simp only [unkDecodeA_trans.pixels]
    rw [e]
    cases b with
    | true => exact ⟨s2, rfl, hb1 rfl⟩
    | false =>
      simp only
      obtain ⟨j, hkj, hj, hdst2, hx2, hh2, hvis2⟩ := hb2 rfl
      by_cases h7 : j % 8 = 7
      · have hx1 : ¬ (s2.x - 1 ≠ 0) := by rw [hx2, h7]; norm_num
        rw [if_neg hx1]
        by_cases hlast : j + 1 < 8 * H
        · have hne : s2.height - 1 ≠ 0 := by rw [hh2]; omega
          rw [if_pos hne]
          apply ih _ (j + 1) _ (by omega)
          refine ⟨hlast, ?_, ?_, ?_, hvis2⟩
          · simp only
            rw [rowAddr_succ_of_eq g base j h7, hdst2]; ring
          · simp only
            have : (j + 1) % 8 = 0 := by omega
            rw [this]; norm_num
          · simp only
            rw [hh2]
            have : (j + 1) / 8 = j / 8 + 1 := by omega
            rw [this]; push_cast; ring
        · have he : ¬ (s2.height - 1 ≠ 0) := by rw [hh2]; omega
          rw [if_neg he]
          refine ⟨_, rfl, ?_⟩
          have : 8 * H = j + 1 := by omega
          rw [this]
          exact hvis2
      · have hx1 : s2.x - 1 ≠ 0 := by rw [hx2]; omega
        rw [if_pos hx1]
        apply ih _ (j + 1) _ (by omega)
        refine ⟨by omega, ?_, ?_, ?_, hvis2⟩
        · simp only
          rw [rowAddr_succ_of_lt g base j h7, hdst2]
        · simp only
          rw [hx2]
          have : (j + 1) % 8 = j % 8 + 1 := by omega
          rw [this]; push_cast; ring
        · simp only
          rw [hh2]
          have : (j + 1) / 8 = j / 8 := by omega
          rw [this]

/-- `unkDecodeA_trans` returns once the fuel covers the `8 * height` pixels, having visited the strip
row by row. -/
theorem unkDecodeA_trans_visited (g : Gdi) (H : Nat) (hH : 0 < H) (fuel : Nat) (hf : 8 * H ≤ fuel)
    (m : Mem) (dst : Int) (src : Src) (sp : Nat) :
    ∃ s1, unkDecodeA_trans g fuel m dst src sp H = some s1 ∧
      Visited (polTrans g) m (rowAddr g dst) (8 * H) s1.out := by
  apply unkDecodeA_trans_pixels_spec g src m dst H fuel _ 0 _ (by omega)
  refine ⟨by omega, ?_, ?_, ?_, Visited_init _ _ _⟩ <;> simp [rowAddr]



/-! ### More fuel does not change what a decoder returns -/

theorem unkDecode7_old_mono (g : Gdi) (src : Src) (height : Int) (fuel : Nat) :
    ∀ (fuel1 sp : Nat) (c : Cur) (o : Out) (r : Out × Nat), fuel ≤ fuel1 →
      unkDecode7.old g src height fuel sp c o = some r →
      unkDecode7.old g src height fuel1 sp c o = some r := by
  induction fuel with
  | zero => intro fuel1 sp c o r _ h; simp [unkDecode7.old] at h
  | succ f ih =>
    intro fuel1 sp c o r hle h
    obtain ⟨f1, rfl⟩ : ∃ f1, fuel1 = f1 + 1 := ⟨fuel1 - 1, by omega⟩
    simp only [unkDecode7.old] at h ⊢
    cases hn : NEXT_ROW g height c with
    | none => rw [hn] at h; exact h
    | some c1 =>
      rw [hn] at h
      exact ih f1 _ _ _ _ (by omega) h

theorem unkDecode8_loop_mono (g : Gdi) (src : Src) (height : Int) (fuel : Nat) :
    ∀ (fuel1 sp : Nat) (c : Cur) (o : Out) (r : Out × Nat), fuel ≤ fuel1 →
      unkDecode8.loop g src height fuel sp c o = some r →
      unkDecode8.loop g src height fuel1 sp c o = some r := by
  induction fuel with
  | zero => intro fuel1 sp c o r _ h; simp [unkDecode8.loop] at h
  | succ f ih =>
    intro fuel1 sp c o r hle h
    obtain ⟨f1, rfl⟩ : ∃ f1, fuel1 = f1 + 1 := ⟨fuel1 - 1, by omega⟩
    simp only [unkDecode8.loop] at h ⊢
    generalize putRun g height (rd src (sp + 1)) (rd src sp + 1) c o = t at h ⊢
    obtain ⟨tc, tq⟩ := t
    cases tc with
    | none => exact h
    | some c1 => exact ih f1 _ _ _ _ (by omega) h

theorem unkDecode10_loop_mono (g : Gdi) (src : Src) (height : Int) (numcolors : Nat)
    (pal : Nat → Nat) (fuel : Nat) :
    ∀ (fuel1 sp : Nat) (c : Cur) (o : Out) (r : Out × Nat), fuel ≤ fuel1 →
      unkDecode10.loop g src height numcolors pal fuel sp c o = some r →
      unkDecode10.loop g src height numcolors pal fuel1 sp c o = some r := by
  induction fuel with
  | zero => intro fuel1 sp c o r _ h; simp [unkDecode10.loop] at h
  | succ f ih =>
    intro fuel1 sp c o r hle h
    obtain ⟨f1, rfl⟩ : ∃ f1, fuel1 = f1 + 1 := ⟨fuel1 - 1, by omega⟩
    simp only [unkDecode10.loop] at h ⊢
    split
    · rename_i hc
      rw [if_pos hc] at h
      cases hn : NEXT_ROW g height c with
      | none => rw [hn] at h; exact h
      | some c1 =>
        rw [hn] at h
        exact ih f1 _ _ _ _ (by omega) h
    · rename_i hc
      rw [if_neg hc] at h
      generalize putRun g height (rd src (sp + 1)) (rd src sp - numcolors + 1) c o = t at h ⊢
      obtain ⟨tc, tq⟩ := t
      cases tc with
      | none => exact h
      | some c1 => exact ih f1 _ _ _ _ (by omega) h

theorem unkDecode9_loop_mono (g : Gdi) (src : Src) (height : Int) (fuel : Nat) :
    ∀ (fuel1 : Nat) (rr : Rd256) (run : Nat) (c : Cur) (o : Out) (r : Out × Nat), fuel ≤ fuel1 →
      unkDecode9.loop g src height fuel rr run c o = some r →
      unkDecode9.loop g src height fuel1 rr run c o = some r := by
  induction fuel with
  | zero => intro fuel1 rr run c o r _ h; simp [unkDecode9.loop] at h
  | succ f ih =>
    intro fuel1 rr run c o r hle h
    obtain ⟨f1, rfl⟩ : ∃ f1, fuel1 = f1 + 1 := ⟨fuel1 - 1, by omega⟩
    simp only [unkDecode9.loop] at h ⊢
    split
    · rename_i hc
      rw [if_pos hc] at h
      generalize putRun g height _ _ c o = t at h ⊢
      obtain ⟨tc, tq⟩ := t
      cases tc with
      | none => exact h
      | some c1 => exact ih f1 _ _ _ _ _ (by omega) h
    · rename_i hc
      rw [if_neg hc] at h
      split
      · rename_i hc1
        rw [if_pos hc1] at h
        generalize unkDecode9.lits g src height run _ _ c o = t at h ⊢
        obtain ⟨tc, tq⟩ := t
        cases tc with
        | none => exact h
        | some rc => exact ih f1 _ _ _ _ _ (by omega) h
      · rename_i hc1
        rw [if_neg hc1] at h
        split
        · rename_i hc2
          rw [if_pos hc2] at h
          exact ih f1 _ _ _ _ _ (by omega) h
        · rename_i hc2
          rw [if_neg hc2] at h
          exact ih f1 _ _ _ _ _ (by omega) h

theorem unkDecodeA_againPos_mono (g : Gdi) (src : Src) (fuel : Nat) :
    ∀ (fuel1 : Nat) (s : ASt) (r : Bool × ASt), fuel ≤ fuel1 →
      unkDecodeA.againPos g src fuel s = some r → unkDecodeA.againPos g src fuel1 s = some r := by
  induction fuel with
  | zero => intro fuel1 s r _ h; simp [unkDecodeA.againPos] at h
  | succ f ih =>
    intro fuel1 s r hle h
    obtain ⟨f1, rfl⟩ : ∃ f1, fuel1 = f1 + 1 := ⟨fuel1 - 1, by omega⟩
    simp only [unkDecodeA.againPos] at h ⊢
    split
    · rename_i hc
      rw [if_pos hc] at h; exact h
    · rename_i hc
      rw [if_neg hc] at h
      split
      · rename_i hc1
        rw [if_pos hc1] at h; exact h
      · rename_i hc1
        rw [if_neg hc1] at h
        split
        · rename_i hc2
          rw [if_pos hc2] at h; exact h
        · rename_i hc2
          rw [if_neg hc2] at h
          split
          · rename_i hc3
            rw [if_pos hc3] at h; exact h
          · rename_i hc3
            rw [if_neg hc3] at h
            exact ih f1 _ _ (by omega) h

theorem unkDecodeA_pixels_mono (g : Gdi) (src : Src) (fuel : Nat) :
    ∀ (fuel1 : Nat) (s : ASt) (r : ASt), fuel ≤ fuel1 →
      unkDecodeA.pixels g src fuel s = some r → unkDecodeA.pixels g src fuel1 s = some r := by
  induction fuel with
  | zero => intro fuel1 s r _ h; simp [unkDecodeA.pixels] at h
  | succ f ih =>
    intro fuel1 s r hle h
    obtain ⟨f1, rfl⟩ : ∃ f1, fuel1 = f1 + 1 := ⟨fuel1 - 1, by omega⟩
    simp only [unkDecodeA.pixels] at h ⊢
    cases ha : unkDecodeA.againPos g src (f + 1) _ with
    | none => rw [ha] at h; simp at h
    | some t =>
      rw [ha] at h
      rw [unkDecodeA_againPos_mono g src (f + 1) (f1 + 1) _ t (by omega) ha]
      obtain ⟨tb, ts⟩ := t
      cases tb with
      | true => exact h
      | false =>
        simp only at h ⊢
        split
        · rename_i hc
          rw [if_pos hc] at h
          exact ih f1 _ _ (by omega) h
        · rename_i hc
          rw [if_neg hc] at h
          split
          · rename_i hc1
            rw [if_pos hc1] at h
            exact ih f1 _ _ (by omega) h
          · rename_i hc1
            rw [if_neg hc1] at h
            exact h

theorem unkDecodeA_trans_againPos_mono (g : Gdi) (src : Src) (fuel : Nat) :
    ∀ (fuel1 : Nat) (s : ASt) (r : Bool × ASt), fuel ≤ fuel1 →
      unkDecodeA_trans.againPos g src fuel s = some r → unkDecodeA_trans.againPos g src fuel1 s = some r := by
  induction fuel with
  | zero => intro fuel1 s r _ h; simp [unkDecodeA_trans.againPos] at h
  | succ f ih =>
    intro fuel1 s r hle h
    obtain ⟨f1, rfl⟩ : ∃ f1, fuel1 = f1 + 1 := ⟨fuel1 - 1, by omega⟩
    simp only [unkDecodeA_trans.againPos] at h ⊢
    split
    · rename_i hc
      rw [if_pos hc] at h; exact h
    · rename_i hc
      rw [if_neg hc] at h
      split
      · rename_i hc1
        rw [if_pos hc1] at h; exact h
      · rename_i hc1
        rw [if_neg hc1] at h
        split
        · rename_i hc2
          rw [if_pos hc2] at h; exact h
        · rename_i hc2
          rw [if_neg hc2] at h
          split
          · rename_i hc3
            rw [if_pos hc3] at h; exact h
          · rename_i hc3
            rw [if_neg hc3] at h
            exact ih f1 _ _ (by omega) h

theorem unkDecodeA_trans_pixels_mono (g : Gdi) (src : Src) (fuel : Nat) :
    ∀ (fuel1 : Nat) (s : ASt) (r : ASt), fuel ≤ fuel1 →
      unkDecodeA_trans.pixels g src fuel s = some r → unkDecodeA_trans.pixels g src fuel1 s = some r := by
  induction fuel with
  | zero => intro fuel1 s r _ h; simp [unkDecodeA_trans.pixels] at h
  | succ f ih =>
    intro fuel1 s r hle h
    obtain ⟨f1, rfl⟩ : ∃ f1, fuel1 = f1 + 1 := ⟨fuel1 - 1, by omega⟩
    simp only [unkDecodeA_trans.pixels] at h ⊢
    cases ha : unkDecodeA_trans.againPos g src (f + 1) _ with
    | none => rw [ha] at h; simp at h
    | some t =>
      rw [ha] at h
      rw [unkDecodeA_trans_againPos_mono g src (f + 1) (f1 + 1) _ t (by omega) ha]
      obtain ⟨tb, ts⟩ := t
      cases tb with
      | true => exact h
      | false =>
        simp only at h ⊢
        split
        · rename_i hc
          rw [if_pos hc] at h
          exact ih f1 _ _ (by omega) h
        · rename_i hc
          rw [if_neg hc] at h
          split
          · rename_i hc1
            rw [if_pos hc1] at h
            exact ih f1 _ _ (by omega) h
          · rename_i hc1
            rw [if_neg hc1] at h
            exact h



theorem stripPositions_nodup (h : Nat) : (stripPositions h).Nodup :=
  List.Nodup.product (List.nodup_range h) (List.nodup_range 8)

theorem mem_stripPositions (h : Nat) (p : Nat × Nat) :
    p ∈ stripPositions h ↔ p.1 < h ∧ p.2 < 8 := by
  obtain ⟨y, x⟩ := p
  simp [stripPositions, List.mem_product]

theorem colPositions_perm (h : Nat) (hh : 0 < h) : (colPositions h).Perm (stripPositions h) := by
  rw [List.perm_ext_iff_of_nodup _ (stripPositions_nodup h)]
  · intro p
    rw [mem_stripPositions]
    obtain ⟨y, x⟩ := p
    simp only [colPositions, List.mem_map, List.mem_range, Prod.mk.injEq]
    constructor
    · rintro ⟨k, hk, rfl, rfl⟩
      exact ⟨Nat.mod_lt _ hh, by rw [Nat.div_lt_iff_lt_mul hh]; exact hk⟩
    · rintro ⟨hy, hx⟩
      obtain ⟨e1, e2⟩ := divmod_of_eq h (h * x + y) x y hy rfl
      refine ⟨h * x + y, ?_, e2, e1⟩
      have : h * x ≤ h * 7 := Nat.mul_le_mul_left h (by omega)
      omega
  · apply List.Nodup.map_on _ (List.nodup_range _)
    intro a _ b _ hab
    simp only [Prod.mk.injEq] at hab
    rw [← Nat.div_add_mod a h, ← Nat.div_add_mod b h, hab.1, hab.2]

theorem rowPositions_perm (h : Nat) : (rowPositions h).Perm (stripPositions h) := by
  rw [List.perm_ext_iff_of_nodup _ (stripPositions_nodup h)]
  · intro p
    rw [mem_stripPositions]
    obtain ⟨y, x⟩ := p
    simp only [rowPositions, List.mem_map, List.mem_range, Prod.mk.injEq]
    constructor
    · rintro ⟨k, hk, rfl, rfl⟩
      omega
    · rintro ⟨hy, hx⟩
      exact ⟨8 * y + x, by omega, by omega, by omega⟩
  · apply List.Nodup.map_on _ (List.nodup_range _)
    intro a _ b _ hab
    simp only [Prod.mk.injEq] at hab
    omega

/-- What a complete pass over the strip in an order `ps` of its positions means for the
output. -/
theorem Visited_strip (g : Gdi) (pol : Nat → Option Nat) (m : Mem) (dst : Int) (h : Nat)
    (f : Nat → Nat × Nat) (o : Out)
    (hp : ((List.range (8 * h)).map f).Perm (stripPositions h))
    (hv : Visited pol m (fun k => pixelAddr g dst (f k)) (8 * h) o) :
    ∃ ps : List (Nat × Nat), ps.Perm (stripPositions h) ∧
      o.log.map Prod.fst = ps.map (pixelAddr g dst) ∧
      ∀ a : Int, (∀ p ∈ stripPositions h, a ≠ pixelAddr g dst p) → o.mem a = m a := by
  refine ⟨(List.range (8 * h)).map f, hp, ?_, ?_⟩
  · rw [hv.2, List.map_map]; rfl
  · intro a ha
    apply Visited_frame pol m _ (8 * h) o hv
    intro j hj
    apply ha
    rw [← hp.mem_iff]
    exact List.mem_map_of_mem f (List.mem_range.mpr hj)

theorem Visited_strip_col (g : Gdi) (pol : Nat → Option Nat) (m : Mem) (dst : Int) (h : Nat)
    (hh : 0 < h) (o : Out) (hv : Visited pol m (colAddr g dst h) (8 * h) o) :
    ∃ ps : List (Nat × Nat), ps.Perm (stripPositions h) ∧
      o.log.map Prod.fst = ps.map (pixelAddr g dst) ∧
      ∀ a : Int, (∀ p ∈ stripPositions h, a ≠ pixelAddr g dst p) → o.mem a = m a :=
  Visited_strip g pol m dst h (fun k => (k % h, k / h)) o (colPositions_perm h hh) hv

theorem Visited_strip_row (g : Gdi) (pol : Nat → Option Nat) (m : Mem) (dst : Int) (h : Nat)
    (o : Out) (hv : Visited pol m (rowAddr g dst) (8 * h) o) :
    ∃ ps : List (Nat × Nat), ps.Perm (stripPositions h) ∧
      o.log.map Prod.fst = ps.map (pixelAddr g dst) ∧
      ∀ a : Int, (∀ p ∈ stripPositions h, a ≠ pixelAddr g dst p) → o.mem a = m a :=
  Visited_strip g pol m dst h (fun k => (k / 8, k % 8)) o (rowPositions_perm h) hv

theorem unkDecode7_sound (g : Gdi) (H : Nat) (hH : 0 < H)
    (hv : g.vertStripNextInc = H * g.screenWidth - 1) (fuel : Nat) (m : Mem) (dst : Int)
    (src : Src) (sp : Nat) (o1 : Out) (sp1 : Nat)
    (h : unkDecode7 g fuel m dst src sp H = some (o1, sp1)) :
    ∃ ps : List (Nat × Nat), ps.Perm (stripPositions H) ∧
      o1.log.map Prod.fst = ps.map (pixelAddr g dst) ∧
      ∀ a : Int, (∀ p ∈ stripPositions H, a ≠ pixelAddr g dst p) → o1.mem a = m a := by
  cases hold : g.featOld256 with
  | true =>
    obtain ⟨o2, sp2, e, hvis⟩ :=
      unkDecode7_old_visited g hold H hH hv (fuel + 8 * H) (by omega) m dst src sp
    unfold unkDecode7 at e h
    rw [hold] at e h
    simp only [if_true] at e h
    have := unkDecode7_old_mono g src H fuel (fuel + 8 * H) sp _ _ _ (by omega) h
    rw [e] at this
    simp only [Option.some.injEq, Prod.mk.injEq] at this
    rw [← this.1]
    exact Visited_strip_col g _ m dst H hH o2 hvis
  | false =>
    obtain ⟨o2, sp2, e, hvis⟩ := unkDecode7_new_visited g hold H fuel m dst src sp
    rw [e] at h
    simp only [Option.some.injEq, Prod.mk.injEq] at h
    rw [← h.1]
    exact Visited_strip_row g _ m dst H o2 hvis

theorem unkDecode8_sound (g : Gdi) (H : Nat) (hH : 0 < H)
    (hv : g.vertStripNextInc = H * g.screenWidth - 1) (fuel : Nat) (m : Mem) (dst : Int)
    (src : Src) (sp : Nat) (o1 : Out) (sp1 : Nat)
    (h : unkDecode8 g fuel m dst src sp H = some (o1, sp1)) :
    Visited polPlain m (colAddr g dst H) (8 * H) o1 := by
  obtain ⟨o2, sp2, e, hvis⟩ := unkDecode8_visited g H hH hv (fuel + 8 * H) (by omega) m dst src sp
  unfold unkDecode8 at e h
  have := unkDecode8_loop_mono g src H fuel (fuel + 8 * H) sp _ _ _ (by omega) h
  rw [e] at this
  simp only [Option.some.injEq, Prod.mk.injEq] at this
  rw [← this.1]
  exact hvis

theorem unkDecode10_sound (g : Gdi) (H : Nat) (hH : 0 < H)
    (hv : g.vertStripNextInc = H * g.screenWidth - 1) (fuel : Nat) (m : Mem) (dst : Int)
    (src : Src) (sp : Nat) (o1 : Out) (sp1 : Nat)
    (h : unkDecode10 g fuel m dst src sp H = some (o1, sp1)) :
    Visited polPlain m (colAddr g dst H) (8 * H) o1 := by
  obtain ⟨o2, sp2, e, hvis⟩ := unkDecode10_visited g H hH hv (fuel + 8 * H) (by omega) m dst src sp
  unfold unkDecode10 at e h
  have := unkDecode10_loop_mono g src H _ _ fuel (fuel + 8 * H) _ _ _ _ (by omega) h
  rw [e] at this
  simp only [Option.some.injEq, Prod.mk.injEq] at this
  rw [← this.1]
  exact hvis

theorem unkDecodeA_sound (g : Gdi) (H : Nat) (hH : 0 < H) (fuel : Nat) (m : Mem) (dst : Int)
    (src : Src) (sp : Nat) (s1 : ASt) (h : unkDecodeA g fuel m dst src sp H = some s1) :
    Visited (polBase g) m (rowAddr g dst) (8 * H) s1.out := by
  obtain ⟨s2, e, hvis⟩ := unkDecodeA_visited g H hH (fuel + 8 * H) (by omega) m dst src sp
  unfold unkDecodeA at e h
  have := unkDecodeA_pixels_mono g src fuel (fuel + 8 * H) _ _ (by omega) h
  rw [e] at this
  simp only [Option.some.injEq] at this
  rw [← this]
  exact hvis

theorem unkDecodeA_trans_sound (g : Gdi) (H : Nat) (hH : 0 < H) (fuel : Nat) (m : Mem)
    (dst : Int) (src : Src) (sp : Nat) (s1 : ASt)
    (h : unkDecodeA_trans g fuel m dst src sp H = some s1) :
    Visited (polTrans g) m (rowAddr g dst) (8 * H) s1.out := by
  obtain ⟨s2, e, hvis⟩ := unkDecodeA_trans_visited g H hH (fuel + 8 * H) (by omega) m dst src sp
  unfold unkDecodeA_trans at e h
  have := unkDecodeA_trans_pixels_mono g src fuel (fuel + 8 * H) _ _ (by omega) h
  rw [e] at this
  simp only [Option.some.injEq] at this
  rw [← this]
  exact hvis

/-- C3: for every decoder reachable from `decompressBitmap`, every height `h ≥ 1` (with
`_vertStripNextInc = h * pitch - 1`) and every source on which the decoder returns: the
positions it visits are, in some order, exactly the `8 * h` positions (row `y < h`, column
`x < 8`) of the strip, each once, and memory outside the strip is as before, whatever run
lengths the data holds. -/
theorem decoder_visits_strip (d : Decoder) (g : Gdi) (h : Nat) (hh : 1 ≤ h)
    (hv : g.vertStripNextInc = h * g.screenWidth - 1) (fuel : Nat) (m : Mem) (dst : Int)
    (src : Src) (sp : Nat) (out : Out) (hrun : d.run g fuel m dst src sp h = some out) :
    ∃ ps : List (Nat × Nat), ps.Perm (stripPositions h) ∧
      out.log.map Prod.fst = ps.map (pixelAddr g dst) ∧
      ∀ a : Int, (∀ p ∈ stripPositions h, a ≠ pixelAddr g dst p) → out.mem a = m a := by
  have hH : 0 < h := hh
  cases d with
  | d7 =>
    simp only [Decoder.run, Option.map_eq_some', Prod.exists, exists_and_right,
      exists_eq_right] at hrun
    obtain ⟨sp1, hrun⟩ := hrun
    exact unkDecode7_sound g h hH hv fuel m dst src sp out sp1 hrun
  | d8 =>
    simp only [Decoder.run, Option.map_eq_some', Prod.exists, exists_and_right,
      exists_eq_right] at hrun
    obtain ⟨sp1, hrun⟩ := hrun
    exact Visited_strip_col g _ m dst h hH out
      (unkDecode8_sound g h hH hv fuel m dst src sp out sp1 hrun)
  | d9 =>
    simp only [Decoder.run, Option.map_eq_some', Prod.exists, exists_and_right,
      exists_eq_right] at hrun
    obtain ⟨sp1, hrun⟩ := hrun
    exact Visited_strip_col g _ m dst h hH out
      (unkDecode9_visited g h hH hv fuel m dst src sp out sp1 hrun)
  | d10 =>
    simp only [Decoder.run, Option.map_eq_some', Prod.exists, exists_and_right,
      exists_eq_right] at hrun
    obtain ⟨sp1, hrun⟩ := hrun
    exact Visited_strip_col g _ m dst h hH out
      (unkDecode10_sound g h hH hv fuel m dst src sp out sp1 hrun)
  | d11 =>
    simp only [Decoder.run, Option.some.injEq] at hrun
    rw [← hrun]
    exact Visited_strip_col g _ m dst h hH _ (unkDecode11_visited g h hv m dst src sp)
  | dA =>
    simp only [Decoder.run, Option.map_eq_some'] at hrun
    obtain ⟨s1, hrun, rfl⟩ := hrun
    exact Visited_strip_row g _ m dst h _ (unkDecodeA_sound g h hH fuel m dst src sp s1 hrun)
  | dB =>
    simp only [Decoder.run, Option.some.injEq] at hrun
    rw [← hrun]
    exact Visited_strip_row g _ m dst h _ (unkDecodeB_visited g h m dst src sp)
  | dC =>
    simp only [Decoder.run, Option.some.injEq] at hrun
    rw [← hrun]
    exact Visited_strip_col g _ m dst h hH _ (unkDecodeC_visited g h hv m dst src sp)
  | dA_trans =>
    simp only [Decoder.run, Option.map_eq_some'] at hrun
    obtain ⟨s1, hrun, rfl⟩ := hrun
    exact Visited_strip_row g _ m dst h _
      (unkDecodeA_trans_sound g h hH fuel m dst src sp s1 hrun)
  | dB_trans =>
    simp only [Decoder.run, Option.some.injEq] at hrun
    rw [← hrun]
    exact Visited_strip_row g _ m dst h _ (unkDecodeB_trans_visited g h m dst src sp)
  | dC_trans =>
    simp only [Decoder.run, Option.some.injEq] at hrun
    rw [← hrun]
    exact Visited_strip_col g _ m dst h hH _ (unkDecodeC_trans_visited g h hv m dst src sp)



/-! ### The transparent decoders against the base decoders -/

theorem store_log (o : Out) (p : Int) (c v : Nat) : (o.store p c v).log = o.log ++ [(p, c)] := rfl

theorem storeUnlessTransparent_log (g : Gdi) (o : Out) (p : Int) (c : Nat) :
    (o.storeUnlessTransparent g p c).log = o.log ++ [(p, c)] := by
  unfold Out.storeUnlessTransparent
  split <;> rfl

theorem unkDecodeB_trans_ctl_eq (g : Gdi) (src : Src) (s : BSt) :
    unkDecodeB_trans.ctl g src s = unkDecodeB.ctl g src s := rfl

theorem unkDecodeC_trans_ctl_eq (g : Gdi) (src : Src) (s : BSt) :
    unkDecodeC_trans.ctl g src s = unkDecodeC.ctl g src s := rfl

theorem unkDecodeB_trans_row_sim (g : Gdi) (src : Src) (n : Nat) :
    ∀ (s : BSt) (dst : Int) (o o1 : Out), o1.log = o.log →
      (unkDecodeB_trans.row g src n s dst o1).1 = (unkDecodeB.row g src n s dst o).1 ∧
      (unkDecodeB_trans.row g src n s dst o1).2.1 = (unkDecodeB.row g src n s dst o).2.1 ∧
      (unkDecodeB_trans.row g src n s dst o1).2.2.log = (unkDecodeB.row g src n s dst o).2.2.log := by
  induction n with
  | zero => intro s dst o o1 h; exact ⟨rfl, rfl, h⟩
  | succ n ih =>
    intro s dst o o1 h
    simp only [unkDecodeB_trans.row, unkDecodeB.row, unkDecodeB_trans_ctl_eq]
    apply ih
    rw [storeUnlessTransparent_log, store_log, h]

theorem unkDecodeB_trans_rows_sim (g : Gdi) (src : Src) (n : Nat) :
    ∀ (s : BSt) (dst : Int) (o o1 : Out), o1.log = o.log →
      (unkDecodeB_trans.rows g src n s dst o1).1 = (unkDecodeB.rows g src n s dst o).1 ∧
      (unkDecodeB_trans.rows g src n s dst o1).2.log = (unkDecodeB.rows g src n s dst o).2.log := by
  induction n with
  | zero => intro s dst o o1 h; exact ⟨rfl, h⟩
  | succ n ih =>
    intro s dst o o1 h
    simp only [unkDecodeB_trans.rows, unkDecodeB.rows]
    obtain ⟨e1, e2, e3⟩ := unkDecodeB_trans_row_sim g src 8 s dst o o1 h
    rw [e1, e2]
    exact ih _ _ _ _ e3

theorem unkDecodeC_trans_col_sim (g : Gdi) (src : Src) (n : Nat) :
    ∀ (s : BSt) (dst : Int) (o o1 : Out), o1.log = o.log →
      (unkDecodeC_trans.col g src n s dst o1).1 = (unkDecodeC.col g src n s dst o).1 ∧
      (unkDecodeC_trans.col g src n s dst o1).2.1 = (unkDecodeC.col g src n s dst o).2.1 ∧
      (unkDecodeC_trans.col g src n s dst o1).2.2.log = (unkDecodeC.col g src n s dst o).2.2.log := by
  induction n with
  | zero => intro s dst o o1 h; exact ⟨rfl, rfl, h⟩
  | succ n ih =>
    intro s dst o o1 h
    simp only [unkDecodeC_trans.col, unkDecodeC.col, unkDecodeC_trans_ctl_eq]
    apply ih
    rw [storeUnlessTransparent_log, store_log, h]

theorem unkDecodeC_trans_cols_sim (g : Gdi) (src : Src) (height : Nat) (n : Nat) :
    ∀ (s : BSt) (dst : Int) (o o1 : Out), o1.log = o.log →
      (unkDecodeC_trans.cols g src height n s dst o1).1 = (unkDecodeC.cols g src height n s dst o).1 ∧
      (unkDecodeC_trans.cols g src height n s dst o1).2.log
        = (unkDecodeC.cols g src height n s dst o).2.log := by
  induction n with
  | zero => intro s dst o o1 h; exact ⟨rfl, h⟩
  | succ n ih =>
    intro s dst o o1 h
    simp only [unkDecodeC_trans.cols, unkDecodeC.cols]
    obtain ⟨e1, e2, e3⟩ := unkDecodeC_trans_col_sim g src height s dst o o1 h
    rw [e1, e2]
    exact ih _ _ _ _ e3

theorem unkDecodeA_trans_run_sim (g : Gdi) (n : Nat) :
    ∀ (s : ASt) (o1 : Out), o1.log = s.out.log →
      ∃ o2, o2.log = (unkDecodeA.run g n s).2.out.log ∧
        unkDecodeA_trans.run g n ⟨s.rd, s.color, s.dst, s.x, s.height, o1⟩
          = ((unkDecodeA.run g n s).1,
              ⟨(unkDecodeA.run g n s).2.rd, (unkDecodeA.run g n s).2.color,
                (unkDecodeA.run g n s).2.dst, (unkDecodeA.run g n s).2.x,
                (unkDecodeA.run g n s).2.height, o2⟩) := by
  induction n with
  | zero => intro s o1 h; exact ⟨o1, h, rfl⟩
  | succ n ih =>
    intro s o1 h
    simp only [unkDecodeA_trans.run, unkDecodeA.run]
    split
    · split
      · exact ⟨o1, h, rfl⟩
      · exact ih ⟨s.rd, s.color, s.dst + g.screenWidth - 8 + 1, 8, s.height - 1,
            s.out.store (s.dst + g.screenWidth - 8) s.color ((s.color + g.palette_mod) % 256)⟩ _
          (by rw [storeUnlessTransparent_log, store_log, h])
    · exact ih ⟨s.rd, s.color, s.dst + 1, s.x - 1, s.height,
          s.out.store s.dst s.color ((s.color + g.palette_mod) % 256)⟩ _
        (by rw [storeUnlessTransparent_log, store_log, h])

theorem unkDecodeA_trans_againPos_sim (g : Gdi) (src : Src) (fuel : Nat) :
    ∀ (s : ASt) (o1 : Out), o1.log = s.out.log →
      (unkDecodeA.againPos g src fuel s = none ∧
        unkDecodeA_trans.againPos g src fuel ⟨s.rd, s.color, s.dst, s.x, s.height, o1⟩ = none) ∨
      ∃ b s1 o2, unkDecodeA.againPos g src fuel s = some (b, s1) ∧ o2.log = s1.out.log ∧
        unkDecodeA_trans.againPos g src fuel ⟨s.rd, s.color, s.dst, s.x, s.height, o1⟩
          = some (b, ⟨s1.rd, s1.color, s1.dst, s1.x, s1.height, o2⟩) := by
  induction fuel with
  | zero => intro s o1 _; left; exact ⟨rfl, rfl⟩
  | succ f ih =>
    intro s o1 h
    simp only [unkDecodeA.againPos, unkDecodeA_trans.againPos]
    split
    · right; exact ⟨_, _, o1, rfl, h, rfl⟩
    · split
      · right; exact ⟨_, _, o1, rfl, h, rfl⟩
      · split
        · right; exact ⟨_, _, o1, rfl, h, rfl⟩
        · generalize hr4 : FILL_BITS src
            { sp := (READ_BIT (READ_BIT s.rd).2).2.sp,
              bits := (READ_BIT (READ_BIT s.rd).2).2.bits >>> 3,
              cl := subByte (READ_BIT (READ_BIT s.rd).2).2.cl 3 } = r4
          have hs := unkDecodeA_trans_run_sim g (passes (r4.bits &&& 0xFF))
            ⟨r4, s.color, s.dst, s.x, s.height, s.out⟩ o1 h
          simp only at hs
          obtain ⟨o2, e2, e3⟩ := hs
          rw [e3]
          generalize unkDecodeA.run g (passes (r4.bits &&& 0xFF))
            { rd := r4, color := s.color, dst := s.dst, x := s.x, height := s.height,
              out := s.out } = t at *
          obtain ⟨tb, ts⟩ := t
          cases tb with
          | true =>
            right
            exact ⟨true, ts, o2, by simp, e2, by simp⟩
          | false =>
            simp only [Bool.false_eq_true, if_false]
            have key : ∀ r5 : BitRd,
                (unkDecodeA.againPos g src f ⟨r5, ts.color, ts.dst, ts.x, ts.height, ts.out⟩
                    = none ∧
                  unkDecodeA_trans.againPos g src f ⟨r5, ts.color, ts.dst, ts.x, ts.height, o2⟩
                    = none) ∨
                ∃ b s1 o3,
                  unkDecodeA.againPos g src f ⟨r5, ts.color, ts.dst, ts.x, ts.height, ts.out⟩
                    = some (b, s1) ∧
                  o3.log = s1.out.log ∧
                  unkDecodeA_trans.againPos g src f ⟨r5, ts.color, ts.dst, ts.x, ts.height, o2⟩
                    = some (b, ⟨s1.rd, s1.color, s1.dst, s1.x, s1.height, o3⟩) :=
              fun r5 => ih ⟨r5, ts.color, ts.dst, ts.x, ts.height, ts.out⟩ o2 e2
            exact key _

theorem unkDecodeA_trans_pixels_sim (g : Gdi) (src : Src) (fuel : Nat) :
    ∀ (s : ASt) (o1 : Out), o1.log = s.out.log →
      (unkDecodeA.pixels g src fuel s = none ∧
        unkDecodeA_trans.pixels g src fuel ⟨s.rd, s.color, s.dst, s.x, s.height, o1⟩ = none) ∨
      ∃ s1 o2, unkDecodeA.pixels g src fuel s = some s1 ∧ o2.log = s1.out.log ∧
        unkDecodeA_trans.pixels g src fuel ⟨s.rd, s.color, s.dst, s.x, s.height, o1⟩
          = some ⟨s1.rd, s1.color, s1.dst, s1.x, s1.height, o2⟩ := by
  induction fuel with
  | zero => intro s o1 _; left; exact ⟨rfl, rfl⟩
  | succ f ih =>
    intro s o1 h
    simp only [unkDecodeA.pixels, unkDecodeA_trans.pixels]
    have hs := unkDecodeA_trans_againPos_sim g src (f + 1)
      ⟨FILL_BITS src s.rd, s.color, s.dst + 1, s.x, s.height,
        s.out.store s.dst s.color ((s.color + g.palette_mod) % 256)⟩
      (o1.storeUnlessTransparent g s.dst s.color)
      (by rw [storeUnlessTransparent_log, store_log, h])
    simp only at hs
    rcases hs with ⟨e1, e2⟩ | ⟨b, s1, o2, e1, e2, e3⟩
    · rw [e1, e2]; left; exact ⟨rfl, rfl⟩
    · rw [e1, e3]
      cases b with
      | true => right; exact ⟨s1, o2, rfl, e2, rfl⟩
      | false =>
        simp only
        split
        · exact ih ⟨s1.rd, s1.color, s1.dst, s1.x - 1, s1.height, s1.out⟩ o2 e2
        · split
          · exact ih ⟨s1.rd, s1.color, s1.dst + g.screenWidth - 8, 8, s1.height - 1, s1.out⟩ o2 e2
          · right; exact ⟨_, o2, rfl, e2, rfl⟩



theorem replay_at (pol : Nat → Option Nat) (l : List (Int × Nat)) :
    ∀ (m : Mem) (a : Int) (c : Nat), (l.map Prod.fst).Nodup → (a, c) ∈ l →
      replay pol m l a = (match pol c with
        | some v => v
        | none => m a) := by
  induction l with
  | nil => intro m a c _ h; simp at h
  | cons e l ih =>
    intro m a c hn hmem
    obtain ⟨p, c0⟩ := e
    simp only [List.map_cons, List.nodup_cons] at hn
    rw [replay]
    rcases List.mem_cons.mp hmem with heq | htail
    · simp only [Prod.mk.injEq] at heq
      obtain ⟨rfl, rfl⟩ := heq
      rw [replay_frame pol l _ a hn.1]
      cases pol c with
      | none => rfl
      | some v => exact poke_same m a v
    · rw [ih _ a c hn.2 htail]
      have hne : a ≠ p := by
        intro e
        apply hn.1
        rw [← e]
        exact List.mem_map_of_mem Prod.fst htail
      cases pol c with
      | some v => rfl
      | none =>
        simp only
        cases pol c0 with
        | none => rfl
        | some v0 => exact poke_other m p a v0 hne

theorem pixelAddr_injOn (g : Gdi) (h8 : 8 ≤ g.screenWidth) (dst : Int) (p q : Nat × Nat)
    (hp : p.2 < 8) (hq : q.2 < 8) (e : pixelAddr g dst p = pixelAddr g dst q) : p = q := by
  obtain ⟨y, x⟩ := p
  obtain ⟨y1, x1⟩ := q
  simp only [pixelAddr] at e
  simp only at hp hq
  have hy : y = y1 := by
    rcases Nat.lt_trichotomy y y1 with hlt | heq | hgt
    · exfalso
      have h1 : ((y : Int) + 1) * g.screenWidth ≤ (y1 : Int) * g.screenWidth :=
        mul_le_mul_of_nonneg_right (by omega) (by omega)
      have h2 : ((y : Int) + 1) * g.screenWidth = y * g.screenWidth + g.screenWidth := by ring
      omega
    · exact heq
    · exfalso
      have h1 : ((y1 : Int) + 1) * g.screenWidth ≤ (y : Int) * g.screenWidth :=
        mul_le_mul_of_nonneg_right (by omega) (by omega)
      have h2 : ((y1 : Int) + 1) * g.screenWidth = y1 * g.screenWidth + g.screenWidth := by ring
      omega
  subst hy
  have : x = x1 := by omega
  rw [this]

theorem strip_addrs_nodup (g : Gdi) (h8 : 8 ≤ g.screenWidth) (dst : Int) (h : Nat)
    (ps : List (Nat × Nat)) (hp : ps.Perm (stripPositions h)) :
    (ps.map (pixelAddr g dst)).Nodup := by
  apply List.Nodup.map_on
  · intro p hpm q hqm e
    have h1 := (mem_stripPositions h p).mp (hp.mem_iff.mp hpm)
    have h2 := (mem_stripPositions h q).mp (hp.mem_iff.mp hqm)
    exact pixelAddr_injOn g h8 dst p q h1.2 h2.2 e
  · exact hp.nodup_iff.mpr (stripPositions_nodup h)

theorem transOf_of_visited (g : Gdi) (m : Mem) (addr : Nat → Int) (n : Nat) (oB oT : Out)
    (hB : Visited (polBase g) m addr n oB) (hT : Visited (polTrans g) m addr n oT)
    (hlog : oT.log = oB.log) (hnd : (oB.log.map Prod.fst).Nodup) : TransOf g m oB oT := by
  intro a c hmem
  have eB := replay_at (polBase g) oB.log m a c hnd hmem
  have eT := replay_at (polTrans g) oB.log m a c hnd hmem
  rw [← hB.1] at eB
  rw [← hlog, ← hT.1] at eT
  constructor
  · intro hc
    rw [eB, eT]
    simp [polBase, polTrans, hc]
  · intro hc
    rw [eT]
    simp [polTrans, hc]

/-- C5: for every source, height `h ≥ 1`, initial destination and transparent index (rows
`_screenWidth ≥ 8` apart, `_vertStripNextInc = h * pitch - 1`, fuel for the `8 * h` pixels),
`unkDecodeA_trans`, `unkDecodeB_trans` and `unkDecodeC_trans` end with the same reader state
and colour as `unkDecodeA`, `unkDecodeB` and `unkDecodeC` and produce the same sequence of
pixel positions and colours; the resulting memory agrees with the base decoder's at every
pixel whose decoded colour is not `_transparentColor` and with the initial memory at every
pixel whose decoded colour is. -/
theorem trans_decoders_refine_base (g : Gdi) (h8 : 8 ≤ g.screenWidth) (h : Nat) (hh : 1 ≤ h)
    (hv : g.vertStripNextInc = h * g.screenWidth - 1) (fuel : Nat) (hf : 8 * h ≤ fuel)
    (m : Mem) (dst : Int) (src : Src) (sp : Nat) :
    (∃ sA sT, unkDecodeA g fuel m dst src sp h = some sA ∧
        unkDecodeA_trans g fuel m dst src sp h = some sT ∧
        sT.rd = sA.rd ∧ sT.color = sA.color ∧ sT.out.log = sA.out.log ∧
        TransOf g m sA.out sT.out) ∧
    ((unkDecodeB_trans g m dst src sp h).1 = (unkDecodeB g m dst src sp h).1 ∧
        (unkDecodeB_trans g m dst src sp h).2.log = (unkDecodeB g m dst src sp h).2.log ∧
        TransOf g m (unkDecodeB g m dst src sp h).2 (unkDecodeB_trans g m dst src sp h).2) ∧
    ((unkDecodeC_trans g m dst src sp h).1 = (unkDecodeC g m dst src sp h).1 ∧
        (unkDecodeC_trans g m dst src sp h).2.log = (unkDecodeC g m dst src sp h).2.log ∧
        TransOf g m (unkDecodeC g m dst src sp h).2 (unkDecodeC_trans g m dst src sp h).2) := by
  have hH : 0 < h := hh
  refine ⟨?_, ?_, ?_⟩
  · obtain ⟨sA, eA, hA⟩ := unkDecodeA_visited g h hH fuel hf m dst src sp
    obtain ⟨sT, eT, hT⟩ := unkDecodeA_trans_visited g h hH fuel hf m dst src sp
    have hs := unkDecodeA_trans_pixels_sim g src fuel
      ⟨⟨sp + 2, rd src (sp + 1), 8⟩, rd src sp, dst, 8, h, ⟨m, []⟩⟩ ⟨m, []⟩ rfl
    simp only at hs
    unfold unkDecodeA at eA
    unfold unkDecodeA_trans at eT
    simp only at eA eT
    rcases hs with ⟨e1, _⟩ | ⟨s1, o2, e1, e2, e3⟩
    · rw [e1] at eA; simp at eA
    · rw [e1] at eA
      rw [e3] at eT
      simp only [Option.some.injEq] at eA eT
      subst eA
      subst eT
      obtain ⟨ps, hps, hl, _⟩ := Visited_strip_row g _ m dst h _ hA
      refine ⟨s1, ⟨s1.rd, s1.color, s1.dst, s1.x, s1.height, o2⟩, ?_, ?_, rfl, rfl, e2, ?_⟩
      · unfold unkDecodeA; exact e1
      · unfold unkDecodeA_trans; exact e3
      apply transOf_of_visited g m _ _ _ _ hA hT e2
      rw [hl]
      exact strip_addrs_nodup g h8 dst h ps hps
  · have hB := unkDecodeB_visited g h m dst src sp
    have hT := unkDecodeB_trans_visited g h m dst src sp
    obtain ⟨e1, e2⟩ := unkDecodeB_trans_rows_sim g src h
      ⟨⟨sp + 2, rd src (sp + 1), 8⟩, rd src sp, -1⟩ dst ⟨m, []⟩ ⟨m, []⟩ rfl
    obtain ⟨ps, hps, hl, _⟩ := Visited_strip_row g _ m dst h _ hB
    refine ⟨e1, e2, ?_⟩
    apply transOf_of_visited g m _ _ _ _ hB hT e2
    rw [hl]
    exact strip_addrs_nodup g h8 dst h ps hps
  · have hB := unkDecodeC_visited g h hv m dst src sp
    have hT := unkDecodeC_trans_visited g h hv m dst src sp
    obtain ⟨e1, e2⟩ := unkDecodeC_trans_cols_sim g src h 8
      ⟨⟨sp + 2, rd src (sp + 1), 8⟩, rd src sp, -1⟩ dst ⟨m, []⟩ ⟨m, []⟩ rfl
    obtain ⟨ps, hps, hl, _⟩ := Visited_strip_col g _ m dst h hH _ hB
    refine ⟨e1, e2, ?_⟩
    apply transOf_of_visited g m _ _ _ _ hB hT e2
    rw [hl]
    exact strip_addrs_nodup g h8 dst h ps hps



/-! ### Termination of the `NEXT_ROW` decoders, whatever `_vertStripNextInc` is -/

theorem NEXT_ROW_cnt (g : Gdi) (H : Nat) (hH : 0 < H) (k : Nat) (hk : k < 8 * H) (c : Cur)
    (hc : CurCnt H k c) :
    (k + 1 < 8 * H → ∃ c1, NEXT_ROW g H c = some c1 ∧ CurCnt H (k + 1) c1) ∧
    (¬ k + 1 < 8 * H → NEXT_ROW g H c = none) := by
  obtain ⟨hh, hx⟩ := hc
  have hr : k % H < H := Nat.mod_lt _ hH
  have hq : k / H < 8 := by
    rw [Nat.div_lt_iff_lt_mul hH]; exact hk
  have hkk : k = H * (k / H) + k % H := (Nat.div_add_mod k H).symm
  unfold NEXT_ROW
  simp only [hh, hx]
  by_cases hr1 : k % H + 1 < H
  · have hne : ¬ ((H : Int) - ((k % H : Nat) : Int) - 1 = 0) := by omega
    rw [if_neg hne]
    obtain ⟨e1, e2⟩ := divmod_of_eq H (k + 1) (k / H) (k % H + 1) hr1 (by omega)
    constructor
    · intro _
      refine ⟨_, rfl, ?_, ?_⟩
      · simp only [e2]; push_cast; ring
      · simp only [e1]
    · intro hn
      exfalso
      apply hn
      have h2 : H * (k / H) ≤ H * 7 := Nat.mul_le_mul_left H (by omega)
      omega
  · have hrH : k % H + 1 = H := by omega
    have he : ((H : Int) - ((k % H : Nat) : Int) - 1 = 0) := by omega
    rw [if_pos he]
    obtain ⟨e1, e2⟩ := divmod_of_eq H (k + 1) (k / H + 1) 0 hH (by
      rw [Nat.mul_add, Nat.mul_one]; omega)
    by_cases hq1 : k / H + 1 < 8
    · have hne : ¬ ((8 : Int) - ((k / H : Nat) : Int) - 1 = 0) := by omega
      rw [if_neg hne]
      constructor
      · intro _
        refine ⟨_, rfl, ?_, ?_⟩
        · simp only [e2]; simp
        · simp only [e1]; push_cast; ring
      · intro hn
        exfalso; apply hn
        have h2 : (k / H + 1) * H ≤ 7 * H := Nat.mul_le_mul_right H (by omega)
        have h3 : (k / H + 1) * H = H * (k / H) + H := by ring
        omega
    · have he2 : ((8 : Int) - ((k / H : Nat) : Int) - 1 = 0) := by omega
      rw [if_pos he2]
      constructor
      · intro hlt
        exfalso
        have h7 : k / H = 7 := by omega
        rw [h7] at hkk
        omega
      · intro _; rfl

theorem putRun_cnt (g : Gdi) (H : Nat) (hH : 0 < H) (color : Nat) (n : Nat) :
    ∀ (k : Nat) (c : Cur) (o : Out), k < 8 * H → CurCnt H k c →
      (k + n < 8 * H → ∃ c1, (putRun g H color n c o).1 = some c1 ∧ CurCnt H (k + n) c1) ∧
      (¬ k + n < 8 * H → (putRun g H color n c o).1 = none) := by
  induction n with
  | zero =>
    intro k c o hk hc
    simp only [putRun, Nat.add_zero]
    exact ⟨fun _ => ⟨c, rfl, hc⟩, fun h => absurd hk h⟩
  | succ n ih =>
    intro k c o hk hc
    obtain ⟨hs, hn⟩ := NEXT_ROW_cnt g H hH k hk c hc
    simp only [putRun]
    by_cases hk1 : k + 1 < 8 * H
    · obtain ⟨c1, e1, hc1⟩ := hs hk1
      rw [e1]
      simp only
      have := ih (k + 1) c1 (o.store c.dst color color) hk1 hc1
      rw [show k + 1 + n = k + (n + 1) by omega] at this
      exact this
    · rw [hn hk1]
      simp only
      exact ⟨fun h => by omega, fun _ => trivial⟩

theorem unkDecode7_old_returns (g : Gdi) (H : Nat) (hH : 0 < H) (src : Src) (fuel : Nat) :
    ∀ (sp k : Nat) (c : Cur) (o : Out), k < 8 * H → CurCnt H k c → 8 * H - k ≤ fuel →
      ∃ r, unkDecode7.old g src H fuel sp c o = some r := by
  induction fuel with
  | zero => intro sp k c o hk _ hf; omega
  | succ f ih =>
    intro sp k c o hk hc hf
    obtain ⟨hs, hn⟩ := NEXT_ROW_cnt g H hH k hk c hc
    simp only [unkDecode7.old]
    by_cases hk1 : k + 1 < 8 * H
    · obtain ⟨c1, e1, hc1⟩ := hs hk1
      rw [e1]
      exact ih _ _ c1 _ hk1 hc1 (by omega)
    · rw [hn hk1]
      exact ⟨_, rfl⟩

theorem unkDecode8_loop_returns (g : Gdi) (H : Nat) (hH : 0 < H) (src : Src) (fuel : Nat) :
    ∀ (sp k : Nat) (c : Cur) (o : Out), k < 8 * H → CurCnt H k c → 8 * H - k ≤ fuel →
      ∃ r, unkDecode8.loop g src H fuel sp c o = some r := by
  induction fuel with
  | zero => intro sp k c o hk _ hf; omega
  | succ f ih =>
    intro sp k c o hk hc hf
    obtain ⟨hsome, hnone⟩ := putRun_cnt g H hH (rd src (sp + 1)) (rd src sp + 1) k c o hk hc
    simp only [unkDecode8.loop]
    by_cases hlt : k + (rd src sp + 1) < 8 * H
    · obtain ⟨c1, e1, hc1⟩ := hsome hlt
      generalize putRun g (↑H) (rd src (sp + 1)) (rd src sp + 1) c o = r at *
      obtain ⟨rc, ro⟩ := r
      simp only at e1
      subst e1
      simp only
      exact ih _ _ c1 ro hlt hc1 (by omega)
    · have e1 := hnone hlt
      generalize putRun g (↑H) (rd src (sp + 1)) (rd src sp + 1) c o = r at *
      obtain ⟨rc, ro⟩ := r
      simp only at e1
      subst e1
      exact ⟨_, rfl⟩

theorem unkDecode10_loop_returns (g : Gdi) (H : Nat) (hH : 0 < H) (src : Src) (numcolors : Nat)
    (pal : Nat → Nat) (fuel : Nat) :
    ∀ (sp k : Nat) (c : Cur) (o : Out), k < 8 * H → CurCnt H k c → 8 * H - k ≤ fuel →
      ∃ r, unkDecode10.loop g src H numcolors pal fuel sp c o = some r := by
  induction fuel with
  | zero => intro sp k c o hk _ hf; omega
  | succ f ih =>
    intro sp k c o hk hc hf
    simp only [unkDecode10.loop]
    split
    · obtain ⟨hs, hn⟩ := NEXT_ROW_cnt g H hH k hk c hc
      by_cases hk1 : k + 1 < 8 * H
      · obtain ⟨c1, e1, hc1⟩ := hs hk1
        rw [e1]
        exact ih _ _ c1 _ hk1 hc1 (by omega)
      · rw [hn hk1]
        exact ⟨_, rfl⟩
    · obtain ⟨hsome, hnone⟩ :=
        putRun_cnt g H hH (rd src (sp + 1)) (rd src sp - numcolors + 1) k c o hk hc
      by_cases hlt : k + (rd src sp - numcolors + 1) < 8 * H
      · obtain ⟨c1, e1, hc1⟩ := hsome hlt
        generalize putRun g (↑H) (rd src (sp + 1)) (rd src sp - numcolors + 1) c o = r at *
        obtain ⟨rc, ro⟩ := r
        simp only at e1
        subst e1
        simp only
        exact ih _ _ c1 ro hlt hc1 (by omega)
      · have e1 := hnone hlt
        generalize putRun g (↑H) (rd src (sp + 1)) (rd src sp - numcolors + 1) c o = r at *
        obtain ⟨rc, ro⟩ := r
        simp only at e1
        subst e1
        exact ⟨_, rfl⟩

theorem CurCnt_init (H : Nat) (dst : Int) : CurCnt H 0 { dst := dst, h := H, x := 8 } := by
  constructor <;> simp

theorem unkDecode7_returns (g : Gdi) (H : Nat) (hH : 0 < H) (fuel : Nat) (hf : 8 * H ≤ fuel)
    (m : Mem) (dst : Int) (src : Src) (sp : Nat) :
    ∃ r, unkDecode7 g fuel m dst src sp H = some r := by
  unfold unkDecode7
  split
  · exact unkDecode7_old_returns g H hH src fuel sp 0 _ _ (by omega) (CurCnt_init H dst)
      (by omega)
  · exact ⟨_, rfl⟩

theorem unkDecode8_returns (g : Gdi) (H : Nat) (hH : 0 < H) (fuel : Nat) (hf : 8 * H ≤ fuel)
    (m : Mem) (dst : Int) (src : Src) (sp : Nat) :
    ∃ r, unkDecode8 g fuel m dst src sp H = some r :=
  unkDecode8_loop_returns g H hH src fuel sp 0 _ _ (by omega) (CurCnt_init H dst) (by omega)

theorem unkDecode10_returns (g : Gdi) (H : Nat) (hH : 0 < H) (fuel : Nat) (hf : 8 * H ≤ fuel)
    (m : Mem) (dst : Int) (src : Src) (sp : Nat) :
    ∃ r, unkDecode10 g fuel m dst src sp H = some r :=
  unkDecode10_loop_returns g H hH src _ _ fuel _ 0 _ _ (by omega) (CurCnt_init H dst) (by omega)



/-! ### `decompressBitmap`: the dispatch on the format code -/

set_option maxRecDepth 100000 in
theorem knownCodes_iff : ∀ code : Nat, code < 256 →
    (code ∈ knownCodes ↔
      (code = 1 ∨ code = 2 ∨ code = 3 ∨ code = 4 ∨ code = 7 ∨ (14 ≤ code ∧ code ≤ 18) ∨
        (24 ≤ code ∧ code ≤ 28) ∨ (34 ≤ code ∧ code ≤ 38) ∨ (44 ≤ code ∧ code ≤ 48) ∨
        ((64 ≤ code ∧ code ≤ 68) ∨ (104 ≤ code ∧ code ≤ 108)) ∨
        ((84 ≤ code ∧ code ≤ 88) ∨ (124 ≤ code ∧ code ≤ 128)))) := by
  decide

theorem Outcome_ofOption_some (b : Bool) (g : Gdi) (o : Out) :
    Outcome.ofOption b g (some o) = Outcome.returned b g o := rfl

theorem READ_256BIT_reload (r : Rd256) (hsp : 1 ≤ r.sp) (hm : r.mask = 128) :
    READ_256BIT endlessCode3 r = (1, { sp := r.sp + 1, buffer := 255, mask := 1 }) := by
  have hrd : rd endlessCode3 r.sp = 255 := by
    unfold rd endlessCode3
    rw [if_neg (by omega)]
  unfold READ_256BIT
  rw [hm, hrd]
  simp

theorem READ_256BIT_ones (sp m : Nat) (hm : m ∈ [1, 2, 4, 8, 16, 32, 64]) :
    READ_256BIT endlessCode3 { sp := sp, buffer := 255, mask := m }
      = (1, { sp := sp, buffer := 255, mask := 2 * m }) := by
  simp only [List.mem_cons, List.mem_singleton, List.not_mem_nil, or_false] at hm
  rcases hm with rfl | rfl | rfl | rfl | rfl | rfl | rfl <;> simp [READ_256BIT]

theorem endless9_step (r : Rd256) (h : Endless9 r) :
    (readBits256 endlessCode3 4 0 0 r).1 = 15 ∧ Endless9 (readBits256 endlessCode3 4 0 0 r).2 := by
  obtain ⟨hsp, hm | ⟨hm, hb⟩⟩ := h
  · simp only [readBits256]
    rw [READ_256BIT_reload r hsp hm]
    simp only
    rw [READ_256BIT_ones _ 1 (by decide)]
    simp only
    rw [READ_256BIT_ones _ 2 (by decide)]
    simp only
    rw [READ_256BIT_ones _ 4 (by decide)]
    exact ⟨by simp, by simp only; omega, Or.inr ⟨rfl, rfl⟩⟩
  · have hr : r = { sp := r.sp, buffer := 255, mask := 8 } := by
      rw [← hm, ← hb]
    rw [hr]
    simp only [readBits256]
    rw [READ_256BIT_ones _ 8 (by decide)]
    simp only
    rw [READ_256BIT_ones _ 16 (by decide)]
    simp only
    rw [READ_256BIT_ones _ 32 (by decide)]
    simp only
    rw [READ_256BIT_ones _ 64 (by decide)]
    exact ⟨by simp, hsp, Or.inl rfl⟩

theorem unkDecode9_loop_endless (g : Gdi) (height : Int) (fuel : Nat) :
    ∀ (r : Rd256) (run : Nat) (c : Cur) (o : Out), Endless9 r →
      unkDecode9.loop g endlessCode3 height fuel r run c o = none := by
  induction fuel with
  | zero => intro r run c o _; rfl
  | succ f ih =>
    intro r run c o hr
    obtain ⟨h15, hr1⟩ := endless9_step r hr
    simp only [unkDecode9.loop, h15]
    simp only [Nat.reduceShiftRight, OfNat.ofNat_ne_zero, if_false, OfNat.ofNat_ne_one,
      Nat.reduceEqDiff]
    exact ih _ _ _ _ hr1

theorem unkDecode9_endless (g : Gdi) (fuel : Nat) (m : Mem) (dst : Int) (height : Nat) :
    unkDecode9 g fuel m dst endlessCode3 1 height = none :=
  unkDecode9_loop_endless g height fuel _ _ _ _ ⟨le_refl _, Or.inl rfl⟩

/-- C1, the claim as stated fails: on a strip with format code 3 whose data bytes are all
`0xFF`, `decompressBitmap` dispatches to `unkDecode9`, which never returns: no amount of
fuel gives a normal return, although 3 is an accepted code. -/
theorem decompressBitmap_code3_never_returns :
    3 ∈ knownCodes ∧ rd endlessCode3 0 = 3 ∧
      ¬ ∃ fuel : Nat, (decompressBitmap demoGdi fuel zeroMem 0 endlessCode3 0 1).isReturned = true := by
  refine ⟨by decide, by decide, ?_⟩
  rintro ⟨fuel, h⟩
  have h3 : rd endlessCode3 0 = 3 := by decide
  unfold decompressBitmap at h
  simp only [h3] at h
  simp only [OfNat.ofNat_ne_zero, OfNat.ofNat_ne_one, Nat.reduceEqDiff, one_ne_zero, if_false,
    if_true, zero_add] at h
  rw [unkDecode9_endless] at h
  simp [Outcome.ofOption, Outcome.isReturned] at h

theorem Outcome_isFatal_ofOption (b : Bool) (g : Gdi) (x : Option Out) :
    (Outcome.ofOption b g x).isFatal = false := by
  cases x <;> rfl

theorem dispatch_returned (code : Nat) (res : Outcome) (hmem : code ∈ knownCodes)
    (hf : res.isFatal = false) (hr : code ≠ 3 → res.isReturned = true) :
    (res.isFatal = true ↔ code ∉ knownCodes) ∧ (code ∉ knownCodes → res = Outcome.fatal code) ∧
      (code ∈ knownCodes → code ≠ 3 → res.isReturned = true) := by
  refine ⟨?_, fun h => absurd hmem h, fun _ h3 => hr h3⟩
  rw [hf]
  simp [hmem]

/-- C1 as the code has it: for `numLinesToProcess ≥ 1` (and fuel for the `8 * h` pixels),
`decompressBitmap` ends in its `error(...)` exactly when the format code is none of 1, 2, 3,
4, 7, 14..18, 24..28, 34..38, 44..48, 64..68, 84..88, 104..108, 124..128, and then reports
that code; for every accepted code other than 3 it returns normally; for code 3 it hands
over to `unkDecode9` and returns exactly when that decoder does. -/
theorem decompressBitmap_dispatch (g : Gdi) (fuel : Nat) (m : Mem) (dst : Int) (smap : Src)
    (sp : Nat) (h : Nat) (hh : 1 ≤ h) (hf : 8 * h ≤ fuel) :
    ((decompressBitmap g fuel m dst smap sp h).isFatal = true ↔ rd smap sp ∉ knownCodes) ∧
    (rd smap sp ∉ knownCodes →
      decompressBitmap g fuel m dst smap sp h = Outcome.fatal (rd smap sp)) ∧
    (rd smap sp ∈ knownCodes → rd smap sp ≠ 3 →
      (decompressBitmap g fuel m dst smap sp h).isReturned = true) ∧
    (rd smap sp = 3 →
      decompressBitmap g fuel m dst smap sp h
        = Outcome.ofOption false (decompressBitmap.setup g 3)
            ((unkDecode9 (decompressBitmap.setup g 3) fuel m dst smap (sp + 1) h).map
              Prod.fst)) := by
  have hH : 0 < h := hh
  have hne : ¬ h = 0 := by omega
  have hk := knownCodes_iff (rd smap sp) (rd_lt smap sp)
  unfold decompressBitmap
  rw [if_neg hne]
  simp only []
  generalize rd smap sp = code at hk ⊢
  rw [← and_assoc, ← and_assoc]
  by_cases h3 : code = 3
  · subst h3
    rw [if_neg (by decide), if_neg (by decide), if_pos rfl]
    refine ⟨?_, fun _ => rfl⟩
    rw [and_assoc]
    exact dispatch_returned 3 _ (by decide) (Outcome_isFatal_ofOption _ _ _)
      (fun h => absurd rfl h)
  · refine ⟨?_, fun h => absurd h h3⟩
    rw [and_assoc]
    by_cases c1 : code = 1
    · rw [if_pos c1]
      obtain ⟨r, e⟩ := unkDecode7_returns (decompressBitmap.setup g code) h hH fuel hf m dst
        smap (sp + 1)
      rw [e]
      exact dispatch_returned code _ (hk.mpr (by omega)) rfl (fun _ => rfl)
    rw [if_neg c1]
    by_cases c2 : code = 2
    · rw [if_pos c2]
      obtain ⟨r, e⟩ := unkDecode8_returns (decompressBitmap.setup g code) h hH fuel hf m dst
        smap (sp + 1)
      rw [e]
      exact dispatch_returned code _ (hk.mpr (by omega)) rfl (fun _ => rfl)
    rw [if_neg c2, if_neg h3]
    by_cases c4 : code = 4
    · rw [if_pos c4]
      obtain ⟨r, e⟩ := unkDecode10_returns (decompressBitmap.setup g code) h hH fuel hf m
        dst smap (sp + 1)
      rw [e]
      exact dispatch_returned code _ (hk.mpr (by omega)) rfl (fun _ => rfl)
    rw [if_neg c4]
    by_cases c7 : code = 7
    · rw [if_pos c7]
      exact dispatch_returned code _ (hk.mpr (by omega)) rfl (fun _ => rfl)
    rw [if_neg c7]
    by_cases c14 : 14 ≤ code ∧ code ≤ 18
    · rw [if_pos c14]
      exact dispatch_returned code _ (hk.mpr (by omega)) rfl (fun _ => rfl)
    rw [if_neg c14]
    by_cases c24 : 24 ≤ code ∧ code ≤ 28
    · rw [if_pos c24]
      exact dispatch_returned code _ (hk.mpr (by omega)) rfl (fun _ => rfl)
    rw [if_neg c24]
    by_cases c34 : 34 ≤ code ∧ code ≤ 38
    · rw [if_pos c34]
      exact dispatch_returned code _ (hk.mpr (by omega)) rfl (fun _ => rfl)
    rw [if_neg c34]
    by_cases c44 : 44 ≤ code ∧ code ≤ 48
    · rw [if_pos c44]
      exact dispatch_returned code _ (hk.mpr (by omega)) rfl (fun _ => rfl)
    rw [if_neg c44]
    by_cases c64 : (64 ≤ code ∧ code ≤ 68) ∨ (104 ≤ code ∧ code ≤ 108)
    · rw [if_pos c64]
      obtain ⟨r, e, _⟩ := unkDecodeA_visited (decompressBitmap.setup g code) h
        hH fuel hf m dst smap (sp + 1)
      rw [e]
      exact dispatch_returned code _ (hk.mpr (by omega)) rfl (fun _ => rfl)
    rw [if_neg c64]
    by_cases c84 : (84 ≤ code ∧ code ≤ 88) ∨ (124 ≤ code ∧ code ≤ 128)
    · rw [if_pos c84]
      obtain ⟨r, e, _⟩ := unkDecodeA_trans_visited
        (decompressBitmap.setup g code) h hH fuel hf m dst smap (sp + 1)
      rw [e]
      exact dispatch_returned code _ (hk.mpr (by omega)) rfl (fun _ => rfl)
    rw [if_neg c84]
    have hnot : code ∉ knownCodes := fun hmem => by
      have := hk.mp hmem
      omega
    exact ⟨by simp [Outcome.isFatal, hnot], fun _ => rfl, fun hmem => absurd hmem hnot⟩



/-! ### Runs that are longer than the strip -/

/-- C4, the claim as stated fails: a run of 256 pixels in a strip of 8 is not reported by
`unkDecode8` or `unkDecode10` (both return normally, the strip filled with the run's colour
and the byte after the strip untouched), and `decodeStripEGA`, given runs of 7 pixels, also
returns normally and has written the pixel after the strip. -/
theorem overlong_run_not_reported :
    ((unkDecode8 demoGdi 8 zeroMem 0 (streamOf [255, 7] 0) 0 1).map
        (fun r => (r.1.mem 0, r.1.mem 7, r.1.mem 8))) = some (7, 7, 0) ∧
    ((unkDecode10 demoGdi 8 zeroMem 0 (streamOf [0, 255, 7] 0) 0 1).map
        (fun r => (r.1.mem 0, r.1.mem 7, r.1.mem 8))) = some (7, 7, 0) ∧
    ((decodeStripEGA demoGdi 4 zeroMem 0 (streamOf [] 0x7F) 0 1).map
        (fun r => (r.1 7, r.1 8))) = some (15, 15) := by
  decide

/-- C4 as the code has it: whatever run lengths the data holds, `unkDecode8` and
`unkDecode10` return normally (a run that exceeds the pixels remaining in the strip is cut
off when the strip is full; nothing is reported) and write no pixel outside the strip. -/
theorem run_decoders_truncate (g : Gdi) (h : Nat) (hh : 1 ≤ h)
    (hv : g.vertStripNextInc = h * g.screenWidth - 1) (fuel : Nat) (hf : 8 * h ≤ fuel)
    (m : Mem) (dst : Int) (src : Src) (sp : Nat) :
    (∃ o sp1, unkDecode8 g fuel m dst src sp h = some (o, sp1) ∧
      ∀ a : Int, (∀ p ∈ stripPositions h, a ≠ pixelAddr g dst p) → o.mem a = m a) ∧
    (∃ o sp1, unkDecode10 g fuel m dst src sp h = some (o, sp1) ∧
      ∀ a : Int, (∀ p ∈ stripPositions h, a ≠ pixelAddr g dst p) → o.mem a = m a) := by
  have hH : 0 < h := hh
  constructor
  · obtain ⟨o, sp1, e, hvis⟩ := unkDecode8_visited g h hH hv fuel hf m dst src sp
    obtain ⟨_, _, _, hframe⟩ := Visited_strip_col g _ m dst h hH o hvis
    exact ⟨o, sp1, e, hframe⟩
  · obtain ⟨o, sp1, e, hvis⟩ := unkDecode10_visited g h hH hv fuel hf m dst src sp
    obtain ⟨_, _, _, hframe⟩ := Visited_strip_col g _ m dst h hH o hvis
    exact ⟨o, sp1, e, hframe⟩


/-! ### The colours a decoder writes -/

theorem ColoursAre_init (col : Nat → Nat) (m : Mem) : ColoursAre col { mem := m, log := [] } := by
  simp [ColoursAre]

theorem ColoursAre_store (col : Nat → Nat) (o : Out) (h : ColoursAre col o) (p : Int) (c v : Nat)
    (hc : c = col o.log.length) : ColoursAre col (o.store p c v) := by
  unfold ColoursAre at *
  simp only [Out.store, List.map_append, List.map_cons, List.map_nil, List.length_append,
    List.length_singleton, List.range_succ, h, hc]

theorem store_length (o : Out) (p : Int) (c v : Nat) :
    (o.store p c v).log.length = o.log.length + 1 := by
  simp [Out.store]

theorem Visited_length (pol : Nat → Option Nat) (m0 : Mem) (addr : Nat → Int) (k : Nat) (o : Out)
    (h : Visited pol m0 addr k o) : o.log.length = k := by
  have := congrArg List.length h.2
  simpa using this

theorem zip_fst_snd (l : List (Int × Nat)) : l = (l.map Prod.fst).zip (l.map Prod.snd) := by
  induction l with
  | nil => rfl
  | cons e t ih =>
    simp only [List.map_cons, List.zip_cons_cons]
    rw [← ih]

theorem list_eq_of_fst_snd (l : List (Int × Nat)) (k : Nat) (addr : Nat → Int) (col : Nat → Nat)
    (h1 : l.map Prod.fst = (List.range k).map addr)
    (h2 : l.map Prod.snd = (List.range k).map col) :
    l = (List.range k).map (fun i => (addr i, col i)) := by
  rw [zip_fst_snd l, h1, h2]
  clear h1 h2
  induction k with
  | zero => rfl
  | succ n ih =>
    rw [List.range_succ, List.map_append, List.map_append, List.map_append,
      List.zip_append (by simp), ih]
    rfl

/-- The trace of a decoder whose visited addresses and colours are known. -/
theorem log_eq_of_visited (pol : Nat → Option Nat) (m0 : Mem) (addr : Nat → Int) (col : Nat → Nat)
    (k : Nat) (o : Out) (hv : Visited pol m0 addr k o) (hc : ColoursAre col o) :
    o.log = (List.range k).map (fun i => (addr i, col i)) := by
  have hlen := Visited_length pol m0 addr k o hv
  unfold ColoursAre at hc
  rw [hlen] at hc
  exact list_eq_of_fst_snd o.log k addr col hv.2 hc

/-- The pixel a decoder leaves at the address of its `j`-th visit, when the visited addresses
are distinct. -/
theorem pixel_of_visited (pol : Nat → Option Nat) (m0 : Mem) (addr : Nat → Int) (col : Nat → Nat)
    (k : Nat) (o : Out) (hv : Visited pol m0 addr k o) (hc : ColoursAre col o)
    (hnd : ((List.range k).map addr).Nodup) (j : Nat) (hj : j < k) :
    o.mem (addr j) = (match pol (col j) with
      | some v => v
      | none => m0 (addr j)) := by
  have hlog := log_eq_of_visited pol m0 addr col k o hv hc
  rw [hv.1]
  apply replay_at
  · rw [hv.2]; exact hnd
  · rw [hlog]
    exact List.mem_map.mpr ⟨j, List.mem_range.mpr hj, rfl⟩

theorem colAddr_nodup (g : Gdi) (h8 : 8 ≤ g.screenWidth) (dst : Int) (h : Nat) (hh : 0 < h) :
    ((List.range (8 * h)).map (colAddr g dst h)).Nodup := by
  have := strip_addrs_nodup g h8 dst h (colPositions h) (colPositions_perm h hh)
  simpa [colPositions, List.map_map, Function.comp, pixelAddr, colAddr] using this

theorem rowAddr_nodup (g : Gdi) (h8 : 8 ≤ g.screenWidth) (dst : Int) (h : Nat) :
    ((List.range (8 * h)).map (rowAddr g dst)).Nodup := by
  have := strip_addrs_nodup g h8 dst h (rowPositions h) (rowPositions_perm h)
  simpa [rowPositions, List.map_map, Function.comp, pixelAddr, rowAddr] using this

theorem unkDecode7_old_colours (g : Gdi) (src : Src) (height : Int) (sp0 : Nat) (fuel : Nat) :
    ∀ (sp : Nat) (c : Cur) (o : Out) (r : Out × Nat), sp = sp0 + o.log.length →
      ColoursAre (fun k => rd src (sp0 + k)) o →
      unkDecode7.old g src height fuel sp c o = some r →
      ColoursAre (fun k => rd src (sp0 + k)) r.1 := by
  induction fuel with
  | zero => intro sp c o r _ _ h; simp [unkDecode7.old] at h
  | succ f ih =>
    intro sp c o r hsp hc h
    have hc1 := ColoursAre_store _ o hc c.dst (rd src sp) (rd src sp) (by rw [hsp])
    simp only [unkDecode7.old] at h
    cases hn : NEXT_ROW g height c with
    | none =>
      rw [hn] at h
      simp only [Option.some.injEq] at h
      rw [← h]
      exact hc1
    | some c1 =>
      rw [hn] at h
      exact ih _ _ _ _ (by rw [store_length, hsp]; omega) hc1 h

theorem unkDecode7_copy8_colours (src : Src) (sp0 sp : Nat) (dst : Int) (o : Out)
    (hsp : sp = sp0 + o.log.length) (hc : ColoursAre (fun k => rd src (sp0 + k)) o) :
    ColoursAre (fun k => rd src (sp0 + k)) (unkDecode7.copy8 src sp dst o) ∧
      (unkDecode7.copy8 src sp dst o).log.length = o.log.length + 8 := by
  unfold unkDecode7.copy8
  simp only []
  have h0 := ColoursAre_store _ o hc dst (rd src sp) (rd src sp) (by rw [hsp])
  have h1 := ColoursAre_store _ _ h0 (dst + 1) (rd src (sp + 1)) (rd src (sp + 1))
    (by rw [store_length, hsp]; rfl)
  have h2 := ColoursAre_store _ _ h1 (dst + 2) (rd src (sp + 2)) (rd src (sp + 2))
    (by rw [store_length, store_length, hsp]; rfl)
  have h3 := ColoursAre_store _ _ h2 (dst + 3) (rd src (sp + 3)) (rd src (sp + 3))
    (by rw [store_length, store_length, store_length, hsp]; rfl)
  have h4 := ColoursAre_store _ _ h3 (dst + 4) (rd src (sp + 4)) (rd src (sp + 4))
    (by rw [store_length, store_length, store_length, store_length, hsp]; rfl)
  have h5 := ColoursAre_store _ _ h4 (dst + 5) (rd src (sp + 5)) (rd src (sp + 5))
    (by rw [store_length, store_length, store_length, store_length, store_length, hsp]; rfl)
  have h6 := ColoursAre_store _ _ h5 (dst + 6) (rd src (sp + 6)) (rd src (sp + 6))
    (by
      rw [store_length, store_length, store_length, store_length, store_length, store_length,
        hsp]; rfl)
  have h7 := ColoursAre_store _ _ h6 (dst + 7) (rd src (sp + 7)) (rd src (sp + 7))
    (by
      rw [store_length, store_length, store_length, store_length, store_length, store_length,
        store_length, hsp]; rfl)
  refine ⟨h7, ?_⟩
  simp only [store_length]

theorem unkDecode7_rows_colours (g : Gdi) (src : Src) (sp0 : Nat) (h : Nat) :
    ∀ (sp : Nat) (dst : Int) (o : Out), sp = sp0 + o.log.length →
      ColoursAre (fun k => rd src (sp0 + k)) o →
      ColoursAre (fun k => rd src (sp0 + k)) (unkDecode7.rows g src h sp dst o).1 := by
  induction h with
  | zero => intro sp dst o _ hc; exact hc
  | succ h ih =>
    intro sp dst o hsp hc
    simp only [unkDecode7.rows]
    obtain ⟨h1, h2⟩ := unkDecode7_copy8_colours src sp0 sp dst o hsp hc
    exact ih _ _ _ (by rw [h2, hsp]; omega) h1


/-! ### Format code 1: the literal strip -/

/-- C2, the claim as stated fails: with `GF_OLD256` and height 2, the pixel at row 0,
column 1 receives payload byte 2 (value 12 here), not payload byte `8 * 0 + 1` (value 11):
that branch of `unkDecode7` stores the payload column by column. -/
theorem literal_old256_not_row_major :
    demoGdiOld.featOld256 = true ∧
    (decompressBitmap demoGdiOld 16 zeroMem 0 demoRamp 0 2).pixel (pixelAddr demoGdiOld 0 (0, 1))
      = some 12 ∧
    rd demoRamp (1 + (8 * 0 + 1)) = 11 ∧ rd demoRamp (1 + 2) = 12 := by
  decide

theorem colAddr_setup (g : Gdi) (code : Nat) (dst : Int) (h k : Nat) :
    colAddr (decompressBitmap.setup g code) dst h k = colAddr g dst h k := rfl

theorem rowAddr_setup (g : Gdi) (code : Nat) (dst : Int) (k : Nat) :
    rowAddr (decompressBitmap.setup g code) dst k = rowAddr g dst k := rfl

/-- The literal decoder stores payload byte `k` at the `k`-th position of its pass: column by
column with `GF_OLD256`, row by row without. -/
theorem unkDecode7_pixels (g : Gdi) (h8 : 8 ≤ g.screenWidth) (h : Nat) (hh : 1 ≤ h)
    (hv : g.vertStripNextInc = h * g.screenWidth - 1) (fuel : Nat) (hf : 8 * h ≤ fuel)
    (m : Mem) (dst : Int) (src : Src) (sp : Nat) :
    ∃ o sp1, unkDecode7 g fuel m dst src sp h = some (o, sp1) ∧
      ∀ y x : Nat, y < h → x < 8 →
        o.mem (pixelAddr g dst (y, x))
          = rd src (sp + (if g.featOld256 then h * x + y else 8 * y + x)) := by
  have hH : 0 < h := hh
  cases hold : g.featOld256 with
  | true =>
    obtain ⟨o, sp1, e, hvis⟩ := unkDecode7_old_visited g hold h hH hv fuel hf m dst src sp
    refine ⟨o, sp1, e, ?_⟩
    have hcol : ColoursAre (fun k => rd src (sp + k)) o := by
      unfold unkDecode7 at e
      rw [hold] at e
      exact unkDecode7_old_colours g src h sp fuel sp _ { mem := m, log := [] } (o, sp1) rfl
        (ColoursAre_init _ m) e
    intro y x hy hx
    obtain ⟨e1, e2⟩ := divmod_of_eq h (h * x + y) x y hy rfl
    have hlt : h * x + y < 8 * h := by
      have : h * x ≤ h * 7 := Nat.mul_le_mul_left h (by omega)
      omega
    have := pixel_of_visited polPlain m (colAddr g dst h) _ (8 * h) o hvis hcol
      (colAddr_nodup g h8 dst h hH) (h * x + y) hlt
    simp only [polPlain, colAddr, e1, e2] at this
    simp only [pixelAddr, if_true]
    exact this
  | false =>
    obtain ⟨o, sp1, e, hvis⟩ := unkDecode7_new_visited g hold h fuel m dst src sp
    refine ⟨o, sp1, e, ?_⟩
    have hcol : ColoursAre (fun k => rd src (sp + k)) o := by
      unfold unkDecode7 at e
      rw [hold] at e
      simp only [Bool.false_eq_true, if_false, Option.some.injEq] at e
      have := unkDecode7_rows_colours g src sp h sp dst { mem := m, log := [] } rfl
        (ColoursAre_init _ m)
      rw [e] at this
      exact this
    intro y x hy hx
    have e1 : (8 * y + x) / 8 = y := by omega
    have e2 : (8 * y + x) % 8 = x := by omega
    have := pixel_of_visited polPlain m (rowAddr g dst) _ (8 * h) o hvis hcol
      (rowAddr_nodup g h8 dst h) (8 * y + x) (by omega)
    simp only [polPlain, rowAddr, e1, e2] at this
    simp only [pixelAddr, Bool.false_eq_true, if_false]
    exact this

/-- C2 as the code has it: for format code 1, every height `h ≥ 1` and every payload,
`decompressBitmap` returns `false` and leaves at row `y`, column `x` of the strip payload
byte `8 * y + x` (row by row) when `GF_OLD256` is not set, and payload byte `h * x + y`
(column by column) when it is; in both configurations a payload of eight bytes `0x05` with
height 1 gives a row of eight pixels equal to 5. -/
theorem literal_strip (g : Gdi) (h8 : 8 ≤ g.screenWidth) (h : Nat) (hh : 1 ≤ h)
    (hv : g.vertStripNextInc = h * g.screenWidth - 1) (fuel : Nat) (hf : 8 * h ≤ fuel)
    (m : Mem) (dst : Int) (smap : Src) (sp : Nat) (hcode : rd smap sp = 1) :
    ∃ g1 out, decompressBitmap g fuel m dst smap sp h = Outcome.returned false g1 out ∧
      (∀ y x : Nat, y < h → x < 8 →
        out.mem (pixelAddr g dst (y, x))
          = rd smap (sp + 1 + (if g.featOld256 then h * x + y else 8 * y + x))) ∧
      (h = 1 → (∀ i : Nat, i < 8 → rd smap (sp + 1 + i) = 5) →
        ∀ x : Nat, x < 8 → out.mem (pixelAddr g dst (0, x)) = 5) := by
  obtain ⟨o, sp1, e, hpix⟩ := unkDecode7_pixels (decompressBitmap.setup g 1) h8 h hh hv fuel hf
    m dst smap (sp + 1)
  have hne : ¬ h = 0 := by omega
  refine ⟨decompressBitmap.setup g 1, o, ?_, hpix, ?_⟩
  · unfold decompressBitmap
    rw [if_neg hne]
    simp only [hcode, if_true]
    rw [e]
    rfl
  · intro h1 h5 x hx
    subst h1
    have := hpix 0 x (by omega) hx
    change o.mem (pixelAddr g dst (0, x)) = _ at this
    rw [this]
    have e5 : (if (decompressBitmap.setup g 1).featOld256 = true then 1 * x + 0 else 8 * 0 + x)
        = x := by
      split <;> omega
    rw [e5]
    exact h5 x hx


/-! ### The bit reader on a known bit stream -/

theorem VirtScreen_eq (a b : VirtScreen) (hw : a.width = b.width) (hh : a.height = b.height)
    (ht : ∀ i, a.tdirty i = b.tdirty i) (hb : ∀ i, a.bdirty i = b.bdirty i) : a = b := by
  cases a
  cases b
  simp only [VirtScreen.mk.injEq]
  exact ⟨hw, hh, funext ht, funext hb⟩

theorem setVirtscreenDirty_geom (g : Gdi) (vs : VirtScreen) (left top right bottom : Int) :
    (setVirtscreenDirty g vs left top right bottom).width = vs.width ∧
      (setVirtscreenDirty g vs left top right bottom).height = vs.height := by
  unfold setVirtscreenDirty
  simp only []
  split
  · exact ⟨rfl, rfl⟩
  · exact setVirtscreenDirty_loop_width _ _ _ _ _ _

/-- `setVirtscreenDirty` in terms of `Covers`. -/
theorem setVirtscreenDirty_covers (g : Gdi) (vs : VirtScreen) (left top right bottom i : Int) :
    (setVirtscreenDirty g vs left top right bottom).tdirty i
        = (if Covers g left right i then min (vs.tdirty i) top else vs.tdirty i) ∧
      (setVirtscreenDirty g vs left top right bottom).bdirty i
        = (if Covers g left right i then max (vs.bdirty i) bottom else vs.bdirty i) :=
  setVirtscreenDirty_at g vs left top right bottom i

theorem setVirtscreenDirty_comm (g : Gdi) (vs : VirtScreen) (l1 t1 r1 b1 l2 t2 r2 b2 : Int) :
    setVirtscreenDirty g (setVirtscreenDirty g vs l1 t1 r1 b1) l2 t2 r2 b2
      = setVirtscreenDirty g (setVirtscreenDirty g vs l2 t2 r2 b2) l1 t1 r1 b1 := by
  apply VirtScreen_eq
  · rw [(setVirtscreenDirty_geom _ _ _ _ _ _).1, (setVirtscreenDirty_geom _ _ _ _ _ _).1,
      (setVirtscreenDirty_geom _ _ _ _ _ _).1, (setVirtscreenDirty_geom _ _ _ _ _ _).1]
  · rw [(setVirtscreenDirty_geom _ _ _ _ _ _).2, (setVirtscreenDirty_geom _ _ _ _ _ _).2,
      (setVirtscreenDirty_geom _ _ _ _ _ _).2, (setVirtscreenDirty_geom _ _ _ _ _ _).2]
  · intro i
    rw [(setVirtscreenDirty_covers _ _ _ _ _ _ i).1, (setVirtscreenDirty_covers _ _ _ _ _ _ i).1,
      (setVirtscreenDirty_covers _ _ _ _ _ _ i).1, (setVirtscreenDirty_covers _ _ _ _ _ _ i).1]
    by_cases c1 : Covers g l1 r1 i <;> by_cases c2 : Covers g l2 r2 i <;>
      simp only [c1, c2, if_true, if_false]
    omega
  · intro i
    rw [(setVirtscreenDirty_covers _ _ _ _ _ _ i).2, (setVirtscreenDirty_covers _ _ _ _ _ _ i).2,
      (setVirtscreenDirty_covers _ _ _ _ _ _ i).2, (setVirtscreenDirty_covers _ _ _ _ _ _ i).2]
    by_cases c1 : Covers g l1 r1 i <;> by_cases c2 : Covers g l2 r2 i <;>
      simp only [c1, c2, if_true, if_false]
    omega

/-- C11: from the cleared tracker (every strip `tdirty = height`, `bdirty = 0`), marking
`R1 = (l1, t1, r1, b1)` and then `R2 = (l2, t2, r2, b2)`, with `0 ≤ t ≤ b ≤ height` for both,
leaves a strip covered by both column ranges with the span `[min t1 t2, max b1 b2]`, a strip
covered by exactly one with that request's `[t, b]`, and a strip covered by neither clean;
and the final state is the same when `R2` is marked before `R1`. -/
theorem setVirtscreenDirty_merge (g : Gdi) (vs : VirtScreen) (l1 t1 r1 b1 l2 t2 r2 b2 : Int)
    (hc : Cleared g vs) (h1 : 0 ≤ t1 ∧ t1 ≤ b1 ∧ b1 ≤ vs.height)
    (h2 : 0 ≤ t2 ∧ t2 ≤ b2 ∧ b2 ≤ vs.height) :
    (∀ i : Int, 0 ≤ i → i < g.numStrips →
      (Covers g l1 r1 i ∧ Covers g l2 r2 i →
        (setVirtscreenDirty g (setVirtscreenDirty g vs l1 t1 r1 b1) l2 t2 r2 b2).tdirty i
            = min t1 t2 ∧
          (setVirtscreenDirty g (setVirtscreenDirty g vs l1 t1 r1 b1) l2 t2 r2 b2).bdirty i
            = max b1 b2) ∧
      (Covers g l1 r1 i ∧ ¬ Covers g l2 r2 i →
        (setVirtscreenDirty g (setVirtscreenDirty g vs l1 t1 r1 b1) l2 t2 r2 b2).tdirty i = t1 ∧
          (setVirtscreenDirty g (setVirtscreenDirty g vs l1 t1 r1 b1) l2 t2 r2 b2).bdirty i
            = b1) ∧
      (¬ Covers g l1 r1 i ∧ Covers g l2 r2 i →
        (setVirtscreenDirty g (setVirtscreenDirty g vs l1 t1 r1 b1) l2 t2 r2 b2).tdirty i = t2 ∧
          (setVirtscreenDirty g (setVirtscreenDirty g vs l1 t1 r1 b1) l2 t2 r2 b2).bdirty i
            = b2) ∧
      (¬ Covers g l1 r1 i ∧ ¬ Covers g l2 r2 i →
        (setVirtscreenDirty g (setVirtscreenDirty g vs l1 t1 r1 b1) l2 t2 r2 b2).tdirty i
            = vs.height ∧
          (setVirtscreenDirty g (setVirtscreenDirty g vs l1 t1 r1 b1) l2 t2 r2 b2).bdirty i
            = 0)) ∧
    setVirtscreenDirty g (setVirtscreenDirty g vs l1 t1 r1 b1) l2 t2 r2 b2
      = setVirtscreenDirty g (setVirtscreenDirty g vs l2 t2 r2 b2) l1 t1 r1 b1 := by
  refine ⟨fun i hi0 hiN => ?_, setVirtscreenDirty_comm g vs l1 t1 r1 b1 l2 t2 r2 b2⟩
  obtain ⟨ht, hb⟩ := hc i hi0 hiN
  rw [(setVirtscreenDirty_covers _ _ _ _ _ _ i).1, (setVirtscreenDirty_covers _ _ _ _ _ _ i).1,
    (setVirtscreenDirty_covers _ _ _ _ _ _ i).2, (setVirtscreenDirty_covers _ _ _ _ _ _ i).2,
    ht, hb]
  refine ⟨?_, ?_, ?_, ?_⟩
  · rintro ⟨c1, c2⟩
    simp only [c1, c2, if_true]
    omega
  · rintro ⟨c1, c2⟩
    simp only [c1, c2, if_true, if_false]
    omega
  · rintro ⟨c1, c2⟩
    simp only [c1, c2, if_true, if_false]
    omega
  · rintro ⟨c1, c2⟩
    simp only [c1, c2, if_false]
    exact ⟨trivial, trivial⟩

/-! ## Presenting the dirty strips: `updateDirtyScreen` -/

theorem setAt_same (arr : Int → Int) (i v : Int) : setAt arr i v i = v := by
  simp [setAt]

theorem setAt_other (arr : Int → Int) (i v j : Int) (h : j ≠ i) : setAt arr i v j = arr j := by
  simp [setAt, h]

/-- The dirty arrays after the loop of `updateDirtyScreen`: every dirty strip from `i` on is
reset, everything else is as before. -/
theorem updateDirtyScreen_loop_arrays (vm : Vm) (g : Gdi) (fuel : Nat) (i start w : Int)
    (vs : VirtScreen) (calls : List StripRect) (hf : (g.numStrips - i).toNat ≤ fuel) :
    (updateDirtyScreen.loop vm g fuel i start w vs calls).1.height = vs.height ∧
    (updateDirtyScreen.loop vm g fuel i start w vs calls).1.width = vs.width ∧
    ∀ j : Int,
      (updateDirtyScreen.loop vm g fuel i start w vs calls).1.tdirty j
          = (if i ≤ j ∧ j < g.numStrips ∧ vs.bdirty j ≠ 0 then vs.height else vs.tdirty j) ∧
      (updateDirtyScreen.loop vm g fuel i start w vs calls).1.bdirty j
          = (if i ≤ j ∧ j < g.numStrips ∧ vs.bdirty j ≠ 0 then 0 else vs.bdirty j) := by
  induction fuel generalizing i start w vs calls with
  | zero =>
    refine ⟨rfl, rfl, fun j => ?_⟩
    have h : ¬ (i ≤ j ∧ j < g.numStrips ∧ vs.bdirty j ≠ 0) := by omega
    simp only [updateDirtyScreen.loop, if_neg h]
    exact ⟨trivial, trivial⟩
  | succ n ih =>
    unfold updateDirtyScreen.loop
    by_cases hi : i < g.numStrips
    · rw [if_pos hi]
      have hf1 : (g.numStrips - (i + 1)).toNat ≤ n := by omega
      simp only []
      by_cases hb : vs.bdirty i ≠ 0
      · rw [if_pos hb]
        have key : ∀ (s1 w1 : Int) (c1 : List StripRect),
            (updateDirtyScreen.loop vm g n (i + 1) s1 w1
              ⟨vs.width, vs.height, setAt vs.tdirty i vs.height, setAt vs.bdirty i 0⟩ c1).1.height
                = vs.height ∧
            (updateDirtyScreen.loop vm g n (i + 1) s1 w1
              ⟨vs.width, vs.height, setAt vs.tdirty i vs.height, setAt vs.bdirty i 0⟩ c1).1.width
                = vs.width ∧
            ∀ j : Int,
              (updateDirtyScreen.loop vm g n (i + 1) s1 w1
                ⟨vs.width, vs.height, setAt vs.tdirty i vs.height, setAt vs.bdirty i 0⟩ c1).1.tdirty j
                  = (if i ≤ j ∧ j < g.numStrips ∧ vs.bdirty j ≠ 0 then vs.height
                      else vs.tdirty j) ∧
              (updateDirtyScreen.loop vm g n (i + 1) s1 w1
                ⟨vs.width, vs.height, setAt vs.tdirty i vs.height, setAt vs.bdirty i 0⟩ c1).1.bdirty j
                  = (if i ≤ j ∧ j < g.numStrips ∧ vs.bdirty j ≠ 0 then 0 else vs.bdirty j) := by
          intro s1 w1 c1
          obtain ⟨e1, e2, e3⟩ := ih (i + 1) s1 w1
            ⟨vs.width, vs.height, setAt vs.tdirty i vs.height, setAt vs.bdirty i 0⟩ c1 hf1
          refine ⟨e1, e2, fun j => ?_⟩
          rw [(e3 j).1, (e3 j).2]
          simp only []
          by_cases hj : j = i
          · subst hj
            have h1 : ¬ (j + 1 ≤ j ∧ j < g.numStrips ∧ setAt vs.bdirty j 0 j ≠ 0) := by omega
            have h2 : j ≤ j ∧ j < g.numStrips ∧ vs.bdirty j ≠ 0 := ⟨le_refl _, hi, hb⟩
            rw [if_neg h1, if_neg h1, if_pos h2, if_pos h2, setAt_same, setAt_same]
            exact ⟨rfl, rfl⟩
          · rw [setAt_other _ _ _ _ hj, setAt_other _ _ _ _ hj]
            have hiff : (i + 1 ≤ j ∧ j < g.numStrips ∧ vs.bdirty j ≠ 0)
                ↔ (i ≤ j ∧ j < g.numStrips ∧ vs.bdirty j ≠ 0) := by
              constructor
              · rintro ⟨a, b, c⟩
                exact ⟨by omega, b, c⟩
              · rintro ⟨a, b, c⟩
                exact ⟨by omega, b, c⟩
            simp only [hiff]
            exact ⟨trivial, trivial⟩
        split
        · exact key _ _ _
        · exact key _ _ _
      · rw [if_neg hb]
        obtain ⟨e1, e2, e3⟩ := ih (i + 1) (i + 1) w vs calls hf1
        refine ⟨e1, e2, fun j => ?_⟩
        rw [(e3 j).1, (e3 j).2]
        have hb0 : vs.bdirty i = 0 := not_not.mp hb
        by_cases hj : j = i
        · subst hj
          have h1 : ¬ (j + 1 ≤ j ∧ j < g.numStrips ∧ vs.bdirty j ≠ 0) := by omega
          have h2 : ¬ (j ≤ j ∧ j < g.numStrips ∧ vs.bdirty j ≠ 0) := fun h => h.2.2 hb0
          rw [if_neg h1, if_neg h1, if_neg h2, if_neg h2]
          exact ⟨rfl, rfl⟩
        · have hiff : (i + 1 ≤ j ∧ j < g.numStrips ∧ vs.bdirty j ≠ 0)
              ↔ (i ≤ j ∧ j < g.numStrips ∧ vs.bdirty j ≠ 0) := by
            constructor
            · rintro ⟨a, b, c⟩
              exact ⟨by omega, b, c⟩
            · rintro ⟨a, b, c⟩
              exact ⟨by omega, b, c⟩
          simp only [hiff]
          exact ⟨trivial, trivial⟩
    · rw [if_neg hi]
      refine ⟨rfl, rfl, fun j => ?_⟩
      have h : ¬ (i ≤ j ∧ j < g.numStrips ∧ vs.bdirty j ≠ 0) := by omega
      rw [if_neg h, if_neg h]
      exact ⟨rfl, rfl⟩

/-- The dirty arrays after `updateDirtyScreen` when it takes the strip-by-strip path. -/
theorem updateDirtyScreen_arrays (vm : Vm) (g : Gdi) (vs : VirtScreen) (hh : vs.height ≠ 0)
    (hcfg : ¬ (vm.featAfterV7 = true ∧ vm.cameraCurY ≠ vm.cameraLastY)) (j : Int) :
    (updateDirtyScreen vm g vs).1.tdirty j
        = (if 0 ≤ j ∧ j < g.numStrips ∧ vs.bdirty j ≠ 0 then vs.height else vs.tdirty j) ∧
      (updateDirtyScreen vm g vs).1.bdirty j
        = (if 0 ≤ j ∧ j < g.numStrips ∧ vs.bdirty j ≠ 0 then 0 else vs.bdirty j) := by
  unfold updateDirtyScreen
  rw [if_neg hh, if_neg hcfg]
  exact (updateDirtyScreen_loop_arrays vm g _ 0 0 8 vs [] (by omega)).2.2 j

/-- C12, the claim as stated fails: on a V7 engine whose camera has moved vertically,
`updateDirtyScreen` presents the whole screen in one call and leaves the dirty strips 0..2
of a 200-line screen dirty. -/
theorem updateDirtyScreen_v7_keeps_dirty :
    demoVm7.featAfterV7 = true ∧ demoDirty.height = 200 ∧ demoDirty.bdirty 0 = 20 ∧
      (updateDirtyScreen demoVm7 demoGdi demoDirty).1.tdirty 0 = 10 ∧
      (updateDirtyScreen demoVm7 demoGdi demoDirty).1.bdirty 0 = 20 ∧
      (updateDirtyScreen demoVm7 demoGdi demoDirty).2 = [⟨0, 320, 0, 200⟩] := by
  decide

/-- C12 as the code has it: after `Gdi::updateDirtyScreen(vs)` on a screen with
`height > 0`, unless the engine is V7 and the camera has moved vertically since the last
frame, every strip that was dirty (`bdirty ≠ 0`) is reset to the clean sentinel
(`tdirty = vs.height`, `bdirty = 0`) and every strip that was clean is unchanged, so every
strip is reported clean; in the V7 configuration with a vertical camera move the whole
screen is presented in one call and the tracker is left as it was. -/
theorem updateDirtyScreen_clears (vm : Vm) (g : Gdi) (vs : VirtScreen) (hh : 0 < vs.height) :
    (¬ (vm.featAfterV7 = true ∧ vm.cameraCurY ≠ vm.cameraLastY) →
      (updateDirtyScreen vm g vs).1.height = vs.height ∧
      ∀ i : Int, 0 ≤ i → i < g.numStrips →
        (vs.bdirty i ≠ 0 →
          (updateDirtyScreen vm g vs).1.tdirty i = vs.height ∧
            (updateDirtyScreen vm g vs).1.bdirty i = 0) ∧
        (vs.bdirty i = 0 →
          (updateDirtyScreen vm g vs).1.tdirty i = vs.tdirty i ∧
            (updateDirtyScreen vm g vs).1.bdirty i = vs.bdirty i) ∧
        (updateDirtyScreen vm g vs).1.bdirty i = 0) ∧
    ((vm.featAfterV7 = true ∧ vm.cameraCurY ≠ vm.cameraLastY) →
      updateDirtyScreen vm g vs = (vs, [⟨0, shl g.numStrips 3, 0, vs.height⟩])) := by
  have hne : vs.height ≠ 0 := by omega
  constructor
  · intro hcfg
    constructor
    · unfold updateDirtyScreen
      rw [if_neg hne, if_neg hcfg]
      exact (updateDirtyScreen_loop_arrays vm g _ 0 0 8 vs [] (by omega)).1
    · intro i hi0 hiN
      obtain ⟨et, eb⟩ := updateDirtyScreen_arrays vm g vs hne hcfg i
      rw [et, eb]
      refine ⟨fun hb => ?_, fun hb => ?_, ?_⟩
      · rw [if_pos ⟨hi0, hiN, hb⟩, if_pos ⟨hi0, hiN, hb⟩]
        exact ⟨rfl, rfl⟩
      · have h : ¬ (0 ≤ i ∧ i < g.numStrips ∧ vs.bdirty i ≠ 0) := fun h => h.2.2 hb
        rw [if_neg h, if_neg h]
        exact ⟨rfl, rfl⟩
      · by_cases hb : vs.bdirty i = 0
        · have h : ¬ (0 ≤ i ∧ i < g.numStrips ∧ vs.bdirty i ≠ 0) := fun h => h.2.2 hb
          rw [if_neg h]
          exact hb
        · rw [if_pos ⟨hi0, hiN, hb⟩]
  · intro hcfg
    unfold updateDirtyScreen
    rw [if_neg hne, if_pos hcfg]

/-! ## The dirty-span invariant -/

theorem setDirtyRange_loop_spec (numStrips top bottom : Int) (fuel : Nat) (i : Int)
    (vs : VirtScreen) (hf : (numStrips - i).toNat ≤ fuel) (j : Int) :
    (setDirtyRange.loop numStrips top bottom fuel i vs).tdirty j
        = (if i ≤ j ∧ j < numStrips then top else vs.tdirty j) ∧
      (setDirtyRange.loop numStrips top bottom fuel i vs).bdirty j
        = (if i ≤ j ∧ j < numStrips then bottom else vs.bdirty j) := by
  induction fuel generalizing i vs with
  | zero =>
    have h : ¬ (i ≤ j ∧ j < numStrips) := by omega
    simp only [setDirtyRange.loop, if_neg h]
    exact ⟨trivial, trivial⟩
  | succ n ih =>
    unfold setDirtyRange.loop
    by_cases hi : i < numStrips
    · rw [if_pos hi]
      simp only []
      obtain ⟨e1, e2⟩ := ih (i + 1)
        ⟨vs.width, vs.height, setAt vs.tdirty i top, setAt vs.bdirty i bottom⟩ (by omega)
      rw [e1, e2]
      simp only []
      by_cases hj : j = i
      · subst hj
        have h1 : ¬ (j + 1 ≤ j ∧ j < numStrips) := by omega
        rw [if_neg h1, if_neg h1, if_pos ⟨le_refl _, hi⟩, if_pos ⟨le_refl _, hi⟩, setAt_same,
          setAt_same]
        exact ⟨rfl, rfl⟩
      · rw [setAt_other _ _ _ _ hj, setAt_other _ _ _ _ hj]
        have hiff : (i + 1 ≤ j ∧ j < numStrips) ↔ (i ≤ j ∧ j < numStrips) := by omega
        simp only [hiff]
        exact ⟨trivial, trivial⟩
    · rw [if_neg hi]
      have h : ¬ (i ≤ j ∧ j < numStrips) := by omega
      rw [if_neg h, if_neg h]
      exact ⟨rfl, rfl⟩

/-- `setDirtyRange` gives every strip the span `[top, bottom]` and touches nothing else. -/
theorem setDirtyRange_spec (g : Gdi) (vs : VirtScreen) (top bottom j : Int) :
    (setDirtyRange g vs top bottom).tdirty j
        = (if 0 ≤ j ∧ j < g.numStrips then top else vs.tdirty j) ∧
      (setDirtyRange g vs top bottom).bdirty j
        = (if 0 ≤ j ∧ j < g.numStrips then bottom else vs.bdirty j) :=
  setDirtyRange_loop_spec g.numStrips top bottom _ 0 vs (by omega) j

theorem setDirtyRange_inv (g : Gdi) (vs : VirtScreen) (top bottom : Int) (h : top ≤ bottom) :
    DirtyInv g (setDirtyRange g vs top bottom) := by
  intro i hi0 hiN
  obtain ⟨e1, e2⟩ := setDirtyRange_spec g vs top bottom i
  rw [e1, e2, if_pos ⟨hi0, hiN⟩, if_pos ⟨hi0, hiN⟩]
  exact Or.inr h

/-- `setVirtscreenDirty` keeps the invariant when the request is ordered (`top ≤ bottom`)
or its bottom is not positive. -/
theorem setVirtscreenDirty_inv (g : Gdi) (vs : VirtScreen) (left top right bottom : Int)
    (h : top ≤ bottom ∨ bottom ≤ 0) (hinv : DirtyInv g vs) :
    DirtyInv g (setVirtscreenDirty g vs left top right bottom) := by
  intro i hi0 hiN
  obtain ⟨e1, e2⟩ := setVirtscreenDirty_covers g vs left top right bottom i
  rw [e1, e2]
  have := hinv i hi0 hiN
  by_cases c : Covers g left right i
  · rw [if_pos c, if_pos c]
    omega
  · rw [if_neg c, if_neg c]
    exact this

theorem updateDirtyRect_inv (vm : Vm) (g : Gdi) (vs : VirtScreen)
    (virt left right top bottom dirtybit : Int) (h : top ≤ bottom) (hinv : DirtyInv g vs) :
    DirtyInv g (updateDirtyRect vm g vs virt left right top bottom dirtybit).1 := by
  unfold updateDirtyRect
  by_cases hret : top > vs.height ∨ left > vs.width ∨ right < 0 ∨ bottom < 0
  · rw [if_pos hret]
    exact hinv
  · rw [if_neg hret]
    simp only []
    apply setVirtscreenDirty_inv _ _ _ _ _ _ _ hinv
    split <;> split <;> omega

/-- The dirty arrays after `resetBackground`: the span of `strip` is widened to take in
`top` and `bottom`; no other entry changes. -/
theorem resetBackground_arrays (vm : Vm) (g : Gdi) (s : Screen0) (top bottom strip j : Int) :
    (resetBackground vm g s top bottom strip).vs.tdirty j
        = (if j = strip then min (s.vs.tdirty strip) top else s.vs.tdirty j) ∧
      (resetBackground vm g s top bottom strip).vs.bdirty j
        = (if j = strip then max (s.vs.bdirty strip) bottom else s.vs.bdirty j) := by
  have key : (if bottom > (if top < s.vs.tdirty strip
          then ({ s.vs with tdirty := setAt s.vs.tdirty strip top } : VirtScreen)
          else s.vs).bdirty strip
        then ({ (if top < s.vs.tdirty strip
            then ({ s.vs with tdirty := setAt s.vs.tdirty strip top } : VirtScreen)
            else s.vs) with
          bdirty := setAt (if top < s.vs.tdirty strip
            then ({ s.vs with tdirty := setAt s.vs.tdirty strip top } : VirtScreen)
            else s.vs).bdirty strip bottom } : VirtScreen)
        else (if top < s.vs.tdirty strip
          then ({ s.vs with tdirty := setAt s.vs.tdirty strip top } : VirtScreen)
          else s.vs)).tdirty j
        = (if j = strip then min (s.vs.tdirty strip) top else s.vs.tdirty j) ∧
      (if bottom > (if top < s.vs.tdirty strip
          then ({ s.vs with tdirty := setAt s.vs.tdirty strip top } : VirtScreen)
          else s.vs).bdirty strip
        then ({ (if top < s.vs.tdirty strip
            then ({ s.vs with tdirty := setAt s.vs.tdirty strip top } : VirtScreen)
            else s.vs) with
          bdirty := setAt (if top < s.vs.tdirty strip
            then ({ s.vs with tdirty := setAt s.vs.tdirty strip top } : VirtScreen)
            else s.vs).bdirty strip bottom } : VirtScreen)
        else (if top < s.vs.tdirty strip
          then ({ s.vs with tdirty := setAt s.vs.tdirty strip top } : VirtScreen)
          else s.vs)).bdirty j
        = (if j = strip then max (s.vs.bdirty strip) bottom else s.vs.bdirty j) := by
    by_cases ht : top < s.vs.tdirty strip
    · rw [if_pos ht]
      simp only []
      by_cases hb : bottom > s.vs.bdirty strip
      · rw [if_pos hb]
        simp only [setAt]
        by_cases hj : j = strip <;> simp only [hj, if_true, if_false] <;> constructor <;>
          first | trivial | omega
      · rw [if_neg hb]
        simp only [setAt]
        by_cases hj : j = strip <;> simp only [hj, if_true, if_false] <;> constructor <;>
          first | trivial | omega
    · rw [if_neg ht]
      by_cases hb : bottom > s.vs.bdirty strip
      · rw [if_pos hb]
        simp only [setAt]
        by_cases hj : j = strip <;> simp only [hj, if_true, if_false] <;> constructor <;>
          first | trivial | omega
      · rw [if_neg hb]
        by_cases hj : j = strip <;> simp only [hj, if_true, if_false] <;> constructor <;>
          first | trivial | omega
  unfold resetBackground
  simp only []
  split
  · split
    · split <;> exact key
    · exact key
  · exact key

theorem resetBackground_inv (vm : Vm) (g : Gdi) (s : Screen0) (top bottom strip : Int)
    (h : top ≤ bottom) (hinv : DirtyInv g s.vs) :
    DirtyInv g (resetBackground vm g s top bottom strip).vs := by
  intro i hi0 hiN
  obtain ⟨e1, e2⟩ := resetBackground_arrays vm g s top bottom strip i
  rw [e1, e2]
  have := hinv i hi0 hiN
  by_cases c : i = strip
  · rw [if_pos c, if_pos c]
    omega
  · rw [if_neg c, if_neg c]
    exact this

theorem updateDirtyScreen_inv (vm : Vm) (g : Gdi) (vs : VirtScreen) (hinv : DirtyInv g vs) :
    DirtyInv g (updateDirtyScreen vm g vs).1 := by
  by_cases hh : vs.height = 0
  · unfold updateDirtyScreen
    rw [if_pos hh]
    exact hinv
  · by_cases hcfg : vm.featAfterV7 = true ∧ vm.cameraCurY ≠ vm.cameraLastY
    · unfold updateDirtyScreen
      rw [if_neg hh, if_pos hcfg]
      exact hinv
    · intro i hi0 hiN
      obtain ⟨_, e2⟩ := updateDirtyScreen_arrays vm g vs hh hcfg i
      rw [e2]
      by_cases hb : vs.bdirty i = 0
      · have h : ¬ (0 ≤ i ∧ i < g.numStrips ∧ vs.bdirty i ≠ 0) := fun h => h.2.2 hb
        rw [if_neg h]
        exact Or.inl hb
      · rw [if_pos ⟨hi0, hiN, hb⟩]
        exact Or.inl rfl

theorem initVirtScreen_inv (vm : Vm) (g : Gdi) (vs vs1 : VirtScreen)
    (slot top width height : Int) (twobufs scrollable : Bool) (hroom : 0 ≤ vm.roomHeight)
    (hslot : slot ≠ 3 ∨ DirtyInv g vs)
    (e : initVirtScreen vm g vs slot top width height twobufs scrollable = some vs1) :
    DirtyInv g vs1 := by
  unfold initVirtScreen at e
  by_cases hh : height ≥ 0
  · rw [if_neg (not_not.mpr hh)] at e
    by_cases hs : slot ≥ 0 ∧ slot < 4
    · rw [if_neg (not_not.mpr hs)] at e
      simp only [] at e
      by_cases h3 : slot ≠ 3
      · rw [if_pos h3] at e
        injection e with e
        rw [← e]
        apply setDirtyRange_inv
        split <;> omega
      · rw [if_neg h3] at e
        injection e with e
        rw [← e]
        rcases hslot with h | h
        · exact absurd h h3
        · exact h
    · rw [if_pos hs] at e
      exact absurd e (by simp)
  · rw [if_pos hh] at e
    exact absurd e (by simp)

/-- C13: the dirty-span invariant (every strip `i < numStrips` is clean, `bdirty[i] = 0`, or
has `tdirty[i] ≤ bdirty[i]`).  `initVirtScreen` sets it up (for the slots whose dirty arrays
it fills; slot 3 keeps its arrays), and `setDirtyRange`, `setVirtscreenDirty`,
`updateDirtyRect`, the dirty update of `resetBackground` (each called with `top ≤ bottom`)
and `Gdi::updateDirtyScreen` preserve it. -/
theorem dirty_span_invariant (vm : Vm) (g : Gdi) (vs : VirtScreen) :
    (∀ (slot top width height : Int) (twobufs scrollable : Bool) (vs1 : VirtScreen),
      0 ≤ vm.roomHeight → (slot ≠ 3 ∨ DirtyInv g vs) →
      initVirtScreen vm g vs slot top width height twobufs scrollable = some vs1 →
      DirtyInv g vs1) ∧
    (∀ top bottom : Int, top ≤ bottom → DirtyInv g (setDirtyRange g vs top bottom)) ∧
    (∀ left top right bottom : Int, top ≤ bottom → DirtyInv g vs →
      DirtyInv g (setVirtscreenDirty g vs left top right bottom)) ∧
    (∀ virt left right top bottom dirtybit : Int, top ≤ bottom → DirtyInv g vs →
      DirtyInv g (updateDirtyRect vm g vs virt left right top bottom dirtybit).1) ∧
    (∀ (s : Screen0) (top bottom strip : Int), top ≤ bottom → DirtyInv g s.vs →
      DirtyInv g (resetBackground vm g s top bottom strip).vs) ∧
    (DirtyInv g vs → DirtyInv g (updateDirtyScreen vm g vs).1) :=
  ⟨fun slot top width height twobufs scrollable vs1 hroom hslot e =>
      initVirtScreen_inv vm g vs vs1 slot top width height twobufs scrollable hroom hslot e,
    fun top bottom h => setDirtyRange_inv g vs top bottom h,
    fun left top right bottom h hinv =>
      setVirtscreenDirty_inv g vs left top right bottom (Or.inl h) hinv,
    fun virt left right top bottom dirtybit h hinv =>
      updateDirtyRect_inv vm g vs virt left right top bottom dirtybit h hinv,
    fun s top bottom strip h hinv => resetBackground_inv vm g s top bottom strip h hinv,
    fun hinv => updateDirtyScreen_inv vm g vs hinv⟩

/-! ## Coalescing of neighbouring strips in `updateDirtyScreen` -/

theorem IsRun_mono (g : Gdi) (T B : Int → Int) (lo lo1 : Int) (r : StripRect) (h : lo ≤ lo1)
    (hr : IsRun g T B lo1 r) : IsRun g T B lo r := by
  obtain ⟨s, n, h1, h2⟩ := hr
  exact ⟨s, n, by omega, h2⟩

/-- The calls made by the loop of `updateDirtyScreen` on a pre-V7 engine, started at strip
`i` with the strips `start .. i - 1` pending in a run: every call is a run of dirty strips
with one common span, and every dirty strip from `start` on lies in one of the calls. -/
theorem updateDirtyScreen_loop_calls (vm : Vm) (g : Gdi) (hv7 : vm.featAfterV7 = false)
    (T B : Int → Int) (fuel : Nat) (i start w : Int) (vs : VirtScreen)
    (calls : List StripRect) (hf : (g.numStrips - i).toNat ≤ fuel)
    (hs0 : 0 ≤ start) (hsi : start ≤ i) (hw : w = 8 * (i - start + 1))
    (hlt : start < i → i < g.numStrips)
    (hag : ∀ j : Int, i ≤ j → vs.tdirty j = T j ∧ vs.bdirty j = B j)
    (hpend : ∀ j : Int, start ≤ j → j < i → B j ≠ 0 ∧ T j = T i ∧ B j = B i) :
    ∃ new : List StripRect,
      (updateDirtyScreen.loop vm g fuel i start w vs calls).2 = calls ++ new ∧
      (∀ r ∈ new, IsRun g T B start r) ∧
      (∀ j : Int, start ≤ j → j < g.numStrips → B j ≠ 0 →
        ∃ r ∈ new, r.x ≤ 8 * j ∧ 8 * j + 8 ≤ r.x + r.w) := by
  induction fuel generalizing i start w vs calls with
  | zero =>
    refine ⟨[], by simp [updateDirtyScreen.loop], fun r hr => absurd hr (List.not_mem_nil r), ?_⟩
    intro j hj1 hj2 _
    have : start < i := by omega
    have := hlt this
    omega
  | succ n ih =>
    unfold updateDirtyScreen.loop
    by_cases hi : i < g.numStrips
    · rw [if_pos hi]
      simp only []
      have hf1 : (g.numStrips - (i + 1)).toNat ≤ n := by omega
      obtain ⟨hTi, hBi⟩ := hag i (le_refl _)
      by_cases hb : vs.bdirty i ≠ 0
      · rw [if_pos hb]
        have hag2 : ∀ j : Int, i + 1 ≤ j →
            (⟨vs.width, vs.height, setAt vs.tdirty i vs.height, setAt vs.bdirty i 0⟩
              : VirtScreen).tdirty j = T j ∧
            (⟨vs.width, vs.height, setAt vs.tdirty i vs.height, setAt vs.bdirty i 0⟩
              : VirtScreen).bdirty j = B j := by
          intro j hj
          have hne : j ≠ i := by omega
          simp only [setAt_other _ _ _ _ hne]
          exact hag j (by omega)
        by_cases hm : i ≠ g.numStrips - 1 ∧
            (⟨vs.width, vs.height, setAt vs.tdirty i vs.height, setAt vs.bdirty i 0⟩
              : VirtScreen).bdirty (i + 1) = vs.bdirty i ∧
            (⟨vs.width, vs.height, setAt vs.tdirty i vs.height, setAt vs.bdirty i 0⟩
              : VirtScreen).tdirty (i + 1) = vs.tdirty i
        · rw [if_pos hm]
          obtain ⟨hm1, hm2, hm3⟩ := hm
          rw [(hag2 (i + 1) (le_refl _)).2, hBi] at hm2
          rw [(hag2 (i + 1) (le_refl _)).1, hTi] at hm3
          refine ih (i + 1) start (w + 8) _ calls hf1 hs0 (by omega) (by omega)
            (fun _ => by omega) hag2 ?_
          intro j hj1 hj2
          by_cases hji : j = i
          · subst hji
            refine ⟨?_, hm3.symm, hm2.symm⟩
            rw [← hBi]
            exact hb
          · obtain ⟨p1, p2, p3⟩ := hpend j hj1 (by omega)
            exact ⟨p1, by rw [p2, hm3], by rw [p3, hm2]⟩
        · rw [if_neg hm]
          rw [hv7]
          simp only [Bool.false_eq_true, if_false]
          obtain ⟨new, e, ha, hc⟩ := ih (i + 1) (i + 1) 8 _
            (calls ++ [⟨start * 8, w, vs.tdirty i, vs.bdirty i⟩]) hf1 (by omega) (le_refl _)
            (by omega) (fun h => absurd h (lt_irrefl _)) hag2 (fun j h1 h2 => by omega)
          refine ⟨⟨start * 8, w, vs.tdirty i, vs.bdirty i⟩ :: new, ?_, ?_, ?_⟩
          · rw [e, List.append_assoc]
            rfl
          · intro r hr
            rcases List.mem_cons.mp hr with h | h
            · subst h
              refine ⟨start, i - start + 1, le_refl _, by omega, by omega, by simp only; omega,
                by simp only; omega, ?_⟩
              intro j hj1 hj2
              simp only []
              by_cases hji : j = i
              · subst hji
                refine ⟨?_, hTi.symm, hBi.symm⟩
                rw [← hBi]
                exact hb
              · obtain ⟨p1, p2, p3⟩ := hpend j hj1 (by omega)
                exact ⟨p1, by rw [p2, hTi], by rw [p3, hBi]⟩
            · exact IsRun_mono g T B start (i + 1) r (by omega) (ha r h)
          · intro j hj1 hj2 hj3
            by_cases hji : j ≤ i
            · refine ⟨_, List.mem_cons_self _ _, ?_, ?_⟩
              · simp only []
                omega
              · simp only []
                omega
            · obtain ⟨r, hr, h1, h2⟩ := hc j (by omega) hj2 hj3
              exact ⟨r, List.mem_cons_of_mem _ hr, h1, h2⟩
      · rw [if_neg hb]
        have hb0 : B i = 0 := by
          rw [← hBi]
          exact not_not.mp hb
        have hse : start = i := by
          by_contra hne
          have h1 : start < i := by omega
          have := (hpend start (le_refl _) h1)
          rw [this.2.2] at this
          exact this.1 hb0
        obtain ⟨new, e, ha, hc⟩ := ih (i + 1) (i + 1) w vs calls hf1 (by omega) (le_refl _)
          (by omega) (fun h => absurd h (lt_irrefl _)) (fun j hj => hag j (by omega))
          (fun j h1 h2 => by omega)
        refine ⟨new, e, fun r hr => IsRun_mono g T B start (i + 1) r (by omega) (ha r hr), ?_⟩
        intro j hj1 hj2 hj3
        by_cases hji : j = i
        · subst hji
          exact absurd hb0 hj3
        · exact hc j (by omega) hj2 hj3
    · rw [if_neg hi]
      refine ⟨[], by simp, fun r hr => absurd hr (List.not_mem_nil r), ?_⟩
      intro j hj1 hj2 _
      have : start < i := by omega
      have := hlt this
      omega

/-- A rectangle that lies inside the screen is copied by `drawStripToScreen` as it is. -/
theorem drawStripToScreen_inside (vm : Vm) (vs : VirtScreen) (topline : Int) (r : StripRect)
    (h1 : r.t < r.b) (h2 : r.b ≤ vs.height) (h3 : r.b - r.t ≤ vm.screenHeight) :
    (drawStripToScreen vm vs topline r).1 = some (r.x, topline + r.t, r.w, r.b - r.t) := by
  unfold drawStripToScreen
  rw [if_neg (by omega)]
  simp only []
  rw [if_neg (by omega), if_neg (by omega), if_neg (by omega)]

/-- C14: on a pre-V7 engine, the rectangles that `updateDirtyScreen` passes to
`drawStripToScreen` cover exactly the pixels of the dirty strips: column `col`, row `row`
lies in one of the rectangles if and only if some strip `i` with `bdirty[i] ≠ 0` has
`8 i ≤ col < 8 i + 8` and `tdirty[i] ≤ row < bdirty[i]`.  Every rectangle is a run of whole
dirty strips that share its `top` and `bottom`, and every dirty strip lies in a rectangle. -/
theorem updateDirtyScreen_coalesce (vm : Vm) (g : Gdi) (vs : VirtScreen)
    (hv7 : vm.featAfterV7 = false) (hh : vs.height ≠ 0) :
    (∀ col row : Int,
      (∃ r ∈ (updateDirtyScreen vm g vs).2, r.Holds col row) ↔
        (∃ i : Int, 0 ≤ i ∧ i < g.numStrips ∧ vs.bdirty i ≠ 0 ∧ 8 * i ≤ col ∧ col < 8 * i + 8 ∧
          vs.tdirty i ≤ row ∧ row < vs.bdirty i)) ∧
    (∀ r ∈ (updateDirtyScreen vm g vs).2, IsRun g vs.tdirty vs.bdirty 0 r) ∧
    (∀ i : Int, 0 ≤ i → i < g.numStrips → vs.bdirty i ≠ 0 →
      ∃ r ∈ (updateDirtyScreen vm g vs).2, r.x ≤ 8 * i ∧ 8 * i + 8 ≤ r.x + r.w) := by
  have hcfg : ¬ (vm.featAfterV7 = true ∧ vm.cameraCurY ≠ vm.cameraLastY) := by
    rw [hv7]
    simp
  obtain ⟨new, e, ha, hc⟩ := updateDirtyScreen_loop_calls vm g hv7 vs.tdirty vs.bdirty
    g.numStrips.toNat 0 0 8 vs [] (by omega) (le_refl _) (le_refl _) (by omega)
    (fun h => absurd h (lt_irrefl _)) (fun j _ => ⟨rfl, rfl⟩) (fun j h1 h2 => by omega)
  have ecalls : (updateDirtyScreen vm g vs).2 = new := by
    unfold updateDirtyScreen
    rw [if_neg hh, if_neg hcfg, e]
    rfl
  rw [ecalls]
  refine ⟨fun col row => ⟨?_, ?_⟩, ha, hc⟩
  · rintro ⟨r, hr, hx1, hx2, hy1, hy2⟩
    obtain ⟨s, n, hs, hn, hsn, ex, ew, hall⟩ := ha r hr
    obtain ⟨p1, p2, p3⟩ := hall (col / 8) (by omega) (by omega)
    exact ⟨col / 8, by omega, by omega, p1, by omega, by omega, by omega, by omega⟩
  · rintro ⟨i, hi0, hiN, hb, hc1, hc2, hr1, hr2⟩
    obtain ⟨r, hr, hx1, hx2⟩ := hc i hi0 hiN hb
    obtain ⟨s, n, hs, hn, hsn, ex, ew, hall⟩ := ha r hr
    obtain ⟨p1, p2, p3⟩ := hall i (by omega) (by omega)
    exact ⟨r, hr, by omega, by omega, by omega, by omega⟩

/-! ## Unordered requests, and `resetBackground` -/

/-- C15, the claim as stated fails: a request with `top = 100 > bottom = 50` on the cleared
200-line screen passes through `updateDirtyRect` and `setVirtscreenDirty` unchanged and
leaves strip 0 with `tdirty = 100 > bdirty = 50 ≠ 0`, although the cleared screen satisfies
the invariant. -/
theorem updateDirtyRect_unordered_breaks_invariant :
    (cleanScreen.bdirty 0 = 0) ∧
    (updateDirtyRect demoVm demoGdi cleanScreen 0 0 20 100 50 0).1.tdirty 0 = 100 ∧
    (updateDirtyRect demoVm demoGdi cleanScreen 0 0 20 100 50 0).1.bdirty 0 = 50 ∧
    (setVirtscreenDirty demoGdi cleanScreen 0 100 20 50).tdirty 0 = 100 ∧
    (setVirtscreenDirty demoGdi cleanScreen 0 100 20 50).bdirty 0 = 50 := by
  decide

/-- C15 as the code has it: a request with `top > bottom` is neither rejected nor put in
order.  `updateDirtyRect` drops it only when it lies outside the screen and otherwise hands
it, clamped to the screen and still with `top` above `bottom`, to `setVirtscreenDirty`, which
applies it as it is: from a state that satisfies the invariant, a strip ends with
`tdirty > bdirty ≠ 0` exactly when it lies in the column range, was clean, and `bottom` is
positive and below the strip's previous `tdirty`. -/
theorem mark_dirty_unordered (vm : Vm) (g : Gdi) (vs : VirtScreen)
    (virt left right top bottom dirtybit : Int) (hgt : top > bottom) (hinv : DirtyInv g vs) :
    (∀ i : Int, 0 ≤ i → i < g.numStrips →
      (((setVirtscreenDirty g vs left top right bottom).bdirty i ≠ 0 ∧
          (setVirtscreenDirty g vs left top right bottom).bdirty i
            < (setVirtscreenDirty g vs left top right bottom).tdirty i) ↔
        (Covers g left right i ∧ vs.bdirty i = 0 ∧ 0 < bottom ∧ bottom < vs.tdirty i))) ∧
    (updateDirtyRect vm g vs virt left right top bottom dirtybit).1
      = (if top > vs.height ∨ left > vs.width ∨ right < 0 ∨ bottom < 0 then vs
          else setVirtscreenDirty g vs (max left 0) top (min right vs.width)
            (min bottom vs.height)) ∧
    min bottom vs.height < top := by
  refine ⟨fun i hi0 hiN => ?_, ?_, by omega⟩
  · obtain ⟨e1, e2⟩ := setVirtscreenDirty_covers g vs left top right bottom i
    rw [e1, e2]
    have := hinv i hi0 hiN
    by_cases c : Covers g left right i
    · rw [if_pos c, if_pos c]
      constructor
      · rintro ⟨h1, h2⟩
        exact ⟨c, by omega, by omega, by omega⟩
      · rintro ⟨_, h1, h2, h3⟩
        constructor <;> omega
    · rw [if_neg c, if_neg c]
      constructor
      · rintro ⟨h1, h2⟩
        omega
      · rintro ⟨h1, _⟩
        exact absurd h1 c
  · unfold updateDirtyRect
    by_cases hret : top > vs.height ∨ left > vs.width ∨ right < 0 ∨ bottom < 0
    · rw [if_pos hret, if_pos hret]
    · rw [if_neg hret, if_neg hret]
      simp only []
      have e1 : (if top < 0 then 0 else top) = top := by
        split <;> omega
      have e2 : (if left < 0 then 0 else left) = max left 0 := by
        split <;> omega
      have e3 : (if bottom > vs.height then vs.height else bottom) = min bottom vs.height := by
        split <;> omega
      have e4 : (if right > vs.width then vs.width else right) = min right vs.width := by
        split <;> omega
      rw [e1, e2, e3, e4]

/-- C16, the claim as stated fails: after `resetBackground(10, 20, 2)` on the cleared
screen, strip 2 has the pending span `[10, 20)`, so row 10 of `[10, 20)` lies inside it. -/
theorem resetBackground_marks_rows_dirty :
    (resetBackground demoVm demoGdi demoScreen0 10 20 2).vs.tdirty 2 = 10 ∧
    (resetBackground demoVm demoGdi demoScreen0 10 20 2).vs.bdirty 2 = 20 ∧
    (10 : Int) < 20 ∧
    ((resetBackground demoVm demoGdi demoScreen0 10 20 2).vs.tdirty 2 ≤ 10 ∧
      10 < (resetBackground demoVm demoGdi demoScreen0 10 20 2).vs.bdirty 2) := by
  decide

/-- C16 as the code has it: after `resetBackground(top, bottom, strip)` with `top < bottom`
the dirty span of that strip is widened to take in the rows `[top, bottom)`: `tdirty` is
`min(tdirty, top)`, `bdirty` is `max(bdirty, bottom)`, so every row of `[top, bottom)` lies
inside the pending span `[tdirty, bdirty)`, which is not empty; the spans of the other strips
do not change. -/
theorem resetBackground_widens_span (vm : Vm) (g : Gdi) (s : Screen0) (top bottom strip : Int)
    (h : top < bottom) :
    (resetBackground vm g s top bottom strip).vs.tdirty strip = min (s.vs.tdirty strip) top ∧
    (resetBackground vm g s top bottom strip).vs.bdirty strip
      = max (s.vs.bdirty strip) bottom ∧
    (∀ row : Int, top ≤ row → row < bottom →
      (resetBackground vm g s top bottom strip).vs.tdirty strip ≤ row ∧
        row < (resetBackground vm g s top bottom strip).vs.bdirty strip) ∧
    (resetBackground vm g s top bottom strip).vs.tdirty strip
      < (resetBackground vm g s top bottom strip).vs.bdirty strip ∧
    (∀ j : Int, j ≠ strip →
      (resetBackground vm g s top bottom strip).vs.tdirty j = s.vs.tdirty j ∧
        (resetBackground vm g s top bottom strip).vs.bdirty j = s.vs.bdirty j) := by
  have hs := resetBackground_arrays vm g s top bottom strip strip
  rw [if_pos rfl, if_pos rfl] at hs
  refine ⟨hs.1, hs.2, fun row h1 h2 => ?_, ?_, fun j hj => ?_⟩
  · rw [hs.1, hs.2]
    omega
  · rw [hs.1, hs.2]
    omega
  · have hj2 := resetBackground_arrays vm g s top bottom strip j
    rw [if_neg hj, if_neg hj] at hj2
    exact hj2

/-- C17, the claim as stated fails: `resetBackground(50, 50, 2)` (`bottom = top`) on the
cleared screen changes the dirty span of strip 2 from `tdirty = 200`, `bdirty = 0` to
`tdirty = 50`, `bdirty = 50`. -/
theorem resetBackground_empty_changes_span :
    demoScreen0.vs.tdirty 2 = 200 ∧ demoScreen0.vs.bdirty 2 = 0 ∧
    (resetBackground demoVm demoGdi demoScreen0 50 50 2).vs.tdirty 2 = 50 ∧
    (resetBackground demoVm demoGdi demoScreen0 50 50 2).vs.bdirty 2 = 50 := by
  decide

/-- C17 as the code has it: `resetBackground(top, bottom, strip)` with `bottom = top`
changes no pixel of the screen buffer or of the background copy (nor the mask buffer) and
leaves the dirty arrays of every other strip unchanged; on `strip` itself it still lowers
`tdirty` to `min(tdirty, top)` and raises `bdirty` to `max(bdirty, bottom)`. -/
theorem resetBackground_empty (vm : Vm) (g : Gdi) (s : Screen0) (top bottom strip : Int)
    (h : bottom = top) :
    (resetBackground vm g s top bottom strip).screen = s.screen ∧
    (resetBackground vm g s top bottom strip).bgbak = s.bgbak ∧
    (resetBackground vm g s top bottom strip).mask = s.mask ∧
    (∀ j : Int, j ≠ strip →
      (resetBackground vm g s top bottom strip).vs.tdirty j = s.vs.tdirty j ∧
        (resetBackground vm g s top bottom strip).vs.bdirty j = s.vs.bdirty j) ∧
    (resetBackground vm g s top bottom strip).vs.tdirty strip = min (s.vs.tdirty strip) top ∧
    (resetBackground vm g s top bottom strip).vs.bdirty strip
      = max (s.vs.bdirty strip) bottom := by
  have hs := resetBackground_arrays vm g s top bottom strip strip
  rw [if_pos rfl, if_pos rfl] at hs
  have h0 : ¬ (bottom - top ≠ 0) := by omega
  refine ⟨?_, ?_, ?_, fun j hj => ?_, hs.1, hs.2⟩
  · unfold resetBackground
    simp only []
    rw [if_neg h0]
  · unfold resetBackground
    simp only []
    rw [if_neg h0]
  · unfold resetBackground
    simp only []
    rw [if_neg h0]
  · have hj2 := resetBackground_arrays vm g s top bottom strip j
    rw [if_neg hj, if_neg hj] at hj2
    exact hj2

/-! ## Colour cycling: one rotation -/

theorem toSize_of_small (v : Int) (h0 : 0 ≤ v) (h1 : v < 2 ^ 32) : toSize v = v.toNat := by
  unfold toSize
  rw [Int.emod_eq_of_lt h0 h1]

/-- The bytes of a table of 3-byte entries after the upward rotation of `s .. e`. -/
theorem rotateEntries_up (m : Mem) (s e : Nat) (hse : s ≤ e) (he : e < 256) (a : Int) :
    rotateEntries m 3 s e 0 a
      = (if 3 * (s : Int) ≤ a ∧ a < 3 * (s : Int) + 3 then m (a + 3 * ((e : Int) - s))
          else if 3 * (s : Int) + 3 ≤ a ∧ a < 3 * (e : Int) + 3 then m (a - 3) else m a) := by
  have hsz : toSize (((e : Int) - s) * ((3 : Nat) : Int)) = 3 * (e - s) := by
    rw [toSize_of_small _ (by omega) (by omega)]
    omega
  unfold rotateEntries
  simp only [if_true]
  rw [hsz]
  unfold memmove
  simp only [Nat.cast_ofNat, Nat.cast_mul]
  split_ifs <;> first | rfl | omega | (congr 1; omega)

/-- The bytes of a table of 3-byte entries after the downward rotation of `s .. e`. -/
theorem rotateEntries_down (m : Mem) (s e : Nat) (hse : s ≤ e) (he : e < 256) (dir : Nat)
    (hdir : dir ≠ 0) (a : Int) :
    rotateEntries m 3 s e dir a
      = (if 3 * (e : Int) ≤ a ∧ a < 3 * (e : Int) + 3 then m (a - 3 * ((e : Int) - s))
          else if 3 * (s : Int) ≤ a ∧ a < 3 * (e : Int) then m (a + 3) else m a) := by
  have hsz : toSize (((e : Int) - s) * ((3 : Nat) : Int)) = 3 * (e - s) := by
    rw [toSize_of_small _ (by omega) (by omega)]
    omega
  unfold rotateEntries
  simp only [hdir, if_false]
  rw [hsz]
  unfold memmove
  simp only [Nat.cast_ofNat, Nat.cast_mul]
  split_ifs <;> first | rfl | omega | (congr 1; omega)

/-- Neither rotation touches a byte outside the entries `s .. e`. -/
theorem rotateEntries_frame (m : Mem) (s e : Nat) (hse : s ≤ e) (he : e < 256) (dir : Nat)
    (a : Int) (ha : a < 3 * (s : Int) ∨ 3 * (e : Int) + 3 ≤ a) :
    rotateEntries m 3 s e dir a = m a := by
  by_cases hdir : dir = 0
  · subst hdir
    rw [rotateEntries_up m s e hse he, if_neg (by omega), if_neg (by omega)]
  · rw [rotateEntries_down m s e hse he dir hdir, if_neg (by omega), if_neg (by omega)]

theorem rotateEntries_shifted (m : Mem) (s e : Nat) (hse : s ≤ e) (he : e < 256)
    (flags : Nat) :
    Shifted s (3 * (e - s + 1)) (cycleShift flags (3 * (e - s + 1))) m
      (rotateEntries m 3 s e (flags &&& 2)) := by
  intro d hd
  unfold cycleShift
  by_cases hdir : flags &&& 2 = 0
  · rw [hdir, if_pos rfl, rotateEntries_up m s e hse he]
    by_cases h3 : d < 3
    · rw [if_pos (by omega), Nat.mod_eq_of_lt (by omega)]
      congr 1
      omega
    · rw [if_neg (by omega), if_pos (by omega)]
      have e1 : d + (3 * (e - s + 1) - 3) = (d - 3) + 3 * (e - s + 1) := by omega
      rw [e1, Nat.add_mod_right, Nat.mod_eq_of_lt (by omega)]
      congr 1
      omega
  · rw [if_neg hdir, rotateEntries_down m s e hse he _ hdir]
    by_cases h3 : d + 3 < 3 * (e - s + 1)
    · rw [if_neg (by omega), if_pos (by omega), Nat.mod_eq_of_lt h3]
      congr 1
    · rw [if_pos (by omega)]
      have e1 : d + 3 = (d + 3 - 3 * (e - s + 1)) + 3 * (e - s + 1) := by omega
      rw [e1, Nat.add_mod_right, Nat.mod_eq_of_lt (by omega)]
      congr 1
      omega

theorem Shifted_trans (s L c1 c2 : Nat) (m m1 m2 : Mem) (hL : 0 < L)
    (h1 : Shifted s L c1 m m1) (h2 : Shifted s L c2 m1 m2) : Shifted s L (c2 + c1) m m2 := by
  intro d hd
  rw [h2 d hd, h1 _ (Nat.mod_lt _ hL)]
  congr 3
  rw [Nat.mod_add_mod, Nat.add_assoc]

theorem Shifted_refl (s L : Nat) (m : Mem) : Shifted s L 0 m m := by
  intro d hd
  rw [Nat.add_zero, Nat.mod_eq_of_lt hd]

/-- A block moved round by a multiple of its length is back in place. -/
theorem Shifted_full (s L c : Nat) (m m1 : Mem) (hc : c % L = 0) (h : Shifted s L c m m1)
    (d : Nat) (hd : d < L) : m1 (3 * (s : Int) + (d : Int)) = m (3 * (s : Int) + (d : Int)) := by
  rw [h d hd, Nat.add_mod, hc, Nat.add_zero, Nat.mod_mod, Nat.mod_eq_of_lt hd]

/-- Changes outside the block do not matter to `Shifted`. -/
theorem Shifted_agree (s L c : Nat) (m m1 m2 : Mem) (h : Shifted s L c m m1)
    (hag : ∀ d : Nat, d < L → m2 (3 * (s : Int) + (d : Int)) = m1 (3 * (s : Int) + (d : Int))) :
    Shifted s L c m m2 := by
  intro d hd
  rw [hag d hd, h d hd]

theorem Shifted_of_agree (s L c : Nat) (m0 m m1 : Mem) (hL : 0 < L) (h : Shifted s L c m m1)
    (hag : ∀ d : Nat, d < L → m (3 * (s : Int) + (d : Int)) = m0 (3 * (s : Int) + (d : Int))) :
    Shifted s L c m0 m1 := by
  intro d hd
  rw [h d hd, hag _ (Nat.mod_lt _ hL)]

/-! ## Colour cycling: one cycle in one call -/

/-- The subtraction loop leaves the counter reduced modulo the delay. -/
theorem cyclePalette_reduce_spec (M : Nat) (delay : Int) (hd : 0 < delay) (fuel : Nat)
    (c : Int) (hc : delay ≤ c) (hM : M = 0 ∨ c < (M : Int)) (hf : c.toNat ≤ fuel) :
    cyclePalette.reduce M delay fuel c = some (c % delay) := by
  induction fuel generalizing c with
  | zero => omega
  | succ n ih =>
    have e1 : (c - delay) % (M : Int) = c - delay := by
      rcases hM with h | h
      · subst h
        exact Int.emod_zero _
      · exact Int.emod_eq_of_lt (by omega) (by omega)
    have e2 : c % delay = (c - delay) % delay := by
      have : c = (c - delay) + delay * 1 := by ring
      conv_lhs => rw [this]
      rw [Int.add_mul_emod_self_left]
    unfold cyclePalette.reduce
    simp only []
    rw [e1, e2]
    by_cases h : delay ≤ c - delay
    · rw [if_pos h]
      apply ih (c - delay) h
      · rcases hM with h1 | h1
        · exact Or.inl h1
        · exact Or.inr (by omega)
      · omega
    · rw [if_neg h, Int.emod_eq_of_lt (by omega) (by omega)]

theorem setDirtyColors_fields (st : PalState) (mn mx : Int) :
    (setDirtyColors st mn mx).currentPalette = st.currentPalette ∧
    (setDirtyColors st mn mx).colorCycle = st.colorCycle ∧
    (setDirtyColors st mn mx).palDirtyMin = min st.palDirtyMin mn ∧
    (setDirtyColors st mn mx).palDirtyMax = max st.palDirtyMax mx := by
  unfold setDirtyColors
  by_cases h1 : st.palDirtyMin > mn
  · rw [if_pos h1]
    simp only []
    by_cases h2 : st.palDirtyMax < mx
    · rw [if_pos h2]
      exact ⟨rfl, rfl, by simp only; omega, by simp only; omega⟩
    · rw [if_neg h2]
      exact ⟨rfl, rfl, by simp only; omega, by simp only; omega⟩
  · rw [if_neg h1]
    simp only []
    by_cases h2 : st.palDirtyMax < mx
    · rw [if_pos h2]
      exact ⟨rfl, rfl, by simp only; omega, by simp only; omega⟩
    · rw [if_neg h2]
      exact ⟨rfl, rfl, by omega, by omega⟩

theorem moveMemInPalRes_fields (st : PalState) (s e dir : Nat) :
    (moveMemInPalRes st s e dir).currentPalette = st.currentPalette ∧
    (moveMemInPalRes st s e dir).colorCycle = st.colorCycle ∧
    (moveMemInPalRes st s e dir).palDirtyMin = st.palDirtyMin ∧
    (moveMemInPalRes st s e dir).palDirtyMax = st.palDirtyMax := by
  unfold moveMemInPalRes
  split
  · exact ⟨rfl, rfl, rfl, rfl⟩
  · split
    · exact ⟨rfl, rfl, rfl, rfl⟩
    · exact ⟨rfl, rfl, rfl, rfl⟩

/-- A cycle with a positive delay that triggers: the call returns, the palette is rotated
once, the counter is reduced modulo the delay and the dirty colour range is widened. -/
theorem cyclePalette_cycle_trigger (M : Nat) (v : Int) (i : Nat) (st : PalState)
    (hd : 0 < (st.colorCycle i).delay)
    (ht : ((st.colorCycle i).counter + v) % (M : Int) ≥ (st.colorCycle i).delay) :
    ∃ st1, cyclePalette.cycle M v i st = some st1 ∧
      st1.currentPalette = rotateEntries st.currentPalette 3 (st.colorCycle i).start
        (st.colorCycle i).end_ ((st.colorCycle i).flags &&& 2) ∧
      (∀ j, j ≠ i → st1.colorCycle j = st.colorCycle j) ∧
      SameStatic (st.colorCycle i) (st1.colorCycle i) ∧
      (st1.colorCycle i).counter
        = (((st.colorCycle i).counter + v) % (M : Int)) % (st.colorCycle i).delay ∧
      st1.palDirtyMin = min st.palDirtyMin (st.colorCycle i).start ∧
      st1.palDirtyMax = max st.palDirtyMax (st.colorCycle i).end_ := by
  have hM : M = 0 ∨ ((st.colorCycle i).counter + v) % (M : Int) < (M : Int) := by
    by_cases h : M = 0
    · exact Or.inl h
    · exact Or.inr (Int.emod_lt_of_pos _ (by omega))
  have hr := cyclePalette_reduce_spec M (st.colorCycle i).delay hd
    (((st.colorCycle i).counter + v) % (M : Int)).toNat
    (((st.colorCycle i).counter + v) % (M : Int)) ht hM (le_refl _)
  unfold cyclePalette.cycle
  simp only []
  rw [if_pos (by omega), if_pos ht, hr]
  simp only []
  refine ⟨_, rfl, ?_, ?_, ?_, ?_, ?_, ?_⟩
  · simp only [(moveMemInPalRes_fields _ _ _ _).1, (setDirtyColors_fields _ _ _).1]
    rfl
  · intro j hj
    simp only [(moveMemInPalRes_fields _ _ _ _).2.1, (setDirtyColors_fields _ _ _).2.1, setCycle,
      if_neg hj]
  · simp only [(moveMemInPalRes_fields _ _ _ _).2.1, (setDirtyColors_fields _ _ _).2.1, setCycle,
      if_true, SameStatic]
    exact ⟨trivial, trivial, trivial, trivial⟩
  · simp only [(moveMemInPalRes_fields _ _ _ _).2.1, (setDirtyColors_fields _ _ _).2.1, setCycle,
      if_true]
  · simp only [(moveMemInPalRes_fields _ _ _ _).2.2.1, (setDirtyColors_fields _ _ _).2.2.1]
    rfl
  · simp only [(moveMemInPalRes_fields _ _ _ _).2.2.2, (setDirtyColors_fields _ _ _).2.2.2]
    rfl

/-- A cycle that does not trigger: only its counter changes. -/
theorem cyclePalette_cycle_quiet (M : Nat) (v : Int) (i : Nat) (st : PalState)
    (ht : ¬ Triggers M v (st.colorCycle i)) :
    ∃ st1, cyclePalette.cycle M v i st = some st1 ∧
      st1.currentPalette = st.currentPalette ∧
      (∀ j, j ≠ i → st1.colorCycle j = st.colorCycle j) ∧
      SameStatic (st.colorCycle i) (st1.colorCycle i) := by
  unfold cyclePalette.cycle
  simp only []
  by_cases hd : (st.colorCycle i).delay ≠ 0
  · rw [if_pos hd]
    have h2 : ¬ (((st.colorCycle i).counter + v) % (M : Int) ≥ (st.colorCycle i).delay) :=
      fun h => ht ⟨hd, h⟩
    rw [if_neg h2]
    refine ⟨_, rfl, rfl, ?_, ?_⟩
    · intro j hj
      simp only [setCycle, if_neg hj]
    · simp only [setCycle, if_true, SameStatic]
      exact ⟨trivial, trivial, trivial, trivial⟩
  · rw [if_neg hd]
    exact ⟨_, rfl, rfl, fun _ _ => rfl, rfl, rfl, rfl, rfl⟩

theorem SameStatic_refl (c : ColorCycle) : SameStatic c c := ⟨rfl, rfl, rfl, rfl⟩

theorem SameStatic_trans (a b c : ColorCycle) (h1 : SameStatic a b) (h2 : SameStatic b c) :
    SameStatic a c := by
  obtain ⟨a1, a2, a3, a4⟩ := h1
  obtain ⟨b1, b2, b3, b4⟩ := h2
  exact ⟨by rw [b1, a1], by rw [b2, a2], by rw [b3, a3], by rw [b4, a4]⟩

theorem LeavesAlone_of_static (s e : Nat) (c c1 : ColorCycle) (h : SameStatic c c1)
    (hl : LeavesAlone s e c) : LeavesAlone s e c1 := by
  obtain ⟨a1, _, a3, a4⟩ := h
  unfold LeavesAlone at *
  rw [a1, a3, a4]
  exact hl

/-- A cycle that is stopped or works on other entries leaves the block `s .. e` as it is. -/
theorem cyclePalette_cycle_leaves_alone (M : Nat) (v : Int) (j : Nat) (st : PalState)
    (s e : Nat) (hse : s ≤ e) (hl : LeavesAlone s e (st.colorCycle j)) :
    ∃ st1, cyclePalette.cycle M v j st = some st1 ∧
      Shifted s (3 * (e - s + 1)) 0 st.currentPalette st1.currentPalette ∧
      (∀ k, k ≠ j → st1.colorCycle k = st.colorCycle k) ∧
      SameStatic (st.colorCycle j) (st1.colorCycle j) := by
  by_cases ht : Triggers M v (st.colorCycle j)
  · rcases hl with h0 | ⟨hd, hse1, he1, hdis⟩
    · exact absurd h0 ht.1
    · obtain ⟨st1, e1, e2, e3, e4, _⟩ := cyclePalette_cycle_trigger M v j st hd ht.2
      refine ⟨st1, e1, ?_, e3, e4⟩
      intro d hd
      rw [e2, rotateEntries_frame _ _ _ hse1 he1 _ _ (by omega), Nat.add_zero,
        Nat.mod_eq_of_lt hd]
  · obtain ⟨st1, e1, e2, e3, e4⟩ := cyclePalette_cycle_quiet M v j st ht
    refine ⟨st1, e1, ?_, e3, e4⟩
    rw [e2]
    exact Shifted_refl _ _ _

theorem cyclePalette_loop_append (M : Nat) (v : Int) (n1 n2 i : Nat) (st : PalState) :
    cyclePalette.loop M v (n1 + n2) i st
      = (cyclePalette.loop M v n1 i st).bind (fun st1 => cyclePalette.loop M v n2 (i + n1) st1) := by
  induction n1 generalizing i st with
  | zero => simp [cyclePalette.loop]
  | succ n ih =>
    rw [Nat.succ_add]
    simp only [cyclePalette.loop]
    cases h : cyclePalette.cycle M v i st with
    | none => rfl
    | some st1 =>
      simp only []
      rw [ih (i + 1) st1]
      congr 1
      funext st2
      congr 1
      omega

/-- A stretch of the loop over cycles that all leave the block `s .. e` alone. -/
theorem cyclePalette_loop_skip (M : Nat) (v : Int) (s e : Nat) (hse : s ≤ e) (n i : Nat)
    (st : PalState) (hl : ∀ j, i ≤ j → j < i + n → LeavesAlone s e (st.colorCycle j)) :
    ∃ st1, cyclePalette.loop M v n i st = some st1 ∧
      Shifted s (3 * (e - s + 1)) 0 st.currentPalette st1.currentPalette ∧
      (∀ k, (k < i ∨ i + n ≤ k) → st1.colorCycle k = st.colorCycle k) ∧
      (∀ k, SameStatic (st.colorCycle k) (st1.colorCycle k)) := by
  induction n generalizing i st with
  | zero =>
    exact ⟨st, rfl, Shifted_refl _ _ _, fun _ _ => rfl, fun k => SameStatic_refl _⟩
  | succ n ih =>
    obtain ⟨st1, e1, e2, e3, e4⟩ := cyclePalette_cycle_leaves_alone M v i st s e hse
      (hl i (le_refl _) (by omega))
    obtain ⟨st2, f1, f2, f3, f4⟩ := ih (i + 1) st1 (fun j h1 h2 => by
      rw [e3 j (by omega)]
      exact hl j (by omega) (by omega))
    refine ⟨st2, ?_, ?_, ?_, ?_⟩
    · simp only [cyclePalette.loop, e1]
      exact f1
    · exact Shifted_trans s _ 0 0 _ _ _ (by omega) e2 f2
    · intro k hk
      rw [f3 k (by omega), e3 k (by omega)]
    · intro k
      refine SameStatic_trans _ _ _ ?_ (f4 k)
      by_cases hk : k = i
      · subst hk
        exact e4
      · rw [e3 k hk]
        exact SameStatic_refl _

/-- One call of `cyclePalette` seen from the cycle `i0`, when the other fifteen cycles
leave its entries alone: the call returns; the block of `i0` is moved round by one entry if
the cycle triggers and is left as it is if it does not. -/
theorem cyclePalette_call (M : Nat) (v : Int) (i0 : Nat) (hi : i0 < 16) (st : PalState)
    (hd : 0 < (st.colorCycle i0).delay)
    (hse : (st.colorCycle i0).start ≤ (st.colorCycle i0).end_)
    (he : (st.colorCycle i0).end_ < 256)
    (hl : ∀ j, j < 16 → j ≠ i0 →
      LeavesAlone (st.colorCycle i0).start (st.colorCycle i0).end_ (st.colorCycle j)) :
    ∃ st1, cyclePalette.loop M v 16 0 st = some st1 ∧
      (Triggers M v (st.colorCycle i0) →
        Shifted (st.colorCycle i0).start
          (3 * ((st.colorCycle i0).end_ - (st.colorCycle i0).start + 1))
          (cycleShift (st.colorCycle i0).flags
            (3 * ((st.colorCycle i0).end_ - (st.colorCycle i0).start + 1)))
          st.currentPalette st1.currentPalette) ∧
      (¬ Triggers M v (st.colorCycle i0) →
        Shifted (st.colorCycle i0).start
          (3 * ((st.colorCycle i0).end_ - (st.colorCycle i0).start + 1)) 0
          st.currentPalette st1.currentPalette) ∧
      (∀ k, SameStatic (st.colorCycle k) (st1.colorCycle k)) := by
  have h16 : 16 = i0 + (1 + (15 - i0)) := by omega
  obtain ⟨sa, a1, a2, a3, a4⟩ := cyclePalette_loop_skip M v _ _ hse i0 0 st
    (fun j _ h2 => hl j (by omega) (by omega))
  have ec : sa.colorCycle i0 = st.colorCycle i0 := a3 i0 (by omega)
  have hb : ∃ sb, cyclePalette.cycle M v i0 sa = some sb ∧
      (Triggers M v (st.colorCycle i0) →
        Shifted (st.colorCycle i0).start
          (3 * ((st.colorCycle i0).end_ - (st.colorCycle i0).start + 1))
          (cycleShift (st.colorCycle i0).flags
            (3 * ((st.colorCycle i0).end_ - (st.colorCycle i0).start + 1)))
          sa.currentPalette sb.currentPalette) ∧
      (¬ Triggers M v (st.colorCycle i0) →
        Shifted (st.colorCycle i0).start
          (3 * ((st.colorCycle i0).end_ - (st.colorCycle i0).start + 1)) 0
          sa.currentPalette sb.currentPalette) ∧
      (∀ k, k ≠ i0 → sb.colorCycle k = sa.colorCycle k) ∧
      SameStatic (sa.colorCycle i0) (sb.colorCycle i0) := by
    by_cases ht : Triggers M v (st.colorCycle i0)
    · obtain ⟨sb, b1, b2, b3, b4, _⟩ := cyclePalette_cycle_trigger M v i0 sa
        (by rw [ec]; exact hd) (by rw [ec]; exact ht.2)
      refine ⟨sb, b1, fun _ => ?_, fun h => absurd ht h, b3, b4⟩
      rw [b2, ec]
      exact rotateEntries_shifted _ _ _ hse he _
    · obtain ⟨sb, b1, b2, b3, b4⟩ := cyclePalette_cycle_quiet M v i0 sa
        (by rw [ec]; exact ht)
      refine ⟨sb, b1, fun h => absurd h ht, fun _ => ?_, b3, b4⟩
      rw [b2]
      exact Shifted_refl _ _ _
  obtain ⟨sb, b1, b2, b3, b4, b5⟩ := hb
  obtain ⟨sc, c1, c2, c3, c4⟩ := cyclePalette_loop_skip M v _ _ hse (15 - i0) (i0 + 1) sb
    (fun j h1 h2 => by
      rw [b4 j (by omega)]
      exact LeavesAlone_of_static _ _ _ _ (a4 j) (hl j (by omega) (by omega)))
  have hL : 0 < 3 * ((st.colorCycle i0).end_ - (st.colorCycle i0).start + 1) := by omega
  refine ⟨sc, ?_, ?_, ?_, ?_⟩
  · rw [h16, cyclePalette_loop_append, a1]
    simp only [Option.some_bind, Nat.zero_add]
    rw [cyclePalette_loop_append]
    simp only [cyclePalette.loop, b1, Option.some_bind]
    exact c1
  · intro ht
    have := Shifted_trans _ _ _ _ _ _ _ hL (Shifted_trans _ _ _ _ _ _ _ hL a2 (b2 ht)) c2
    simpa using this
  · intro ht
    have := Shifted_trans _ _ _ _ _ _ _ hL (Shifted_trans _ _ _ _ _ _ _ hL a2 (b3 ht)) c2
    simpa using this
  · intro k
    refine SameStatic_trans _ _ _ (a4 k) (SameStatic_trans _ _ _ ?_ (c4 k))
    by_cases hk : k = i0
    · subst hk
      exact b5
    · rw [b4 k hk]
      exact SameStatic_refl _

/-! ## Colour cycling: the rotation, its period, coarse ticks -/

/-- C18: when the cycle `_colorCycle[i]` with `delay > 0` and `start ≤ end` triggers in
`cyclePalette` (the counter with the added time reaches the delay), its pass through the
loop returns and rotates the palette entries `start .. end` (three bytes each) by one
position: with `flags & 2` clear, `new[start] = old[end]` and `new[k + 1] = old[k]` for
`start ≤ k < end`; with `flags & 2` set, `new[end] = old[start]` and `new[k] = old[k + 1]`;
the bytes of all other entries are unchanged, and the dirty colour range is widened to
include `start .. end`. -/
theorem cyclePalette_rotates_once (M : Nat) (v : Int) (i : Nat) (st : PalState)
    (hd : 0 < (st.colorCycle i).delay)
    (hse : (st.colorCycle i).start ≤ (st.colorCycle i).end_)
    (he : (st.colorCycle i).end_ < 256)
    (ht : ((st.colorCycle i).counter + v) % (M : Int) ≥ (st.colorCycle i).delay) :
    ∃ st1, cyclePalette.cycle M v i st = some st1 ∧
      ((st.colorCycle i).flags &&& 2 = 0 →
        (∀ b : Nat, b < 3 →
          st1.currentPalette (3 * ((st.colorCycle i).start : Int) + b)
            = st.currentPalette (3 * ((st.colorCycle i).end_ : Int) + b)) ∧
        (∀ k : Nat, (st.colorCycle i).start ≤ k → k < (st.colorCycle i).end_ →
          ∀ b : Nat, b < 3 →
            st1.currentPalette (3 * ((k : Int) + 1) + b) = st.currentPalette (3 * (k : Int) + b))) ∧
      ((st.colorCycle i).flags &&& 2 ≠ 0 →
        (∀ b : Nat, b < 3 →
          st1.currentPalette (3 * ((st.colorCycle i).end_ : Int) + b)
            = st.currentPalette (3 * ((st.colorCycle i).start : Int) + b)) ∧
        (∀ k : Nat, (st.colorCycle i).start ≤ k → k < (st.colorCycle i).end_ →
          ∀ b : Nat, b < 3 →
            st1.currentPalette (3 * (k : Int) + b) = st.currentPalette (3 * ((k : Int) + 1) + b))) ∧
      (∀ a : Int, (a < 3 * ((st.colorCycle i).start : Int) ∨
          3 * ((st.colorCycle i).end_ : Int) + 3 ≤ a) →
        st1.currentPalette a = st.currentPalette a) ∧
      st1.palDirtyMin = min st.palDirtyMin (st.colorCycle i).start ∧
      st1.palDirtyMax = max st.palDirtyMax (st.colorCycle i).end_ ∧
      st1.palDirtyMin ≤ (st.colorCycle i).start ∧
      ((st.colorCycle i).end_ : Int) ≤ st1.palDirtyMax := by
  obtain ⟨st1, e1, e2, _, _, _, e6, e7⟩ := cyclePalette_cycle_trigger M v i st hd ht
  refine ⟨st1, e1, ?_, ?_, ?_, e6, e7, by rw [e6]; omega, by rw [e7]; omega⟩
  · intro hf
    rw [e2, hf]
    constructor
    · intro b hb
      rw [rotateEntries_up _ _ _ hse he, if_pos (by omega)]
      congr 1
      omega
    · intro k hk1 hk2 b hb
      rw [rotateEntries_up _ _ _ hse he, if_neg (by omega), if_pos (by omega)]
      congr 1
      omega
  · intro hf
    rw [e2]
    constructor
    · intro b hb
      rw [rotateEntries_down _ _ _ hse he _ hf, if_pos (by omega)]
      congr 1
      omega
    · intro k hk1 hk2 b hb
      rw [rotateEntries_down _ _ _ hse he _ hf, if_neg (by omega), if_pos (by omega)]
      congr 1
      omega
  · intro a ha
    rw [e2]
    exact rotateEntries_frame _ _ _ hse he _ a ha

theorem cyclePalette_eq_loop (M VAR_TIMER VAR_TIMER_NEXT : Nat) (vars : Nat → Int)
    (st : PalState) :
    cyclePalette M VAR_TIMER VAR_TIMER_NEXT vars st
      = cyclePalette.loop M (cyclePalette.valueToAdd VAR_TIMER VAR_TIMER_NEXT vars) 16 0 st :=
  rfl

/-- A sequence of calls that all trigger the cycle `i0`, the other cycles leaving its
entries alone: the calls return and the block of `i0` is moved round by one entry per
call. -/
theorem cyclePaletteCalls_shift (M VAR_TIMER VAR_TIMER_NEXT : Nat) (i0 : Nat) (hi : i0 < 16)
    (s e fl : Nat) (hse : s ≤ e) (he : e < 256) (calls : List (Nat → Int)) (st : PalState)
    (hd : 0 < (st.colorCycle i0).delay) (hs : (st.colorCycle i0).start = s)
    (hen : (st.colorCycle i0).end_ = e) (hfl : (st.colorCycle i0).flags = fl)
    (hl : ∀ j, j < 16 → j ≠ i0 → LeavesAlone s e (st.colorCycle j))
    (hall : AllTrigger M VAR_TIMER VAR_TIMER_NEXT i0 calls st) :
    ∃ st1, cyclePaletteCalls M VAR_TIMER VAR_TIMER_NEXT calls st = some st1 ∧
      Shifted s (3 * (e - s + 1)) (calls.length * cycleShift fl (3 * (e - s + 1)))
        st.currentPalette st1.currentPalette := by
  induction calls generalizing st with
  | nil =>
    refine ⟨st, rfl, ?_⟩
    rw [List.length_nil, Nat.zero_mul]
    exact Shifted_refl _ _ _
  | cons vars rest ih =>
    obtain ⟨htr, hrest⟩ := hall
    obtain ⟨st1, c1, c2, _, c4⟩ := cyclePalette_call M
      (cyclePalette.valueToAdd VAR_TIMER VAR_TIMER_NEXT vars) i0 hi st hd
      (by rw [hs, hen]; exact hse) (by rw [hen]; exact he)
      (by rw [hs, hen]; exact hl)
    rw [cyclePalette_eq_loop, c1] at hrest
    simp only [] at hrest
    obtain ⟨q1, q2, q3, q4⟩ := c4 i0
    obtain ⟨st2, d1, d2⟩ := ih st1 (by rw [q1]; exact hd) (by rw [q3]; exact hs)
      (by rw [q4]; exact hen) (by rw [q2]; exact hfl)
      (fun j hj1 hj2 => LeavesAlone_of_static _ _ _ _ (c4 j) (hl j hj1 hj2)) hrest
    refine ⟨st2, ?_, ?_⟩
    · simp only [cyclePaletteCalls, cyclePalette_eq_loop, c1]
      exact d1
    · have h1 := c2 htr
      rw [hs, hen, hfl] at h1
      have := Shifted_trans _ _ _ _ _ _ _ (by omega) h1 d2
      have el : (rest.length + 1) * cycleShift fl (3 * (e - s + 1))
          = rest.length * cycleShift fl (3 * (e - s + 1)) + cycleShift fl (3 * (e - s + 1)) :=
        Nat.succ_mul _ _
      rw [List.length_cons, el]
      exact this

theorem cycleShift_period (fl K : Nat) (hK : 0 < K) : (K * cycleShift fl (3 * K)) % (3 * K) = 0 := by
  unfold cycleShift
  split
  · have : K * (3 * K - 3) = (3 * K) * (K - 1) := by
      cases K with
      | zero => omega
      | succ n =>
        simp only [Nat.add_sub_cancel]
        have : 3 * (n + 1) - 3 = 3 * n := by omega
        rw [this]
        ring
    rw [this, Nat.mul_mod_right]
  · rw [Nat.mul_comm, Nat.mod_self]

theorem cycleShift_single (fl : Nat) : cycleShift fl 3 % 3 = 0 := by
  unfold cycleShift
  split <;> rfl

/-- C19: for a cycle `_colorCycle[i0]` over a range of `K = end - start + 1 ≥ 1` entries,
in either direction, `K` consecutive calls of `cyclePalette` that each trigger it return and
leave the palette entries `start .. end` as they were at the beginning (the other cycles
being stopped or working on entries outside `start .. end`); and when `start = end`, every
call, triggering or not, leaves the entry unchanged. -/
theorem cyclePalette_period (M VAR_TIMER VAR_TIMER_NEXT : Nat) (i0 : Nat) (hi : i0 < 16)
    (st : PalState) (hd : 0 < (st.colorCycle i0).delay)
    (hse : (st.colorCycle i0).start ≤ (st.colorCycle i0).end_)
    (he : (st.colorCycle i0).end_ < 256)
    (hl : ∀ j, j < 16 → j ≠ i0 →
      LeavesAlone (st.colorCycle i0).start (st.colorCycle i0).end_ (st.colorCycle j)) :
    (∀ calls : List (Nat → Int),
      calls.length = (st.colorCycle i0).end_ - (st.colorCycle i0).start + 1 →
      AllTrigger M VAR_TIMER VAR_TIMER_NEXT i0 calls st →
      ∃ st1, cyclePaletteCalls M VAR_TIMER VAR_TIMER_NEXT calls st = some st1 ∧
        ∀ k b : Nat, (st.colorCycle i0).start ≤ k → k ≤ (st.colorCycle i0).end_ → b < 3 →
          st1.currentPalette (3 * (k : Int) + b) = st.currentPalette (3 * (k : Int) + b)) ∧
    ((st.colorCycle i0).start = (st.colorCycle i0).end_ →
      ∀ vars : Nat → Int,
        ∃ st1, cyclePalette M VAR_TIMER VAR_TIMER_NEXT vars st = some st1 ∧
          ∀ b : Nat, b < 3 →
            st1.currentPalette (3 * ((st.colorCycle i0).start : Int) + b)
              = st.currentPalette (3 * ((st.colorCycle i0).start : Int) + b)) := by
  constructor
  · intro calls hlen hall
    obtain ⟨st1, e1, e2⟩ := cyclePaletteCalls_shift M VAR_TIMER VAR_TIMER_NEXT i0 hi
      (st.colorCycle i0).start (st.colorCycle i0).end_ (st.colorCycle i0).flags hse he calls st
      hd rfl rfl rfl hl hall
    refine ⟨st1, e1, fun k b hk1 hk2 hb => ?_⟩
    rw [hlen] at e2
    have := Shifted_full _ _ _ _ _ (cycleShift_period _ _ (by omega)) e2
      (3 * (k - (st.colorCycle i0).start) + b) (by omega)
    have ea : 3 * ((st.colorCycle i0).start : Int)
        + ((3 * (k - (st.colorCycle i0).start) + b : Nat) : Int) = 3 * (k : Int) + b := by
      omega
    rw [ea] at this
    exact this
  · intro hEq vars
    obtain ⟨st1, c1, c2, c3, _⟩ := cyclePalette_call M
      (cyclePalette.valueToAdd VAR_TIMER VAR_TIMER_NEXT vars) i0 hi st hd hse he hl
    refine ⟨st1, c1, fun b hb => ?_⟩
    have hL : 3 * ((st.colorCycle i0).end_ - (st.colorCycle i0).start + 1) = 3 := by omega
    rw [hL] at c2 c3
    by_cases ht : Triggers M (cyclePalette.valueToAdd VAR_TIMER VAR_TIMER_NEXT vars)
        (st.colorCycle i0)
    · exact Shifted_full _ _ _ _ _ (cycleShift_single _) (c2 ht) b hb
    · exact Shifted_full _ _ _ _ _ rfl (c3 ht) b hb

/-- C20, the claim as stated fails: with `delay = 10`, `counter = 0` and 25 units added in
one call (`n = 2` whole periods), the entries 1 .. 3 are rotated once, not twice: entry 1
holds the old entry 3 (byte 9), where two rotations would have put the old entry 2
(byte 6); the counter is left at `25 mod 10 = 5`. -/
theorem cyclePalette_coarse_tick_rotates_once :
    ((0 : Int) + 25) / 10 = 2 ∧
    (cyclePalette 65536 0 1 (timerVars 25) demoPal).map
        (fun s => (s.currentPalette 3, (s.colorCycle 0).counter)) = some (9, 5) ∧
    rotateEntries rampPalette 3 1 3 0 3 = 9 ∧
    rotateEntries (rotateEntries rampPalette 3 1 3 0) 3 1 3 0 3 = 6 := by
  decide

/-- C20 as the code has it: if the time added in one call makes the counter of a cycle
(with `delay > 0`) span `n ≥ 1` whole delay periods, the range is rotated once in that call,
whatever `n` is, and the counter is left at `(counter + elapsed) mod delay` (the sum being
a value of the counter's type). -/
theorem cyclePalette_coarse_tick (M : Nat) (v : Int) (i : Nat) (st : PalState)
    (hd : 0 < (st.colorCycle i).delay)
    (hn : 1 ≤ ((st.colorCycle i).counter + v) / (st.colorCycle i).delay)
    (hrep : ((st.colorCycle i).counter + v) % (M : Int) = (st.colorCycle i).counter + v) :
    ∃ st1, cyclePalette.cycle M v i st = some st1 ∧
      st1.currentPalette = rotateEntries st.currentPalette 3 (st.colorCycle i).start
        (st.colorCycle i).end_ ((st.colorCycle i).flags &&& 2) ∧
      (st1.colorCycle i).counter
        = ((st.colorCycle i).counter + v) % (st.colorCycle i).delay := by
  have hge : (st.colorCycle i).counter + v ≥ (st.colorCycle i).delay := by
    by_contra hlt
    have := Int.ediv_lt_of_lt_mul hd
      (show (st.colorCycle i).counter + v < 1 * (st.colorCycle i).delay by omega)
    omega
  obtain ⟨st1, e1, e2, _, _, e5, _⟩ := cyclePalette_cycle_trigger M v i st hd
    (by rw [hrep]; exact hge)
  refine ⟨st1, e1, e2, ?_⟩
  rw [e5, hrep]

/-! ## Palette entry operations, the dissolve, `panCameraTo` -/

/-- C25, evaluated where the code departs from the claim: `setPalColor(256, 1, 2, 3)` neither
raises an error nor leaves things alone, it stores the three bytes at the offsets 768, 769
and 770, past the end of the 768-byte palette (`swapPalColors` and `copyPalColor` do raise
their error for an index outside `0 .. 255`). -/
theorem setPalColor_writes_outside :
    (swapPalColors demoPal 256 0).isNone = true ∧
    (copyPalColor demoPal 0 (0 - 1)).isNone = true ∧
    demoPal.currentPalette 768 = 768 ∧
    (setPalColor demoPal 256 1 2 3).currentPalette 768 = 1 ∧
    (setPalColor demoPal 256 1 2 3).currentPalette 769 = 2 ∧
    (setPalColor demoPal 256 1 2 3).currentPalette 770 = 3 := by
  decide

/-- With a block size of `width = 0` and `height = 0` the first statement of
`dissolveEffect`, `w = vs->width / width`, divides by zero, whatever the screen, the
allocator and the random numbers are. -/
theorem dissolveEffect_zero_block (vs : VsGeom) (loom malloc1 malloc2 : Bool)
    (garbage : Int → Int) (rnd : Nat → Nat) (fuel : Nat) :
    dissolveEffect vs loom malloc1 malloc2 garbage rnd fuel 0 0 = Dissolve.divisionByZero :=
  rfl

/-- C30, the claim as stated fails: on the 16 x 8 demo screen `dissolveEffect(0, 0)`, block
width and height both 0, does not return normally with no present call; its first
statement divides by zero. -/
theorem dissolveEffect_zero_divides :
    dissolveEffect demoGeom false true true (fun _ => 0) (fun k => k) 20 0 0
      = Dissolve.divisionByZero ∧
    dissolveEffect demoGeom false true true (fun _ => 0) (fun k => k) 20 0 0
      ≠ Dissolve.returned [] :=
  ⟨dissolveEffect_zero_block _ _ _ _ _ _ _,
    fun h => Dissolve.noConfusion ((dissolveEffect_zero_block _ _ _ _ _ _ _).symm.trans h)⟩

/-- C28, the claim as stated fails: before V7, `panCameraTo(10, 20)` leaves the followed
actor (3) and `dest.y` (50) as they were; on V7 it leaves the mode (`CM_NORMAL`) as it
was. -/
theorem panCameraTo_not_uniform :
    demoCamOld.featAfterV7 = false ∧
    (panCameraTo demoCamOld 10 20).camera.follows = 3 ∧
    (panCameraTo demoCamOld 10 20).camera.dest = ⟨10, 50⟩ ∧
    demoCam7.featAfterV7 = true ∧
    (panCameraTo demoCam7 10 20).camera.mode = CameraMode.CM_NORMAL := by
  decide

/-- C28 as the code has it: `panCameraTo(x, y)` never changes the current camera position.
On V7 it clears the followed actor (field and script variable) and sets the destination to
`(x, y)`, leaving the mode as it was; before V7 it sets `dest.x = x`, the mode to
`CM_PANNING` and `_movingToActor` to false, leaving `dest.y` and the followed actor as they
were. -/
theorem panCameraTo_spec (s : CamState) (x y : Int) :
    (panCameraTo s x y).camera.cur = s.camera.cur ∧
    (s.featAfterV7 = true →
      (panCameraTo s x y).camera.follows = 0 ∧
      (panCameraTo s x y).varCameraFollowedActor = 0 ∧
      (panCameraTo s x y).camera.dest = ⟨x, y⟩ ∧
      (panCameraTo s x y).varCameraDestX = x ∧ (panCameraTo s x y).varCameraDestY = y ∧
      (panCameraTo s x y).camera.mode = s.camera.mode) ∧
    (s.featAfterV7 = false →
      (panCameraTo s x y).camera.dest = ⟨x, s.camera.dest.y⟩ ∧
      (panCameraTo s x y).camera.mode = CameraMode.CM_PANNING ∧
      (panCameraTo s x y).camera.movingToActor = false ∧
      (panCameraTo s x y).camera.follows = s.camera.follows) := by
  unfold panCameraTo
  cases h : s.featAfterV7 with
  | true => simp
  | false => simp

/-! ## Direct palette load: `setPaletteFromPtr` -/

theorem setPaletteFromPtr_loop_spec (cfg : PalCfg) (src : Src) (n : Nat) (i : Int) (sp : Nat)
    (pal : Mem) :
    (∀ k c : Nat, k < n → c < 3 →
      setPaletteFromPtr.loop cfg src n i sp pal (3 * (i + (k : Int)) + (c : Int))
        = (if SkipsTriple cfg (i + (k : Int)) (rd src (sp + 3 * k)) (rd src (sp + 3 * k + 1))
              (rd src (sp + 3 * k + 2))
            then pal (3 * (i + (k : Int)) + (c : Int)) else rd src (sp + 3 * k + c))) ∧
    (∀ a : Int, (a < 3 * i ∨ 3 * (i + (n : Int)) ≤ a) →
      setPaletteFromPtr.loop cfg src n i sp pal a = pal a) := by
  induction n generalizing i sp pal with
  | zero =>
    exact ⟨fun k c hk _ => absurd hk (Nat.not_lt_zero k), fun a _ => rfl⟩
  | succ n ih =>
    unfold setPaletteFromPtr.loop
    simp only []
    by_cases hw : cfg.gameMonkeyVGA = true ∨ cfg.featAfterV7 = true ∨
        (i ≤ 15 ∨ rd src sp < 252 ∨ rd src (sp + 1) < 252 ∨ rd src (sp + 2) < 252)
    · rw [if_pos hw]
      obtain ⟨h1, h2⟩ := ih (i + 1) (sp + 3)
        (poke (poke (poke pal (3 * i) (rd src sp)) (3 * i + 1) (rd src (sp + 1))) (3 * i + 2)
          (rd src (sp + 2)))
      constructor
      · intro k c hk hc
        cases k with
        | zero =>
          have hs : ¬ SkipsTriple cfg (i + ((0 : Nat) : Int)) (rd src (sp + 3 * 0))
              (rd src (sp + 3 * 0 + 1)) (rd src (sp + 3 * 0 + 2)) := by
            unfold SkipsTriple
            simp only [Nat.cast_zero, add_zero, Nat.mul_zero, Nat.add_zero, not_not]
            exact hw
          rw [if_neg hs, h2 _ (by omega)]
          simp only [poke, Nat.cast_zero, add_zero, Nat.mul_zero, Nat.add_zero]
          interval_cases c
          · simp
          · simp
          · simp
        | succ k =>
          have := h1 k c (by omega) hc
          have e1 : 3 * (i + ((k + 1 : Nat) : Int)) + (c : Int)
              = 3 * (i + 1 + (k : Int)) + (c : Int) := by
            push_cast
            ring
          have e2 : i + ((k + 1 : Nat) : Int) = i + 1 + (k : Int) := by
            push_cast
            ring
          have e3 : sp + 3 * (k + 1) = sp + 3 + 3 * k := by ring
          rw [e1, e2, e3, this]
          have hp : poke (poke (poke pal (3 * i) (rd src sp)) (3 * i + 1) (rd src (sp + 1)))
              (3 * i + 2) (rd src (sp + 2)) (3 * (i + 1 + (k : Int)) + (c : Int))
              = pal (3 * (i + 1 + (k : Int)) + (c : Int)) := by
            simp only [poke]
            rw [if_neg (by omega), if_neg (by omega), if_neg (by omega)]
          rw [hp]
      · intro a ha
        rw [h2 a (by omega)]
        simp only [poke]
        rw [if_neg (by omega), if_neg (by omega), if_neg (by omega)]
    · rw [if_neg hw]
      obtain ⟨h1, h2⟩ := ih (i + 1) (sp + 3) pal
      constructor
      · intro k c hk hc
        cases k with
        | zero =>
          have hs : SkipsTriple cfg (i + ((0 : Nat) : Int)) (rd src (sp + 3 * 0))
              (rd src (sp + 3 * 0 + 1)) (rd src (sp + 3 * 0 + 2)) := by
            unfold SkipsTriple
            simp only [Nat.cast_zero, add_zero, Nat.mul_zero, Nat.add_zero]
            exact hw
          rw [if_pos hs, h2 _ (by omega)]
        | succ k =>
          have := h1 k c (by omega) hc
          have e1 : 3 * (i + ((k + 1 : Nat) : Int)) + (c : Int)
              = 3 * (i + 1 + (k : Int)) + (c : Int) := by
            push_cast
            ring
          have e2 : i + ((k + 1 : Nat) : Int) = i + 1 + (k : Int) := by
            push_cast
            ring
          have e3 : sp + 3 * (k + 1) = sp + 3 + 3 * k := by ring
          rw [e1, e2, e3, this]
      · intro a ha
        exact h2 a (by omega)

/-- C24, the claim as stated fails: in a pre-V7 game other than Monkey Island VGA, the
supplied triple 17 = `(255, 255, 255)` of a 20-colour palette is not stored: the first byte
of entry 17 keeps its old value 51. -/
theorem setPaletteFromPtr_skips_white :
    setPaletteFromPtr.numcolor demoPalCfg 60 demoPalRes 0 = 20 ∧
    rd demoPalRes (3 * 17) = 255 ∧ demoPal.currentPalette (3 * 17) = 51 ∧
    (setPaletteFromPtr demoPalCfg 60 demoPal demoPalRes 0).map
        (fun s => s.currentPalette (3 * 17)) = some 51 := by
  decide

/-- C24 as the code has it: `setPaletteFromPtr`, given `n ≤ 256` colour triples (`n ≥ 0`),
sets palette entry `i` to the `i`-th supplied `(r, g, b)` for every `i < n`, except that,
unless the game is Monkey Island VGA or the engine is V7, a triple with index `i > 15` whose
three channels are all at least 252 is skipped and entry `i` keeps its value; bytes of
entries with index `≥ n` are unchanged and the dirty colour range is widened to include
`0 .. n - 1`; `n > 256` is rejected. -/
theorem setPaletteFromPtr_spec (cfg : PalCfg) (dataSize : Int) (st : PalState) (src : Src)
    (ptr : Nat) :
    (setPaletteFromPtr.numcolor cfg dataSize src ptr > 256 →
      setPaletteFromPtr cfg dataSize st src ptr = none) ∧
    (0 ≤ setPaletteFromPtr.numcolor cfg dataSize src ptr →
      setPaletteFromPtr.numcolor cfg dataSize src ptr ≤ 256 →
      ∃ st1, setPaletteFromPtr cfg dataSize st src ptr = some st1 ∧
        (∀ i c : Nat, (i : Int) < setPaletteFromPtr.numcolor cfg dataSize src ptr → c < 3 →
          st1.currentPalette (3 * (i : Int) + (c : Int))
            = (if SkipsTriple cfg (i : Int)
                  (rd src (setPaletteFromPtr.data cfg ptr + 3 * i))
                  (rd src (setPaletteFromPtr.data cfg ptr + 3 * i + 1))
                  (rd src (setPaletteFromPtr.data cfg ptr + 3 * i + 2))
                then st.currentPalette (3 * (i : Int) + (c : Int))
                else rd src (setPaletteFromPtr.data cfg ptr + 3 * i + c))) ∧
        (∀ a : Int, (a < 0 ∨ 3 * setPaletteFromPtr.numcolor cfg dataSize src ptr ≤ a) →
          st1.currentPalette a = st.currentPalette a) ∧
        st1.palDirtyMin = min st.palDirtyMin 0 ∧
        st1.palDirtyMax
          = max st.palDirtyMax (setPaletteFromPtr.numcolor cfg dataSize src ptr - 1)) := by
  constructor
  · intro h
    unfold setPaletteFromPtr
    simp only []
    have : checkRange 256 0 (setPaletteFromPtr.numcolor cfg dataSize src ptr) = false := by
      unfold checkRange
      simp only [decide_eq_false_iff_not]
      omega
    rw [this]
    rfl
  · intro h0 h256
    unfold setPaletteFromPtr
    simp only []
    have : checkRange 256 0 (setPaletteFromPtr.numcolor cfg dataSize src ptr) = true := by
      unfold checkRange
      simp only [decide_eq_true_eq]
      omega
    rw [this]
    simp only [if_true]
    obtain ⟨h1, h2⟩ := setPaletteFromPtr_loop_spec cfg src
      (setPaletteFromPtr.numcolor cfg dataSize src ptr).toNat 0
      (setPaletteFromPtr.data cfg ptr) st.currentPalette
    refine ⟨_, rfl, ?_, ?_, ?_, ?_⟩
    · intro i c hi hc
      rw [(setDirtyColors_fields _ _ _).1]
      have := h1 i c (by omega) hc
      simp only [zero_add] at this
      exact this
    · intro a ha
      rw [(setDirtyColors_fields _ _ _).1]
      exact h2 a (by omega)
    · rw [(setDirtyColors_fields _ _ _).2.2.1]
    · rw [(setDirtyColors_fields _ _ _).2.2.2]

/-! ## Nearest palette colour: `remapPaletteColor` -/

theorem andNot3_range (v : Int) (h0 : 0 ≤ v) (h1 : v ≤ 255) :
    0 ≤ andNot3 v ∧ andNot3 v ≤ 252 := by
  unfold andNot3
  omega

theorem quantPal_range (pal : Mem) (i c : Nat) : 0 ≤ quantPal pal i c ∧ quantPal pal i c ≤ 252 := by
  unfold quantPal
  apply andNot3_range <;> omega

theorem quantReq_range (v : Int) (h0 : 0 ≤ v) : 0 ≤ quantReq v ∧ quantReq v ≤ 252 := by
  unfold quantReq
  split
  · exact andNot3_range 255 (by omega) (by omega)
  · exact andNot3_range v h0 (by omega)

theorem sq_le_of_range (d : Int) (h0 : -252 ≤ d) (h1 : d ≤ 252) : 0 ≤ d * d ∧ d * d ≤ 63504 := by
  constructor
  · exact mul_self_nonneg d
  · nlinarith

/-- On differences of quantised channels `colorWeight` is the weighted sum itself: the
`uint` does not wrap. -/
theorem colorWeight_exact (dr dg db : Int) (hr : -252 ≤ dr ∧ dr ≤ 252)
    (hg : -252 ≤ dg ∧ dg ≤ 252) (hb : -252 ≤ db ∧ db ≤ 252) :
    ((colorWeight dr dg db : Nat) : Int) = 3 * dr * dr + 6 * dg * dg + 2 * db * db ∧
      colorWeight dr dg db < 2 ^ 32 - 1 := by
  obtain ⟨r0, r1⟩ := sq_le_of_range dr hr.1 hr.2
  obtain ⟨g0, g1⟩ := sq_le_of_range dg hg.1 hg.2
  obtain ⟨b0, b1⟩ := sq_le_of_range db hb.1 hb.2
  have e1 : 3 * dr * dr = 3 * (dr * dr) := by ring
  have e2 : 6 * dg * dg = 6 * (dg * dg) := by ring
  have e3 : 2 * db * db = 2 * (db * db) := by ring
  unfold colorWeight
  rw [e1, e2, e3]
  have hlt : 3 * (dr * dr) + 6 * (dg * dg) + 2 * (db * db) < 2 ^ 32 := by omega
  rw [Int.emod_eq_of_lt (by omega) hlt]
  constructor
  · rw [Int.toNat_of_nonneg (by omega)]
  · omega

theorem sumAt_exact (pal : Mem) (r g b : Int) (hr : 0 ≤ r ∧ r ≤ 252) (hg : 0 ≤ g ∧ g ≤ 252)
    (hb : 0 ≤ b ∧ b ≤ 252) (j : Nat) :
    ((sumAt pal r g b j : Nat) : Int) = remapDist pal r g b j ∧ sumAt pal r g b j < 2 ^ 32 - 1 := by
  have q0 := quantPal_range pal j 0
  have q1 := quantPal_range pal j 1
  have q2 := quantPal_range pal j 2
  unfold sumAt remapDist
  exact colorWeight_exact _ _ _ (by omega) (by omega) (by omega)

theorem remapDist_nonneg (pal : Mem) (r g b : Int) (j : Nat) : 0 ≤ remapDist pal r g b j := by
  unfold remapDist
  nlinarith [mul_self_nonneg (quantPal pal j 0 - r), mul_self_nonneg (quantPal pal j 1 - g),
    mul_self_nonneg (quantPal pal j 2 - b)]

theorem remapDist_eq_zero_iff (pal : Mem) (r g b : Int) (j : Nat) :
    remapDist pal r g b j = 0 ↔ ExactAt pal r g b j := by
  unfold remapDist ExactAt
  constructor
  · intro h
    have h0 := mul_self_nonneg (quantPal pal j 0 - r)
    have h1 := mul_self_nonneg (quantPal pal j 1 - g)
    have h2 := mul_self_nonneg (quantPal pal j 2 - b)
    have z0 : (quantPal pal j 0 - r) * (quantPal pal j 0 - r) = 0 := by nlinarith
    have z1 : (quantPal pal j 1 - g) * (quantPal pal j 1 - g) = 0 := by nlinarith
    have z2 : (quantPal pal j 2 - b) * (quantPal pal j 2 - b) = 0 := by nlinarith
    have y0 := mul_self_eq_zero.mp z0
    have y1 := mul_self_eq_zero.mp z1
    have y2 := mul_self_eq_zero.mp z2
    exact ⟨by omega, by omega, by omega⟩
  · rintro ⟨e0, e1, e2⟩
    rw [e0, e1, e2]
    ring

theorem quantPal_zero (pal : Mem) (i : Nat) :
    quantPal pal i 0 = andNot3 ((pal (3 * (i : Int)) % 256 : Nat) : Int) := by
  simp [quantPal]

theorem quantPal_one (pal : Mem) (i : Nat) :
    quantPal pal i 1 = andNot3 ((pal (3 * (i : Int) + 1) % 256 : Nat) : Int) := by
  simp [quantPal]

theorem quantPal_two (pal : Mem) (i : Nat) :
    quantPal pal i 2 = andNot3 ((pal (3 * (i : Int) + 2) % 256 : Nat) : Int) := by
  simp [quantPal]

/-- The first loop of `remapPaletteColor`: either it returns at the first exact match, or
it ends with `bestitem` the first entry of least sum. -/
theorem remapPaletteColor_search_spec (pal : Mem) (r g b : Int)
    (hbound : ∀ j, sumAt pal r g b j < 2 ^ 32 - 1) (n i bs bi : Nat)
    (hpre : ∀ j, j < i → ¬ ExactAt pal r g b j)
    (hle : ∀ j, j < i → bs ≤ sumAt pal r g b j)
    (hbest : (bs = 2 ^ 32 - 1 ∧ i = 0 ∧ bi = 0) ∨
      (bi < i ∧ sumAt pal r g b bi = bs ∧ ∀ j, j < bi → bs < sumAt pal r g b j)) :
    (∀ k, (remapPaletteColor.search pal r g b n i bs bi).1 = some k →
      i ≤ k ∧ k < i + n ∧ ExactAt pal r g b k ∧ ∀ j, j < k → ¬ ExactAt pal r g b j) ∧
    ((remapPaletteColor.search pal r g b n i bs bi).1 = none →
      (∀ j, j < i + n → ¬ ExactAt pal r g b j) ∧
      (∀ j, j < i + n → (remapPaletteColor.search pal r g b n i bs bi).2.1 ≤ sumAt pal r g b j) ∧
      (((remapPaletteColor.search pal r g b n i bs bi).2.1 = 2 ^ 32 - 1 ∧ i + n = 0 ∧
          (remapPaletteColor.search pal r g b n i bs bi).2.2 = 0) ∨
        ((remapPaletteColor.search pal r g b n i bs bi).2.2 < i + n ∧
          sumAt pal r g b (remapPaletteColor.search pal r g b n i bs bi).2.2
            = (remapPaletteColor.search pal r g b n i bs bi).2.1 ∧
          ∀ j, j < (remapPaletteColor.search pal r g b n i bs bi).2.2 →
            (remapPaletteColor.search pal r g b n i bs bi).2.1 < sumAt pal r g b j))) := by
  induction n generalizing i bs bi with
  | zero =>
    simp only [remapPaletteColor.search, Nat.add_zero]
    exact ⟨fun k h => absurd h (by simp), fun _ => ⟨hpre, hle, hbest⟩⟩
  | succ n ih =>
    unfold remapPaletteColor.search
    simp only []
    rw [← quantPal_zero, ← quantPal_one, ← quantPal_two]
    by_cases hex : quantPal pal i 0 = r ∧ quantPal pal i 1 = g ∧ quantPal pal i 2 = b
    · rw [if_pos hex]
      simp only []
      constructor
      · intro k hk
        have : i = k := by
          injection hk
        subst this
        exact ⟨le_refl _, by omega, hex, hpre⟩
      · intro h
        exact absurd h (by simp)
    · rw [if_neg hex]
      have hpre1 : ∀ j, j < i + 1 → ¬ ExactAt pal r g b j := by
        intro j hj
        by_cases hji : j = i
        · subst hji
          exact hex
        · exact hpre j (by omega)
      have hs : colorWeight (quantPal pal i 0 - r) (quantPal pal i 1 - g) (quantPal pal i 2 - b)
          = sumAt pal r g b i := rfl
      rw [hs]
      have e1 : i + (n + 1) = i + 1 + n := by omega
      rw [e1]
      by_cases hlt : sumAt pal r g b i < bs
      · rw [if_pos hlt]
        have key : ∀ X : Prop, ((∀ j, j < i + 1 → sumAt pal r g b i ≤ sumAt pal r g b j) →
            ((sumAt pal r g b i = 2 ^ 32 - 1 ∧ i + 1 = 0 ∧ i = 0) ∨
              (i < i + 1 ∧ sumAt pal r g b i = sumAt pal r g b i ∧
                ∀ j, j < i → sumAt pal r g b i < sumAt pal r g b j)) → X) → X := by
          intro X hX
          apply hX
          · intro j hj
            by_cases hji : j = i
            · subst hji
              exact le_refl _
            · have := hle j (by omega)
              omega
          · refine Or.inr ⟨by omega, rfl, ?_⟩
            intro j hj
            have := hle j hj
            omega
        apply key
        intro k1 k2
        obtain ⟨q1, q2⟩ := ih (i + 1) (sumAt pal r g b i) i hpre1 k1 k2
        exact ⟨fun k hk => ⟨by have := (q1 k hk).1; omega, (q1 k hk).2⟩, q2⟩
      · rw [if_neg hlt]
        have k1 : ∀ j, j < i + 1 → bs ≤ sumAt pal r g b j := by
          intro j hj
          by_cases hji : j = i
          · subst hji
            omega
          · exact hle j (by omega)
        have k2 : (bs = 2 ^ 32 - 1 ∧ i + 1 = 0 ∧ bi = 0) ∨
            (bi < i + 1 ∧ sumAt pal r g b bi = bs ∧ ∀ j, j < bi → bs < sumAt pal r g b j) := by
          rcases hbest with ⟨h1, _, _⟩ | ⟨h1, h2, h3⟩
          · have := hbound i
            omega
          · exact Or.inr ⟨by omega, h2, h3⟩
        obtain ⟨q1, q2⟩ := ih (i + 1) bs bi hpre1 k1 k2
        exact ⟨fun k hk => ⟨by have := (q1 k hk).1; omega, (q1 k hk).2⟩, q2⟩

/-- The second loop of `remapPaletteColor`: the highest spare slot among the `n` slots from
`i` downwards, if there is one. -/
theorem remapPaletteColor_spare_spec (pal : Mem) (n : Nat) (i : Int) :
    (∀ k, remapPaletteColor.spare pal n i = some k →
      i - (n : Int) < k ∧ k ≤ i ∧ SpareSlot pal k ∧ ∀ j : Int, k < j → j ≤ i → ¬ SpareSlot pal j) ∧
    (remapPaletteColor.spare pal n i = none →
      ∀ j : Int, i - (n : Int) < j → j ≤ i → ¬ SpareSlot pal j) := by
  induction n generalizing i with
  | zero =>
    simp only [remapPaletteColor.spare]
    exact ⟨fun k h => absurd h (by simp), fun _ j h1 h2 => by omega⟩
  | succ n ih =>
    unfold remapPaletteColor.spare
    by_cases hs : pal (3 * i) % 256 ≥ 252 ∧ pal (3 * i + 1) % 256 ≥ 252 ∧ pal (3 * i + 2) % 256 ≥ 252
    · rw [if_pos hs]
      constructor
      · intro k hk
        have : i = k := by
          injection hk
        subst this
        exact ⟨by omega, le_refl _, hs, fun j h1 h2 => by omega⟩
      · intro h
        exact absurd h (by simp)
    · rw [if_neg hs]
      obtain ⟨h1, h2⟩ := ih (i - 1)
      constructor
      · intro k hk
        obtain ⟨a1, a2, a3, a4⟩ := h1 k hk
        refine ⟨by omega, by omega, a3, ?_⟩
        intro j hj1 hj2
        by_cases hji : j = i
        · subst hji
          exact hs
        · exact a4 j hj1 (by omega)
      · intro hn j hj1 hj2
        by_cases hji : j = i
        · subst hji
          exact hs
        · exact h2 hn j (by omega) (by omega)

/-- The whole first loop of `remapPaletteColor` on a quantised request. -/
theorem remapPaletteColor_search_all (pal : Mem) (r g b : Int) (hr : 0 ≤ r ∧ r ≤ 252)
    (hg : 0 ≤ g ∧ g ≤ 252) (hb : 0 ≤ b ∧ b ≤ 252) (o : Option Nat) (bs bi : Nat)
    (e : remapPaletteColor.search pal r g b 256 0 (2 ^ 32 - 1) 0 = (o, bs, bi)) :
    (∀ k, o = some k → k < 256 ∧ ExactAt pal r g b k ∧ ∀ j, j < k → ¬ ExactAt pal r g b j) ∧
    (o = none →
      (∀ j, j < 256 → ¬ ExactAt pal r g b j) ∧ bi < 256 ∧ sumAt pal r g b bi = bs ∧
      (∀ j, j < 256 → bs ≤ sumAt pal r g b j) ∧ ∀ j, j < bi → bs < sumAt pal r g b j) := by
  obtain ⟨h1, h2⟩ := remapPaletteColor_search_spec pal r g b
    (fun j => (sumAt_exact pal r g b hr hg hb j).2) 256 0 (2 ^ 32 - 1) 0
    (fun j hj => absurd hj (Nat.not_lt_zero j)) (fun j hj => absurd hj (Nat.not_lt_zero j))
    (Or.inl ⟨rfl, rfl, rfl⟩)
  rw [e] at h1 h2
  simp only [Nat.zero_add] at h1 h2
  constructor
  · intro k hk
    obtain ⟨_, a2, a3, a4⟩ := h1 k hk
    exact ⟨a2, a3, a4⟩
  · intro hn
    obtain ⟨a1, a2, a3⟩ := h2 hn
    rcases a3 with ⟨_, h0, _⟩ | ⟨b1, b2, b3⟩
    · omega
    · exact ⟨a1, b1, b2, a2, b3⟩

theorem IsNearest_unique (pal : Mem) (r g b : Int) (i k : Nat) (hi : IsNearest pal r g b i)
    (hk : IsNearest pal r g b k) : i = k := by
  obtain ⟨i1, i2, i3⟩ := hi
  obtain ⟨k1, k2, k3⟩ := hk
  by_contra hne
  rcases Nat.lt_or_gt_of_ne hne with h | h
  · have := k3 i h
    have := i2 k k1
    omega
  · have := i3 k h
    have := k2 i i1
    omega

theorem IsNearest_congr (pal pal2 : Mem) (r g b : Int) (i : Nat)
    (hq : ∀ j c : Nat, j < 256 → c < 3 → quantPal pal2 j c = quantPal pal j c)
    (hi : IsNearest pal2 r g b i) : IsNearest pal r g b i := by
  have e : ∀ j, j < 256 → remapDist pal2 r g b j = remapDist pal r g b j := by
    intro j hj
    unfold remapDist
    rw [hq j 0 hj (by omega), hq j 1 hj (by omega), hq j 2 hj (by omega)]
  obtain ⟨i1, i2, i3⟩ := hi
  refine ⟨i1, fun j hj => ?_, fun j hj => ?_⟩
  · rw [← e i i1, ← e j hj]
    exact i2 j hj
  · rw [← e i i1, ← e j (by omega)]
    exact i3 j hj

/-- What the first loop of `remapPaletteColor` finds is the nearest entry, whether it
returns at an exact match or runs to the end. -/
theorem remapPaletteColor_search_nearest (pal : Mem) (r g b : Int) (hr : 0 ≤ r ∧ r ≤ 252)
    (hg : 0 ≤ g ∧ g ≤ 252) (hb : 0 ≤ b ∧ b ≤ 252) (o : Option Nat) (bs bi : Nat)
    (e : remapPaletteColor.search pal r g b 256 0 (2 ^ 32 - 1) 0 = (o, bs, bi)) :
    IsNearest pal r g b (o.getD bi) ∧
      (o = none → ((bs : Nat) : Int) = remapDist pal r g b bi) := by
  obtain ⟨h1, h2⟩ := remapPaletteColor_search_all pal r g b hr hg hb o bs bi e
  cases o with
  | some k =>
    obtain ⟨a1, a2, a3⟩ := h1 k rfl
    refine ⟨⟨a1, fun j hj => ?_, fun j hj => ?_⟩, fun h => absurd h (by simp)⟩
    · simp only [Option.getD_some]
      rw [(remapDist_eq_zero_iff pal r g b k).mpr a2]
      exact remapDist_nonneg pal r g b j
    · simp only [Option.getD_some]
      rw [(remapDist_eq_zero_iff pal r g b k).mpr a2]
      have h0 := remapDist_nonneg pal r g b j
      have hne : remapDist pal r g b j ≠ 0 :=
        fun hz => a3 j hj ((remapDist_eq_zero_iff pal r g b j).mp hz)
      omega
  | none =>
    obtain ⟨a1, a2, a3, a4, a5⟩ := h2 rfl
    have hc : ∀ j, ((sumAt pal r g b j : Nat) : Int) = remapDist pal r g b j :=
      fun j => (sumAt_exact pal r g b hr hg hb j).1
    refine ⟨⟨a2, fun j hj => ?_, fun j hj => ?_⟩, fun _ => ?_⟩
    · simp only [Option.getD_none]
      rw [← hc bi, ← hc j, a3]
      exact_mod_cast a4 j hj
    · simp only [Option.getD_none]
      rw [← hc bi, ← hc j, a3]
      exact_mod_cast a5 j hj
    · rw [← hc bi, a3]

/-- Without a threshold `remapPaletteColor` returns what its first loop finds and leaves the
state alone. -/
theorem remapPaletteColor_no_threshold (st : PalState) (r g b : Int) (o : Option Nat)
    (bs bi : Nat)
    (e : remapPaletteColor.search st.currentPalette (quantReq r) (quantReq g) (quantReq b) 256 0
      (2 ^ 32 - 1) 0 = (o, bs, bi)) :
    remapPaletteColor st r g b (2 ^ 32 - 1) = (((o.getD bi : Nat) : Int), st) := by
  unfold remapPaletteColor
  simp only []
  unfold quantReq at e
  rw [e]
  cases o with
  | some k => rfl
  | none => simp

/-- C22: for every palette and every request `0 ≤ r, g, b` (values above 255 taken as 255),
with no threshold (`threshold = (uint) -1`), `remapPaletteColor` returns the smallest index
`i` in `0 .. 255` that minimises `3 dr² + 6 dg² + 2 db²`, the differences being taken
between the request and palette entry `i` after the low two bits of every channel are
cleared; the palette (the whole state) is not modified; and the result is the same for any
other request and palette that agree with these up to the low two bits of the channels. -/
theorem remapPaletteColor_nearest (st : PalState) (r g b : Int) (hr : 0 ≤ r) (hg : 0 ≤ g)
    (hb : 0 ≤ b) :
    (remapPaletteColor st r g b (2 ^ 32 - 1)).2 = st ∧
    (∃ i : Nat, (remapPaletteColor st r g b (2 ^ 32 - 1)).1 = (i : Int) ∧
      IsNearest st.currentPalette (quantReq r) (quantReq g) (quantReq b) i) ∧
    (∀ (st2 : PalState) (r2 g2 b2 : Int), 0 ≤ r2 → 0 ≤ g2 → 0 ≤ b2 →
      andNot3 (if r2 > 255 then 255 else r2) = andNot3 (if r > 255 then 255 else r) →
      andNot3 (if g2 > 255 then 255 else g2) = andNot3 (if g > 255 then 255 else g) →
      andNot3 (if b2 > 255 then 255 else b2) = andNot3 (if b > 255 then 255 else b) →
      (∀ j c : Nat, j < 256 → c < 3 →
        andNot3 ((st2.currentPalette (3 * (j : Int) + (c : Int)) % 256 : Nat) : Int)
          = andNot3 ((st.currentPalette (3 * (j : Int) + (c : Int)) % 256 : Nat) : Int)) →
      (remapPaletteColor st2 r2 g2 b2 (2 ^ 32 - 1)).1
        = (remapPaletteColor st r g b (2 ^ 32 - 1)).1) := by
  have key : ∀ (s : PalState) (x y z : Int), 0 ≤ x → 0 ≤ y → 0 ≤ z →
      ∃ i : Nat, remapPaletteColor s x y z (2 ^ 32 - 1) = ((i : Int), s) ∧
        IsNearest s.currentPalette (quantReq x) (quantReq y) (quantReq z) i := by
    intro s x y z hx hy hz
    generalize hres : remapPaletteColor.search s.currentPalette (quantReq x) (quantReq y)
      (quantReq z) 256 0 (2 ^ 32 - 1) 0 = res
    obtain ⟨o, bs, bi⟩ := res
    exact ⟨o.getD bi, remapPaletteColor_no_threshold s x y z o bs bi hres,
      (remapPaletteColor_search_nearest s.currentPalette _ _ _ (quantReq_range x hx)
        (quantReq_range y hy) (quantReq_range z hz) o bs bi hres).1⟩
  obtain ⟨i, e, hi⟩ := key st r g b hr hg hb
  refine ⟨by rw [e], ⟨i, by rw [e], hi⟩, ?_⟩
  intro st2 r2 g2 b2 hr2 hg2 hb2 er eg eb hq
  obtain ⟨i2, e2, hi2⟩ := key st2 r2 g2 b2 hr2 hg2 hb2
  rw [e, e2]
  have q1 : quantReq r2 = quantReq r := er
  have q2 : quantReq g2 = quantReq g := eg
  have q3 : quantReq b2 = quantReq b := eb
  rw [q1, q2, q3] at hi2
  have := IsNearest_unique _ _ _ _ i2 i (IsNearest_congr st.currentPalette st2.currentPalette
    _ _ _ i2 (fun j c hj hc => hq j c hj hc) hi2) hi
  simp only [this]

theorem toByte_of_range (v : Int) (h0 : 0 ≤ v) (h1 : v ≤ 255) : ((toByte v : Nat) : Int) = v := by
  unfold toByte
  rw [Int.emod_eq_of_lt h0 (by omega), Int.toNat_of_nonneg h0]

/-- The state after `setPalColor(idx, r, g, b)`. -/
theorem setPalColor_spec (st : PalState) (idx r g b : Int) :
    (setPalColor st idx r g b).currentPalette (3 * idx) = toByte r ∧
    (setPalColor st idx r g b).currentPalette (3 * idx + 1) = toByte g ∧
    (setPalColor st idx r g b).currentPalette (3 * idx + 2) = toByte b ∧
    (∀ a : Int, (a < 3 * idx ∨ 3 * idx + 3 ≤ a) →
      (setPalColor st idx r g b).currentPalette a = st.currentPalette a) ∧
    (setPalColor st idx r g b).palDirtyMin = min st.palDirtyMin idx ∧
    (setPalColor st idx r g b).palDirtyMax = max st.palDirtyMax idx := by
  unfold setPalColor
  simp only []
  rw [(setDirtyColors_fields _ _ _).1, (setDirtyColors_fields _ _ _).2.2.1,
    (setDirtyColors_fields _ _ _).2.2.2]
  simp only [poke]
  refine ⟨?_, ?_, ?_, ?_, trivial, trivial⟩
  · rw [if_neg (by omega), if_neg (by omega), if_pos (by omega)]
  · rw [if_neg (by omega), if_pos (by omega)]
  · rw [if_pos (by omega)]
  · intro a ha
    rw [if_neg (by omega), if_neg (by omega), if_neg (by omega)]

set_option maxRecDepth 100000 in
/-- C23, the claim as stated fails: on the all-`(252, 252, 252)` palette the request
`(5, 0, 0)` with threshold 0 has no quantised exact match, its best distance exceeds
`colorWeight(0, 0, 0) = 0`, slot 254 is spare; the function returns 254, and afterwards
entry 254 is `(4, 0, 0)`, not the requested `(5, 0, 0)`. -/
theorem remapPaletteColor_stores_quantised :
    quantPal whitePalette 0 0 = 252 ∧ quantReq 5 = 4 ∧
    (colorWeight (uintToInt 0) (uintToInt 0) (uintToInt 0) : Int)
      < remapDist whitePalette (quantReq 5) (quantReq 0) (quantReq 0) 0 ∧
    SpareSlot whitePalette 254 ∧
    (remapPaletteColor demoPalWhite 5 0 0 0).1 = 254 ∧
    (remapPaletteColor demoPalWhite 5 0 0 0).2.currentPalette (3 * 254) = 4 ∧
    (remapPaletteColor demoPalWhite 5 0 0 0).2.currentPalette (3 * 254 + 1) = 0 ∧
    (remapPaletteColor demoPalWhite 5 0 0 0).2.currentPalette (3 * 254 + 2) = 0 := by
  decide

/-- C23 as the code has it: when `remapPaletteColor` is given a threshold `t ≠ (uint) -1`,
no quantised exact match exists and the weighted distance of every entry exceeds
`colorWeight(t, t, t)`, then: if some slot `i` with `48 < i ≤ 254` has all three channels
`≥ 252`, the function returns the highest such `i`, and afterwards palette entry `i` is the
request clamped to 255 with the low two bits of each channel cleared (the other entries are
unchanged and the dirty colour range is widened to include `i`); if there is no such slot it
returns the nearest index and leaves the state unchanged. -/
theorem remapPaletteColor_spare_slot (st : PalState) (r g b : Int) (t : Nat) (hr : 0 ≤ r)
    (hg : 0 ≤ g) (hb : 0 ≤ b) (ht : t ≠ 2 ^ 32 - 1)
    (hno : ∀ j, j < 256 →
      ¬ ExactAt st.currentPalette (quantReq r) (quantReq g) (quantReq b) j)
    (hfar : ∀ j, j < 256 →
      (colorWeight (uintToInt t) (uintToInt t) (uintToInt t) : Int)
        < remapDist st.currentPalette (quantReq r) (quantReq g) (quantReq b) j) :
    (∀ i : Int, 48 < i → i ≤ 254 → SpareSlot st.currentPalette i →
      (∀ j : Int, i < j → j ≤ 254 → ¬ SpareSlot st.currentPalette j) →
      (remapPaletteColor st r g b t).1 = i ∧
      (((remapPaletteColor st r g b t).2.currentPalette (3 * i) : Nat) : Int) = quantReq r ∧
      (((remapPaletteColor st r g b t).2.currentPalette (3 * i + 1) : Nat) : Int) = quantReq g ∧
      (((remapPaletteColor st r g b t).2.currentPalette (3 * i + 2) : Nat) : Int) = quantReq b ∧
      (∀ a : Int, (a < 3 * i ∨ 3 * i + 3 ≤ a) →
        (remapPaletteColor st r g b t).2.currentPalette a = st.currentPalette a) ∧
      (remapPaletteColor st r g b t).2.palDirtyMin = min st.palDirtyMin i ∧
      (remapPaletteColor st r g b t).2.palDirtyMax = max st.palDirtyMax i) ∧
    ((∀ i : Int, 48 < i → i ≤ 254 → ¬ SpareSlot st.currentPalette i) →
      (remapPaletteColor st r g b t).2 = st ∧
      ∃ i : Nat, (remapPaletteColor st r g b t).1 = (i : Int) ∧
        IsNearest st.currentPalette (quantReq r) (quantReq g) (quantReq b) i) := by
  have qr := quantReq_range r hr
  have qg := quantReq_range g hg
  have qb := quantReq_range b hb
  generalize hres : remapPaletteColor.search st.currentPalette (quantReq r) (quantReq g)
    (quantReq b) 256 0 (2 ^ 32 - 1) 0 = res
  obtain ⟨o, bs, bi⟩ := res
  obtain ⟨h1, h2⟩ := remapPaletteColor_search_all st.currentPalette _ _ _ qr qg qb o bs bi hres
  obtain ⟨n1, n2⟩ := remapPaletteColor_search_nearest st.currentPalette _ _ _ qr qg qb o bs bi hres
  have ho : o = none := by
    cases o with
    | none => rfl
    | some k => exact absurd (h1 k rfl).2.1 (hno k (h1 k rfl).1)
  subst ho
  obtain ⟨_, a2, _, _, _⟩ := h2 rfl
  have hbs : bs > colorWeight (uintToInt t) (uintToInt t) (uintToInt t) := by
    have := hfar bi a2
    rw [← n2 rfl] at this
    exact_mod_cast this
  have hun : remapPaletteColor st r g b t
      = (match remapPaletteColor.spare st.currentPalette 206 254 with
        | some i => (i, setPalColor st i (quantReq r) (quantReq g) (quantReq b))
        | none => ((bi : Int), st)) := by
    unfold remapPaletteColor
    simp only []
    unfold quantReq at hres
    rw [hres]
    simp only []
    rw [if_pos ⟨ht, hbs⟩]
    rfl
  obtain ⟨s1, s2⟩ := remapPaletteColor_spare_spec st.currentPalette 206 254
  constructor
  · intro i hi1 hi2 hsp hmax
    cases hsl : remapPaletteColor.spare st.currentPalette 206 254 with
    | none => exact absurd hsp (s2 hsl i (by omega) hi2)
    | some k =>
      obtain ⟨k1, k2, k3, k4⟩ := s1 k hsl
      have hki : k = i := by
        by_contra hne
        rcases lt_or_gt_of_ne hne with h | h
        · exact k4 i h hi2 hsp
        · exact hmax k h k2 k3
      subst hki
      rw [hun, hsl]
      simp only []
      obtain ⟨p0, p1, p2, p3, p4, p5⟩ := setPalColor_spec st k (quantReq r) (quantReq g)
        (quantReq b)
      refine ⟨trivial, ?_, ?_, ?_, p3, p4, p5⟩
      · rw [p0]
        exact toByte_of_range _ qr.1 (by omega)
      · rw [p1]
        exact toByte_of_range _ qg.1 (by omega)
      · rw [p2]
        exact toByte_of_range _ qb.1 (by omega)
  · intro hnone
    cases hsl : remapPaletteColor.spare st.currentPalette 206 254 with
    | some k =>
      obtain ⟨k1, k2, k3, _⟩ := s1 k hsl
      exact absurd k3 (hnone k (by omega) k2)
    | none =>
      rw [hun, hsl]
      exact ⟨rfl, bi, rfl, n1⟩

/-! ## Palette fade -/

theorem setDirtyColors_manip (st : PalState) (mn mx : Int) :
    (setDirtyColors st mn mx).palManipPalette = st.palManipPalette ∧
    (setDirtyColors st mn mx).palManipPaletteAddr = st.palManipPaletteAddr ∧
    (setDirtyColors st mn mx).palManipCounter = st.palManipCounter ∧
    (setDirtyColors st mn mx).palManipIntermediatePal = st.palManipIntermediatePal := by
  unfold setDirtyColors
  by_cases h1 : st.palDirtyMin > mn
  · rw [if_pos h1]
    simp only []
    by_cases h2 : st.palDirtyMax < mx
    · rw [if_pos h2]
      exact ⟨rfl, rfl, rfl, rfl⟩
    · rw [if_neg h2]
      exact ⟨rfl, rfl, rfl, rfl⟩
  · rw [if_neg h1]
    simp only []
    by_cases h2 : st.palDirtyMax < mx
    · rw [if_pos h2]
      exact ⟨rfl, rfl, rfl, rfl⟩
    · rw [if_neg h2]
      exact ⟨rfl, rfl, rfl, rfl⟩

/-- With one tick left, a channel of `palManipulate` lands on its target exactly. -/
theorem palManipulate_channel_last (target : Mem) (tp bp pp : Int) (pal between : Mem) :
    (palManipulate.channel 1 target tp bp pp pal between).1 = poke pal pp (target tp % 256) := by
  unfold palManipulate.channel
  simp only []
  have hT : target tp % 256 < 256 := Nat.mod_lt _ (by decide)
  have e1 : ((rd16 between bp : Nat) : Int)
      + Int.tdiv (((target tp % 256 : Nat) : Int) * 256 - ((rd16 between bp : Nat) : Int)) 1
      = ((target tp % 256 : Nat) : Int) * 256 := by
    rw [Int.tdiv_one]
    ring
  rw [e1]
  generalize target tp % 256 = T at hT ⊢
  have e2 : ((T : Int) * 256) % 65536 / 256 = (T : Int) := by
    omega
  rw [e2]
  unfold toByte
  have e3 : ((T : Int) % 256).toNat = T := by omega
  rw [e3]

/-- With one tick left, the loop of `palManipulate` sets every channel of the entries it
visits to the target channel and touches no other byte of the palette. -/
theorem palManipulate_loop_last (target : Mem) (n : Nat) (i : Int) (pal between : Mem) :
    (∀ k : Int, i ≤ k → k < i + (n : Int) → ∀ c : Int, 0 ≤ c → c < 3 →
      (palManipulate.loop 1 target n i pal between).1 (3 * k + c) = target (3 * k + c) % 256) ∧
    (∀ a : Int, (a < 3 * i ∨ 3 * (i + (n : Int)) ≤ a) →
      (palManipulate.loop 1 target n i pal between).1 a = pal a) := by
  induction n generalizing i pal between with
  | zero =>
    exact ⟨fun k h1 h2 => by omega, fun a _ => rfl⟩
  | succ n ih =>
    unfold palManipulate.loop
    simp only []
    rw [palManipulate_channel_last target (3 * i + 2), palManipulate_channel_last target (3 * i + 1),
      palManipulate_channel_last target (3 * i)]
    have hstep := ih (i + 1)
    constructor
    · intro k hk1 hk2 c hc0 hc3
      by_cases hki : k = i
      · subst hki
        refine Eq.trans ((hstep _ _).2 (3 * k + c) (Or.inl (by omega))) ?_
        simp only [poke]
        have hc : c = 0 ∨ c = 1 ∨ c = 2 := by omega
        rcases hc with rfl | rfl | rfl
        · rw [if_neg (by omega), if_neg (by omega), if_pos (by omega)]
          simp
        · rw [if_neg (by omega), if_pos (by omega)]
        · rw [if_pos (by omega)]
      · exact (hstep _ _).1 k (by omega) (by push_cast at hk2 ⊢; omega) c hc0 hc3
    · intro a ha
      refine Eq.trans ((hstep _ _).2 a (by push_cast at ha ⊢; omega)) ?_
      simp only [poke]
      rw [if_neg (by push_cast at ha; omega), if_neg (by push_cast at ha; omega),
        if_neg (by push_cast at ha; omega)]

/-- The loop of `palManipulateInit` copies the three strings into the target palette. -/
theorem palManipulateInit_loop_target (s1 s2 s3 pal : Mem) (n : Nat) (i : Int)
    (target between : Mem) :
    (∀ k : Int, i ≤ k → k < i + (n : Int) →
      (palManipulateInit.loop s1 s2 s3 pal n i target between).1 (3 * k) = s1 k % 256 ∧
      (palManipulateInit.loop s1 s2 s3 pal n i target between).1 (3 * k + 1) = s2 k % 256 ∧
      (palManipulateInit.loop s1 s2 s3 pal n i target between).1 (3 * k + 2) = s3 k % 256) ∧
    (∀ a : Int, (a < 3 * i ∨ 3 * (i + (n : Int)) ≤ a) →
      (palManipulateInit.loop s1 s2 s3 pal n i target between).1 a = target a) := by
  induction n generalizing i target between with
  | zero =>
    exact ⟨fun k h1 h2 => by omega, fun a _ => rfl⟩
  | succ n ih =>
    unfold palManipulateInit.loop
    simp only []
    have hstep := ih (i + 1)
    constructor
    · intro k hk1 hk2
      by_cases hki : k = i
      · subst hki
        refine ⟨?_, ?_, ?_⟩
        · refine Eq.trans ((hstep _ _).2 _ (Or.inl ?_)) ?_
          · omega
          · simp only [poke]
            rw [if_neg (by omega), if_neg (by omega), if_pos trivial]
        · refine Eq.trans ((hstep _ _).2 _ (Or.inl ?_)) ?_
          · omega
          · simp only [poke]
            rw [if_neg (by omega), if_pos trivial]
        · refine Eq.trans ((hstep _ _).2 _ (Or.inl ?_)) ?_
          · omega
          · simp only [poke]
            rw [if_pos trivial]
      · exact (hstep _ _).1 k (by omega) (by push_cast at hk2 ⊢; omega)
    · intro a ha
      refine Eq.trans ((hstep _ _).2 a (by push_cast at ha ⊢; omega)) ?_
      simp only [poke]
      rw [if_neg (by push_cast at ha; omega), if_neg (by push_cast at ha; omega),
        if_neg (by push_cast at ha; omega)]

theorem emod_of_rep (M : Nat) (v : Int) (h0 : 0 ≤ v) (hrep : M = 0 ∨ v < (M : Int)) :
    v % (M : Int) = v := by
  rcases hrep with h | h
  · subst h
    exact Int.emod_zero v
  · exact Int.emod_eq_of_lt h0 h

/-- A call of `palManipulate` with the fade in progress. -/
theorem palManipulate_step (M : Nat) (s : PalManip) (hc : 1 ≤ s.palManipCounter)
    (hrep : M = 0 ∨ s.palManipCounter < (M : Int)) (ha : s.palManipPaletteAddr ≠ 0)
    (hb : s.palManipIntermediatePalAddr ≠ 0) :
    (palManipulate M s).palManipCounter = s.palManipCounter - 1 ∧
    (palManipulate M s).palManipStart = s.palManipStart ∧
    (palManipulate M s).palManipEnd = s.palManipEnd ∧
    (palManipulate M s).palManipPaletteAddr = s.palManipPaletteAddr ∧
    (palManipulate M s).palManipIntermediatePalAddr = s.palManipIntermediatePalAddr ∧
    (palManipulate M s).palManipPalette = s.palManipPalette ∧
    (palManipulate M s).currentPalette
      = (palManipulate.loop s.palManipCounter s.palManipPalette
          (s.palManipEnd - s.palManipStart).toNat s.palManipStart s.currentPalette
          s.palManipIntermediatePal).1 := by
  have hne : ¬ (s.palManipCounter = 0 ∨ s.palManipPaletteAddr = 0 ∨
      s.palManipIntermediatePalAddr = 0) := by
    rintro (h | h | h)
    · omega
    · exact ha h
    · exact hb h
  unfold palManipulate
  rw [if_neg hne]
  simp only []
  refine ⟨?_, trivial, trivial, ?_, trivial, ?_, ?_⟩
  · rw [(setDirtyColors_manip _ _ _).2.2.1]
    simp only []
    exact emod_of_rep M _ (by omega) (by omega)
  · rw [(setDirtyColors_manip _ _ _).2.1]
  · rw [(setDirtyColors_manip _ _ _).1]
  · rw [(setDirtyColors_fields _ _ _).1]

/-- A call of `palManipulate` when no fade is in progress changes nothing. -/
theorem palManipulate_idle (M : Nat) (s : PalManip) (h0 : s.palManipCounter = 0) :
    palManipulate M s = s := by
  unfold palManipulate
  rw [if_pos (Or.inl h0)]

theorem palManipulateCalls_succ (M : Nat) (k : Nat) (s : PalManip) :
    palManipulateCalls M (k + 1) s = palManipulate M (palManipulateCalls M k s) := by
  induction k generalizing s with
  | zero => rfl
  | succ n ih =>
    show palManipulateCalls M (n + 1) (palManipulate M s) = _
    rw [ih (palManipulate M s)]
    rfl

/-- While the fade is in progress every call lowers the counter by one and leaves the fade's
range, buffers' addresses and target palette as they are. -/
theorem palManipulateCalls_counter (M : Nat) (s : PalManip)
    (hrep : M = 0 ∨ s.palManipCounter < (M : Int)) (ha : s.palManipPaletteAddr ≠ 0)
    (hb : s.palManipIntermediatePalAddr ≠ 0) (k : Nat) (hk : (k : Int) ≤ s.palManipCounter) :
    (palManipulateCalls M k s).palManipCounter = s.palManipCounter - (k : Int) ∧
    (palManipulateCalls M k s).palManipStart = s.palManipStart ∧
    (palManipulateCalls M k s).palManipEnd = s.palManipEnd ∧
    (palManipulateCalls M k s).palManipPaletteAddr = s.palManipPaletteAddr ∧
    (palManipulateCalls M k s).palManipIntermediatePalAddr = s.palManipIntermediatePalAddr ∧
    (palManipulateCalls M k s).palManipPalette = s.palManipPalette := by
  induction k with
  | zero =>
    exact ⟨by simp [palManipulateCalls], rfl, rfl, rfl, rfl, rfl⟩
  | succ n ih =>
    obtain ⟨i1, i2, i3, i4, i5, i6⟩ := ih (by push_cast at hk; omega)
    rw [palManipulateCalls_succ]
    obtain ⟨p1, p2, p3, p4, p5, p6, _⟩ := palManipulate_step M (palManipulateCalls M n s)
      (by rw [i1]; push_cast at hk; omega)
      (by rw [i1]; rcases hrep with h | h
          · exact Or.inl h
          · exact Or.inr (by omega))
      (by rw [i4]; exact ha) (by rw [i5]; exact hb)
    refine ⟨?_, ?_, ?_, ?_, ?_, ?_⟩
    · rw [p1, i1]
      push_cast
      ring
    · rw [p2, i2]
    · rw [p3, i3]
    · rw [p4, i4]
    · rw [p5, i5]
    · rw [p6, i6]

theorem palManipulateCalls_idle (M : Nat) (s : PalManip) (h0 : s.palManipCounter = 0) (k : Nat) :
    palManipulateCalls M k s = s := by
  induction k with
  | zero => rfl
  | succ n ih => rw [palManipulateCalls_succ, ih, palManipulate_idle M s h0]

theorem palManipulateCalls_add (M : Nat) (a b : Nat) (s : PalManip) :
    palManipulateCalls M (a + b) s = palManipulateCalls M b (palManipulateCalls M a s) := by
  induction b with
  | zero => rfl
  | succ n ih =>
    rw [← Nat.add_assoc, palManipulateCalls_succ, ih, palManipulateCalls_succ]

/-- What a successful `palManipulateInit` leaves behind. -/
theorem palManipulateInit_spec (M : Nat) (calloc1 calloc2 : Int) (s s0 : PalManip)
    (start end_ : Int) (s1 s2 s3 : Mem) (time : Int) (ht : 0 ≤ time)
    (hrep : M = 0 ∨ time < (M : Int))
    (hinit : palManipulateInit M calloc1 calloc2 s start end_ (some s1) (some s2) (some s3) time
      = some s0) :
    s0.palManipCounter = time ∧ s0.palManipStart = start ∧ s0.palManipEnd = end_ ∧
    ∀ i : Int, start ≤ i → i < end_ →
      s0.palManipPalette (3 * i) = s1 i % 256 ∧ s0.palManipPalette (3 * i + 1) = s2 i % 256 ∧
        s0.palManipPalette (3 * i + 2) = s3 i % 256 := by
  unfold palManipulateInit at hinit
  simp only [] at hinit
  by_cases hg : end_ > start ∧
      ((if s.palManipPaletteAddr = 0 then calloc1 else s.palManipPaletteAddr) = 0 ∨
        (if s.palManipIntermediatePalAddr = 0 then calloc2 else s.palManipIntermediatePalAddr)
          = 0)
  · rw [if_pos hg] at hinit
    exact absurd hinit (by simp)
  · rw [if_neg hg] at hinit
    injection hinit with hinit
    rw [← hinit]
    simp only []
    refine ⟨emod_of_rep M time ht hrep, trivial, trivial, ?_⟩
    intro i hi1 hi2
    exact (palManipulateInit_loop_target s1 s2 s3 s.currentPalette _ start _ _).1 i hi1 (by omega)

/-- C21: after `palManipulateInit(start, end, id, time)` with `time ≥ 1` (the three strings
found, the two work buffers allocated), each `palManipulate` call lowers the remaining-tick
counter by exactly 1; after exactly `time` calls the counter is 0 and every channel of every
palette entry `i` with `start ≤ i < end` equals the corresponding channel of the target
palette (the byte of the string it was filled from); further calls change nothing. -/
theorem palManipulate_reaches_target (M : Nat) (calloc1 calloc2 : Int) (s s0 : PalManip)
    (start end_ : Int) (s1 s2 s3 : Mem) (time : Int) (ht : 1 ≤ time)
    (hrep : M = 0 ∨ time < (M : Int))
    (hinit : palManipulateInit M calloc1 calloc2 s start end_ (some s1) (some s2) (some s3) time
      = some s0)
    (ha : s0.palManipPaletteAddr ≠ 0) (hb : s0.palManipIntermediatePalAddr ≠ 0) :
    (∀ k : Nat, (k : Int) < time →
      (palManipulateCalls M (k + 1) s0).palManipCounter
        = (palManipulateCalls M k s0).palManipCounter - 1) ∧
    (∀ k : Nat, (k : Int) ≤ time →
      (palManipulateCalls M k s0).palManipCounter = time - (k : Int)) ∧
    (palManipulateCalls M time.toNat s0).palManipCounter = 0 ∧
    (∀ i : Int, start ≤ i → i < end_ → ∀ c : Int, 0 ≤ c → c < 3 →
      (palManipulateCalls M time.toNat s0).currentPalette (3 * i + c)
        = (palManipulateCalls M time.toNat s0).palManipPalette (3 * i + c)) ∧
    (∀ i : Int, start ≤ i → i < end_ →
      (palManipulateCalls M time.toNat s0).currentPalette (3 * i) = s1 i % 256 ∧
      (palManipulateCalls M time.toNat s0).currentPalette (3 * i + 1) = s2 i % 256 ∧
      (palManipulateCalls M time.toNat s0).currentPalette (3 * i + 2) = s3 i % 256) ∧
    (∀ k : Nat, palManipulateCalls M (time.toNat + k) s0
      = palManipulateCalls M time.toNat s0) := by
  obtain ⟨e1, e2, e3, e4⟩ := palManipulateInit_spec M calloc1 calloc2 s s0 start end_ s1 s2 s3
    time (by omega) hrep hinit
  have hrep0 : M = 0 ∨ s0.palManipCounter < (M : Int) := by
    rw [e1]
    exact hrep
  have hcnt : ∀ k : Nat, (k : Int) ≤ time →
      (palManipulateCalls M k s0).palManipCounter = time - (k : Int) := by
    intro k hk
    rw [(palManipulateCalls_counter M s0 hrep0 ha hb k (by rw [e1]; exact hk)).1, e1]
  obtain ⟨m, hm⟩ : ∃ m : Nat, time.toNat = m + 1 := ⟨time.toNat - 1, by omega⟩
  obtain ⟨c1, c2, c3, c4, c5, c6⟩ := palManipulateCalls_counter M s0 hrep0 ha hb m
    (by rw [e1]; omega)
  have hone : (palManipulateCalls M m s0).palManipCounter = 1 := by
    rw [c1, e1]
    omega
  obtain ⟨p1, _, _, _, _, p6, p7⟩ := palManipulate_step M (palManipulateCalls M m s0)
    (by omega) (by rw [hone]; rcases hrep with h | h
                   · exact Or.inl h
                   · exact Or.inr (by omega))
    (by rw [c4]; exact ha) (by rw [c5]; exact hb)
  have hpal : ∀ i : Int, start ≤ i → i < end_ → ∀ c : Int, 0 ≤ c → c < 3 →
      (palManipulateCalls M time.toNat s0).currentPalette (3 * i + c)
        = s0.palManipPalette (3 * i + c) % 256 := by
    intro i hi1 hi2 c hc0 hc3
    rw [hm, palManipulateCalls_succ, p7, hone, c2, c3, c6, e2, e3]
    exact (palManipulate_loop_last s0.palManipPalette _ start _ _).1 i hi1 (by omega) c hc0 hc3
  have htarget : (palManipulateCalls M time.toNat s0).palManipPalette = s0.palManipPalette := by
    rw [hm, palManipulateCalls_succ, p6, c6]
  have hzero : (palManipulateCalls M time.toNat s0).palManipCounter = 0 := by
    rw [hcnt time.toNat (by omega)]
    omega
  refine ⟨?_, hcnt, hzero, ?_, ?_, ?_⟩
  · intro k hk
    rw [hcnt (k + 1) (by push_cast; omega), hcnt k (by omega)]
    push_cast
    ring
  · intro i hi1 hi2 c hc0 hc3
    rw [hpal i hi1 hi2 c hc0 hc3, htarget]
    obtain ⟨t0, t1, t2⟩ := e4 i hi1 hi2
    have hc : c = 0 ∨ c = 1 ∨ c = 2 := by omega
    rcases hc with rfl | rfl | rfl
    · rw [add_zero, t0, Nat.mod_mod]
    · rw [t1, Nat.mod_mod]
    · rw [t2, Nat.mod_mod]
  · intro i hi1 hi2
    obtain ⟨t0, t1, t2⟩ := e4 i hi1 hi2
    have h0 := hpal i hi1 hi2 0 (by omega) (by omega)
    rw [add_zero] at h0
    rw [h0, hpal i hi1 hi2 1 (by omega) (by omega), hpal i hi1 hi2 2 (by omega) (by omega), t0,
      t1, t2, Nat.mod_mod, Nat.mod_mod, Nat.mod_mod]
    exact ⟨rfl, rfl, rfl⟩
  · intro k
    rw [palManipulateCalls_add]
    exact palManipulateCalls_idle M _ hzero k

/-! ## The camera -/

theorem clampCameraPos_x (s : CamState) (pt : ScummPoint) (h1 : s.varCameraMinX ≤ pt.x)
    (h2 : pt.x ≤ s.varCameraMaxX) : (clampCameraPos s pt).x = pt.x := by
  unfold clampCameraPos
  simp only []
  rw [if_neg (by omega), if_neg (by omega)]

theorem clampCameraPos_y (s : CamState) (pt : ScummPoint) (h1 : s.varCameraMinY ≤ pt.y)
    (h2 : pt.y ≤ s.varCameraMaxY) : (clampCameraPos s pt).y = pt.y := by
  unfold clampCameraPos
  simp only []
  rw [if_neg (by omega), if_neg (by omega)]

/-- The V7 step moves towards the destination, never past it, and lands on it when it is
within one step. -/
theorem moveCamera_step_spec (cur dest speed : Int) (hs : 0 ≤ speed) :
    min cur dest ≤ moveCamera.step cur dest speed ∧
    moveCamera.step cur dest speed ≤ max cur dest ∧
    ((dest - cur ≤ speed ∧ cur - dest ≤ speed) → moveCamera.step cur dest speed = dest) ∧
    (cur + speed ≤ dest → moveCamera.step cur dest speed = cur + speed) ∧
    (cur = dest → moveCamera.step cur dest speed = dest) := by
  unfold moveCamera.step
  simp only []
  split_ifs <;> omega

/-- What `cameraMoved` leaves as it was, and what it computes. -/
theorem cameraMoved_spec (s s1 : CamState) (e : cameraMoved s = some s1) :
    CamStatic s s1 ∧ s1.camera.cur.y = s.camera.cur.y ∧ s1.camera.dest = s.camera.dest ∧
    s1.camera.accel = s.camera.accel ∧ s1.camera.mode = s.camera.mode ∧
    s1.camera.follows = s.camera.follows ∧
    s1.camera.movingToActor = s.camera.movingToActor ∧
    s1.varCameraSpeedX = s.varCameraSpeedX ∧ s1.varCameraSpeedY = s.varCameraSpeedY ∧
    s1.scriptsRun = s.scriptsRun ∧
    s1.camera.cur.x
      = (if s.featAfterV7 then s.camera.cur.x
          else if s.camera.cur.x < Int.tdiv s.screenWidth 2 then Int.tdiv s.screenWidth 2
          else if s.camera.cur.x > s.roomWidth - Int.tdiv s.screenWidth 2
            then s.roomWidth - Int.tdiv s.screenWidth 2
          else s.camera.cur.x) ∧
    s1.screenStartStrip = sar (s1.camera.cur.x - Int.tdiv s.screenWidth 2) 3 ∧
    (s.featAfterV7 = true → Int.tdiv s.screenWidth 2 ≤ s.camera.cur.x ∧
      Int.tdiv s.screenHeight 2 ≤ s.camera.cur.y) := by
  unfold cameraMoved at e
  simp only [] at e
  by_cases hg : s.featAfterV7 = true ∧ ¬ (s.camera.cur.x ≥ Int.tdiv s.screenWidth 2 ∧
      s.camera.cur.y ≥ Int.tdiv s.screenHeight 2)
  · rw [if_pos hg] at e
    exact absurd e (by simp)
  · rw [if_neg hg] at e
    injection e with e
    rw [← e]
    simp only [CamStatic]
    refine ⟨⟨trivial, trivial, trivial, trivial, trivial, trivial, trivial, trivial, trivial,
      trivial, trivial, trivial, trivial, trivial⟩, trivial, trivial, trivial, trivial, trivial,
      trivial, trivial, trivial, trivial, trivial, trivial, ?_⟩
    intro hv
    by_cases hc : s.camera.cur.x ≥ Int.tdiv s.screenWidth 2 ∧
      s.camera.cur.y ≥ Int.tdiv s.screenHeight 2
    · exact hc
    · exact absurd ⟨hv, hc⟩ hg

theorem cameraMoved_returns (s : CamState)
    (h : s.featAfterV7 = true → (s.camera.cur.x ≥ Int.tdiv s.screenWidth 2 ∧
      s.camera.cur.y ≥ Int.tdiv s.screenHeight 2)) :
    ∃ s1, cameraMoved s = some s1 := by
  unfold cameraMoved
  simp only []
  rw [if_neg (fun hg => hg.2 (h hg.1))]
  exact ⟨_, rfl⟩

theorem cameraMoved_ne_none (s : CamState)
    (h : s.featAfterV7 = true → (s.camera.cur.x ≥ Int.tdiv s.screenWidth 2 ∧
      s.camera.cur.y ≥ Int.tdiv s.screenHeight 2)) :
    cameraMoved s ≠ none := by
  obtain ⟨s1, e⟩ := cameraMoved_returns s h
  rw [e]
  simp

theorem CamStatic_refl (s : CamState) : CamStatic s s :=
  ⟨rfl, rfl, rfl, rfl, rfl, rfl, rfl, rfl, rfl, rfl, rfl, rfl, rfl, rfl⟩

theorem CamStatic_trans (a b c : CamState) (h1 : CamStatic a b) (h2 : CamStatic b c) :
    CamStatic a c := by
  unfold CamStatic at *
  obtain ⟨a1, a2, a3, a4, a5, a6, a7, a8, a9, a10, a11, a12, a13, a14⟩ := h1
  obtain ⟨b1, b2, b3, b4, b5, b6, b7, b8, b9, b10, b11, b12, b13, b14⟩ := h2
  exact ⟨by rw [b1, a1], by rw [b2, a2], by rw [b3, a3], by rw [b4, a4], by rw [b5, a5],
    by rw [b6, a6], by rw [b7, a7], by rw [b8, a8], by rw [b9, a9], by rw [b10, a10],
    by rw [b11, a11], by rw [b12, a12], by rw [b13, a13], by rw [b14, a14]⟩

/-- One V7 tick with no actor followed: what the state is afterwards if the tick returns. -/
theorem moveCamera_v7_pan (actor : Nat → Option ScummPoint) (s s1 : CamState)
    (hv : s.featAfterV7 = true) (hf : s.camera.follows = 0)
    (e : moveCamera actor s = some s1) :
    CamStatic s s1 ∧ s1.camera.follows = 0 ∧
    s1.camera.dest = clampCameraPos s s.camera.dest ∧
    s1.camera.cur.x
      = moveCamera.step s.camera.cur.x (clampCameraPos s s.camera.dest).x s.varCameraSpeedX ∧
    s1.camera.cur.y
      = moveCamera.step s.camera.cur.y (clampCameraPos s s.camera.dest).y s.varCameraSpeedY ∧
    (s1.camera.cur ≠ s1.camera.dest →
      s1.camera.accel.x = s.camera.accel.x + s.varCameraAccelX ∧
      s1.varCameraSpeedX
        = (if s.varCameraSpeedX + Int.tdiv (s.camera.accel.x + s.varCameraAccelX) 100 < 8 then 8
           else s.varCameraSpeedX + Int.tdiv (s.camera.accel.x + s.varCameraAccelX) 100)) ∧
    Int.tdiv s.screenWidth 2 ≤ s.camera.cur.x ∧ Int.tdiv s.screenWidth 2 ≤ s1.camera.cur.x ∧
    0 ≤ s1.varCameraSpeedX ∧ 0 ≤ s1.varCameraSpeedY ∧
    s1.screenHeight = s.screenHeight := by
  unfold moveCamera at e
  rw [if_pos hv] at e
  unfold moveCamera.v7 at e
  simp only [hf, ne_eq, not_true_eq_false, false_and, if_false, Bool.false_eq_true] at e
  by_cases ha : s.camera.cur.x ≥ Int.tdiv s.screenWidth 2 ∧
      s.camera.cur.y ≥ Int.tdiv s.screenHeight 2
  · rw [if_neg (not_not.mpr ha)] at e
    split at e
    · exact absurd e (by simp)
    · rename_i s2 hm
      have hq := cameraMoved_spec _ _ hm
      simp only [CamStatic, hv, if_true, true_implies] at hq
      obtain ⟨hst, hy, hd, hac, -, hfo, -, hsx, hsy, -, hx, -, hr, -⟩ := hq
      have key : CamStatic s s2 ∧ s2.camera.follows = 0 ∧
          s2.camera.dest = clampCameraPos s s.camera.dest ∧
          s2.camera.cur.x
            = moveCamera.step s.camera.cur.x (clampCameraPos s s.camera.dest).x
                s.varCameraSpeedX ∧
          s2.camera.cur.y
            = moveCamera.step s.camera.cur.y (clampCameraPos s s.camera.dest).y
                s.varCameraSpeedY ∧
          (s2.camera.cur ≠ s2.camera.dest →
            s2.camera.accel.x = s.camera.accel.x + s.varCameraAccelX ∧
            s2.varCameraSpeedX
              = (if s.varCameraSpeedX + Int.tdiv (s.camera.accel.x + s.varCameraAccelX) 100 < 8
                  then 8
                 else s.varCameraSpeedX
                   + Int.tdiv (s.camera.accel.x + s.varCameraAccelX) 100)) ∧
          Int.tdiv s.screenWidth 2 ≤ s.camera.cur.x ∧
          Int.tdiv s.screenWidth 2 ≤ s2.camera.cur.x ∧
          0 ≤ s2.varCameraSpeedX ∧ 0 ≤ s2.varCameraSpeedY ∧
          s2.screenHeight = s.screenHeight := by
        have hst2 : CamStatic s s2 := by
          unfold CamStatic
          rw [hv]
          exact hst
        refine ⟨hst2, hfo, hd, hx, hy, ?_, ha.1, by rw [hx]; exact hr, ?_, ?_, hst.2.2.1⟩
        rotate_left
        · rw [hsx]
          split_ifs <;> omega
        · rw [hsy]
          split_ifs <;> omega
        intro hne
        have hna : ¬ (moveCamera.step s.camera.cur.x (clampCameraPos s s.camera.dest).x
            s.varCameraSpeedX = (clampCameraPos s s.camera.dest).x ∧
            moveCamera.step s.camera.cur.y (clampCameraPos s s.camera.dest).y
            s.varCameraSpeedY = (clampCameraPos s s.camera.dest).y) := by
          intro hh
          apply hne
          rw [hd]
          have e1 : s2.camera.cur = ⟨s2.camera.cur.x, s2.camera.cur.y⟩ := rfl
          have e2 : clampCameraPos s s.camera.dest
              = ⟨(clampCameraPos s s.camera.dest).x, (clampCameraPos s s.camera.dest).y⟩ := rfl
          rw [e1, e2, hx, hy, hh.1, hh.2]
        rw [hac, hsx]
        simp only [decide_eq_true_eq]
        rw [if_neg hna, if_neg hna]
        exact ⟨rfl, rfl⟩
      split at e
      · split at e
        · injection e with e
          rw [← e]
          exact key
        · injection e with e
          rw [← e]
          exact key
      · injection e with e
        rw [← e]
        exact key
  · rw [if_pos ha] at e
    exact absurd e (by simp)

/-- One V7 tick with no actor followed returns when both assertions hold. -/
theorem moveCamera_v7_returns (actor : Nat → Option ScummPoint) (s : CamState)
    (hv : s.featAfterV7 = true) (hf : s.camera.follows = 0)
    (h1 : Int.tdiv s.screenWidth 2 ≤ s.camera.cur.x)
    (h2 : Int.tdiv s.screenHeight 2 ≤ s.camera.cur.y)
    (h3 : Int.tdiv s.screenWidth 2
      ≤ moveCamera.step s.camera.cur.x (clampCameraPos s s.camera.dest).x s.varCameraSpeedX)
    (h4 : Int.tdiv s.screenHeight 2
      ≤ moveCamera.step s.camera.cur.y (clampCameraPos s s.camera.dest).y s.varCameraSpeedY) :
    ∃ s1, moveCamera actor s = some s1 := by
  unfold moveCamera
  rw [if_pos hv]
  unfold moveCamera.v7
  simp only [hf, ne_eq, not_true_eq_false, false_and, if_false, Bool.false_eq_true]
  rw [if_neg (not_not.mpr ⟨h1, h2⟩)]
  split
  · rename_i hm
    exact absurd hm (cameraMoved_ne_none _ (fun _ => ⟨h3, h4⟩))
  · split
    · split
      · exact ⟨_, rfl⟩
      · exact ⟨_, rfl⟩
    · exact ⟨_, rfl⟩

theorem clampCameraPos_idem (s : CamState) (pt : ScummPoint) :
    clampCameraPos s (clampCameraPos s pt) = clampCameraPos s pt := by
  unfold clampCameraPos
  simp only []
  congr 1 <;> split_ifs <;> omega

/-- One tick of the pan from 100 to 200. -/
theorem PanInv_step (actor : Nat → Option ScummPoint) (j : Nat) (s s1 : CamState)
    (h : PanInv j s) (e : moveCamera actor s = some s1) : PanInv (j + 1) s1 := by
  obtain ⟨hv, hf, hav, hmin, hmax, hw, hd, hc⟩ := h
  obtain ⟨hst, hf1, hd1, hx, -, hne, -, -, -, -, -⟩ := moveCamera_v7_pan actor s s1 hv hf e
  have hcl : (clampCameraPos s s.camera.dest).x = 200 := by
    rw [clampCameraPos_x s _ (by omega) (by omega)]
    exact hd
  rw [hcl] at hx
  obtain ⟨a1, a2, -, -, -, -, a7, a8, -, -, a11, -, -, -⟩ := hst
  refine ⟨by rw [a1, hv], hf1, by rw [a11, hav], by rw [a7]; exact hmin,
    by rw [a8]; exact hmax, by rw [a2]; exact hw, by rw [hd1, hcl], ?_⟩
  rcases hc with ⟨hj, hcx, hs, ha⟩ | ⟨hj, hcx⟩
  · rw [hcx, hs] at hx
    by_cases hj12 : j = 12
    · right
      refine ⟨by omega, ?_⟩
      rw [hx]
      unfold moveCamera.step
      simp only []
      split_ifs <;> omega
    · left
      have hx2 : s1.camera.cur.x = 100 + 8 * ((j + 1 : Nat) : Int) := by
        rw [hx]
        unfold moveCamera.step
        simp only []
        push_cast
        split_ifs <;> omega
      have hnd : s1.camera.cur ≠ s1.camera.dest := by
        intro hh
        have : s1.camera.cur.x = s1.camera.dest.x := by rw [hh]
        rw [hd1, hcl, hx2] at this
        push_cast at this
        omega
      obtain ⟨b1, b2⟩ := hne hnd
      rw [ha, hav, hs] at b2
      rw [ha, hav] at b1
      refine ⟨by omega, hx2, ?_, b1⟩
      rw [b2]
      decide
  · right
    refine ⟨by omega, ?_⟩
    rw [hx, hcx]
    unfold moveCamera.step
    simp only []
    split_ifs <;> omega

theorem PanInv_ticks (actor : Nat → Option ScummPoint) (k : Nat) :
    ∀ (j : Nat) (s sk : CamState), PanInv j s → moveCameraTicks actor k s = some sk →
      PanInv (j + k) sk := by
  induction k with
  | zero =>
    intro j s sk h e
    unfold moveCameraTicks at e
    injection e with e
    rw [← e]
    exact h
  | succ k ih =>
    intro j s sk h e
    unfold moveCameraTicks at e
    split at e
    · exact absurd e (by simp)
    · rename_i s1 hm
      have := ih (j + 1) s1 sk (PanInv_step actor j s s1 h hm) e
      have e2 : j + (k + 1) = j + 1 + k := by omega
      rw [e2]
      exact this

/-- One tick keeps the vertical assertions. -/
theorem PanSafeY_step (actor : Nat → Option ScummPoint) (s s1 : CamState)
    (hv : s.featAfterV7 = true) (hf : s.camera.follows = 0)
    (h : PanSafeY s) (e : moveCamera actor s = some s1) : PanSafeY s1 := by
  obtain ⟨h1, h2, h3⟩ := h
  obtain ⟨hst, -, hd1, -, hy, -, -, -, -, hsy, hh⟩ := moveCamera_v7_pan actor s s1 hv hf e
  obtain ⟨q1, -, -, -, -⟩ := moveCamera_step_spec s.camera.cur.y
    (clampCameraPos s s.camera.dest).y s.varCameraSpeedY h1
  have hcl : clampCameraPos s1 s1.camera.dest = clampCameraPos s s.camera.dest := by
    obtain ⟨-, -, -, -, -, -, a7, a8, a9, a10, -, -, -, -⟩ := hst
    rw [hd1]
    have : clampCameraPos s1 (clampCameraPos s s.camera.dest)
        = clampCameraPos s (clampCameraPos s s.camera.dest) := by
      unfold clampCameraPos
      simp only [a7, a8, a9, a10]
    rw [this, clampCameraPos_idem]
  refine ⟨hsy, ?_, ?_⟩
  · rw [hh, hy]
    omega
  · rw [hh, hcl]
    exact h3

theorem moveCameraTicks_returns (actor : Nat → Option ScummPoint) (k : Nat) :
    ∀ (j : Nat) (s : CamState), PanInv j s → PanSafeY s →
      ∃ sk, moveCameraTicks actor k s = some sk := by
  induction k with
  | zero =>
    intro j s _ _
    exact ⟨s, rfl⟩
  | succ k ih =>
    intro j s h hy
    have hv := h.1
    have hf := h.2.1
    have hinv := h
    obtain ⟨h1, h2, h3⟩ := hy
    obtain ⟨-, -, -, hmin, hmax, hw, hd, hc⟩ := h
    have hcl : (clampCameraPos s s.camera.dest).x = 200 := by
      rw [clampCameraPos_x s _ (by omega) (by omega)]
      exact hd
    have hsx : Int.tdiv s.screenWidth 2 ≤ s.camera.cur.x ∧ Int.tdiv s.screenWidth 2
        ≤ moveCamera.step s.camera.cur.x (clampCameraPos s s.camera.dest).x
            s.varCameraSpeedX := by
      rw [hcl]
      rcases hc with ⟨hj, hcx, hs, -⟩ | ⟨hj, hcx⟩
      · rw [hcx, hs]
        unfold moveCamera.step
        simp only []
        split_ifs <;> omega
      · rw [hcx]
        unfold moveCamera.step
        simp only []
        split_ifs <;> omega
    obtain ⟨q1, -, -, -, -⟩ := moveCamera_step_spec s.camera.cur.y
      (clampCameraPos s s.camera.dest).y s.varCameraSpeedY h1
    obtain ⟨s1, e⟩ := moveCamera_v7_returns actor s hv hf hsx.1 h2 hsx.2 (by omega)
    obtain ⟨sk, ek⟩ := ih (j + 1) s1
      (PanInv_step actor j s s1 hinv e)
      (PanSafeY_step actor s s1 hv hf ⟨h1, h2, h3⟩ e)
    refine ⟨sk, ?_⟩
    unfold moveCameraTicks
    rw [e]
    exact ek

/-- C26: on the V7 path with no actor followed, speed 8, no acceleration, camera bounds
containing `[100, 200]` and `screenWidth / 2 ≤ 100`, the camera starting at `x = 100` with
destination `x = 200` is at `100 + 8k` after `k ≤ 12` ticks, at `200` after 13 ticks and
from then on, and never beyond `200`; the ticks return whenever the vertical assertions
hold at the start (non-negative vertical speed, `cur.y` and the clamped `dest.y` at least
`screenHeight / 2`). -/
theorem moveCamera_pan_scenario (actor : Nat → Option ScummPoint) (s : CamState)
    (hv : s.featAfterV7 = true) (hf : s.camera.follows = 0)
    (hsp : s.varCameraSpeedX = 8) (hac : s.camera.accel.x = 0) (hav : s.varCameraAccelX = 0)
    (hmin : s.varCameraMinX ≤ 100) (hmax : 200 ≤ s.varCameraMaxX)
    (hw : Int.tdiv s.screenWidth 2 ≤ 100)
    (hc : s.camera.cur.x = 100) (hd : s.camera.dest.x = 200) :
    (∀ k sk, moveCameraTicks actor k s = some sk →
      (k ≤ 12 → sk.camera.cur.x = 100 + 8 * (k : Int)) ∧
      (13 ≤ k → sk.camera.cur.x = 200) ∧ sk.camera.cur.x ≤ 200) ∧
    (0 ≤ s.varCameraSpeedY → Int.tdiv s.screenHeight 2 ≤ s.camera.cur.y →
      Int.tdiv s.screenHeight 2 ≤ (clampCameraPos s s.camera.dest).y →
      ∀ k, ∃ sk, moveCameraTicks actor k s = some sk) := by
  have h0 : PanInv 0 s :=
    ⟨hv, hf, hav, hmin, hmax, hw, hd, Or.inl ⟨by omega, by rw [hc]; rfl, hsp, hac⟩⟩
  constructor
  · intro k sk e
    have h := PanInv_ticks actor k 0 s sk h0 e
    rw [Nat.zero_add] at h
    obtain ⟨-, -, -, -, -, -, -, hk⟩ := h
    rcases hk with ⟨hj, hcx, -, -⟩ | ⟨hj, hcx⟩
    · exact ⟨fun _ => hcx, fun h13 => absurd h13 (by omega), by omega⟩
    · exact ⟨fun h12 => absurd h12 (by omega), fun _ => hcx, by omega⟩
  · intro h1 h2 h3 k
    exact moveCameraTicks_returns actor k 0 s h0 ⟨h1, h2, h3⟩

theorem and0xFFF8_spec (x : Int) (h0 : 0 ≤ x) (h1 : x < 65536) :
    and0xFFF8 x = x - x % 8 := by
  unfold and0xFFF8
  rw [Int.emod_eq_of_lt h0 h1]

/-- One pre-V7 tick that follows no actor: it returns, and where the camera is then. -/
theorem moveCamera_old_pan (actor : Nat → Option ScummPoint) (s : CamState)
    (hv : s.featAfterV7 = false) (hmode : s.camera.mode ≠ CameraMode.CM_FOLLOW_ACTOR)
    (hmov : s.camera.movingToActor = false)
    (hlo : s.varCameraMinX ≤ and0xFFF8 s.camera.cur.x)
    (hhi : and0xFFF8 s.camera.cur.x ≤ s.varCameraMaxX)
    (hdmin : s.varCameraMinX ≤ s.camera.dest.x) (hdmax : s.camera.dest.x ≤ s.varCameraMaxX)
    (hroom1 : Int.tdiv s.screenWidth 2 ≤ s.varCameraMinX)
    (hroom2 : s.varCameraMaxX ≤ s.roomWidth - Int.tdiv s.screenWidth 2) :
    ∃ s1, moveCamera actor s = some s1 ∧ s1.camera.dest.x = s.camera.dest.x ∧
      (s.camera.dest.x % 8 = 0 → s1.camera.cur.x
        = (if cameraFast s = true then s.camera.dest.x
           else if (if and0xFFF8 s.camera.cur.x < s.camera.dest.x
                      then and0xFFF8 s.camera.cur.x + 8 else and0xFFF8 s.camera.cur.x)
                    > s.camera.dest.x
             then (if and0xFFF8 s.camera.cur.x < s.camera.dest.x
                      then and0xFFF8 s.camera.cur.x + 8 else and0xFFF8 s.camera.cur.x) - 8
           else (if and0xFFF8 s.camera.cur.x < s.camera.dest.x
                      then and0xFFF8 s.camera.cur.x + 8 else and0xFFF8 s.camera.cur.x))) := by
  unfold moveCamera
  rw [hv]
  simp only [Bool.false_eq_true, if_false]
  unfold moveCamera.old
  simp only []
  rw [if_neg (by omega), if_neg (by omega)]
  simp only [hmode, hmov, decide_False, Bool.false_eq_true, false_and, if_false]
  have e1 : (if s.camera.dest.x < s.varCameraMinX then s.varCameraMinX else s.camera.dest.x)
      = s.camera.dest.x := if_neg (by omega)
  rw [e1]
  have e2 : (if s.camera.dest.x > s.varCameraMaxX then s.varCameraMaxX else s.camera.dest.x)
      = s.camera.dest.x := if_neg (by omega)
  rw [e2]
  split
  · rename_i hm
    exact absurd hm (cameraMoved_ne_none _ (fun h => absurd h (by simp [hv])))
  · rename_i s2 hm
    have hq := cameraMoved_spec _ _ hm
    simp only [hv, Bool.false_eq_true, if_false] at hq
    obtain ⟨-, -, hd, -, -, -, -, -, -, -, hx, -, -⟩ := hq
    have haa : and0xFFF8 s.camera.cur.x % 8 = 0 := by
      unfold and0xFFF8
      omega
    have hx2 : s.camera.dest.x % 8 = 0 → s2.camera.cur.x
        = (if cameraFast s = true then s.camera.dest.x
           else if (if and0xFFF8 s.camera.cur.x < s.camera.dest.x
                      then and0xFFF8 s.camera.cur.x + 8 else and0xFFF8 s.camera.cur.x)
                    > s.camera.dest.x
             then (if and0xFFF8 s.camera.cur.x < s.camera.dest.x
                      then and0xFFF8 s.camera.cur.x + 8 else and0xFFF8 s.camera.cur.x) - 8
           else (if and0xFFF8 s.camera.cur.x < s.camera.dest.x
                      then and0xFFF8 s.camera.cur.x + 8 else and0xFFF8 s.camera.cur.x)) := by
      intro hal
      rw [hx]
      clear hx hm e1 e2
      generalize hC : (if cameraFast s = true then s.camera.dest.x
           else if (if and0xFFF8 s.camera.cur.x < s.camera.dest.x
                      then and0xFFF8 s.camera.cur.x + 8 else and0xFFF8 s.camera.cur.x)
                    > s.camera.dest.x
             then (if and0xFFF8 s.camera.cur.x < s.camera.dest.x
                      then and0xFFF8 s.camera.cur.x + 8 else and0xFFF8 s.camera.cur.x) - 8
           else (if and0xFFF8 s.camera.cur.x < s.camera.dest.x
                      then and0xFFF8 s.camera.cur.x + 8 else and0xFFF8 s.camera.cur.x)) = C
      have hb : s.varCameraMinX ≤ C ∧ C ≤ s.varCameraMaxX := by
        rw [← hC]
        split_ifs <;> omega
      rw [if_neg (by omega), if_neg (by omega)]
    have hd2 : s2.camera.dest.x = s.camera.dest.x := by rw [hd]
    split
    · exact ⟨_, rfl, hd2, hx2⟩
    · exact ⟨_, rfl, hd2, hx2⟩

/-- C27 as the code has it: one panning tick of `moveCamera` with the current and the destination `x`
within the camera bounds.  On the V7 path (no actor followed, speed `VAR_CAMERA_SPEED_X ≥ 0`)
the tick, whenever it returns, leaves `cur.x` between its previous value and `dest.x` and
puts it on `dest.x` when the distance is at most the speed; it returns when the assertions
hold.  On the pre-V7 path (not following and not moving to an actor, `0 ≤ cur.x < 65536`,
the strip-aligned `cur.x` and the camera bounds inside the room) the tick returns, and when
`dest.x` is a multiple of 8 it leaves `cur.x` between its previous value and `dest.x` and
puts it on `dest.x` when the distance is at most 8.  The destination is not changed. -/
theorem moveCamera_pan_tick (actor : Nat → Option ScummPoint) (s : CamState)
    (hmin : s.varCameraMinX ≤ s.camera.cur.x) (hmax : s.camera.cur.x ≤ s.varCameraMaxX)
    (hdmin : s.varCameraMinX ≤ s.camera.dest.x) (hdmax : s.camera.dest.x ≤ s.varCameraMaxX) :
    (s.featAfterV7 = true → s.camera.follows = 0 → 0 ≤ s.varCameraSpeedX →
      (∀ s1, moveCamera actor s = some s1 →
        s1.camera.dest.x = s.camera.dest.x ∧
        min s.camera.cur.x s.camera.dest.x ≤ s1.camera.cur.x ∧
        s1.camera.cur.x ≤ max s.camera.cur.x s.camera.dest.x ∧
        (s.camera.dest.x - s.camera.cur.x ≤ s.varCameraSpeedX →
          s.camera.cur.x - s.camera.dest.x ≤ s.varCameraSpeedX →
          s1.camera.cur.x = s.camera.dest.x)) ∧
      (Int.tdiv s.screenWidth 2 ≤ s.varCameraMinX → 0 ≤ s.varCameraSpeedY →
        Int.tdiv s.screenHeight 2 ≤ s.camera.cur.y →
        Int.tdiv s.screenHeight 2 ≤ (clampCameraPos s s.camera.dest).y →
        ∃ s1, moveCamera actor s = some s1)) ∧
    (s.featAfterV7 = false → s.camera.mode ≠ CameraMode.CM_FOLLOW_ACTOR →
      s.camera.movingToActor = false → 0 ≤ s.camera.cur.x → s.camera.cur.x < 65536 →
      s.varCameraMinX ≤ and0xFFF8 s.camera.cur.x →
      Int.tdiv s.screenWidth 2 ≤ s.varCameraMinX →
      s.varCameraMaxX ≤ s.roomWidth - Int.tdiv s.screenWidth 2 →
      ∃ s1, moveCamera actor s = some s1 ∧ s1.camera.dest.x = s.camera.dest.x ∧
        (s.camera.dest.x % 8 = 0 →
          min s.camera.cur.x s.camera.dest.x ≤ s1.camera.cur.x ∧
          s1.camera.cur.x ≤ max s.camera.cur.x s.camera.dest.x ∧
          (s.camera.dest.x - s.camera.cur.x ≤ 8 → s.camera.cur.x - s.camera.dest.x ≤ 8 →
            s1.camera.cur.x = s.camera.dest.x))) := by
  constructor
  · intro hv hf hsp
    have hcl : (clampCameraPos s s.camera.dest).x = s.camera.dest.x :=
      clampCameraPos_x s _ hdmin hdmax
    obtain ⟨q1, q2, q3, -, -⟩ :=
      moveCamera_step_spec s.camera.cur.x s.camera.dest.x s.varCameraSpeedX hsp
    constructor
    · intro s1 e
      obtain ⟨-, -, hd1, hx, -, -, -, -, -, -, -⟩ := moveCamera_v7_pan actor s s1 hv hf e
      rw [hcl] at hx
      refine ⟨by rw [hd1, hcl], by rw [hx]; exact q1, by rw [hx]; exact q2, ?_⟩
      intro a b
      rw [hx]
      exact q3 ⟨a, b⟩
    · intro hw hsy hy1 hy2
      obtain ⟨p1, -, -, -, -⟩ := moveCamera_step_spec s.camera.cur.y
        (clampCameraPos s s.camera.dest).y s.varCameraSpeedY hsy
      refine moveCamera_v7_returns actor s hv hf (by omega) hy1 ?_ (by omega)
      rw [hcl]
      omega
  · intro hv hmode hmov h0 h1 hlo hroom1 hroom2
    have ha := and0xFFF8_spec s.camera.cur.x h0 h1
    obtain ⟨s1, e, hd, hx⟩ := moveCamera_old_pan actor s hv hmode hmov hlo (by omega)
      hdmin hdmax hroom1 hroom2
    refine ⟨s1, e, hd, ?_⟩
    intro hal
    rw [hx hal, ha]
    split_ifs <;> omega

theorem clampCameraPos_x_eq (s : CamState) (d y : Int) :
    (clampCameraPos s ⟨d, y⟩).x
      = (if (if d < s.varCameraMinX then s.varCameraMinX else d) > s.varCameraMaxX
          then s.varCameraMaxX else (if d < s.varCameraMinX then s.varCameraMinX else d)) := by
  unfold clampCameraPos
  rfl

/-- One pre-V7 tick in follow mode whose destination, after the retargeting and the clamp
to the camera bounds, is the strip-aligned current position: the camera stays. -/
theorem moveCamera_old_stays (actor : Nat → Option ScummPoint) (s : CamState) (a : ScummPoint)
    (hv : s.featAfterV7 = false) (hmode : s.camera.mode = CameraMode.CM_FOLLOW_ACTOR)
    (ha : actor s.camera.follows = some a)
    (hal : s.camera.cur.x % 8 = 0) (h0 : 0 ≤ s.camera.cur.x) (h1 : s.camera.cur.x < 65536)
    (hlo : s.varCameraMinX ≤ s.camera.cur.x) (hhi : s.camera.cur.x ≤ s.varCameraMaxX)
    (hstrip : s.screenStartStrip = sar (s.camera.cur.x - Int.tdiv s.screenWidth 2) 3)
    (hroom1 : Int.tdiv s.screenWidth 2 ≤ s.camera.cur.x)
    (hroom2 : s.camera.cur.x ≤ s.roomWidth - Int.tdiv s.screenWidth 2)
    (hA : (clampCameraPos s ⟨a.x, 0⟩).x = s.camera.cur.x)
    (hD : s.camera.movingToActor = false →
      (clampCameraPos s ⟨s.camera.dest.x, 0⟩).x = s.camera.cur.x)
    (hF1 : cameraFast s = true → sar a.x 3 - s.screenStartStrip > 35 →
      (clampCameraPos s ⟨a.x + 80, 0⟩).x = s.camera.cur.x)
    (hF2 : cameraFast s = true → sar a.x 3 - s.screenStartStrip < 5 →
      (clampCameraPos s ⟨a.x - 80, 0⟩).x = s.camera.cur.x) :
    ∃ s1, moveCamera actor s = some s1 ∧ s1.camera.cur.x = s.camera.cur.x ∧
      s1.screenStartStrip = s.screenStartStrip := by
  have hc0 : and0xFFF8 s.camera.cur.x = s.camera.cur.x := by
    rw [and0xFFF8_spec _ h0 h1]
    omega
  rw [clampCameraPos_x_eq] at hA hD hF1 hF2
  have hFd : cameraFast s = true → s.camera.movingToActor = false →
      (if (if (if sar a.x 3 - s.screenStartStrip < 5 then a.x - 80
                else if sar a.x 3 - s.screenStartStrip > 35 then a.x + 80
                else s.camera.dest.x) < s.varCameraMinX then s.varCameraMinX
            else (if sar a.x 3 - s.screenStartStrip < 5 then a.x - 80
                else if sar a.x 3 - s.screenStartStrip > 35 then a.x + 80
                else s.camera.dest.x)) > s.varCameraMaxX
        then s.varCameraMaxX
        else (if (if sar a.x 3 - s.screenStartStrip < 5 then a.x - 80
                else if sar a.x 3 - s.screenStartStrip > 35 then a.x + 80
                else s.camera.dest.x) < s.varCameraMinX then s.varCameraMinX
            else (if sar a.x 3 - s.screenStartStrip < 5 then a.x - 80
                else if sar a.x 3 - s.screenStartStrip > 35 then a.x + 80
                else s.camera.dest.x))) = s.camera.cur.x := by
    intro hfa hm
    by_cases c1 : sar a.x 3 - s.screenStartStrip < 5
    · simp only [c1, if_true]
      exact hF2 hfa c1
    · by_cases c2 : sar a.x 3 - s.screenStartStrip > 35
      · simp only [c1, c2, if_true, if_false]
        exact hF1 hfa c2
      · simp only [c1, c2, if_false]
        exact hD hm
  unfold moveCamera
  rw [hv]
  simp only [Bool.false_eq_true, if_false]
  unfold moveCamera.old
  simp only [hc0]
  rw [if_neg (by omega), if_neg (by omega)]
  simp only [hmode, ha, decide_True, true_and, Option.getD_some]
  by_cases htrig : sar a.x 3 - s.screenStartStrip < s.camera.leftTrigger ∨
      sar a.x 3 - s.screenStartStrip > s.camera.rightTrigger <;>
  by_cases hfast : cameraFast s = true <;>
  by_cases hmv : s.camera.movingToActor = true <;>
  simp only [htrig, hfast, hmv, if_true, if_false, ha, Option.getD_some, and_false, and_true,
    false_and, true_and, reduceCtorEq, Bool.false_eq_true]
  all_goals
    first
    | rw [hA]
    | rw [hFd hfast (by simpa using hmv)]
    | rw [hD (by simpa using hmv)]
  all_goals try simp only [gt_iff_lt, lt_self_iff_false, if_false]
  all_goals
    split
    · rename_i hm
      exact absurd hm (cameraMoved_ne_none _ (fun h => absurd h (by simp [hv])))
    · rename_i s2 hm
      have hq := cameraMoved_spec _ _ hm
      simp only [hv, Bool.false_eq_true, if_false] at hq
      obtain ⟨-, -, -, -, -, -, -, -, -, -, hx, hs, -⟩ := hq
      have hx2 : s2.camera.cur.x = s.camera.cur.x := by
        rw [hx, if_neg (by omega), if_neg (by omega)]
      have hs2 : s2.screenStartStrip = s.screenStartStrip := by
        rw [hs, hx2, hstrip]
      split
      · exact ⟨_, rfl, hx2, hs2⟩
      · exact ⟨_, rfl, hx2, hs2⟩

/-- C29 as the code has it: a pre-V7 tick in follow mode, the followed actor existing, with the
camera on a multiple of 8 in `0 ..< 65536`, consistent with `_screenStartStrip` and inside
the room.  At the right edge (`cur.x` the maximum camera x) with the actor at `x ≥ cur.x`
and the stored destination not left of `cur.x` (or the camera already moving to the actor),
the tick returns and leaves `cur.x` and `_screenStartStrip` unchanged; symmetrically at the
left edge.  (In fast mode the half screen width has to be at least 40, at most 280.) -/
theorem moveCamera_edge_stays (actor : Nat → Option ScummPoint) (s : CamState)
    (a : ScummPoint)
    (hv : s.featAfterV7 = false) (hmode : s.camera.mode = CameraMode.CM_FOLLOW_ACTOR)
    (ha : actor s.camera.follows = some a)
    (hal : s.camera.cur.x % 8 = 0) (h0 : 0 ≤ s.camera.cur.x) (h1 : s.camera.cur.x < 65536)
    (hb : s.varCameraMinX ≤ s.varCameraMaxX)
    (hstrip : s.screenStartStrip = sar (s.camera.cur.x - Int.tdiv s.screenWidth 2) 3)
    (hroom1 : Int.tdiv s.screenWidth 2 ≤ s.camera.cur.x)
    (hroom2 : s.camera.cur.x ≤ s.roomWidth - Int.tdiv s.screenWidth 2) :
    (s.camera.cur.x = s.varCameraMaxX → s.camera.cur.x ≤ a.x →
      (s.camera.movingToActor = true ∨ s.camera.cur.x ≤ s.camera.dest.x) →
      (cameraFast s = true → 40 ≤ Int.tdiv s.screenWidth 2) →
      ∃ s1, moveCamera actor s = some s1 ∧ s1.camera.cur.x = s.camera.cur.x ∧
        s1.screenStartStrip = s.screenStartStrip) ∧
    (s.camera.cur.x = s.varCameraMinX → a.x ≤ s.camera.cur.x →
      (s.camera.movingToActor = true ∨ s.camera.dest.x ≤ s.camera.cur.x) →
      (cameraFast s = true → Int.tdiv s.screenWidth 2 ≤ 280) →
      ∃ s1, moveCamera actor s = some s1 ∧ s1.camera.cur.x = s.camera.cur.x ∧
        s1.screenStartStrip = s.screenStartStrip) := by
  constructor
  · intro he hax hd hw
    refine moveCamera_old_stays actor s a hv hmode ha hal h0 h1 (by omega) (by omega) hstrip
      hroom1 hroom2 ?_ ?_ ?_ ?_
    · rw [clampCameraPos_x_eq]
      split_ifs <;> omega
    · intro hm
      rw [clampCameraPos_x_eq]
      rcases hd with hd | hd
      · rw [hm] at hd
        exact absurd hd (by simp)
      · split_ifs <;> omega
    · intro _ _
      rw [clampCameraPos_x_eq]
      split_ifs <;> omega
    · intro hf ht
      have := hw hf
      rw [hstrip, sar_three, sar_three] at ht
      omega
  · intro he hax hd hw
    refine moveCamera_old_stays actor s a hv hmode ha hal h0 h1 (by omega) (by omega) hstrip
      hroom1 hroom2 ?_ ?_ ?_ ?_
    · rw [clampCameraPos_x_eq]
      split_ifs <;> omega
    · intro hm
      rw [clampCameraPos_x_eq]
      rcases hd with hd | hd
      · rw [hm] at hd
        exact absurd hd (by simp)
      · split_ifs <;> omega
    · intro hf ht
      have := hw hf
      rw [hstrip, sar_three, sar_three] at ht
      omega
    · intro _ _
      rw [clampCameraPos_x_eq]
      split_ifs <;> omega

/-- C27, the claim as stated fails: pre-V7, panning with no actor followed, camera bounds
`160 ≤ x ≤ 480`, from `cur.x = 176` to `dest.x = 170`: the distance is 6, at most one step
of 8, yet the tick ends at `cur.x = 168`, beyond the destination, and so does the next
tick.  And on the V7 path a tick that follows an actor (actor 3 at `x = 500`, threshold 0)
takes the camera from `cur.x = 100` to `500`, away from the destination `200` it had. -/
theorem moveCamera_overshoots :
    demoCamPan.featAfterV7 = false ∧
    (demoCamPan.camera.cur.x, demoCamPan.camera.dest.x) = (176, 170) ∧
    (demoCamPan.varCameraMinX, demoCamPan.varCameraMaxX) = (160, 480) ∧
    (moveCamera demoActors demoCamPan).map (fun s => (s.camera.cur.x, s.camera.dest.x))
      = some (168, 170) ∧
    (moveCameraTicks demoActors 2 demoCamPan).map (fun s => (s.camera.cur.x, s.camera.dest.x))
      = some (168, 170) ∧
    demoCam7.featAfterV7 = true ∧
    (demoCam7.camera.cur.x, demoCam7.camera.dest.x) = (100, 200) ∧
    (demoCam7.varCameraMinX, demoCam7.varCameraMaxX) = (100, 540) ∧
    (moveCamera demoActors { demoCam7 with camera := { demoCam7.camera with follows := 3 } }).map
      (fun s => s.camera.cur.x) = some 500 := by
  decide

/-- C29, the claim as stated fails: pre-V7, follow mode, the camera at the right edge
(`cur.x = 480`, the maximum camera x, `_screenStartStrip = 40`), the followed actor at
`x = 500 ≥ cur.x` inside the trigger zone, and a destination `x = 200` left over from an
earlier pan: the tick moves the camera to `cur.x = 472` and `_screenStartStrip` to 39. -/
theorem moveCamera_leaves_edge :
    demoCamOld.featAfterV7 = false ∧ demoCamOld.camera.mode = CameraMode.CM_FOLLOW_ACTOR ∧
    (demoCamOld.camera.cur.x, demoCamOld.varCameraMaxX, demoCamOld.screenStartStrip)
      = (480, 480, 40) ∧
    demoActors demoCamOld.camera.follows = some ⟨500, 100⟩ ∧
    (moveCamera demoActors demoCamOld).map (fun s => (s.camera.cur.x, s.screenStartStrip))
      = some (472, 39) := by
  decide

/-! ## The theorems at concrete inputs -/

/-- C1 at a literal strip of height 1: the call returns. -/
theorem decompressBitmap_dispatch_witness :
    (decompressBitmap demoGdi 8 zeroMem 0 demoLiteral 0 1).isReturned = true :=
  (decompressBitmap_dispatch demoGdi 8 zeroMem 0 demoLiteral 0 1 (by decide) (by decide)).2.2.1
    (by decide) (by decide)

/-- C3 at `unkDecodeB` on a strip of height 1. -/
theorem decoder_visits_strip_witness :
    ∃ ps : List (Nat × Nat), ps.Perm (stripPositions 1) ∧
      (unkDecodeB demoGdi zeroMem 0 demoPacked 1 1).2.log.map Prod.fst
        = ps.map (pixelAddr demoGdi 0) ∧
      ∀ a : Int, (∀ p ∈ stripPositions 1, a ≠ pixelAddr demoGdi 0 p) →
        (unkDecodeB demoGdi zeroMem 0 demoPacked 1 1).2.mem a = zeroMem a :=
  decoder_visits_strip Decoder.dB demoGdi 1 (by decide) (by decide) 0 zeroMem 0 demoPacked 1
    (unkDecodeB demoGdi zeroMem 0 demoPacked 1 1).2 rfl

/-- C5 at a strip of height 1: `unkDecodeB_trans` ends in the state of `unkDecodeB`. -/
theorem trans_decoders_refine_base_witness :
    (unkDecodeB_trans demoGdi zeroMem 0 demoPacked 1 1).1
      = (unkDecodeB demoGdi zeroMem 0 demoPacked 1 1).1 :=
  (trans_decoders_refine_base demoGdi (by decide) 1 (by decide) (by decide) 8 (by decide)
    zeroMem 0 demoPacked 1).2.1.1

/-- C7 at a mask of height 3. -/
theorem decompressMaskImg_spec_witness :
    ∃ m1 sp1, decompressMaskImg demoGdi 3 zeroMem 0 demoMask 0 3 = some (m1, sp1) ∧
      m1 (0 + (2 : Nat) * demoGdi.numStrips) = (maskExpand demoMask 3 0).getD 2 0 := by
  obtain ⟨m1, sp1, h1, _, h3, _⟩ := decompressMaskImg_spec demoGdi (by decide) demoMask 0 3
    (by decide) (by simp [maskCountsNonZero, rd, demoMask, streamOf]) 3 (by decide) zeroMem 0
  exact ⟨m1, sp1, h1, h3 2 (by decide)⟩

/-- C8 at a mask of height 3. -/
theorem decompressMaskImgOr_spec_witness :
    ∃ mo so, decompressMaskImgOr demoGdi 3 zeroMem 0 demoMask 0 3 = some (mo, so) ∧
      ∀ a : Int, (∀ k : Nat, k < 3 → a ≠ 0 + k * demoGdi.numStrips) → mo a = zeroMem a := by
  obtain ⟨mo, so, h1, _, h3, _⟩ := decompressMaskImgOr_spec demoGdi (by decide) demoMask 0 3
    (by decide) 3 (by decide) zeroMem 0
  exact ⟨mo, so, h1, h3⟩

/-- C9 at two rows whose mask byte is `0x80`: column 3 of row 1 is copied. -/
theorem draw8ColWithMasking_spec_witness :
    draw8ColWithMasking demoGdi zeroMem 0 (fun _ => 7) 0 2 (fun _ => 0x80) 0
        (0 + (1 : Nat) * demoGdi.screenWidth + (3 : Nat))
      = if (0x80 : Nat) &&& (0x80 >>> 3) = 0 then 7 else zeroMem (0 + (1 : Nat) * demoGdi.screenWidth + (3 : Nat)) :=
  (draw8ColWithMasking_spec demoGdi (by decide) zeroMem (fun _ => 7) (fun _ => 0x80) 0 0 0 2
    (by decide)).1 1 3 (by decide) (by decide)

/-- C4 at a run of 256 pixels in a strip of 8. -/
theorem run_decoders_truncate_witness :
    ∃ o sp1, unkDecode8 demoGdi 8 zeroMem 0 (streamOf [255, 7] 0) 0 1 = some (o, sp1) ∧
      ∀ a : Int, (∀ p ∈ stripPositions 1, a ≠ pixelAddr demoGdi 0 p) → o.mem a = zeroMem a :=
  (run_decoders_truncate demoGdi 1 (by decide) (by decide) 8 (by decide) zeroMem 0
    (streamOf [255, 7] 0) 0).1

/-- C2 at the scenario of the specification: eight bytes `0x05`, height 1. -/
theorem literal_strip_witness :
    ∃ g1 out, decompressBitmap demoGdi 8 zeroMem 0 demoLiteral 0 1
        = Outcome.returned false g1 out ∧
      ∀ x : Nat, x < 8 → out.mem (pixelAddr demoGdi 0 (0, x)) = 5 := by
  obtain ⟨g1, out, h1, _, h3⟩ := literal_strip demoGdi (by decide) 1 (by decide) (by decide) 8
    (by decide) zeroMem 0 demoLiteral 0 (by decide)
  exact ⟨g1, out, h1, h3 rfl (by decide)⟩

/-- C11 at two overlapping requests on the cleared 200-line screen: strip 2 lies in both. -/
theorem setVirtscreenDirty_merge_witness :
    (setVirtscreenDirty demoGdi (setVirtscreenDirty demoGdi cleanScreen 0 10 20 20) 16 5 40 30).tdirty 2
        = min 10 5 ∧
      (setVirtscreenDirty demoGdi (setVirtscreenDirty demoGdi cleanScreen 0 10 20 20) 16 5 40 30).bdirty 2
        = max 20 30 :=
  ((setVirtscreenDirty_merge demoGdi cleanScreen 0 10 20 20 16 5 40 30
    (fun _ _ _ => ⟨rfl, rfl⟩) (by decide) (by decide)).1 2 (by decide) (by decide)).1
    (by decide)

/-- C12 at the pre-V7 engine and the screen with three dirty strips: strip 0 is reset. -/
theorem updateDirtyScreen_clears_witness :
    (updateDirtyScreen demoVm demoGdi demoDirty).1.tdirty 0 = demoDirty.height ∧
      (updateDirtyScreen demoVm demoGdi demoDirty).1.bdirty 0 = 0 :=
  (((updateDirtyScreen_clears demoVm demoGdi demoDirty (by decide)).1 (by decide)).2 0
    (by decide) (by decide)).1 (by decide)

/-- C13 at a request with `top = 10 ≤ bottom = 20` on the cleared screen. -/
theorem dirty_span_invariant_witness :
    DirtyInv demoGdi (setVirtscreenDirty demoGdi cleanScreen 0 10 20 20) :=
  (dirty_span_invariant demoVm demoGdi cleanScreen).2.2.1 0 10 20 20 (by decide)
    (fun _ _ _ => Or.inl rfl)

/-- C14 at the screen with three dirty strips: the pixel at column 17, row 12 is
presented. -/
theorem updateDirtyScreen_coalesce_witness :
    ∃ r ∈ (updateDirtyScreen demoVm demoGdi demoDirty).2, r.Holds 17 12 :=
  ((updateDirtyScreen_coalesce demoVm demoGdi demoDirty rfl (by decide)).1 17 12).2
    ⟨2, by decide, by decide, by decide, by decide, by decide, by decide, by decide⟩

/-- C15 at the request `top = 100 > bottom = 50` on the cleared screen: strip 0 ends with
`tdirty > bdirty ≠ 0`. -/
theorem mark_dirty_unordered_witness :
    (setVirtscreenDirty demoGdi cleanScreen 0 100 20 50).bdirty 0 ≠ 0 ∧
      (setVirtscreenDirty demoGdi cleanScreen 0 100 20 50).bdirty 0
        < (setVirtscreenDirty demoGdi cleanScreen 0 100 20 50).tdirty 0 :=
  ((mark_dirty_unordered demoVm demoGdi cleanScreen 0 0 20 100 50 0 (by decide)
    (fun _ _ _ => Or.inl rfl)).1 0 (by decide) (by decide)).2
    ⟨by decide, by decide, by decide, by decide⟩

/-- C16 at `resetBackground(10, 20, 2)` on the cleared screen. -/
theorem resetBackground_widens_span_witness :
    (resetBackground demoVm demoGdi demoScreen0 10 20 2).vs.tdirty 2
      < (resetBackground demoVm demoGdi demoScreen0 10 20 2).vs.bdirty 2 :=
  (resetBackground_widens_span demoVm demoGdi demoScreen0 10 20 2 (by decide)).2.2.2.1

/-- C17 at `resetBackground(50, 50, 2)`: the screen buffer is unchanged. -/
theorem resetBackground_empty_witness :
    (resetBackground demoVm demoGdi demoScreen0 50 50 2).screen = demoScreen0.screen :=
  (resetBackground_empty demoVm demoGdi demoScreen0 50 50 2 rfl).1

/-- C18 at the demo cycle (entries 1 .. 3, delay 10) with 10 units added: the first byte of
entry 1 is that of the old entry 3. -/
theorem cyclePalette_rotates_once_witness :
    ∃ st1, cyclePalette.cycle 65536 10 0 demoPal = some st1 ∧
      st1.currentPalette (3 * ((1 : Nat) : Int) + (0 : Nat))
        = demoPal.currentPalette (3 * ((3 : Nat) : Int) + (0 : Nat)) := by
  obtain ⟨st1, e1, e2, _⟩ := cyclePalette_rotates_once 65536 10 0 demoPal (by decide)
    (by decide) (by decide) (by decide)
  exact ⟨st1, e1, (e2 (by decide)).1 0 (by decide)⟩

/-- C19 at the demo cycle: three triggering calls bring the entries 1 .. 3 back. -/
theorem cyclePalette_period_witness :
    ∃ st1, cyclePaletteCalls 65536 0 1 [timerVars 10, timerVars 10, timerVars 10] demoPal
        = some st1 ∧
      ∀ k b : Nat, 1 ≤ k → k ≤ 3 → b < 3 →
        st1.currentPalette (3 * (k : Int) + b) = demoPal.currentPalette (3 * (k : Int) + b) :=
  (cyclePalette_period 65536 0 1 0 (by decide) demoPal (by decide) (by decide) (by decide)
    (fun j _ hj => Or.inl (by simp [demoPal, hj, idleCycle]))).1
    [timerVars 10, timerVars 10, timerVars 10] (by decide)
    ⟨by decide, by decide, by decide, trivial⟩

/-- C20 at the demo cycle with 25 units added (two whole periods): the counter is left
at 5. -/
theorem cyclePalette_coarse_tick_witness :
    ∃ st1, cyclePalette.cycle 65536 25 0 demoPal = some st1 ∧
      (st1.colorCycle 0).counter = (0 + 25) % 10 := by
  obtain ⟨st1, e1, _, e3⟩ := cyclePalette_coarse_tick 65536 25 0 demoPal (by decide)
    (by decide) (by decide)
  exact ⟨st1, e1, e3⟩

/-! ## The palette operation and camera theorems at concrete inputs -/

/-- C21 at the fade of entries 1 and 2 to `(200, 100, 0)` in 4 ticks: after 4 calls the
counter is 0 and the red channel of entry 1 is 200. -/
theorem palManipulate_reaches_target_witness :
    (palManipulateCalls 65536 (4 : Int).toNat demoFade).palManipCounter = 0 ∧
      (palManipulateCalls 65536 (4 : Int).toNat demoFade).currentPalette (3 * 1)
        = (fun _ => 200 : Mem) 1 % 256 := by
  have h := palManipulate_reaches_target 65536 4096 8192 demoManip demoFade 1 3
    (fun _ => 200) (fun _ => 100) (fun _ => 0) 4 (by decide) (Or.inr (by decide)) rfl
    (by decide) (by decide)
  exact ⟨h.2.2.1, (h.2.2.2.2.1 1 (by decide) (by decide)).1⟩

/-- C22 at the request `(5, 0, 0)` on the demo palette: the state is unchanged. -/
theorem remapPaletteColor_nearest_witness :
    (remapPaletteColor demoPal 5 0 0 (2 ^ 32 - 1)).2 = demoPal :=
  (remapPaletteColor_nearest demoPal 5 0 0 (by decide) (by decide) (by decide)).1

theorem quantPal_white (j c : Nat) : quantPal whitePalette j c = 252 := by
  unfold quantPal whitePalette andNot3
  decide

theorem remapDist_white_far (j : Nat) :
    (colorWeight (uintToInt 0) (uintToInt 0) (uintToInt 0) : Int)
      < remapDist demoPalWhite.currentPalette (quantReq 5) (quantReq 0) (quantReq 0) j := by
  show _ < remapDist whitePalette _ _ _ j
  unfold remapDist
  rw [quantPal_white, quantPal_white, quantPal_white]
  decide

/-- C23 at the request `(5, 0, 0)` with threshold 0 on the all-`(252, 252, 252)` palette:
slot 254 is returned and its red channel becomes 4. -/
theorem remapPaletteColor_spare_slot_witness :
    (remapPaletteColor demoPalWhite 5 0 0 0).1 = 254 ∧
      (((remapPaletteColor demoPalWhite 5 0 0 0).2.currentPalette (3 * 254) : Nat) : Int)
        = quantReq 5 := by
  have h := (remapPaletteColor_spare_slot demoPalWhite 5 0 0 0 (by decide) (by decide)
    (by decide) (by decide)
    (fun j _ e => absurd (e.1.symm.trans (quantPal_white j 0)) (by decide))
    (fun j _ => remapDist_white_far j)).1
    254 (by decide) (by decide) (by decide)
    (fun j h1 h2 => absurd h2 (by omega))
  exact ⟨h.1, h.2.1⟩

/-- C24 at the 20-colour resource whose triple 17 is white: the load returns. -/
theorem setPaletteFromPtr_spec_witness :
    ∃ st1, setPaletteFromPtr demoPalCfg 60 demoPal demoPalRes 0 = some st1 ∧
      st1.palDirtyMin = min demoPal.palDirtyMin 0 := by
  obtain ⟨st1, e, _, _, h, _⟩ :=
    (setPaletteFromPtr_spec demoPalCfg 60 demoPal demoPalRes 0).2 (by decide) (by decide)
  exact ⟨st1, e, h⟩

/-- C26 at the V7 demo camera: 13 ticks return and end at `x = 200`. -/
theorem moveCamera_pan_scenario_witness :
    ∃ sk, moveCameraTicks demoActors 13 demoCam7 = some sk ∧ sk.camera.cur.x = 200 := by
  have h := moveCamera_pan_scenario demoActors demoCam7 (by decide) (by decide) (by decide)
    (by decide) (by decide) (by decide) (by decide) (by decide) (by decide) (by decide)
  obtain ⟨sk, e⟩ := h.2 (by decide) (by decide) (by decide) 13
  exact ⟨sk, e, (h.1 13 sk e).2.1 (by decide)⟩

/-- C27 at the pre-V7 pan from `x = 176` to the strip-aligned `x = 168`: the tick returns
on the destination. -/
theorem moveCamera_pan_tick_witness :
    ∃ s1, moveCamera demoActors demoCamPan8 = some s1 ∧
      s1.camera.cur.x = demoCamPan8.camera.dest.x := by
  obtain ⟨s1, e, _, h⟩ :=
    (moveCamera_pan_tick demoActors demoCamPan8 (by decide) (by decide) (by decide)
      (by decide)).2 (by decide) (by decide) (by decide) (by decide) (by decide) (by decide)
      (by decide) (by decide)
  exact ⟨s1, e, (h (by decide)).2.2 (by decide) (by decide)⟩

/-- C28 at `panCameraTo(5, 6)` on the V7 demo camera: the followed actor is cleared. -/
theorem panCameraTo_spec_witness : (panCameraTo demoCam7 5 6).camera.follows = 0 :=
  ((panCameraTo_spec demoCam7 5 6).2.1 rfl).1

/-- C29 at the right edge, actor 3 at `x = 500`, destination `x = 480`: the camera stays. -/
theorem moveCamera_edge_stays_witness :
    ∃ s1, moveCamera demoActors demoCamEdge = some s1 ∧
      s1.camera.cur.x = demoCamEdge.camera.cur.x ∧
      s1.screenStartStrip = demoCamEdge.screenStartStrip :=
  (moveCamera_edge_stays demoActors demoCamEdge ⟨500, 100⟩ (by decide) (by decide) (by decide)
    (by decide) (by decide) (by decide) (by decide) (by decide) (by decide) (by decide)).1
    (by decide) (by decide) (Or.inr (by decide)) (by decide)

/-! ## The value `decompressBitmap` returns -/

theorem Outcome_ofOption_returned (b u : Bool) (g g1 : Gdi) (x : Option Out) (o : Out)
    (e : Outcome.ofOption b g x = Outcome.returned u g1 o) : u = b ∧ g1 = g := by
  cases x with
  | none => exact absurd e (by simp [Outcome.ofOption])
  | some o1 =>
    simp only [Outcome.ofOption] at e
    injection e with e1 e2 e3
    exact ⟨e1.symm, e2.symm⟩

theorem Outcome_returned_inj (b u : Bool) (g g1 : Gdi) (o1 o : Out)
    (e : Outcome.returned b g o1 = Outcome.returned u g1 o) : u = b ∧ g1 = g := by
  injection e with e1 e2 e3
  exact ⟨e1.symm, e2.symm⟩

/-- A returned call of `decompressBitmap` carries the fields set at its head, and its value
tells the transparent codes from the others. -/
theorem decompressBitmap_returned_fields (g : Gdi) (fuel : Nat) (m : Mem) (dst : Int)
    (smap : Src) (sp : Nat) (h : Nat) (u : Bool) (g1 : Gdi) (o : Out)
    (e : decompressBitmap g fuel m dst smap sp h = Outcome.returned u g1 o) :
    g1 = decompressBitmap.setup g (rd smap sp) ∧
    (u = true ↔ ((34 ≤ rd smap sp ∧ rd smap sp ≤ 38) ∨ (44 ≤ rd smap sp ∧ rd smap sp ≤ 48) ∨
      (84 ≤ rd smap sp ∧ rd smap sp ≤ 88) ∨ (124 ≤ rd smap sp ∧ rd smap sp ≤ 128))) := by
  unfold decompressBitmap at e
  simp only [] at e
  generalize rd smap sp = code at e ⊢
  by_cases c0 : h = 0
  · rw [if_pos c0] at e
    exact absurd e (by simp)
  rw [if_neg c0] at e
  by_cases c1 : code = 1
  · rw [if_pos c1] at e
    obtain ⟨hu, hg⟩ := Outcome_ofOption_returned _ _ _ _ _ _ e
    exact ⟨hg, by rw [hu]; exact ⟨fun hh => absurd hh (by simp), fun hh => by exfalso; omega⟩⟩
  rw [if_neg c1] at e
  by_cases c2 : code = 2
  · rw [if_pos c2] at e
    obtain ⟨hu, hg⟩ := Outcome_ofOption_returned _ _ _ _ _ _ e
    exact ⟨hg, by rw [hu]; exact ⟨fun hh => absurd hh (by simp), fun hh => by exfalso; omega⟩⟩
  rw [if_neg c2] at e
  by_cases c3 : code = 3
  · rw [if_pos c3] at e
    obtain ⟨hu, hg⟩ := Outcome_ofOption_returned _ _ _ _ _ _ e
    exact ⟨hg, by rw [hu]; exact ⟨fun hh => absurd hh (by simp), fun hh => by exfalso; omega⟩⟩
  rw [if_neg c3] at e
  by_cases c4 : code = 4
  · rw [if_pos c4] at e
    obtain ⟨hu, hg⟩ := Outcome_ofOption_returned _ _ _ _ _ _ e
    exact ⟨hg, by rw [hu]; exact ⟨fun hh => absurd hh (by simp), fun hh => by exfalso; omega⟩⟩
  rw [if_neg c4] at e
  by_cases c7 : code = 7
  · rw [if_pos c7] at e
    obtain ⟨hu, hg⟩ := Outcome_returned_inj _ _ _ _ _ _ e
    exact ⟨hg, by rw [hu]; exact ⟨fun hh => absurd hh (by simp), fun hh => by exfalso; omega⟩⟩
  rw [if_neg c7] at e
  by_cases c14 : 14 ≤ code ∧ code ≤ 18
  · rw [if_pos c14] at e
    obtain ⟨hu, hg⟩ := Outcome_returned_inj _ _ _ _ _ _ e
    exact ⟨hg, by rw [hu]; exact ⟨fun hh => absurd hh (by simp), fun hh => by exfalso; omega⟩⟩
  rw [if_neg c14] at e
  by_cases c24 : 24 ≤ code ∧ code ≤ 28
  · rw [if_pos c24] at e
    obtain ⟨hu, hg⟩ := Outcome_returned_inj _ _ _ _ _ _ e
    exact ⟨hg, by rw [hu]; exact ⟨fun hh => absurd hh (by simp), fun hh => by exfalso; omega⟩⟩
  rw [if_neg c24] at e
  by_cases c34 : 34 ≤ code ∧ code ≤ 38
  · rw [if_pos c34] at e
    obtain ⟨hu, hg⟩ := Outcome_returned_inj _ _ _ _ _ _ e
    exact ⟨hg, by rw [hu]; exact ⟨fun _ => Or.inl c34, fun _ => rfl⟩⟩
  rw [if_neg c34] at e
  by_cases c44 : 44 ≤ code ∧ code ≤ 48
  · rw [if_pos c44] at e
    obtain ⟨hu, hg⟩ := Outcome_returned_inj _ _ _ _ _ _ e
    exact ⟨hg, by rw [hu]; exact ⟨fun _ => Or.inr (Or.inl c44), fun _ => rfl⟩⟩
  rw [if_neg c44] at e
  by_cases c64 : (64 ≤ code ∧ code ≤ 68) ∨ (104 ≤ code ∧ code ≤ 108)
  · rw [if_pos c64] at e
    obtain ⟨hu, hg⟩ := Outcome_ofOption_returned _ _ _ _ _ _ e
    exact ⟨hg, by rw [hu]; exact ⟨fun hh => absurd hh (by simp), fun hh => by exfalso; omega⟩⟩
  rw [if_neg c64] at e
  by_cases c84 : (84 ≤ code ∧ code ≤ 88) ∨ (124 ≤ code ∧ code ≤ 128)
  · rw [if_pos c84] at e
    obtain ⟨hu, hg⟩ := Outcome_ofOption_returned _ _ _ _ _ _ e
    exact ⟨hg, by rw [hu]; exact ⟨fun _ => by omega, fun _ => rfl⟩⟩
  rw [if_neg c84] at e
  exact absurd e (by simp)

/-- For an accepted format code other than 3 the call returns. -/
theorem decompressBitmap_returns_known (g : Gdi) (fuel : Nat) (m : Mem) (dst : Int)
    (smap : Src) (sp : Nat) (h : Nat) (hh : 1 ≤ h) (hf : 8 * h ≤ fuel)
    (hk : rd smap sp ∈ knownCodes) (h3 : rd smap sp ≠ 3) :
    ∃ u g1 o, decompressBitmap g fuel m dst smap sp h = Outcome.returned u g1 o := by
  have hH : 0 < h := hh
  have hne : ¬ h = 0 := by omega
  have hk2 := (knownCodes_iff (rd smap sp) (rd_lt smap sp)).mp hk
  unfold decompressBitmap
  rw [if_neg hne]
  simp only []
  generalize rd smap sp = code at hk2 h3 ⊢
  by_cases c1 : code = 1
  · rw [if_pos c1]
    obtain ⟨r, e⟩ := unkDecode7_returns (decompressBitmap.setup g code) h hH fuel hf m dst
      smap (sp + 1)
    rw [e]
    exact ⟨_, _, _, rfl⟩
  rw [if_neg c1]
  by_cases c2 : code = 2
  · rw [if_pos c2]
    obtain ⟨r, e⟩ := unkDecode8_returns (decompressBitmap.setup g code) h hH fuel hf m dst
      smap (sp + 1)
    rw [e]
    exact ⟨_, _, _, rfl⟩
  rw [if_neg c2, if_neg h3]
  by_cases c4 : code = 4
  · rw [if_pos c4]
    obtain ⟨r, e⟩ := unkDecode10_returns (decompressBitmap.setup g code) h hH fuel hf m
      dst smap (sp + 1)
    rw [e]
    exact ⟨_, _, _, rfl⟩
  rw [if_neg c4]
  by_cases c7 : code = 7
  · rw [if_pos c7]
    exact ⟨_, _, _, rfl⟩
  rw [if_neg c7]
  by_cases c14 : 14 ≤ code ∧ code ≤ 18
  · rw [if_pos c14]
    exact ⟨_, _, _, rfl⟩
  rw [if_neg c14]
  by_cases c24 : 24 ≤ code ∧ code ≤ 28
  · rw [if_pos c24]
    exact ⟨_, _, _, rfl⟩
  rw [if_neg c24]
  by_cases c34 : 34 ≤ code ∧ code ≤ 38
  · rw [if_pos c34]
    exact ⟨_, _, _, rfl⟩
  rw [if_neg c34]
  by_cases c44 : 44 ≤ code ∧ code ≤ 48
  · rw [if_pos c44]
    exact ⟨_, _, _, rfl⟩
  rw [if_neg c44]
  by_cases c64 : (64 ≤ code ∧ code ≤ 68) ∨ (104 ≤ code ∧ code ≤ 108)
  · rw [if_pos c64]
    obtain ⟨r, e, _⟩ := unkDecodeA_visited (decompressBitmap.setup g code) h
      hH fuel hf m dst smap (sp + 1)
    rw [e]
    exact ⟨_, _, _, rfl⟩
  rw [if_neg c64]
  by_cases c84 : (84 ≤ code ∧ code ≤ 88) ∨ (124 ≤ code ∧ code ≤ 128)
  · rw [if_pos c84]
    obtain ⟨r, e, _⟩ := unkDecodeA_trans_visited
      (decompressBitmap.setup g code) h hH fuel hf m dst smap (sp + 1)
    rw [e]
    exact ⟨_, _, _, rfl⟩
  exfalso
  omega

theorem knownCodes_shift : ∀ code ∈ knownCodes,
    0xFF >>> (8 - code % 10) = 2 ^ (code % 10) - 1 ∧
    (14 ≤ code → 4 ≤ code % 10 ∧ code % 10 ≤ 8) := by
  decide

/-- C39: for an accepted format code and `numLinesToProcess ≥ 1`, a call of
`decompressBitmap` that returns gives `true` exactly when the code is one of 34..38, 44..48,
84..88, 124..128 (the transparent variants) and `false` otherwise, and leaves
`_decomp_shr = code % 10` and `_decomp_mask = 2 ^ _decomp_shr - 1`; the call does return for
every accepted code other than 3 (given fuel for the `8 * h` pixels); and for the accepted
bit-packed codes (14 and above) the shift is in `4 .. 8`. -/
theorem decompressBitmap_result (g : Gdi) (fuel : Nat) (m : Mem) (dst : Int) (smap : Src)
    (sp : Nat) (h : Nat) (hh : 1 ≤ h) (hf : 8 * h ≤ fuel) (hk : rd smap sp ∈ knownCodes) :
    (∀ (u : Bool) (g1 : Gdi) (o : Out),
      decompressBitmap g fuel m dst smap sp h = Outcome.returned u g1 o →
      (u = true ↔ ((34 ≤ rd smap sp ∧ rd smap sp ≤ 38) ∨ (44 ≤ rd smap sp ∧ rd smap sp ≤ 48) ∨
        (84 ≤ rd smap sp ∧ rd smap sp ≤ 88) ∨ (124 ≤ rd smap sp ∧ rd smap sp ≤ 128))) ∧
      g1.decomp_shr = rd smap sp % 10 ∧ g1.decomp_mask = 2 ^ g1.decomp_shr - 1) ∧
    (rd smap sp ≠ 3 →
      ∃ u g1 o, decompressBitmap g fuel m dst smap sp h = Outcome.returned u g1 o) ∧
    (14 ≤ rd smap sp → 4 ≤ rd smap sp % 10 ∧ rd smap sp % 10 ≤ 8) := by
  refine ⟨?_, decompressBitmap_returns_known g fuel m dst smap sp h hh hf hk,
    (knownCodes_shift _ hk).2⟩
  intro u g1 o e
  obtain ⟨hg, hu⟩ := decompressBitmap_returned_fields g fuel m dst smap sp h u g1 o e
  refine ⟨hu, ?_, ?_⟩
  · rw [hg]
    rfl
  · rw [hg]
    exact (knownCodes_shift _ hk).1

/-! ## `setupShadowPalette` and `darkenPalette` -/

set_option maxRecDepth 100000 in
/-- C40, evaluated where the code departs from the claim: the range test of
`setupShadowPalette` compares `startColor` with 255 twice and `endColor` never, so the call
raises its error exactly when `slot` is outside `0 .. 7`, `startColor` is outside
`0 .. 255`, `endColor < 0` or `endColor < startColor`; the call
`setupShadowPalette(0, 256, 256, 256, 255, 256)` on a shadow table filled with 99 is not
rejected; after the identity fill it maps colour 255, and then it reads the palette bytes
768 .. 770 and writes the shadow-table byte at offset 256, the first byte of the table of
slot 1 (the byte at offset 257 still holds 99). -/
theorem setupShadowPalette_accepts_end_256 :
    (∀ (st : PalState) (shadow : Mem) (slot rs gs bs startColor endColor : Int),
      setupShadowPalette st shadow slot rs gs bs startColor endColor = none ↔
        (slot < 0 ∨ slot > 7 ∨ startColor < 0 ∨ startColor > 255 ∨ endColor < 0 ∨
          endColor < startColor)) ∧
    (setupShadowPalette demoPal (fun _ => 99) 0 256 256 256 255 256).isSome = true ∧
    (setupShadowPalette demoPal (fun _ => 99) 0 256 256 256 255 256).map
      (fun r => (r.2 254, r.2 255, r.2 256, r.2 257)) = some (254, 84, 0, 99) := by
  refine ⟨?_, by decide, by decide⟩
  intro st shadow slot rs gs bs startColor endColor
  unfold setupShadowPalette
  by_cases h1 : slot < 0 ∨ slot > 7
  · rw [if_pos h1]
    exact ⟨fun _ => by omega, fun _ => rfl⟩
  · rw [if_neg h1]
    by_cases h2 : startColor < 0 ∨ startColor > 255 ∨ endColor < 0 ∨ startColor > 255 ∨
        endColor < startColor
    · rw [if_pos h2]
      exact ⟨fun _ => by omega, fun _ => rfl⟩
    · rw [if_neg h2]
      exact ⟨fun h => absurd h (by simp), fun h => by exfalso; omega⟩

theorem toInt32_of_fits (v : Int) (h0 : -(2 ^ 31) ≤ v) (h1 : v < 2 ^ 31) : toInt32 v = v := by
  unfold toInt32
  omega

/-- A channel of `darkenPalette` when the product fits an `int`: the scaled base value,
capped at 255. -/
theorem darkenPalette_channel_spec (base : Nat) (scale : Int) (h0 : 0 ≤ scale)
    (hfit : scale * 255 < 2 ^ 31) :
    ((darkenPalette.channel base scale : Nat) : Int)
      = min 255 (((base % 256 : Nat) : Int) * scale / 255) := by
  unfold darkenPalette.channel
  simp only []
  have hB : base % 256 < 256 := Nat.mod_lt _ (by decide)
  generalize base % 256 = B at hB ⊢
  have hp0 : 0 ≤ (B : Int) * scale := Int.mul_nonneg (by omega) h0
  have hp1 : (B : Int) * scale ≤ 255 * scale :=
    Int.mul_le_mul_of_nonneg_right (by omega) h0
  rw [toInt32_of_fits _ (by omega) (by omega)]
  rw [Int.tdiv_eq_ediv hp0 (by decide)]
  have hq : 0 ≤ (B : Int) * scale / 255 := Int.ediv_nonneg hp0 (by decide)
  generalize (B : Int) * scale / 255 = q at hq ⊢
  unfold toByte
  by_cases hc : q > 255
  · rw [if_pos hc]
    omega
  · rw [if_neg hc]
    omega

/-- The loop of `darkenPalette` sets every channel of the entries it visits from the base
palette and touches no other byte. -/
theorem darkenPalette_loop_spec (rs gs bs : Int) (base : Mem) (n : Nat) (j : Int) (cur : Mem) :
    (∀ k : Int, j ≤ k → k < j + (n : Int) →
      darkenPalette.loop rs gs bs base n j cur (3 * k)
        = darkenPalette.channel (base (3 * k)) rs ∧
      darkenPalette.loop rs gs bs base n j cur (3 * k + 1)
        = darkenPalette.channel (base (3 * k + 1)) gs ∧
      darkenPalette.loop rs gs bs base n j cur (3 * k + 2)
        = darkenPalette.channel (base (3 * k + 2)) bs) ∧
    (∀ a : Int, (a < 3 * j ∨ 3 * (j + (n : Int)) ≤ a) →
      darkenPalette.loop rs gs bs base n j cur a = cur a) := by
  induction n generalizing j cur with
  | zero =>
    exact ⟨fun k h1 h2 => by omega, fun a _ => rfl⟩
  | succ n ih =>
    unfold darkenPalette.loop
    simp only []
    have hstep := ih (j + 1)
    constructor
    · intro k hk1 hk2
      by_cases hki : k = j
      · subst hki
        refine ⟨?_, ?_, ?_⟩
        · refine Eq.trans ((hstep _).2 _ (Or.inl ?_)) ?_
          · omega
          · simp only [poke]
            rw [if_neg (by omega), if_neg (by omega), if_pos trivial]
        · refine Eq.trans ((hstep _).2 _ (Or.inl ?_)) ?_
          · omega
          · simp only [poke]
            rw [if_neg (by omega), if_pos trivial]
        · refine Eq.trans ((hstep _).2 _ (Or.inl ?_)) ?_
          · omega
          · simp only [poke]
            rw [if_pos trivial]
      · exact (hstep _).1 k (by omega) (by push_cast at hk2 ⊢; omega)
    · intro a ha
      refine Eq.trans ((hstep _).2 a (by push_cast at ha ⊢; omega)) ?_
      simp only [poke]
      rw [if_neg (by push_cast at ha; omega), if_neg (by push_cast at ha; omega),
        if_neg (by push_cast at ha; omega)]

/-- C35: with a room loaded (`_roomResource ≠ 0`, the room palette found), scales that are
non-negative and small enough for the products to fit an `int` (`scale * 255 < 2 ^ 31`),
`darkenPalette(rs, gs, bs, start, end)` with `start ≤ end` returns and sets each channel of
each palette entry `start ≤ i ≤ end` to `min(255, base * scale / 255)`, `base` being the
channel of entry `i` of the room's palette; every other byte of the palette is unchanged
and the dirty colour range is widened to include `start .. end`; with `start > end` the
state is unchanged; a scale of 255 gives the base channel; every channel written is at
most 255. -/
theorem darkenPalette_spec (roomResource : Int) (base : Mem) (st : PalState)
    (rs gs bs start end_ : Int) (hroom : roomResource ≠ 0)
    (hrs : 0 ≤ rs ∧ rs * 255 < 2 ^ 31) (hgs : 0 ≤ gs ∧ gs * 255 < 2 ^ 31)
    (hbs : 0 ≤ bs ∧ bs * 255 < 2 ^ 31) :
    (start ≤ end_ →
      ∃ st1, darkenPalette roomResource (some base) st rs gs bs start end_ = some st1 ∧
        (∀ i : Int, start ≤ i → i ≤ end_ →
          ((st1.currentPalette (3 * i) : Nat) : Int)
            = min 255 (((base (3 * i) % 256 : Nat) : Int) * rs / 255) ∧
          ((st1.currentPalette (3 * i + 1) : Nat) : Int)
            = min 255 (((base (3 * i + 1) % 256 : Nat) : Int) * gs / 255) ∧
          ((st1.currentPalette (3 * i + 2) : Nat) : Int)
            = min 255 (((base (3 * i + 2) % 256 : Nat) : Int) * bs / 255) ∧
          (rs = 255 → st1.currentPalette (3 * i) = base (3 * i) % 256) ∧
          (gs = 255 → st1.currentPalette (3 * i + 1) = base (3 * i + 1) % 256) ∧
          (bs = 255 → st1.currentPalette (3 * i + 2) = base (3 * i + 2) % 256) ∧
          st1.currentPalette (3 * i) ≤ 255 ∧ st1.currentPalette (3 * i + 1) ≤ 255 ∧
          st1.currentPalette (3 * i + 2) ≤ 255) ∧
        (∀ a : Int, (a < 3 * start ∨ 3 * end_ + 3 ≤ a) →
          st1.currentPalette a = st.currentPalette a) ∧
        st1.palDirtyMin = min st.palDirtyMin start ∧
        st1.palDirtyMax = max st.palDirtyMax end_) ∧
    (end_ < start → ∀ p, darkenPalette roomResource p st rs gs bs start end_ = some st) := by
  constructor
  · intro hse
    unfold darkenPalette
    rw [if_neg hroom, if_pos hse]
    simp only []
    refine ⟨_, rfl, ?_, ?_, ?_, ?_⟩
    · intro i hi1 hi2
      have hl := (darkenPalette_loop_spec rs gs bs base (end_ + 1 - start).toNat start
        st.currentPalette).1 i hi1 (by omega)
      rw [(setDirtyColors_fields _ _ _).1]
      simp only []
      rw [hl.1, hl.2.1, hl.2.2]
      have c0 := darkenPalette_channel_spec (base (3 * i)) rs hrs.1 hrs.2
      have c1 := darkenPalette_channel_spec (base (3 * i + 1)) gs hgs.1 hgs.2
      have c2 := darkenPalette_channel_spec (base (3 * i + 2)) bs hbs.1 hbs.2
      refine ⟨c0, c1, c2, ?_, ?_, ?_, ?_, ?_, ?_⟩
      · intro h
        rw [h] at c0 ⊢
        have : base (3 * i) % 256 < 256 := Nat.mod_lt _ (by decide)
        omega
      · intro h
        rw [h] at c1 ⊢
        have : base (3 * i + 1) % 256 < 256 := Nat.mod_lt _ (by decide)
        omega
      · intro h
        rw [h] at c2 ⊢
        have : base (3 * i + 2) % 256 < 256 := Nat.mod_lt _ (by decide)
        omega
      · omega
      · omega
      · omega
    · intro a ha
      rw [(setDirtyColors_fields _ _ _).1]
      simp only []
      exact (darkenPalette_loop_spec rs gs bs base (end_ + 1 - start).toNat start
        st.currentPalette).2 a (by omega)
    · rw [(setDirtyColors_fields _ _ _).2.2.1]
    · rw [(setDirtyColors_fields _ _ _).2.2.2]
  · intro hse p
    unfold darkenPalette
    rw [if_neg hroom, if_neg (by omega)]

/-! ## The fade: what a tick touches and how the values move -/

theorem rd16_lt (m : Mem) (p : Int) : rd16 m p < 65536 := by
  unfold rd16
  have h1 : m p % 256 < 256 := Nat.mod_lt _ (by decide)
  have h2 : m (p + 1) % 256 < 256 := Nat.mod_lt _ (by decide)
  omega

theorem rd16_wr16_same (m : Mem) (p : Int) (v : Int) :
    rd16 (wr16 m p v) p = (v % 65536).toNat := by
  unfold rd16 wr16
  simp only [poke]
  rw [if_neg (by omega), if_pos trivial, if_pos trivial]
  have hX : (v % 65536).toNat < 65536 := by omega
  generalize (v % 65536).toNat = X at hX ⊢
  omega

theorem rd16_wr16_other (m : Mem) (p q : Int) (v : Int) (h : q + 1 < p ∨ p + 1 < q) :
    rd16 (wr16 m p v) q = rd16 m q := by
  unfold rd16 wr16
  simp only [poke]
  rw [if_neg (by omega), if_neg (by omega), if_neg (by omega), if_neg (by omega)]

theorem wr16_frame (m : Mem) (p : Int) (v : Int) (a : Int) (h : a < p ∨ p + 2 ≤ a) :
    wr16 m p v a = m a := by
  unfold wr16
  simp only [poke]
  rw [if_neg (by omega), if_neg (by omega)]

/-- One channel of a tick: the new intermediate value, the new palette byte, and what is
left alone. -/
theorem palManipulate_channel_spec (counter : Int) (target : Mem) (tp bp pp : Int)
    (pal between : Mem) :
    rd16 (palManipulate.channel counter target tp bp pp pal between).2 bp
      = fadeStep counter (rd16 between bp) (target tp % 256) ∧
    (palManipulate.channel counter target tp bp pp pal between).1 pp
      = fadeStep counter (rd16 between bp) (target tp % 256) / 256 ∧
    (∀ a : Int, a ≠ pp →
      (palManipulate.channel counter target tp bp pp pal between).1 a = pal a) ∧
    (∀ a : Int, (a < bp ∨ bp + 2 ≤ a) →
      (palManipulate.channel counter target tp bp pp pal between).2 a = between a) := by
  unfold palManipulate.channel fadeStep
  simp only []
  refine ⟨?_, ?_, ?_, ?_⟩
  · rw [rd16_wr16_same, Int.emod_emod_of_dvd _ (dvd_refl _)]
  · simp only [poke]
    rw [if_pos trivial]
    unfold toByte
    generalize ((rd16 between bp : Nat) : Int)
      + Int.tdiv (((target tp % 256 : Nat) : Int) * 256 - ((rd16 between bp : Nat) : Int))
          counter = j
    omega
  · intro a ha
    simp only [poke]
    rw [if_neg ha]
  · intro a ha
    exact wr16_frame _ _ _ _ ha

theorem rd16_congr (m m1 : Mem) (p : Int) (h0 : m1 p = m p) (h1 : m1 (p + 1) = m (p + 1)) :
    rd16 m1 p = rd16 m p := by
  unfold rd16
  rw [h0, h1]

/-- The loop of `palManipulate`: every channel of the entries it visits takes one
`fadeStep`, and nothing else is touched. -/
theorem palManipulate_loop_spec (counter : Int) (target : Mem) (n : Nat) (i : Int)
    (pal between : Mem) :
    (∀ k : Int, i ≤ k → k < i + (n : Int) → ∀ c : Int, 0 ≤ c → c < 3 →
      rd16 (palManipulate.loop counter target n i pal between).2 (6 * k + 2 * c)
        = fadeStep counter (rd16 between (6 * k + 2 * c)) (target (3 * k + c) % 256) ∧
      (palManipulate.loop counter target n i pal between).1 (3 * k + c)
        = fadeStep counter (rd16 between (6 * k + 2 * c)) (target (3 * k + c) % 256) / 256) ∧
    (∀ a : Int, (a < 3 * i ∨ 3 * (i + (n : Int)) ≤ a) →
      (palManipulate.loop counter target n i pal between).1 a = pal a) ∧
    (∀ a : Int, (a < 6 * i ∨ 6 * (i + (n : Int)) ≤ a) →
      (palManipulate.loop counter target n i pal between).2 a = between a) := by
  induction n generalizing i pal between with
  | zero =>
    exact ⟨fun k h1 h2 => by omega, fun a _ => rfl, fun a _ => rfl⟩
  | succ n ih =>
    unfold palManipulate.loop
    simp only []
    obtain ⟨a1, a2, a3, a4⟩ := palManipulate_channel_spec counter target (3 * i) (6 * i)
      (3 * i) pal between
    generalize palManipulate.channel counter target (3 * i) (6 * i) (3 * i) pal between = c0
      at a1 a2 a3 a4 ⊢
    obtain ⟨b1, b2, b3, b4⟩ := palManipulate_channel_spec counter target (3 * i + 1)
      (6 * i + 2) (3 * i + 1) c0.1 c0.2
    generalize palManipulate.channel counter target (3 * i + 1) (6 * i + 2) (3 * i + 1) c0.1
      c0.2 = c1 at b1 b2 b3 b4 ⊢
    obtain ⟨d1, d2, d3, d4⟩ := palManipulate_channel_spec counter target (3 * i + 2)
      (6 * i + 4) (3 * i + 2) c1.1 c1.2
    generalize palManipulate.channel counter target (3 * i + 2) (6 * i + 4) (3 * i + 2) c1.1
      c1.2 = c2 at d1 d2 d3 d4 ⊢
    obtain ⟨h1, h2, h3⟩ := ih (i + 1) c2.1 c2.2
    refine ⟨?_, ?_, ?_⟩
    · intro k hk1 hk2 c hc0 hc3
      by_cases hki : k = i
      · subst hki
        have e1 : rd16 (palManipulate.loop counter target n (k + 1) c2.1 c2.2).2 (6 * k + 2 * c)
            = rd16 c2.2 (6 * k + 2 * c) :=
          rd16_congr _ _ _ (h3 _ (Or.inl (by omega))) (h3 _ (Or.inl (by omega)))
        have e2 : (palManipulate.loop counter target n (k + 1) c2.1 c2.2).1 (3 * k + c)
            = c2.1 (3 * k + c) := h2 _ (Or.inl (by omega))
        rw [e1, e2]
        have hc : c = 0 ∨ c = 1 ∨ c = 2 := by omega
        rcases hc with rfl | rfl | rfl
        · have f1 : rd16 c2.2 (6 * k + 2 * 0) = rd16 c0.2 (6 * k) := by
            rw [show 6 * k + 2 * 0 = 6 * k by ring]
            refine Eq.trans (rd16_congr _ _ _ (d4 _ (Or.inl (by omega)))
              (d4 _ (Or.inl (by omega)))) ?_
            exact rd16_congr _ _ _ (b4 _ (Or.inl (by omega))) (b4 _ (Or.inl (by omega)))
          have f2 : c2.1 (3 * k + 0) = c0.1 (3 * k) := by
            rw [show 3 * k + 0 = 3 * k by ring]
            rw [d3 _ (by omega), b3 _ (by omega)]
          rw [f1, f2, a1, a2]
          simp only [show 6 * k + 2 * 0 = 6 * k by ring, show 3 * k + 0 = 3 * k by ring]
          trivial
        · have f1 : rd16 c2.2 (6 * k + 2 * 1) = rd16 c1.2 (6 * k + 2) := by
            rw [show 6 * k + 2 * 1 = 6 * k + 2 by ring]
            exact rd16_congr _ _ _ (d4 _ (Or.inl (by omega))) (d4 _ (Or.inl (by omega)))
          have f2 : c2.1 (3 * k + 1) = c1.1 (3 * k + 1) := d3 _ (by omega)
          have f3 : rd16 c0.2 (6 * k + 2) = rd16 between (6 * k + 2) :=
            rd16_congr _ _ _ (a4 _ (Or.inr (by omega))) (a4 _ (Or.inr (by omega)))
          rw [f1, f2, b1, b2, f3]
          simp only [show 6 * k + 2 * 1 = 6 * k + 2 by ring]
          trivial
        · have f3 : rd16 c1.2 (6 * k + 4) = rd16 between (6 * k + 4) := by
            refine Eq.trans (rd16_congr _ _ _ (b4 _ (Or.inr (by omega)))
              (b4 _ (Or.inr (by omega)))) ?_
            exact rd16_congr _ _ _ (a4 _ (Or.inr (by omega))) (a4 _ (Or.inr (by omega)))
          simp only [show 6 * k + 2 * 2 = 6 * k + 4 by ring]
          rw [d1, d2, f3]
          trivial
      · obtain ⟨g1, g2⟩ := h1 k (by omega) (by push_cast at hk2 ⊢; omega) c hc0 hc3
        have f3 : rd16 c2.2 (6 * k + 2 * c) = rd16 between (6 * k + 2 * c) := by
          refine Eq.trans (rd16_congr _ _ _ (d4 _ (Or.inr (by omega)))
            (d4 _ (Or.inr (by omega)))) ?_
          refine Eq.trans (rd16_congr _ _ _ (b4 _ (Or.inr (by omega)))
            (b4 _ (Or.inr (by omega)))) ?_
          exact rd16_congr _ _ _ (a4 _ (Or.inr (by omega))) (a4 _ (Or.inr (by omega)))
        rw [g1, g2, f3]
        exact ⟨rfl, rfl⟩
    · intro a ha
      rw [h2 a (by push_cast at ha ⊢; omega), d3 a (by push_cast at ha; omega),
        b3 a (by push_cast at ha; omega), a3 a (by push_cast at ha; omega)]
    · intro a ha
      rw [h3 a (by push_cast at ha ⊢; omega), d4 a (by push_cast at ha; omega),
        b4 a (by push_cast at ha; omega), a4 a (by push_cast at ha; omega)]

/-- A tick never changes the fade's range, buffer addresses or target palette. -/
theorem palManipulate_static (M : Nat) (s : PalManip) :
    (palManipulate M s).palManipStart = s.palManipStart ∧
    (palManipulate M s).palManipEnd = s.palManipEnd ∧
    (palManipulate M s).palManipPaletteAddr = s.palManipPaletteAddr ∧
    (palManipulate M s).palManipIntermediatePalAddr = s.palManipIntermediatePalAddr ∧
    (palManipulate M s).palManipPalette = s.palManipPalette := by
  unfold palManipulate
  by_cases h : s.palManipCounter = 0 ∨ s.palManipPaletteAddr = 0 ∨
      s.palManipIntermediatePalAddr = 0
  · rw [if_pos h]
    exact ⟨rfl, rfl, rfl, rfl, rfl⟩
  · rw [if_neg h]
    simp only []
    refine ⟨trivial, trivial, ?_, trivial, ?_⟩
    · rw [(setDirtyColors_manip _ _ _).2.1]
    · rw [(setDirtyColors_manip _ _ _).1]

/-- A tick with the fade in progress: the two buffers it rewrites and the dirty range. -/
theorem palManipulate_active (M : Nat) (s : PalManip) (hc : s.palManipCounter ≠ 0)
    (ha : s.palManipPaletteAddr ≠ 0) (hb : s.palManipIntermediatePalAddr ≠ 0) :
    (palManipulate M s).currentPalette
      = (palManipulate.loop s.palManipCounter s.palManipPalette
          (s.palManipEnd - s.palManipStart).toNat s.palManipStart s.currentPalette
          s.palManipIntermediatePal).1 ∧
    (palManipulate M s).palManipIntermediatePal
      = (palManipulate.loop s.palManipCounter s.palManipPalette
          (s.palManipEnd - s.palManipStart).toNat s.palManipStart s.currentPalette
          s.palManipIntermediatePal).2 ∧
    (palManipulate M s).palDirtyMin = min s.palDirtyMin s.palManipStart ∧
    (palManipulate M s).palDirtyMax = max s.palDirtyMax s.palManipEnd := by
  have hne : ¬ (s.palManipCounter = 0 ∨ s.palManipPaletteAddr = 0 ∨
      s.palManipIntermediatePalAddr = 0) := by
    rintro (h | h | h)
    · exact hc h
    · exact ha h
    · exact hb h
  unfold palManipulate
  rw [if_neg hne]
  simp only []
  refine ⟨?_, ?_, ?_, ?_⟩
  · rw [(setDirtyColors_fields _ _ _).1]
  · rw [(setDirtyColors_manip _ _ _).2.2.2]
  · rw [(setDirtyColors_fields _ _ _).2.2.1]
  · rw [(setDirtyColors_fields _ _ _).2.2.2]

/-- A tick leaves every palette byte outside the entries `start ≤ i < end` as it was. -/
theorem palManipulate_outside (M : Nat) (s : PalManip) (a : Int)
    (h : a < 3 * s.palManipStart ∨ 3 * s.palManipEnd ≤ a) :
    (palManipulate M s).currentPalette a = s.currentPalette a := by
  by_cases hact : s.palManipCounter = 0 ∨ s.palManipPaletteAddr = 0 ∨
      s.palManipIntermediatePalAddr = 0
  · unfold palManipulate
    rw [if_pos hact]
  · have hc : s.palManipCounter ≠ 0 := fun e => hact (Or.inl e)
    have ha : s.palManipPaletteAddr ≠ 0 := fun e => hact (Or.inr (Or.inl e))
    have hb : s.palManipIntermediatePalAddr ≠ 0 := fun e => hact (Or.inr (Or.inr e))
    rw [(palManipulate_active M s hc ha hb).1]
    exact (palManipulate_loop_spec _ _ _ _ _ _).2.1 a (by omega)

theorem palManipulateCalls_static (M : Nat) (s : PalManip) (k : Nat) :
    (palManipulateCalls M k s).palManipStart = s.palManipStart ∧
    (palManipulateCalls M k s).palManipEnd = s.palManipEnd ∧
    (palManipulateCalls M k s).palManipPaletteAddr = s.palManipPaletteAddr ∧
    (palManipulateCalls M k s).palManipIntermediatePalAddr = s.palManipIntermediatePalAddr ∧
    (palManipulateCalls M k s).palManipPalette = s.palManipPalette := by
  induction k with
  | zero => exact ⟨rfl, rfl, rfl, rfl, rfl⟩
  | succ n ih =>
    rw [palManipulateCalls_succ]
    obtain ⟨p1, p2, p3, p4, p5⟩ := palManipulate_static M (palManipulateCalls M n s)
    obtain ⟨i1, i2, i3, i4, i5⟩ := ih
    exact ⟨by rw [p1, i1], by rw [p2, i2], by rw [p3, i3], by rw [p4, i4], by rw [p5, i5]⟩

/-- C37: `palManipulate` changes no palette byte outside the entries `start ≤ i < end` of
the fade, on any tick: the entry at index `end` and every entry outside the range keep
their values; a call with the fade in progress marks the colours `start .. end`, `end`
included, as dirty; with a remaining-tick counter of 0 the call changes nothing at all,
which is also the case after a `palManipulateInit` with `time = 0`. -/
theorem palManipulate_frame (M : Nat) (s : PalManip) :
    (∀ (k : Nat) (a : Int), (a < 3 * s.palManipStart ∨ 3 * s.palManipEnd ≤ a) →
      (palManipulateCalls M k s).currentPalette a = s.currentPalette a) ∧
    (s.palManipCounter ≠ 0 → s.palManipPaletteAddr ≠ 0 → s.palManipIntermediatePalAddr ≠ 0 →
      (palManipulate M s).palDirtyMin = min s.palDirtyMin s.palManipStart ∧
      (palManipulate M s).palDirtyMax = max s.palDirtyMax s.palManipEnd) ∧
    (s.palManipCounter = 0 → ∀ k : Nat, palManipulateCalls M k s = s) ∧
    (∀ (calloc1 calloc2 : Int) (s0 : PalManip) (start end_ : Int) (s1 s2 s3 : Mem),
      palManipulateInit M calloc1 calloc2 s start end_ (some s1) (some s2) (some s3) 0
        = some s0 →
      ∀ k : Nat, palManipulateCalls M k s0 = s0) := by
  refine ⟨?_, ?_, ?_, ?_⟩
  · intro k
    induction k with
    | zero =>
      intro a _
      rfl
    | succ n ih =>
      intro a ha
      rw [palManipulateCalls_succ]
      obtain ⟨i1, i2, _, _, _⟩ := palManipulateCalls_static M s n
      rw [palManipulate_outside M _ a (by rw [i1, i2]; exact ha)]
      exact ih a ha
  · intro hc ha hb
    exact (palManipulate_active M s hc ha hb).2.2
  · intro h0 k
    exact palManipulateCalls_idle M s h0 k
  · intro calloc1 calloc2 s0 start end_ s1 s2 s3 hinit k
    have h0 := (palManipulateInit_spec M calloc1 calloc2 s s0 start end_ s1 s2 s3 0
      (by omega) (by omega) hinit).1
    exact palManipulateCalls_idle M s0 h0 k

/-! ## The fade moves every channel monotonically -/

theorem tdiv_toward_zero (d c : Int) (hc : 1 ≤ c) :
    (0 ≤ d → 0 ≤ Int.tdiv d c ∧ Int.tdiv d c ≤ d) ∧
    (d ≤ 0 → d ≤ Int.tdiv d c ∧ Int.tdiv d c ≤ 0) := by
  constructor
  · intro hd
    rw [Int.tdiv_eq_ediv hd (by omega)]
    exact ⟨Int.ediv_nonneg hd (by omega), Int.ediv_le_self c hd⟩
  · intro hd
    have e : d = -(-d) := by omega
    rw [e, Int.neg_tdiv, Int.tdiv_eq_ediv (by omega) (by omega)]
    have h1 : 0 ≤ (-d) / c := Int.ediv_nonneg (by omega) (by omega)
    have h2 : (-d) / c ≤ -d := Int.ediv_le_self c (by omega)
    omega

/-- One step of a fading channel moves the intermediate value towards `256 * target`
and not beyond; the sum formed in `int` stays within `0 .. 65535`. -/
theorem fadeStep_between (counter : Int) (hc : 1 ≤ counter) (cur T : Nat) (hcur : cur < 65536)
    (hT : T < 256) :
    ((fadeStep counter cur T : Nat) : Int)
      = (cur : Int) + Int.tdiv ((T : Int) * 256 - (cur : Int)) counter ∧
    (cur ≤ T * 256 → cur ≤ fadeStep counter cur T ∧ fadeStep counter cur T ≤ T * 256) ∧
    (T * 256 ≤ cur → T * 256 ≤ fadeStep counter cur T ∧ fadeStep counter cur T ≤ cur) := by
  obtain ⟨h1, h2⟩ := tdiv_toward_zero ((T : Int) * 256 - (cur : Int)) counter hc
  unfold fadeStep
  generalize Int.tdiv ((T : Int) * 256 - (cur : Int)) counter = q at h1 h2 ⊢
  refine ⟨?_, ?_, ?_⟩
  · by_cases hd : 0 ≤ (T : Int) * 256 - (cur : Int)
    · have := h1 hd
      omega
    · have := h2 (by omega)
      omega
  · intro hle
    have := h1 (by omega)
    omega
  · intro hle
    have := h2 (by omega)
    omega

/-- The loop of `palManipulateInit` puts `256 *` the palette byte into every intermediate
value of the entries it visits. -/
theorem palManipulateInit_loop_between (s1 s2 s3 pal : Mem) (n : Nat) (i : Int)
    (target between : Mem) :
    ∀ k : Int, i ≤ k → k < i + (n : Int) → ∀ c : Int, 0 ≤ c → c < 3 →
      rd16 (palManipulateInit.loop s1 s2 s3 pal n i target between).2 (6 * k + 2 * c)
        = pal (3 * k + c) % 256 * 256 := by
  have frame : ∀ (n : Nat) (i : Int) (target between : Mem) (a : Int), a < 6 * i →
      (palManipulateInit.loop s1 s2 s3 pal n i target between).2 a = between a := by
    intro n
    induction n with
    | zero =>
      intro i target between a _
      rfl
    | succ n ih =>
      intro i target between a ha
      unfold palManipulateInit.loop
      simp only []
      rw [ih (i + 1) _ _ a (by omega), wr16_frame _ _ _ _ (Or.inl (by omega)),
        wr16_frame _ _ _ _ (Or.inl (by omega)), wr16_frame _ _ _ _ (Or.inl (by omega))]
  induction n generalizing i target between with
  | zero =>
    intro k h1 h2
    omega
  | succ n ih =>
    intro k hk1 hk2 c hc0 hc3
    unfold palManipulateInit.loop
    simp only []
    by_cases hki : k = i
    · subst hki
      rw [rd16_congr _ _ _ (frame n (k + 1) _ _ _ (by omega)) (frame n (k + 1) _ _ _ (by omega))]
      have hB : ∀ a : Int, pal a % 256 < 256 := fun a => Nat.mod_lt _ (by decide)
      have hc : c = 0 ∨ c = 1 ∨ c = 2 := by omega
      rcases hc with rfl | rfl | rfl
      · rw [rd16_wr16_other _ _ _ _ (Or.inl (by omega)),
          rd16_wr16_other _ _ _ _ (Or.inl (by omega)),
          show 6 * k + 2 * 0 = 6 * k by ring, rd16_wr16_same,
          show 3 * k + 0 = 3 * k by ring]
        have := hB (3 * k)
        omega
      · rw [rd16_wr16_other _ _ _ _ (Or.inl (by omega)),
          show 6 * k + 2 * 1 = 6 * k + 2 by ring, rd16_wr16_same]
        have := hB (3 * k + 1)
        omega
      · rw [show 6 * k + 2 * 2 = 6 * k + 4 by ring, rd16_wr16_same]
        have := hB (3 * k + 2)
        omega
    · exact ih (i + 1) _ _ k (by omega) (by push_cast at hk2 ⊢; omega) c hc0 hc3

/-- What a successful `palManipulateInit` leaves in the palette and in the intermediate
buffer. -/
theorem palManipulateInit_between (M : Nat) (calloc1 calloc2 : Int) (s s0 : PalManip)
    (start end_ : Int) (s1 s2 s3 : Mem) (time : Int)
    (hinit : palManipulateInit M calloc1 calloc2 s start end_ (some s1) (some s2) (some s3) time
      = some s0) :
    s0.currentPalette = s.currentPalette ∧
    ∀ i : Int, start ≤ i → i < end_ → ∀ c : Int, 0 ≤ c → c < 3 →
      rd16 s0.palManipIntermediatePal (6 * i + 2 * c)
        = s.currentPalette (3 * i + c) % 256 * 256 := by
  unfold palManipulateInit at hinit
  simp only [] at hinit
  by_cases hg : end_ > start ∧
      ((if s.palManipPaletteAddr = 0 then calloc1 else s.palManipPaletteAddr) = 0 ∨
        (if s.palManipIntermediatePalAddr = 0 then calloc2 else s.palManipIntermediatePalAddr)
          = 0)
  · rw [if_pos hg] at hinit
    exact absurd hinit (by simp)
  · rw [if_neg hg] at hinit
    injection hinit with hinit
    rw [← hinit]
    simp only []
    refine ⟨trivial, ?_⟩
    intro i hi1 hi2 c hc0 hc3
    exact palManipulateInit_loop_between s1 s2 s3 s.currentPalette _ start _ _ i hi1 (by omega)
      c hc0 hc3

/-- One channel of one entry of the fade over a tick with the fade in progress. -/
theorem palManipulate_tick_channel (M : Nat) (t : PalManip) (hc : t.palManipCounter ≠ 0)
    (ha : t.palManipPaletteAddr ≠ 0) (hb : t.palManipIntermediatePalAddr ≠ 0)
    (i : Int) (hi1 : t.palManipStart ≤ i) (hi2 : i < t.palManipEnd) (c : Int) (hc0 : 0 ≤ c)
    (hc3 : c < 3) :
    rd16 (palManipulate M t).palManipIntermediatePal (6 * i + 2 * c)
      = fadeStep t.palManipCounter (rd16 t.palManipIntermediatePal (6 * i + 2 * c))
          (t.palManipPalette (3 * i + c) % 256) ∧
    (palManipulate M t).currentPalette (3 * i + c)
      = fadeStep t.palManipCounter (rd16 t.palManipIntermediatePal (6 * i + 2 * c))
          (t.palManipPalette (3 * i + c) % 256) / 256 := by
  obtain ⟨p1, p2, _, _⟩ := palManipulate_active M t hc ha hb
  rw [p1, p2]
  exact (palManipulate_loop_spec _ _ _ _ _ _).1 i hi1 (by omega) c hc0 hc3

/-- Once the counter has run out the state no longer changes. -/
theorem palManipulateCalls_frozen (M : Nat) (s0 : PalManip) (time : Int) (ht : 0 ≤ time)
    (hcnt : s0.palManipCounter = time) (hrep : M = 0 ∨ time < (M : Int))
    (ha : s0.palManipPaletteAddr ≠ 0) (hb : s0.palManipIntermediatePalAddr ≠ 0) (k : Nat)
    (hk : time ≤ (k : Int)) :
    palManipulateCalls M (k + 1) s0 = palManipulateCalls M k s0 := by
  have hz : (palManipulateCalls M time.toNat s0).palManipCounter = 0 := by
    rw [(palManipulateCalls_counter M s0 (by rw [hcnt]; exact hrep) ha hb time.toNat
      (by rw [hcnt]; omega)).1, hcnt]
    omega
  have e1 : k = time.toNat + (k - time.toNat) := by omega
  have e2 : k + 1 = time.toNat + (k - time.toNat + 1) := by omega
  have e3 : palManipulateCalls M k s0 = palManipulateCalls M time.toNat s0 := by
    rw [e1, palManipulateCalls_add, palManipulateCalls_idle M _ hz]
  rw [e3, e2, palManipulateCalls_add, palManipulateCalls_idle M _ hz]

/-- A sequence of intermediate values `I` and palette bytes `P` that evolves by `fadeStep`
while `k < time` and stands still afterwards. -/
theorem fade_sequence (time : Int) (T P0 : Nat) (hT : T < 256) (hP : P0 < 256)
    (I P : Nat → Nat) (hI0 : I 0 = P0 * 256) (hP0 : P 0 % 256 = P0)
    (hlt : ∀ k, I k < 65536)
    (hstep : ∀ k : Nat,
      ((k : Int) < time → I (k + 1) = fadeStep (time - (k : Int)) (I k) T ∧
        P (k + 1) = fadeStep (time - (k : Int)) (I k) T / 256) ∧
      (time ≤ (k : Int) → I (k + 1) = I k ∧ P (k + 1) = P k)) :
    ∀ k : Nat,
      (I k ≤ T * 256 → I k ≤ I (k + 1) ∧ I (k + 1) ≤ T * 256) ∧
      (T * 256 ≤ I k → T * 256 ≤ I (k + 1) ∧ I (k + 1) ≤ I k) ∧
      ((k : Int) < time →
        ((I (k + 1) : Nat) : Int)
          = ((I k : Nat) : Int) + Int.tdiv ((T : Int) * 256 - ((I k : Nat) : Int))
              (time - (k : Int))) ∧
      min P0 T ≤ P k % 256 ∧ P k % 256 ≤ max P0 T := by
  have hmono : ∀ k : Nat,
      (I k ≤ T * 256 → I k ≤ I (k + 1) ∧ I (k + 1) ≤ T * 256) ∧
      (T * 256 ≤ I k → T * 256 ≤ I (k + 1) ∧ I (k + 1) ≤ I k) := by
    intro k
    by_cases hk : (k : Int) < time
    · obtain ⟨s1, _⟩ := (hstep k).1 hk
      obtain ⟨_, f2, f3⟩ := fadeStep_between (time - (k : Int)) (by omega) (I k) T (hlt k) hT
      rw [s1]
      exact ⟨f2, f3⟩
    · obtain ⟨s1, _⟩ := (hstep k).2 (by omega)
      rw [s1]
      exact ⟨fun h => ⟨Nat.le_refl _, h⟩, fun h => ⟨h, Nat.le_refl _⟩⟩
  have hB : ∀ k : Nat, (min (P0 * 256) (T * 256) ≤ I k ∧ I k ≤ max (P0 * 256) (T * 256)) ∧
      (min P0 T ≤ P k % 256 ∧ P k % 256 ≤ max P0 T) := by
    intro k
    induction k with
    | zero =>
      rw [hI0, hP0]
      omega
    | succ n ih =>
      obtain ⟨m1, m2⟩ := hmono n
      have hI : min (P0 * 256) (T * 256) ≤ I (n + 1) ∧ I (n + 1) ≤ max (P0 * 256) (T * 256) := by
        by_cases hle : I n ≤ T * 256
        · have := m1 hle
          omega
        · have := m2 (by omega)
          omega
      refine ⟨hI, ?_⟩
      by_cases hk : (n : Int) < time
      · obtain ⟨s1, s2⟩ := (hstep n).1 hk
        rw [s2, ← s1]
        have := hlt (n + 1)
        omega
      · obtain ⟨_, s2⟩ := (hstep n).2 (by omega)
        rw [s2]
        exact ih.2
  intro k
  refine ⟨(hmono k).1, (hmono k).2, ?_, (hB k).2.1, (hB k).2.2⟩
  intro hk
  obtain ⟨s1, _⟩ := (hstep k).1 hk
  rw [s1]
  exact (fadeStep_between (time - (k : Int)) (by omega) (I k) T (hlt k) hT).1

/-- C36: after a `palManipulateInit(start, end, id, time)` that succeeds with `time ≥ 1`,
for every channel `c` of every entry `start ≤ i < end`: the 16-bit intermediate value
starts at `256 *` the palette byte; on every tick it moves towards `256 * target` and not
beyond it, the sum formed while the fade runs being the new value itself (it stays within
`0 .. 65535`); and at every tick the palette byte lies between the entry's initial byte
and its target byte, both included. -/
theorem palManipulate_monotone (M : Nat) (calloc1 calloc2 : Int) (s s0 : PalManip)
    (start end_ : Int) (s1 s2 s3 : Mem) (time : Int) (ht : 1 ≤ time)
    (hrep : M = 0 ∨ time < (M : Int))
    (hinit : palManipulateInit M calloc1 calloc2 s start end_ (some s1) (some s2) (some s3) time
      = some s0)
    (ha : s0.palManipPaletteAddr ≠ 0) (hb : s0.palManipIntermediatePalAddr ≠ 0) :
    ∀ i : Int, start ≤ i → i < end_ → ∀ c : Int, 0 ≤ c → c < 3 →
      rd16 s0.palManipIntermediatePal (6 * i + 2 * c)
        = s.currentPalette (3 * i + c) % 256 * 256 ∧
      ∀ k : Nat,
        (rd16 (palManipulateCalls M k s0).palManipIntermediatePal (6 * i + 2 * c)
            ≤ s0.palManipPalette (3 * i + c) % 256 * 256 →
          rd16 (palManipulateCalls M k s0).palManipIntermediatePal (6 * i + 2 * c)
            ≤ rd16 (palManipulateCalls M (k + 1) s0).palManipIntermediatePal (6 * i + 2 * c) ∧
          rd16 (palManipulateCalls M (k + 1) s0).palManipIntermediatePal (6 * i + 2 * c)
            ≤ s0.palManipPalette (3 * i + c) % 256 * 256) ∧
        (s0.palManipPalette (3 * i + c) % 256 * 256
            ≤ rd16 (palManipulateCalls M k s0).palManipIntermediatePal (6 * i + 2 * c) →
          s0.palManipPalette (3 * i + c) % 256 * 256
            ≤ rd16 (palManipulateCalls M (k + 1) s0).palManipIntermediatePal (6 * i + 2 * c) ∧
          rd16 (palManipulateCalls M (k + 1) s0).palManipIntermediatePal (6 * i + 2 * c)
            ≤ rd16 (palManipulateCalls M k s0).palManipIntermediatePal (6 * i + 2 * c)) ∧
        ((k : Int) < time →
          ((rd16 (palManipulateCalls M (k + 1) s0).palManipIntermediatePal (6 * i + 2 * c)
              : Nat) : Int)
            = ((rd16 (palManipulateCalls M k s0).palManipIntermediatePal (6 * i + 2 * c)
                : Nat) : Int)
              + Int.tdiv (((s0.palManipPalette (3 * i + c) % 256 : Nat) : Int) * 256
                  - ((rd16 (palManipulateCalls M k s0).palManipIntermediatePal
                      (6 * i + 2 * c) : Nat) : Int)) (time - (k : Int))) ∧
        min (s.currentPalette (3 * i + c) % 256) (s0.palManipPalette (3 * i + c) % 256)
          ≤ (palManipulateCalls M k s0).currentPalette (3 * i + c) % 256 ∧
        (palManipulateCalls M k s0).currentPalette (3 * i + c) % 256
          ≤ max (s.currentPalette (3 * i + c) % 256) (s0.palManipPalette (3 * i + c) % 256) := by
  intro i hi1 hi2 c hc0 hc3
  obtain ⟨e1, e2, e3, _⟩ := palManipulateInit_spec M calloc1 calloc2 s s0 start end_ s1 s2 s3
    time (by omega) hrep hinit
  obtain ⟨q1, q2⟩ := palManipulateInit_between M calloc1 calloc2 s s0 start end_ s1 s2 s3 time
    hinit
  have hI0 := q2 i hi1 hi2 c hc0 hc3
  refine ⟨hI0, ?_⟩
  have hT : s0.palManipPalette (3 * i + c) % 256 < 256 := Nat.mod_lt _ (by decide)
  have hP : s.currentPalette (3 * i + c) % 256 < 256 := Nat.mod_lt _ (by decide)
  refine fade_sequence time (s0.palManipPalette (3 * i + c) % 256)
    (s.currentPalette (3 * i + c) % 256) hT hP
    (fun k => rd16 (palManipulateCalls M k s0).palManipIntermediatePal (6 * i + 2 * c))
    (fun k => (palManipulateCalls M k s0).currentPalette (3 * i + c)) hI0 ?_
    (fun k => rd16_lt _ _) ?_
  · show s0.currentPalette (3 * i + c) % 256 = _
    rw [q1]
  · intro k
    constructor
    · intro hk
      obtain ⟨c1, c2, c3, c4, c5, c6⟩ := palManipulateCalls_counter M s0
        (by rw [e1]; exact hrep) ha hb k (by rw [e1]; omega)
      have := palManipulate_tick_channel M (palManipulateCalls M k s0)
        (by rw [c1, e1]; omega) (by rw [c4]; exact ha) (by rw [c5]; exact hb) i
        (by rw [c2, e2]; exact hi1) (by rw [c3, e3]; exact hi2) c hc0 hc3
      rw [c1, e1, c6] at this
      simp only []
      rw [palManipulateCalls_succ]
      exact this
    · intro hk
      simp only []
      rw [palManipulateCalls_frozen M s0 time (by omega) e1 hrep ha hb k hk]
      exact ⟨rfl, rfl⟩

/-! ## Colour cycling during a fade -/

/-- The bytes of a table of 6-byte entries after the upward rotation of `s .. e`. -/
theorem rotateEntries6_up (m : Mem) (s e : Nat) (hse : s ≤ e) (he : e < 256) (a : Int) :
    rotateEntries m 6 s e 0 a
      = (if 6 * (s : Int) ≤ a ∧ a < 6 * (s : Int) + 6 then m (a + 6 * ((e : Int) - s))
          else if 6 * (s : Int) + 6 ≤ a ∧ a < 6 * (e : Int) + 6 then m (a - 6) else m a) := by
  have hsz : toSize (((e : Int) - s) * ((6 : Nat) : Int)) = 6 * (e - s) := by
    rw [toSize_of_small _ (by omega) (by omega)]
    omega
  unfold rotateEntries
  simp only [if_true]
  rw [hsz]
  unfold memmove
  simp only [Nat.cast_ofNat, Nat.cast_mul]
  split_ifs <;> first | rfl | omega | (congr 1; omega)

/-- The bytes of a table of 6-byte entries after the downward rotation of `s .. e`. -/
theorem rotateEntries6_down (m : Mem) (s e : Nat) (hse : s ≤ e) (he : e < 256) (dir : Nat)
    (hdir : dir ≠ 0) (a : Int) :
    rotateEntries m 6 s e dir a
      = (if 6 * (e : Int) ≤ a ∧ a < 6 * (e : Int) + 6 then m (a - 6 * ((e : Int) - s))
          else if 6 * (s : Int) ≤ a ∧ a < 6 * (e : Int) then m (a + 6) else m a) := by
  have hsz : toSize (((e : Int) - s) * ((6 : Nat) : Int)) = 6 * (e - s) := by
    rw [toSize_of_small _ (by omega) (by omega)]
    omega
  unfold rotateEntries
  simp only [hdir, if_false]
  rw [hsz]
  unfold memmove
  simp only [Nat.cast_ofNat, Nat.cast_mul]
  split_ifs <;> first | rfl | omega | (congr 1; omega)

/-- Entry by entry: after a rotation of a table of 3-byte entries, entry `i` of `s .. e`
holds the bytes of entry `rotSource s e dir i`, and the entries outside are as before. -/
theorem rotateEntries_entry3 (m : Mem) (s e : Nat) (hse : s ≤ e) (he : e < 256) (dir : Nat) :
    (∀ i : Nat, s ≤ i → i ≤ e → ∀ b : Nat, b < 3 →
      rotateEntries m 3 s e dir (3 * (i : Int) + (b : Int))
        = m (3 * ((rotSource s e dir i : Nat) : Int) + (b : Int))) ∧
    (∀ a : Int, (a < 3 * (s : Int) ∨ 3 * (e : Int) + 3 ≤ a) →
      rotateEntries m 3 s e dir a = m a) := by
  constructor
  · intro i hi1 hi2 b hb
    unfold rotSource
    by_cases hdir : dir = 0
    · subst hdir
      rw [rotateEntries_up m s e hse he, if_pos rfl]
      by_cases his : i = s
      · rw [if_pos his, if_pos (by omega)]
        congr 1
        omega
      · rw [if_neg his, if_neg (by omega), if_pos (by omega)]
        congr 1
        omega
    · rw [rotateEntries_down m s e hse he dir hdir, if_neg hdir]
      by_cases hie : i = e
      · rw [if_pos hie, if_pos (by omega)]
        congr 1
        omega
      · rw [if_neg hie, if_neg (by omega), if_pos (by omega)]
        congr 1
        omega
  · intro a ha
    exact rotateEntries_frame m s e hse he dir a ha

/-- The same for a table of 6-byte entries. -/
theorem rotateEntries_entry6 (m : Mem) (s e : Nat) (hse : s ≤ e) (he : e < 256) (dir : Nat) :
    (∀ i : Nat, s ≤ i → i ≤ e → ∀ b : Nat, b < 6 →
      rotateEntries m 6 s e dir (6 * (i : Int) + (b : Int))
        = m (6 * ((rotSource s e dir i : Nat) : Int) + (b : Int))) ∧
    (∀ a : Int, (a < 6 * (s : Int) ∨ 6 * (e : Int) + 6 ≤ a) →
      rotateEntries m 6 s e dir a = m a) := by
  constructor
  · intro i hi1 hi2 b hb
    unfold rotSource
    by_cases hdir : dir = 0
    · subst hdir
      rw [rotateEntries6_up m s e hse he, if_pos rfl]
      by_cases his : i = s
      · rw [if_pos his, if_pos (by omega)]
        congr 1
        omega
      · rw [if_neg his, if_neg (by omega), if_pos (by omega)]
        congr 1
        omega
    · rw [rotateEntries6_down m s e hse he dir hdir, if_neg hdir]
      by_cases hie : i = e
      · rw [if_pos hie, if_pos (by omega)]
        congr 1
        omega
      · rw [if_neg hie, if_neg (by omega), if_pos (by omega)]
        congr 1
        omega
  · intro a ha
    by_cases hdir : dir = 0
    · subst hdir
      rw [rotateEntries6_up m s e hse he, if_neg (by omega), if_neg (by omega)]
    · rw [rotateEntries6_down m s e hse he dir hdir, if_neg (by omega), if_neg (by omega)]

/-- What `moveMemInPalRes` does to the two tables of the fade. -/
theorem moveMemInPalRes_manip (st : PalState) (s e dir : Nat) :
    (moveMemInPalRes st s e dir).palManipCounter = st.palManipCounter ∧
    (st.palManipCounter ≠ 0 → st.palManipPaletteAddr + (e : Int) * 3 ≠ 0 →
      (moveMemInPalRes st s e dir).palManipPalette
        = rotateEntries st.palManipPalette 3 s e dir ∧
      (moveMemInPalRes st s e dir).palManipIntermediatePal
        = rotateEntries st.palManipIntermediatePal 6 s e dir) ∧
    (st.palManipCounter = 0 →
      (moveMemInPalRes st s e dir).palManipPalette = st.palManipPalette ∧
      (moveMemInPalRes st s e dir).palManipIntermediatePal = st.palManipIntermediatePal) := by
  unfold moveMemInPalRes
  by_cases h0 : st.palManipCounter = 0
  · rw [if_pos h0]
    exact ⟨rfl, fun h => absurd h0 h, fun _ => ⟨rfl, rfl⟩⟩
  · rw [if_neg h0]
    by_cases h1 : st.palManipPaletteAddr + (e : Int) * 3 = 0
    · rw [if_pos h1]
      exact ⟨rfl, fun _ h => absurd h1 h, fun h => absurd h h0⟩
    · rw [if_neg h1]
      exact ⟨rfl, fun _ _ => ⟨rfl, rfl⟩, fun h => absurd h h0⟩

/-- C38: when the cycle `_colorCycle[i]` (positive delay, `start ≤ end ≤ 255`) triggers,
the call returns; if a fade is active (remaining-tick counter not 0, the target table
allocated) then the active palette, the fade's target palette and its 16-bit intermediate
palette are all rotated by one position in the same direction: entry `j` of `start .. end`
of each of the three tables receives the bytes that entry `rotSource start end (flags & 2) j`
of the same table held, so the three values that belonged to one entry still belong to one
entry, and the entries outside the range are untouched in all three; if no fade is active
the two fade tables are left as they were. -/
theorem cyclePalette_rotates_fade (M : Nat) (v : Int) (i : Nat) (st : PalState)
    (hd : 0 < (st.colorCycle i).delay)
    (ht : ((st.colorCycle i).counter + v) % (M : Int) ≥ (st.colorCycle i).delay)
    (hse : (st.colorCycle i).start ≤ (st.colorCycle i).end_)
    (he : (st.colorCycle i).end_ < 256) :
    ∃ st1, cyclePalette.cycle M v i st = some st1 ∧
      (∀ j : Nat, (st.colorCycle i).start ≤ j → j ≤ (st.colorCycle i).end_ → ∀ b : Nat, b < 3 →
        st1.currentPalette (3 * (j : Int) + (b : Int))
          = st.currentPalette
              (3 * ((rotSource (st.colorCycle i).start (st.colorCycle i).end_
                ((st.colorCycle i).flags &&& 2) j : Nat) : Int) + (b : Int))) ∧
      (st.palManipCounter ≠ 0 →
        st.palManipPaletteAddr + ((st.colorCycle i).end_ : Int) * 3 ≠ 0 →
        (∀ j : Nat, (st.colorCycle i).start ≤ j → j ≤ (st.colorCycle i).end_ →
          (∀ b : Nat, b < 3 →
            st1.palManipPalette (3 * (j : Int) + (b : Int))
              = st.palManipPalette
                  (3 * ((rotSource (st.colorCycle i).start (st.colorCycle i).end_
                    ((st.colorCycle i).flags &&& 2) j : Nat) : Int) + (b : Int))) ∧
          (∀ b : Nat, b < 6 →
            st1.palManipIntermediatePal (6 * (j : Int) + (b : Int))
              = st.palManipIntermediatePal
                  (6 * ((rotSource (st.colorCycle i).start (st.colorCycle i).end_
                    ((st.colorCycle i).flags &&& 2) j : Nat) : Int) + (b : Int)))) ∧
        (∀ a : Int, (a < 3 * ((st.colorCycle i).start : Int) ∨
            3 * ((st.colorCycle i).end_ : Int) + 3 ≤ a) →
          st1.currentPalette a = st.currentPalette a ∧
          st1.palManipPalette a = st.palManipPalette a) ∧
        (∀ a : Int, (a < 6 * ((st.colorCycle i).start : Int) ∨
            6 * ((st.colorCycle i).end_ : Int) + 6 ≤ a) →
          st1.palManipIntermediatePal a = st.palManipIntermediatePal a)) ∧
      (st.palManipCounter = 0 →
        st1.palManipPalette = st.palManipPalette ∧
        st1.palManipIntermediatePal = st.palManipIntermediatePal) ∧
      st1.palManipCounter = st.palManipCounter := by
  have hM : M = 0 ∨ ((st.colorCycle i).counter + v) % (M : Int) < (M : Int) := by
    by_cases h : M = 0
    · exact Or.inl h
    · exact Or.inr (Int.emod_lt_of_pos _ (by omega))
  have hr := cyclePalette_reduce_spec M (st.colorCycle i).delay hd
    (((st.colorCycle i).counter + v) % (M : Int)).toNat
    (((st.colorCycle i).counter + v) % (M : Int)) ht hM (le_refl _)
  unfold cyclePalette.cycle
  simp only []
  rw [if_pos (by omega), if_pos ht, hr]
  simp only []
  generalize hst2 : setDirtyColors (setCycle st i
    { delay := (st.colorCycle i).delay, counter := ((st.colorCycle i).counter + v) % (M : Int)
        % (st.colorCycle i).delay, flags := (st.colorCycle i).flags,
      start := (st.colorCycle i).start, end_ := (st.colorCycle i).end_ })
    ((st.colorCycle i).start : Int) ((st.colorCycle i).end_ : Int) = st2
  have f1 : st2.currentPalette = st.currentPalette := by
    rw [← hst2, (setDirtyColors_fields _ _ _).1]
    rfl
  have f2 : st2.palManipPalette = st.palManipPalette := by
    rw [← hst2, (setDirtyColors_manip _ _ _).1]
    rfl
  have f3 : st2.palManipPaletteAddr = st.palManipPaletteAddr := by
    rw [← hst2, (setDirtyColors_manip _ _ _).2.1]
    rfl
  have f4 : st2.palManipCounter = st.palManipCounter := by
    rw [← hst2, (setDirtyColors_manip _ _ _).2.2.1]
    rfl
  have f5 : st2.palManipIntermediatePal = st.palManipIntermediatePal := by
    rw [← hst2, (setDirtyColors_manip _ _ _).2.2.2]
    rfl
  obtain ⟨m1, m2, m3⟩ := moveMemInPalRes_manip st2 (st.colorCycle i).start
    (st.colorCycle i).end_ ((st.colorCycle i).flags &&& 2)
  obtain ⟨r3a, r3b⟩ := rotateEntries_entry3 st.currentPalette (st.colorCycle i).start
    (st.colorCycle i).end_ hse he ((st.colorCycle i).flags &&& 2)
  obtain ⟨t3a, t3b⟩ := rotateEntries_entry3 st.palManipPalette (st.colorCycle i).start
    (st.colorCycle i).end_ hse he ((st.colorCycle i).flags &&& 2)
  obtain ⟨t6a, t6b⟩ := rotateEntries_entry6 st.palManipIntermediatePal (st.colorCycle i).start
    (st.colorCycle i).end_ hse he ((st.colorCycle i).flags &&& 2)
  refine ⟨_, rfl, ?_, ?_, ?_, ?_⟩
  · intro j hj1 hj2 b hb
    simp only [(moveMemInPalRes_fields _ _ _ _).1, f1]
    exact r3a j hj1 hj2 b hb
  · intro hc hp
    obtain ⟨n1, n2⟩ := m2 (by rw [f4]; exact hc) (by rw [f3]; exact hp)
    simp only [(moveMemInPalRes_fields _ _ _ _).1, f1, n1, n2, f2, f5]
    refine ⟨fun j hj1 hj2 => ⟨t3a j hj1 hj2, t6a j hj1 hj2⟩, fun a ha => ⟨r3b a ha, t3b a ha⟩,
      fun a ha => t6b a ha⟩
  · intro hc
    obtain ⟨n1, n2⟩ := m3 (by rw [f4]; exact hc)
    simp only [n1, n2, f2, f5]
    exact ⟨trivial, trivial⟩
  · simp only [m1, f4]

/-! ## Row order against column order -/

theorem unkDecodeB_row_colours (g : Gdi) (src : Src) (s0 : BSt) (n : Nat) :
    ∀ (s : BSt) (dst : Int) (o : Out) (k : Nat),
      ColoursAre (fun i => (decodedState g src s0 i).color) o → o.log.length = k →
      s = decodedState g src s0 k →
      ColoursAre (fun i => (decodedState g src s0 i).color) (unkDecodeB.row g src n s dst o).2.2 ∧
      (unkDecodeB.row g src n s dst o).2.2.log.length = k + n ∧
      (unkDecodeB.row g src n s dst o).1 = decodedState g src s0 (k + n) := by
  induction n with
  | zero => intro s dst o k hc hl hs; exact ⟨hc, hl, hs⟩
  | succ n ih =>
    intro s dst o k hc hl hs
    simp only [unkDecodeB.row]
    have h := ih (unkDecodeB.ctl g src { s with rd := FILL_BITS src s.rd }) (dst + 1)
      (o.store dst s.color ((s.color + g.palette_mod) % 256)) (k + 1)
      (ColoursAre_store _ o hc dst _ _ (by rw [hl, hs]))
      (by rw [store_length, hl]) (by rw [hs]; rfl)
    rw [show k + (n + 1) = k + 1 + n by omega]
    exact h

theorem unkDecodeB_rows_colours (g : Gdi) (src : Src) (s0 : BSt) (n : Nat) :
    ∀ (s : BSt) (dst : Int) (o : Out) (k : Nat),
      ColoursAre (fun i => (decodedState g src s0 i).color) o → o.log.length = k →
      s = decodedState g src s0 k →
      ColoursAre (fun i => (decodedState g src s0 i).color) (unkDecodeB.rows g src n s dst o).2 ∧
      (unkDecodeB.rows g src n s dst o).1 = decodedState g src s0 (k + 8 * n) := by
  induction n with
  | zero => intro s dst o k hc hl hs; exact ⟨hc, hs⟩
  | succ n ih =>
    intro s dst o k hc hl hs
    simp only [unkDecodeB.rows]
    obtain ⟨r1, r2, r3⟩ := unkDecodeB_row_colours g src s0 8 s dst o k hc hl hs
    have h := ih _ ((unkDecodeB.row g src 8 s dst o).2.1 + g.screenWidth - 8) _ (k + 8) r1 r2 r3
    rw [show k + 8 * (n + 1) = k + 8 + 8 * n by omega]
    exact h

theorem unkDecodeC_col_colours (g : Gdi) (src : Src) (s0 : BSt) (n : Nat) :
    ∀ (s : BSt) (dst : Int) (o : Out) (k : Nat),
      ColoursAre (fun i => (decodedState g src s0 i).color) o → o.log.length = k →
      s = decodedState g src s0 k →
      ColoursAre (fun i => (decodedState g src s0 i).color) (unkDecodeC.col g src n s dst o).2.2 ∧
      (unkDecodeC.col g src n s dst o).2.2.log.length = k + n ∧
      (unkDecodeC.col g src n s dst o).1 = decodedState g src s0 (k + n) := by
  induction n with
  | zero => intro s dst o k hc hl hs; exact ⟨hc, hl, hs⟩
  | succ n ih =>
    intro s dst o k hc hl hs
    simp only [unkDecodeC.col]
    have h := ih (unkDecodeC.ctl g src { s with rd := FILL_BITS src s.rd }) (dst + g.screenWidth)
      (o.store dst s.color ((s.color + g.palette_mod) % 256)) (k + 1)
      (ColoursAre_store _ o hc dst _ _ (by rw [hl, hs]))
      (by rw [store_length, hl]) (by rw [hs]; rfl)
    rw [show k + (n + 1) = k + 1 + n by omega]
    exact h

theorem unkDecodeC_cols_colours (g : Gdi) (src : Src) (s0 : BSt) (H : Nat) (n : Nat) :
    ∀ (s : BSt) (dst : Int) (o : Out) (k : Nat),
      ColoursAre (fun i => (decodedState g src s0 i).color) o → o.log.length = k →
      s = decodedState g src s0 k →
      ColoursAre (fun i => (decodedState g src s0 i).color) (unkDecodeC.cols g src H n s dst o).2 ∧
      (unkDecodeC.cols g src H n s dst o).1 = decodedState g src s0 (k + H * n) := by
  induction n with
  | zero => intro s dst o k hc hl hs; exact ⟨hc, hs⟩
  | succ n ih =>
    intro s dst o k hc hl hs
    simp only [unkDecodeC.cols]
    obtain ⟨r1, r2, r3⟩ := unkDecodeC_col_colours g src s0 H s dst o k hc hl hs
    have h := ih _ ((unkDecodeC.col g src H s dst o).2.1 - g.vertStripNextInc) _ (k + H) r1 r2 r3
    rw [show k + H * (n + 1) = k + H + H * n by rw [Nat.mul_succ]; omega]
    exact h

/-- C33: for the same stream, the same shift parameter (the fields of `g`) and a height
`h ≥ 1` (with `_vertStripNextInc` set for that height, as `drawBitmap` does), `unkDecodeB`
and `unkDecodeC` decode the same `8 * h` colours `c k = decodedColour g src sp k` in the
same order and end with the same decoder variables; `unkDecodeB` stores `c k` at row
`k / 8`, column `k % 8`, and `unkDecodeC` stores `c k` at column `k / h`, row `k % h`; when
the screen is at least 8 pixels wide these are the pixels the strip holds afterwards. -/
theorem unkDecodeB_unkDecodeC_colours (g : Gdi) (m : Mem) (dst : Int) (src : Src) (sp : Nat)
    (h : Nat) (hh : 1 ≤ h) (hv : g.vertStripNextInc = h * g.screenWidth - 1) :
    (unkDecodeB g m dst src sp h).2.log.map Prod.snd
      = (List.range (8 * h)).map (decodedColour g src sp) ∧
    (unkDecodeC g m dst src sp h).2.log.map Prod.snd
      = (List.range (8 * h)).map (decodedColour g src sp) ∧
    (unkDecodeB g m dst src sp h).1 = (unkDecodeC g m dst src sp h).1 ∧
    (unkDecodeB g m dst src sp h).2.log
      = (List.range (8 * h)).map (fun k =>
          (dst + ((k / 8 : Nat) : Int) * g.screenWidth + ((k % 8 : Nat) : Int),
            decodedColour g src sp k)) ∧
    (unkDecodeC g m dst src sp h).2.log
      = (List.range (8 * h)).map (fun k =>
          (dst + ((k % h : Nat) : Int) * g.screenWidth + ((k / h : Nat) : Int),
            decodedColour g src sp k)) ∧
    (8 ≤ g.screenWidth → ∀ k : Nat, k < 8 * h →
      (unkDecodeB g m dst src sp h).2.mem
          (dst + ((k / 8 : Nat) : Int) * g.screenWidth + ((k % 8 : Nat) : Int))
        = (decodedColour g src sp k + g.palette_mod) % 256 ∧
      (unkDecodeC g m dst src sp h).2.mem
          (dst + ((k % h : Nat) : Int) * g.screenWidth + ((k / h : Nat) : Int))
        = (decodedColour g src sp k + g.palette_mod) % 256) := by
  have vB := unkDecodeB_visited g h m dst src sp
  have vC := unkDecodeC_visited g h hv m dst src sp
  have cB := unkDecodeB_rows_colours g src (decodedStart src sp) h (decodedStart src sp) dst
    { mem := m, log := [] } 0 (ColoursAre_init _ m) rfl rfl
  have cC := unkDecodeC_cols_colours g src (decodedStart src sp) h 8 (decodedStart src sp) dst
    { mem := m, log := [] } 0 (ColoursAre_init _ m) rfl rfl
  have eB : unkDecodeB.rows g src h (decodedStart src sp) dst { mem := m, log := [] }
      = unkDecodeB g m dst src sp h := rfl
  have eC : unkDecodeC.cols g src h 8 (decodedStart src sp) dst { mem := m, log := [] }
      = unkDecodeC g m dst src sp h := rfl
  rw [eB] at cB
  rw [eC] at cC
  have lB := Visited_length _ _ _ _ _ vB
  have lC := Visited_length _ _ _ _ _ vC
  have colB : (unkDecodeB g m dst src sp h).2.log.map Prod.snd
      = (List.range (8 * h)).map (decodedColour g src sp) := by
    have := cB.1
    unfold ColoursAre at this
    rw [lB] at this
    exact this
  have colC : (unkDecodeC g m dst src sp h).2.log.map Prod.snd
      = (List.range (8 * h)).map (decodedColour g src sp) := by
    have := cC.1
    unfold ColoursAre at this
    rw [lC] at this
    exact this
  refine ⟨colB, colC, ?_, ?_, ?_, ?_⟩
  · rw [cB.2, cC.2, Nat.mul_comm h 8]
  · exact log_eq_of_visited _ _ _ _ _ _ vB cB.1
  · exact log_eq_of_visited _ _ _ _ _ _ vC cC.1
  · intro h8 k hk
    constructor
    · exact pixel_of_visited _ _ _ _ _ _ vB cB.1 (rowAddr_nodup g h8 dst h) k hk
    · exact pixel_of_visited _ _ _ _ _ _ vC cC.1 (colAddr_nodup g h8 dst h (by omega)) k hk

/-! ## The run-colour format -/

theorem expandRuns_length_ge (src : Src) (p : Nat) : ∀ sp : Nat, p ≤ (expandRuns src sp p).length := by
  induction p with
  | zero => intro sp; exact Nat.zero_le _
  | succ p ih =>
    intro sp
    have := ih (sp + 2)
    simp only [expandRuns, List.length_append, List.length_replicate]
    omega

/-- The first `n` entries of the expansion do not depend on how many pairs beyond the
`n`-th are expanded. -/
theorem expandRuns_take (src : Src) (P : Nat) :
    ∀ (n Q sp : Nat), n ≤ P → n ≤ Q →
      (expandRuns src sp P).take n = (expandRuns src sp Q).take n := by
  induction P with
  | zero =>
    intro n Q sp hn _
    have : n = 0 := by omega
    subst this
    simp
  | succ P ih =>
    intro n Q sp hn hq
    cases Q with
    | zero =>
      have : n = 0 := by omega
      subst this
      simp
    | succ Q =>
      simp only [expandRuns, List.take_append_eq_append_take, List.length_replicate]
      rw [ih (n - (rd src sp + 1)) Q (sp + 2) (by omega) (by omega)]

theorem expandRuns_take_succ (src : Src) (sp n : Nat) (hn : 1 ≤ n) :
    (expandRuns src sp n).take n
      = (List.replicate (rd src sp + 1) (rd src (sp + 1))).take n
        ++ (expandRuns src (sp + 2) (n - (rd src sp + 1))).take (n - (rd src sp + 1)) := by
  obtain ⟨n1, rfl⟩ : ∃ n1, n = n1 + 1 := ⟨n - 1, by omega⟩
  simp only [expandRuns, List.take_append_eq_append_take, List.length_replicate]
  rw [expandRuns_take src n1 (n1 + 1 - (rd src sp + 1)) (n1 + 1 - (rd src sp + 1)) (sp + 2)
    (by omega) (le_refl _)]

theorem putRun_colours (g : Gdi) (height : Int) (color : Nat) (n : Nat) :
    ∀ (c : Cur) (o : Out), ∃ j : Nat,
      (putRun g height color n c o).2.log.map Prod.snd
        = o.log.map Prod.snd ++ List.replicate j color := by
  induction n with
  | zero => intro c o; exact ⟨0, by simp [putRun]⟩
  | succ n ih =>
    intro c o
    simp only [putRun]
    cases hN : NEXT_ROW g height c with
    | none =>
      refine ⟨1, ?_⟩
      simp [Out.store]
    | some c1 =>
      obtain ⟨j, hj⟩ := ih c1 (o.store c.dst color color)
      refine ⟨j + 1, ?_⟩
      simp only []
      rw [hj]
      simp [Out.store, List.replicate_succ]

theorem replicate_of_length (l1 l2 : List Nat) (a : Nat) (j n : Nat)
    (h : l2 = l1 ++ List.replicate j a) (hl : l2.length = l1.length + n) :
    l2 = l1 ++ List.replicate n a := by
  have := congrArg List.length h
  simp only [List.length_append, List.length_replicate] at this
  have e : j = n := by omega
  rw [h, e]

theorem unkDecode8_loop_expand (g : Gdi) (base : Int) (H : Nat) (hH : 0 < H)
    (hv : g.vertStripNextInc = H * g.screenWidth - 1) (m0 : Mem) (src : Src) (fuel : Nat) :
    ∀ (sp k : Nat) (c : Cur) (o : Out), k < 8 * H → CurAt g base H k c →
      Visited polPlain m0 (colAddr g base H) k o → 8 * H - k ≤ fuel →
      ∃ o1 sp1, unkDecode8.loop g src H fuel sp c o = some (o1, sp1) ∧
        Visited polPlain m0 (colAddr g base H) (8 * H) o1 ∧
        o1.log.map Prod.snd
          = o.log.map Prod.snd ++ (expandRuns src sp (8 * H - k)).take (8 * H - k) ∧
        ∃ p : Nat, 1 ≤ p ∧ sp1 = sp + 2 * p ∧ 8 * H - k ≤ (expandRuns src sp p).length ∧
          (expandRuns src sp (p - 1)).length < 8 * H - k := by
  induction fuel with
  | zero => intro sp k c o hk _ _ hf; omega
  | succ f ih =>
    intro sp k c o hk hc ho hf
    obtain ⟨hvis, hsome, hnone⟩ :=
      putRun_spec g base H hH hv m0 (rd src (sp + 1)) (rd src sp + 1) k c o hk hc ho
    obtain ⟨j, hj⟩ := putRun_colours g H (rd src (sp + 1)) (rd src sp + 1) c o
    have hlen := Visited_length _ _ _ _ _ ho
    simp only [unkDecode8.loop]
    by_cases hlt : k + (rd src sp + 1) < 8 * H
    · obtain ⟨c1, e1, hc1⟩ := hsome hlt
      rw [Nat.min_eq_left (le_of_lt hlt)] at hvis
      generalize putRun g (↑H) (rd src (sp + 1)) (rd src sp + 1) c o = r at *
      obtain ⟨rc, ro⟩ := r
      simp only at e1 hvis hj
      subst e1
      simp only
      have hlen1 := Visited_length _ _ _ _ _ hvis
      have hcol := replicate_of_length _ _ _ j (rd src sp + 1) hj
        (by rw [List.length_map, List.length_map, hlen1, hlen])
      obtain ⟨o1, sp1, e, v1, c1x, p, hp1, hp2, hp3, hp4⟩ := ih (sp + 2) _ c1 ro hlt hc1 hvis (by omega)
      refine ⟨o1, sp1, e, v1, ?_, p + 1, by omega, by omega, ?_, ?_⟩
      · have t1 : (List.replicate (rd src sp + 1) (rd src (sp + 1))).take (8 * H - k)
            = List.replicate (rd src sp + 1) (rd src (sp + 1)) :=
          List.take_of_length_le (by rw [List.length_replicate]; omega)
        rw [c1x, hcol, expandRuns_take_succ src sp (8 * H - k) (by omega), t1, List.append_assoc,
          show 8 * H - (k + (rd src sp + 1)) = 8 * H - k - (rd src sp + 1) by omega]
      · simp only [expandRuns, List.length_append, List.length_replicate]
        omega
      · obtain ⟨p0, rfl⟩ : ∃ p0, p = p0 + 1 := ⟨p - 1, by omega⟩
        simp only [Nat.add_sub_cancel] at hp4 ⊢
        simp only [expandRuns, List.length_append, List.length_replicate]
        omega
    · have e1 := hnone hlt
      rw [Nat.min_eq_right (by omega)] at hvis
      generalize putRun g (↑H) (rd src (sp + 1)) (rd src sp + 1) c o = r at *
      obtain ⟨rc, ro⟩ := r
      simp only at e1 hvis hj
      subst e1
      have hlen1 := Visited_length _ _ _ _ _ hvis
      have hcol := replicate_of_length _ _ _ j (8 * H - k) hj
        (by rw [List.length_map, List.length_map, hlen1, hlen]; omega)
      refine ⟨ro, sp + 2, rfl, hvis, ?_, 1, le_refl _, rfl, ?_, ?_⟩
      · rw [hcol, expandRuns_take_succ src sp (8 * H - k) (by omega), List.take_replicate,
          Nat.min_eq_left (by omega),
          show 8 * H - k - (rd src sp + 1) = 0 by omega]
        simp
      · simp only [expandRuns, List.length_append, List.length_replicate]
        omega
      · simp only [expandRuns, List.length_nil]
        omega

theorem map_getD_range (l : List Nat) : l = (List.range l.length).map (fun k => l.getD k 0) := by
  apply List.ext_getElem
  · simp
  · intro i h1 h2
    simp [List.getD_eq_getElem?_getD, List.getElem?_eq_getElem h1]

theorem colAddr_at (g : Gdi) (dst : Int) (h : Nat) (x y : Nat) (hy : y < h) :
    colAddr g dst h (x * h + y) = dst + (y : Int) * g.screenWidth + (x : Int) := by
  unfold colAddr
  have e1 : (x * h + y) % h = y := by
    rw [Nat.add_comm, Nat.add_mul_mod_self_right, Nat.mod_eq_of_lt hy]
  have e2 : (x * h + y) / h = x := by
    rw [Nat.add_comm, Nat.add_mul_div_right _ _ (by omega), Nat.div_eq_of_lt hy, Nat.zero_add]
  rw [e1, e2]

/-- C34: `unkDecode8` (format code 2) on the stream at `sp`, for a height `h ≥ 1` (with
`_vertStripNextInc` set for that height, and fuel for `8 * h` pairs): the call returns; the
colours it writes, in the order written, are the first `8 * h` entries of the expansion of
the `(n, colour)` pairs into `n + 1` copies each; the `k`-th of them is written at column
`k / h`, row `k % h`, so that, on a screen at least 8 pixels wide, the pixel at column `x`,
row `y` ends as entry `x * h + y` of the expansion; exactly `8 * h` pixels are written, and
the decoder has then read `p` pairs, where `p` is the least number of pairs whose expansion
has at least `8 * h` entries. -/
theorem unkDecode8_expands (g : Gdi) (h : Nat) (hh : 1 ≤ h)
    (hv : g.vertStripNextInc = h * g.screenWidth - 1) (fuel : Nat) (hf : 8 * h ≤ fuel)
    (m : Mem) (dst : Int) (src : Src) (sp : Nat) :
    ∃ o1 sp1, unkDecode8 g fuel m dst src sp h = some (o1, sp1) ∧
      o1.log.map Prod.snd = (expandRuns src sp (8 * h)).take (8 * h) ∧
      o1.log.map Prod.fst
        = (List.range (8 * h)).map (fun k =>
            dst + ((k % h : Nat) : Int) * g.screenWidth + ((k / h : Nat) : Int)) ∧
      o1.log.length = 8 * h ∧
      (8 ≤ g.screenWidth → ∀ x y : Nat, x < 8 → y < h →
        o1.mem (dst + (y : Int) * g.screenWidth + (x : Int))
          = ((expandRuns src sp (8 * h)).take (8 * h)).getD (x * h + y) 0) ∧
      (∀ a : Int, (∀ x y : Nat, x < 8 → y < h → a ≠ dst + (y : Int) * g.screenWidth + (x : Int)) →
        o1.mem a = m a) ∧
      ∃ p : Nat, 1 ≤ p ∧ sp1 = sp + 2 * p ∧ 8 * h ≤ (expandRuns src sp p).length ∧
        (expandRuns src sp (p - 1)).length < 8 * h := by
  obtain ⟨o1, sp1, e, v1, c1, p, hp⟩ := unkDecode8_loop_expand g dst h (by omega) hv m src fuel sp 0
    { dst := dst, h := h, x := 8 } { mem := m, log := [] } (by omega) (CurAt_init g dst h)
    (Visited_init _ _ _) (by omega)
  simp only [List.map_nil, List.nil_append, Nat.sub_zero] at c1 hp
  have hlen := Visited_length _ _ _ _ _ v1
  refine ⟨o1, sp1, e, c1, v1.2, hlen, ?_, ?_, p, hp⟩
  · intro h8 x y hx hy
    have hk : x * h + y < 8 * h := by
      have : x * h + h ≤ 8 * h := by
        have := Nat.mul_le_mul_right h (show x + 1 ≤ 8 by omega)
        rw [Nat.add_mul, Nat.one_mul] at this
        exact this
      omega
    have hc : ColoursAre (fun k => ((expandRuns src sp (8 * h)).take (8 * h)).getD k 0) o1 := by
      unfold ColoursAre
      rw [c1]
      have hl : ((expandRuns src sp (8 * h)).take (8 * h)).length = o1.log.length := by
        rw [← c1, List.length_map]
      rw [← hl]
      exact map_getD_range _
    have := pixel_of_visited _ _ _ _ _ _ v1 hc (colAddr_nodup g h8 dst h (by omega)) (x * h + y) hk
    rw [colAddr_at g dst h x y hy] at this
    exact this
  · intro a ha
    apply Visited_frame _ _ _ _ _ v1
    intro j hj
    have hj1 : j % h < h := Nat.mod_lt _ (by omega)
    have hj2 : j / h < 8 := by
      rw [Nat.div_lt_iff_lt_mul (by omega)]
      omega
    have := ha (j / h) (j % h) hj2 hj1
    unfold colAddr
    exact this

/-! ## The table-driven transitions -/

/-- The number of blocks of size `width` needed for `W` pixels, as `dissolveEffect` computes
it, is the number of block origins below `W`. -/
theorem dissolveEffect_ceil (W width : Int) (hW : 0 ≤ W) (hw : 1 ≤ width) (b : Int) :
    b * width < W
      ↔ b < (if Int.tmod W width ≠ 0 then Int.tdiv W width + 1 else Int.tdiv W width) := by
  rw [Int.tdiv_eq_ediv hW (by omega), Int.tmod_eq_emod hW (by omega)]
  have h1 := Int.ediv_add_emod W width
  have h2 := Int.emod_nonneg W (show width ≠ 0 by omega)
  have h3 := Int.emod_lt_of_pos W (show 0 < width by omega)
  generalize W / width = q at *
  generalize W % width = r at *
  by_cases hr : r = 0
  · rw [if_neg (by simpa using hr)]
    constructor
    · intro h
      by_contra hc
      have : q * width ≤ b * width := Int.mul_le_mul_of_nonneg_right (by omega) (by omega)
      have e : width * q = q * width := Int.mul_comm _ _
      omega
    · intro h
      have : (b + 1) * width ≤ q * width := Int.mul_le_mul_of_nonneg_right (by omega) (by omega)
      have e : width * q = q * width := Int.mul_comm _ _
      have e2 : (b + 1) * width = b * width + width := by ring
      omega
  · rw [if_pos hr]
    constructor
    · intro h
      by_contra hc
      have : (q + 1) * width ≤ b * width := Int.mul_le_mul_of_nonneg_right (by omega) (by omega)
      have e : width * q = q * width := Int.mul_comm _ _
      have e2 : (q + 1) * width = q * width + width := by ring
      omega
    · intro h
      have : b * width ≤ q * width := Int.mul_le_mul_of_nonneg_right (by omega) (by omega)
      have e : width * q = q * width := Int.mul_comm _ _
      omega

theorem dissolveEffect_identity_spec (n : Nat) :
    ∀ (i : Int) (offsets : Int → Int) (a : Int),
      dissolveEffect.identity n i offsets a
        = (if i ≤ a ∧ a < i + n then a else offsets a) := by
  induction n with
  | zero =>
    intro i offsets a
    simp only [dissolveEffect.identity]
    rw [if_neg (by omega)]
  | succ n ih =>
    intro i offsets a
    simp only [dissolveEffect.identity]
    rw [ih]
    by_cases h1 : i + 1 ≤ a ∧ a < i + 1 + (n : Int)
    · rw [if_pos h1, if_pos (by omega)]
    · rw [if_neg h1]
      by_cases h2 : a = i
      · rw [h2, setAt_same, if_pos (by omega)]
      · rw [setAt_other _ _ _ _ h2, if_neg (by omega)]

theorem dissolveEffect_column_spec (vs : VsGeom) (height x : Int) (h : Nat)
    (hceil : ∀ b : Nat, (b : Int) * height < vs.height ↔ b < h) (n : Nat) :
    ∀ (cy fuel : Nat) (i : Int) (offsets : Int → Int), cy + n = h → n < fuel →
      ∃ o1, dissolveEffect.column vs height x fuel ((cy : Int) * height) i offsets
          = some (i + (n : Int), o1) ∧
        (∀ k : Nat, k < n → o1 (i + (k : Int)) = ((cy + k : Nat) : Int) * height * vs.width + x) ∧
        (∀ a : Int, (a < i ∨ i + (n : Int) ≤ a) → o1 a = offsets a) := by
  induction n with
  | zero =>
    intro cy fuel i offsets hcy hf
    obtain ⟨f, rfl⟩ : ∃ f, fuel = f + 1 := ⟨fuel - 1, by omega⟩
    have hn : ¬ ((cy : Int) * height < vs.height) := by
      rw [hceil]
      omega
    refine ⟨offsets, ?_, fun k hk => absurd hk (by omega), fun _ _ => rfl⟩
    simp only [dissolveEffect.column]
    rw [if_neg hn]
    simp
  | succ n ih =>
    intro cy fuel i offsets hcy hf
    obtain ⟨f, rfl⟩ : ∃ f, fuel = f + 1 := ⟨fuel - 1, by omega⟩
    have hy : (cy : Int) * height < vs.height := by
      rw [hceil]
      omega
    obtain ⟨o1, e1, g1, f1⟩ := ih (cy + 1) f (i + 1)
      (setAt offsets i ((cy : Int) * height * vs.width + x)) (by omega) (by omega)
    have ey : ((cy + 1 : Nat) : Int) * height = (cy : Int) * height + height := by
      push_cast
      ring
    rw [ey] at e1
    refine ⟨o1, ?_, ?_, ?_⟩
    · simp only [dissolveEffect.column]
      rw [if_pos hy, e1]
      congr 2
      push_cast
      ring
    · intro k hk
      cases k with
      | zero =>
        rw [f1 _ (Or.inl (by simp))]
        simp only [Nat.cast_zero, Int.add_zero, setAt_same, Nat.add_zero]
      | succ k =>
        have := g1 k (by omega)
        have e : i + ((k + 1 : Nat) : Int) = i + 1 + (k : Int) := by
          push_cast
          ring
        rw [e, this]
        congr 3
        omega
    · intro a ha
      rw [f1 a (by push_cast at ha ⊢; omega), setAt_other _ _ _ _ (by push_cast at ha; omega)]

theorem dissolveEffect_grid_spec (vs : VsGeom) (width height : Int) (w h : Nat)
    (hceilw : ∀ b : Nat, (b : Int) * width < vs.width ↔ b < w)
    (hceil : ∀ b : Nat, (b : Int) * height < vs.height ↔ b < h) (inner : Nat) (hin : h < inner)
    (n : Nat) :
    ∀ (cx fuel : Nat) (offsets : Int → Int), cx + n = w → n < fuel →
      ∃ o1, dissolveEffect.grid vs width height inner fuel ((cx : Int) * width)
          ((cx * h : Nat) : Int) offsets = some o1 ∧
        (∀ bx cy : Nat, cx ≤ bx → bx < w → cy < h →
          o1 ((bx * h + cy : Nat) : Int) = (cy : Int) * height * vs.width + (bx : Int) * width) ∧
        (∀ a : Int, a < ((cx * h : Nat) : Int) → o1 a = offsets a) := by
  induction n with
  | zero =>
    intro cx fuel offsets hcx hf
    obtain ⟨f, rfl⟩ : ∃ f, fuel = f + 1 := ⟨fuel - 1, by omega⟩
    have hn : ¬ ((cx : Int) * width < vs.width) := by
      rw [hceilw]
      omega
    refine ⟨offsets, ?_, fun bx cy h1 h2 => absurd h2 (by omega), fun _ _ => rfl⟩
    simp only [dissolveEffect.grid]
    rw [if_neg hn]
  | succ n ih =>
    intro cx fuel offsets hcx hf
    obtain ⟨f, rfl⟩ : ∃ f, fuel = f + 1 := ⟨fuel - 1, by omega⟩
    have hx : (cx : Int) * width < vs.width := by
      rw [hceilw]
      omega
    obtain ⟨o1, e1, g1, f1⟩ := dissolveEffect_column_spec vs height ((cx : Int) * width) h hceil h
      0 inner ((cx * h : Nat) : Int) offsets (by omega) hin
    obtain ⟨o2, e2, g2, f2⟩ := ih (cx + 1) f o1 (by omega) (by omega)
    have ex : ((cx + 1 : Nat) : Int) * width = (cx : Int) * width + width := by
      push_cast
      ring
    have ei : (((cx + 1) * h : Nat) : Int) = ((cx * h : Nat) : Int) + (h : Int) := by
      push_cast
      ring
    rw [ex, ei] at e2
    rw [ei] at f2
    simp only [Nat.cast_zero, Int.zero_mul] at e1
    refine ⟨o2, ?_, ?_, ?_⟩
    · simp only [dissolveEffect.grid]
      rw [if_pos hx, e1]
      simp only []
      exact e2
    · intro bx cy h1 h2 h3
      by_cases hb : bx = cx
      · subst hb
        rw [f2 _ (by push_cast; omega)]
        have := g1 cy h3
        have e : ((bx * h + cy : Nat) : Int) = ((bx * h : Nat) : Int) + (cy : Int) := by
          push_cast
          ring
        rw [e, this]
        simp
      · exact g2 bx cy (by omega) h2 h3
    · intro a ha
      rw [f2 a (by omega), f1 a (Or.inl ha)]

/-! ### The shuffle -/

theorem perm_set_append {α : Type} (l : List α) :
    ∀ (j : Nat) (hj : j < l.length) (a : α), (l.set j a ++ [l[j]]).Perm (l ++ [a]) := by
  induction l with
  | nil => intro j hj; exact absurd hj (by simp)
  | cons x t ih =>
    intro j hj a
    cases j with
    | zero =>
      simp only [List.set_cons_zero, List.getElem_cons_zero, List.cons_append]
      have h1 : (a :: (t ++ [x])).Perm (a :: x :: t) :=
        List.Perm.cons a (List.perm_append_singleton x t)
      have h2 : (x :: (t ++ [a])).Perm (x :: a :: t) :=
        List.Perm.cons x (List.perm_append_singleton a t)
      exact h1.trans ((List.Perm.swap x a t).trans h2.symm)
    | succ j =>
      simp only [List.set_cons_succ, List.getElem_cons_succ, List.cons_append]
      exact List.Perm.cons x (ih j (by simpa using hj) a)

theorem offsetsView_length (o : Int → Int) (n : Nat) : (offsetsView o n).length = n := by
  simp [offsetsView]

theorem offsetsView_succ (o : Int → Int) (n : Nat) :
    offsetsView o (n + 1) = offsetsView o n ++ [o (n : Int)] := by
  simp [offsetsView, List.range_succ]

theorem offsetsView_getElem (o : Int → Int) (n j : Nat) (hj : j < (offsetsView o n).length) :
    (offsetsView o n)[j] = o (j : Int) := by
  simp [offsetsView]

theorem offsetsView_congr (o1 o2 : Int → Int) (n : Nat)
    (h : ∀ k : Nat, k < n → o1 (k : Int) = o2 (k : Int)) : offsetsView o1 n = offsetsView o2 n := by
  unfold offsetsView
  apply List.map_congr_left
  intro k hk
  exact h k (List.mem_range.mp hk)

theorem offsetsView_setAt (o : Int → Int) (n j : Nat) (a : Int) :
    offsetsView (setAt o (j : Int) a) n = (offsetsView o n).set j a := by
  apply List.ext_getElem
  · simp [offsetsView]
  · intro i h1 h2
    rw [offsetsView_getElem, List.getElem_set]
    by_cases hij : j = i
    · subst hij
      rw [if_pos rfl, setAt_same]
    · rw [if_neg hij, setAt_other _ _ _ _ (by omega), offsetsView_getElem]

/-- One pass of the shuffling loop keeps the first `i + 1` entries a permutation of what
they were with the fresh value appended. -/
theorem dissolveEffect_shuffle_step (o : Int → Int) (i j : Nat) (hj : j < i) (v : Int) :
    (offsetsView (setAt (setAt o (i : Int) (o (j : Int))) (j : Int) v) (i + 1)).Perm
      (offsetsView o i ++ [v]) := by
  rw [offsetsView_succ, offsetsView_setAt,
    setAt_other _ _ _ _ (show (i : Int) ≠ (j : Int) by omega), setAt_same]
  have e : offsetsView (setAt o (i : Int) (o (j : Int))) i = offsetsView o i :=
    offsetsView_congr _ _ _ (fun k hk => setAt_other _ _ _ _ (by omega))
  rw [e]
  have hl : j < (offsetsView o i).length := by rw [offsetsView_length]; exact hj
  have := perm_set_append (offsetsView o i) j hl v
  rw [offsetsView_getElem] at this
  exact this

theorem dissolveEffect_shuffle_perm (rnd : Nat → Nat) (fresh F : Int → Int) (n : Nat) :
    ∀ (i k : Nat) (o : Int → Int), 1 ≤ i →
      (∀ m : Nat, i ≤ m → m < i + n → fresh (m : Int) = F (m : Int)) →
      (offsetsView o i).Perm (offsetsView F i) →
      (offsetsView (dissolveEffect.shuffle rnd fresh n (i : Int) k o) (i + n)).Perm
        (offsetsView F (i + n)) := by
  induction n with
  | zero => intro i k o _ _ h; exact h
  | succ n ih =>
    intro i k o hi hfresh h
    simp only [dissolveEffect.shuffle, Int.toNat_ofNat]
    have hj : rnd k % i < i := Nat.mod_lt _ (by omega)
    have hstep := dissolveEffect_shuffle_step o i (rnd k % i) hj (fresh (i : Int))
    have h1 : (offsetsView o i ++ [fresh (i : Int)]).Perm (offsetsView F (i + 1)) := by
      rw [offsetsView_succ, hfresh i (le_refl _) (by omega)]
      exact List.Perm.append_right _ h
    have := ih (i + 1) (k + 1) _ (by omega) (fun m h1 h2 => hfresh m (by omega) (by omega))
      (hstep.trans h1)
    rw [show i + (n + 1) = i + 1 + n by omega]
    rw [show (((i + 1 : Nat) : Int)) = (i : Int) + 1 by push_cast; rfl] at this
    exact this

/-! ### The reveal loop -/

theorem dissolveEffect_blit_spec (vs : VsGeom) (width height bbr : Int) (offsets : Int → Int)
    (hW : vs.width ≠ 0) (n : Nat) :
    ∀ (i : Nat) (blits : Int) (calls : List Present),
      ∃ b1 c1, dissolveEffect.blit vs width height bbr offsets n (i : Int) blits calls
          = some (b1, c1) ∧
        c1.filter Present.isCopy = calls.filter Present.isCopy
          ++ (List.range n).map (fun k : Nat =>
                dissolveEffect.blockCopy vs width height (offsets ((i + k : Nat) : Int))) ∧
        (∀ p ∈ c1, p ∈ calls ∨ p = Present.update_screen ∨ p.isCopy = true) := by
  induction n with
  | zero =>
    intro i blits calls
    exact ⟨blits, calls, rfl, by simp, fun p h => Or.inl h⟩
  | succ n ih =>
    intro i blits calls
    simp only [dissolveEffect.blit]
    rw [if_neg hW]
    have hmap : (List.range (n + 1)).map (fun k : Nat =>
          dissolveEffect.blockCopy vs width height (offsets ((i + k : Nat) : Int)))
        = dissolveEffect.blockCopy vs width height (offsets (i : Int))
          :: (List.range n).map (fun k : Nat =>
                dissolveEffect.blockCopy vs width height (offsets ((i + 1 + k : Nat) : Int))) := by
      rw [List.range_succ_eq_map, List.map_cons, List.map_map]
      congr 1
      apply List.map_congr_left
      intro k _
      simp only [Function.comp]
      congr 3
      omega
    have ei : (i : Int) + 1 = ((i + 1 : Nat) : Int) := by push_cast; rfl
    by_cases hb : blits + 1 ≥ bbr
    · rw [if_pos hb, ei]
      obtain ⟨b1, c1, e, f, m⟩ := ih (i + 1) 0 (calls ++
        [Present.copy_rect
          (vs.xstart + Int.tdiv (offsets (i : Int)) vs.width * vs.width
            + Int.tmod (offsets (i : Int)) vs.width) vs.width
          (Int.tmod (offsets (i : Int)) vs.width)
          (Int.tdiv (offsets (i : Int)) vs.width + vs.topline) width height]
        ++ [Present.update_screen])
      refine ⟨b1, c1, e, ?_, ?_⟩
      · rw [f, hmap]
        simp [List.filter_append, Present.isCopy, dissolveEffect.blockCopy]
      · intro p hp
        rcases m p hp with h | h
        · simp only [List.mem_append, List.mem_singleton] at h
          rcases h with (h | h) | h
          · exact Or.inl h
          · right; right
            rw [h]
            rfl
          · exact Or.inr (Or.inl h)
        · exact Or.inr h
    · rw [if_neg hb, ei]
      obtain ⟨b1, c1, e, f, m⟩ := ih (i + 1) (blits + 1) (calls ++
        [Present.copy_rect
          (vs.xstart + Int.tdiv (offsets (i : Int)) vs.width * vs.width
            + Int.tmod (offsets (i : Int)) vs.width) vs.width
          (Int.tmod (offsets (i : Int)) vs.width)
          (Int.tdiv (offsets (i : Int)) vs.width + vs.topline) width height])
      refine ⟨b1, c1, e, ?_, ?_⟩
      · rw [f, hmap]
        simp [List.filter_append, Present.isCopy, dissolveEffect.blockCopy]
      · intro p hp
        rcases m p hp with h | h
        · simp only [List.mem_append, List.mem_singleton] at h
          rcases h with h | h
          · exact Or.inl h
          · right; right
            rw [h]
            rfl
        · exact Or.inr h

theorem dissolveEffect_blockCopy_inj (vs : VsGeom) (width height : Int) (a b : Int)
    (h : dissolveEffect.blockCopy vs width height a = dissolveEffect.blockCopy vs width height b) :
    a = b := by
  unfold dissolveEffect.blockCopy at h
  simp only [Present.copy_rect.injEq] at h
  have h1 := Int.tmod_add_tdiv a vs.width
  have h2 := Int.tmod_add_tdiv b vs.width
  obtain ⟨_, _, h3, h4, _⟩ := h
  have h5 : Int.tdiv a vs.width = Int.tdiv b vs.width := by omega
  rw [← h1, ← h2, h3, h5]

theorem dissolveEffect_tail (vs : VsGeom) (width height bbr : Int) (N : Nat) (o E : Int → Int)
    (hW : vs.width ≠ 0) (hperm : (offsetsView o N).Perm (offsetsView E N))
    (hinj : ∀ k k1 : Nat, k < N → k1 < N → E (k : Int) = E (k1 : Int) → k = k1) :
    ∃ calls,
      (match dissolveEffect.blit vs width height bbr o N 0 0 [] with
        | none => Dissolve.divisionByZero
        | some r => if r.1 ≠ 0 then Dissolve.returned (r.2 ++ [Present.update_screen])
                    else Dissolve.returned r.2) = Dissolve.returned calls ∧
      (calls.filter Present.isCopy).Nodup ∧ (calls.filter Present.isCopy).length = N ∧
      (∀ k : Nat, k < N → dissolveEffect.blockCopy vs width height (E (k : Int)) ∈ calls) ∧
      (∀ p ∈ calls, p = Present.update_screen ∨
        ∃ k : Nat, k < N ∧ p = dissolveEffect.blockCopy vs width height (E (k : Int))) := by
  obtain ⟨b1, c1, e, f, m⟩ := dissolveEffect_blit_spec vs width height bbr o hW N 0 0 []
  simp only [Nat.cast_zero] at e
  rw [e]
  simp only [Nat.zero_add, List.filter_nil, List.nil_append] at f
  have hview : (List.range N).map (fun k : Nat => dissolveEffect.blockCopy vs width height
      (o (k : Int))) = (offsetsView o N).map (dissolveEffect.blockCopy vs width height) := by
    unfold offsetsView
    rw [List.map_map]
    rfl
  rw [hview] at f
  have hp := hperm.map (dissolveEffect.blockCopy vs width height)
  have hnd : ((offsetsView E N).map (dissolveEffect.blockCopy vs width height)).Nodup := by
    unfold offsetsView
    rw [List.map_map]
    apply List.Nodup.map_on _ (List.nodup_range N)
    intro x hx y hy hxy
    exact hinj x y (List.mem_range.mp hx) (List.mem_range.mp hy)
      (dissolveEffect_blockCopy_inj vs width height _ _ hxy)
  have hmemE : ∀ p, p ∈ c1.filter Present.isCopy ↔
      ∃ k : Nat, k < N ∧ p = dissolveEffect.blockCopy vs width height (E (k : Int)) := by
    intro p
    rw [f, hp.mem_iff]
    unfold offsetsView
    rw [List.map_map, List.mem_map]
    constructor
    · rintro ⟨k, hk, rfl⟩
      exact ⟨k, List.mem_range.mp hk, rfl⟩
    · rintro ⟨k, hk, rfl⟩
      exact ⟨k, List.mem_range.mpr hk, rfl⟩
  have hfin : ∀ calls : List Present, calls.filter Present.isCopy = c1.filter Present.isCopy →
      (∀ p ∈ calls, p ∈ c1 ∨ p = Present.update_screen) →
      (calls.filter Present.isCopy).Nodup ∧ (calls.filter Present.isCopy).length = N ∧
      (∀ k : Nat, k < N → dissolveEffect.blockCopy vs width height (E (k : Int)) ∈ calls) ∧
      (∀ p ∈ calls, p = Present.update_screen ∨
        ∃ k : Nat, k < N ∧ p = dissolveEffect.blockCopy vs width height (E (k : Int))) := by
    intro calls hc hm
    refine ⟨?_, ?_, ?_, ?_⟩
    · rw [hc, f]
      exact hp.nodup_iff.mpr hnd
    · rw [hc, f, List.length_map, offsetsView_length]
    · intro k hk
      have : dissolveEffect.blockCopy vs width height (E (k : Int)) ∈ calls.filter Present.isCopy := by
        rw [hc]
        exact (hmemE _).mpr ⟨k, hk, rfl⟩
      exact (List.mem_filter.mp this).1
    · intro p hpc
      rcases hm p hpc with h | h
      · rcases m p h with h1 | h1 | h1
        · exact absurd h1 (List.not_mem_nil p)
        · exact Or.inl h1
        · exact Or.inr ((hmemE p).mp (List.mem_filter.mpr ⟨h, h1⟩))
      · exact Or.inl h
  by_cases hb : b1 ≠ 0
  · refine ⟨c1 ++ [Present.update_screen], by simp only []; rw [if_pos hb], ?_⟩
    apply hfin
    · simp [List.filter_append, Present.isCopy]
    · intro p hpc
      rcases List.mem_append.mp hpc with h | h
      · exact Or.inl h
      · exact Or.inr (List.mem_singleton.mp h)
  · refine ⟨c1, by simp only []; rw [if_neg hb], ?_⟩
    exact hfin c1 rfl (fun p h => Or.inl h)

/-- The offset `cy * height * W + cx * width` of a block origin inside the screen is split by
the reveal loop into `x = cx * width` and `y = cy * height`. -/
theorem dissolveEffect_blockCopy_origin (vs : VsGeom) (width height : Int) (x y : Int)
    (hx0 : 0 ≤ x) (hx : x < vs.width) (hy : 0 ≤ y) :
    dissolveEffect.blockCopy vs width height (y * vs.width + x)
      = Present.copy_rect (vs.xstart + y * vs.width + x) vs.width x (y + vs.topline)
          width height := by
  have hnn : 0 ≤ y * vs.width := Int.mul_nonneg hy (by omega)
  have d : Int.tdiv (y * vs.width + x) vs.width = y := by
    rw [Int.tdiv_eq_ediv (by omega) (by omega), Int.add_comm,
      Int.add_mul_ediv_right _ _ (by omega), Int.ediv_eq_zero_of_lt hx0 hx]
    omega
  have r : Int.tmod (y * vs.width + x) vs.width = x := by
    rw [Int.tmod_eq_emod (by omega) (by omega), Int.add_comm, Int.add_mul_emod_self,
      Int.emod_eq_of_lt hx0 hx]
  unfold dissolveEffect.blockCopy
  rw [d, r]

theorem dissolveEffect_blocks (vs : VsGeom) (width height : Int) (hw : 1 ≤ width)
    (hh : 1 ≤ height) (N : Nat) (E : Int → Int)
    (calls : List Present)
    (h1 : ∀ k : Nat, k < N → ∃ cx cy : Nat, (cx : Int) * width < vs.width ∧
      (cy : Int) * height < vs.height ∧
      E (k : Int) = (cy : Int) * height * vs.width + (cx : Int) * width)
    (h2 : ∀ cx cy : Nat, (cx : Int) * width < vs.width → (cy : Int) * height < vs.height →
      ∃ k : Nat, k < N ∧ E (k : Int) = (cy : Int) * height * vs.width + (cx : Int) * width)
    (hcov : ∀ k : Nat, k < N → dissolveEffect.blockCopy vs width height (E (k : Int)) ∈ calls)
    (hall : ∀ p ∈ calls, p = Present.update_screen ∨
        ∃ k : Nat, k < N ∧ p = dissolveEffect.blockCopy vs width height (E (k : Int))) :
    (∀ cx cy : Nat, (cx : Int) * width < vs.width → (cy : Int) * height < vs.height →
      Present.copy_rect (vs.xstart + (cy : Int) * height * vs.width + (cx : Int) * width)
        vs.width ((cx : Int) * width) ((cy : Int) * height + vs.topline) width height ∈ calls) ∧
    (∀ p ∈ calls, p = Present.update_screen ∨
      ∃ cx cy : Nat, (cx : Int) * width < vs.width ∧ (cy : Int) * height < vs.height ∧
        p = Present.copy_rect (vs.xstart + (cy : Int) * height * vs.width + (cx : Int) * width)
          vs.width ((cx : Int) * width) ((cy : Int) * height + vs.topline) width height) ∧
    (∀ px py : Int, 0 ≤ px → px < vs.width → 0 ≤ py → py < vs.height →
      ∃ x y : Int,
        Present.copy_rect (vs.xstart + y * vs.width + x) vs.width x (y + vs.topline) width height
          ∈ calls ∧ x ≤ px ∧ px < x + width ∧ y ≤ py ∧ py < y + height) := by
  have hcopy : ∀ cx cy : Nat, (cx : Int) * width < vs.width →
      dissolveEffect.blockCopy vs width height
          ((cy : Int) * height * vs.width + (cx : Int) * width)
        = Present.copy_rect (vs.xstart + (cy : Int) * height * vs.width + (cx : Int) * width)
            vs.width ((cx : Int) * width) ((cy : Int) * height + vs.topline) width height := by
    intro cx cy hx
    exact dissolveEffect_blockCopy_origin vs width height _ _
      (Int.mul_nonneg (by omega) (by omega)) hx (Int.mul_nonneg (by omega) (by omega))
  have hA : ∀ cx cy : Nat, (cx : Int) * width < vs.width → (cy : Int) * height < vs.height →
      Present.copy_rect (vs.xstart + (cy : Int) * height * vs.width + (cx : Int) * width)
        vs.width ((cx : Int) * width) ((cy : Int) * height + vs.topline) width height ∈ calls := by
    intro cx cy hx hy
    obtain ⟨k, hk, e⟩ := h2 cx cy hx hy
    rw [← hcopy cx cy hx, ← e]
    exact hcov k hk
  refine ⟨hA, ?_, ?_⟩
  · intro p hp
    rcases hall p hp with h | ⟨k, hk, e⟩
    · exact Or.inl h
    · obtain ⟨cx, cy, hx, hy, e1⟩ := h1 k hk
      exact Or.inr ⟨cx, cy, hx, hy, by rw [e, e1, hcopy cx cy hx]⟩
  · intro px py hx0 hx1 hy0 hy1
    obtain ⟨cx, ecx⟩ : ∃ cx : Nat, (cx : Int) = px / width :=
      ⟨(px / width).toNat, Int.toNat_of_nonneg (Int.ediv_nonneg hx0 (by omega))⟩
    obtain ⟨cy, ecy⟩ : ∃ cy : Nat, (cy : Int) = py / height :=
      ⟨(py / height).toNat, Int.toNat_of_nonneg (Int.ediv_nonneg hy0 (by omega))⟩
    have a1 := Int.ediv_mul_le px (show width ≠ 0 by omega)
    have a2 := Int.lt_ediv_add_one_mul_self px (show 0 < width by omega)
    have b1 := Int.ediv_mul_le py (show height ≠ 0 by omega)
    have b2 := Int.lt_ediv_add_one_mul_self py (show 0 < height by omega)
    rw [← ecx] at a1 a2
    rw [← ecy] at b1 b2
    have a3 : ((cx : Int) + 1) * width = (cx : Int) * width + width := by ring
    have b3 : ((cy : Int) + 1) * height = (cy : Int) * height + height := by ring
    exact ⟨(cx : Int) * width, (cy : Int) * height, hA cx cy (by omega) (by omega), a1, by omega,
      b1, by omega⟩

theorem dissolveEffect_count_le (W width : Int) (hw : 1 ≤ width) (wN : Nat)
    (hceil : ∀ b : Nat, (b : Int) * width < W ↔ b < wN) : (wN : Int) ≤ max W 0 := by
  cases wN with
  | zero => simp
  | succ n =>
    have h1 := (hceil n).mpr (by omega)
    have h2 : (n : Int) * 1 ≤ (n : Int) * width := Int.mul_le_mul_of_nonneg_left hw (by omega)
    have h3 : (n : Int) < W := by omega
    have : ((n + 1 : Nat) : Int) ≤ W := by push_cast; omega
    exact le_trans this (le_max_left _ _)

theorem dissolveEffect_index_lt (wN hN cx cy : Nat) (hx : cx < wN) (hy : cy < hN) :
    cx * hN + cy < wN * hN := by
  have h1 : (cx + 1) * hN ≤ wN * hN := Nat.mul_le_mul_right hN hx
  rw [Nat.add_mul, Nat.one_mul] at h1
  omega

/-- The general path of `dissolveEffect`: the array filled by the two grid loops. -/
theorem dissolveEffect_grid_blocks (vs : VsGeom) (width height : Int) (hw : 1 ≤ width)
    (hh : 1 ≤ height) (wN hN : Nat)
    (hceilw : ∀ b : Nat, (b : Int) * width < vs.width ↔ b < wN)
    (hceil : ∀ b : Nat, (b : Int) * height < vs.height ↔ b < hN) (o1 : Int → Int)
    (g1 : ∀ bx cy : Nat, 0 ≤ bx → bx < wN → cy < hN →
      o1 ((bx * hN + cy : Nat) : Int) = (cy : Int) * height * vs.width + (bx : Int) * width) :
    (∀ k : Nat, k < wN * hN → ∃ cx cy : Nat, (cx : Int) * width < vs.width ∧
      (cy : Int) * height < vs.height ∧
      o1 (k : Int) = (cy : Int) * height * vs.width + (cx : Int) * width) ∧
    (∀ cx cy : Nat, (cx : Int) * width < vs.width → (cy : Int) * height < vs.height →
      ∃ k : Nat, k < wN * hN ∧
        o1 (k : Int) = (cy : Int) * height * vs.width + (cx : Int) * width) ∧
    (∀ k k1 : Nat, k < wN * hN → k1 < wN * hN → o1 (k : Int) = o1 (k1 : Int) → k = k1) := by
  have hrep : ∀ k : Nat, k < wN * hN → k / hN < wN ∧ k % hN < hN ∧ k / hN * hN + k % hN = k := by
    intro k hk
    have hpos : 0 < hN := by
      rcases Nat.eq_zero_or_pos hN with h | h
      · rw [h, Nat.mul_zero] at hk
        omega
      · exact h
    exact ⟨Nat.div_lt_of_lt_mul (by rw [Nat.mul_comm]; exact hk), Nat.mod_lt _ hpos,
      Nat.div_add_mod' k hN⟩
  have hval : ∀ k : Nat, k < wN * hN →
      o1 (k : Int) = ((k % hN : Nat) : Int) * height * vs.width + ((k / hN : Nat) : Int) * width := by
    intro k hk
    obtain ⟨r1, r2, r3⟩ := hrep k hk
    have := g1 (k / hN) (k % hN) (Nat.zero_le _) r1 r2
    rw [r3] at this
    exact this
  refine ⟨?_, ?_, ?_⟩
  · intro k hk
    obtain ⟨r1, r2, r3⟩ := hrep k hk
    exact ⟨k / hN, k % hN, (hceilw _).mpr r1, (hceil _).mpr r2, hval k hk⟩
  · intro cx cy hx hy
    have hx1 := (hceilw cx).mp hx
    have hy1 := (hceil cy).mp hy
    exact ⟨cx * hN + cy, dissolveEffect_index_lt wN hN cx cy hx1 hy1,
      g1 cx cy (Nat.zero_le _) hx1 hy1⟩
  · intro k k1 hk hk1 e
    obtain ⟨r1, r2, r3⟩ := hrep k hk
    obtain ⟨s1, s2, s3⟩ := hrep k1 hk1
    rw [hval k hk, hval k1 hk1] at e
    have c1 := dissolveEffect_blockCopy_origin vs width height (((k / hN : Nat) : Int) * width)
      (((k % hN : Nat) : Int) * height) (Int.mul_nonneg (Int.ofNat_nonneg _) (by omega))
      ((hceilw _).mpr r1) (Int.mul_nonneg (Int.ofNat_nonneg _) (by omega))
    have c2 := dissolveEffect_blockCopy_origin vs width height (((k1 / hN : Nat) : Int) * width)
      (((k1 % hN : Nat) : Int) * height) (Int.mul_nonneg (Int.ofNat_nonneg _) (by omega))
      ((hceilw _).mpr s1) (Int.mul_nonneg (Int.ofNat_nonneg _) (by omega))
    rw [e, c2] at c1
    simp only [Present.copy_rect.injEq] at c1
    obtain ⟨_, _, e1, e2, _⟩ := c1
    have f1 : ((k1 / hN : Nat) : Int) = ((k / hN : Nat) : Int) :=
      Int.eq_of_mul_eq_mul_right (by omega) e1
    have f2 : ((k1 % hN : Nat) : Int) = ((k % hN : Nat) : Int) :=
      Int.eq_of_mul_eq_mul_right (show height ≠ 0 by omega) (by omega)
    have f3 : k1 / hN = k / hN := by exact_mod_cast f1
    have f4 : k1 % hN = k % hN := by exact_mod_cast f2
    rw [← r3, ← s3, f3, f4]

/-- The pixel-by-pixel path of `dissolveEffect`: the identity array. -/
theorem dissolveEffect_pixel_blocks (vs : VsGeom) (wN hN : Nat) (hW : vs.width = wN)
    (hH : vs.height = hN) :
    (∀ k : Nat, k < wN * hN → ∃ cx cy : Nat, (cx : Int) * 1 < vs.width ∧
      (cy : Int) * 1 < vs.height ∧
      (k : Int) = (cy : Int) * 1 * vs.width + (cx : Int) * 1) ∧
    (∀ cx cy : Nat, (cx : Int) * 1 < vs.width → (cy : Int) * 1 < vs.height →
      ∃ k : Nat, k < wN * hN ∧ (k : Int) = (cy : Int) * 1 * vs.width + (cx : Int) * 1) := by
  rw [hW, hH]
  constructor
  · intro k hk
    have hpos : 0 < wN := by
      rcases Nat.eq_zero_or_pos wN with h | h
      · rw [h, Nat.zero_mul] at hk
        omega
      · exact h
    refine ⟨k % wN, k / wN, ?_, ?_, ?_⟩
    · have := Nat.mod_lt k hpos
      omega
    · have := Nat.div_lt_of_lt_mul hk
      omega
    · have := Nat.div_add_mod' k wN
      rw [Int.mul_one, Int.mul_one]
      exact_mod_cast this.symm
  · intro cx cy hx hy
    refine ⟨cy * wN + cx, ?_, ?_⟩
    · have := dissolveEffect_index_lt hN wN cy cx (by omega) (by omega)
      rw [Nat.mul_comm wN hN]
      exact this
    · push_cast
      ring

theorem dissolveEffect_ceil_div (W width : Int) (hw : 1 ≤ width) (w : Int)
    (hceil : ∀ b : Int, b * width < W ↔ b < w) : (W + width - 1) / width = w := by
  have a1 := Int.ediv_mul_le (W + width - 1) (show width ≠ 0 by omega)
  have a2 := Int.lt_ediv_add_one_mul_self (W + width - 1) (show 0 < width by omega)
  generalize (W + width - 1) / width = c at a1 a2 ⊢
  have e1 : (c + 1) * width = c * width + width := by ring
  have e2 : (c - 1) * width = c * width - width := by ring
  have h1 := (hceil (c - 1)).mp (by omega)
  have h2 := hceil c
  have h3 : ¬ (c * width < W) := by omega
  have h4 : ¬ (c < w) := fun h => h3 (h2.mpr h)
  omega

/-- C31: for every block size `width, height ≥ 1` on a screen of positive width and height
whose `size` is `width * height` pixels (as `initVirtScreen` sets it), both allocations
succeeding, and whatever the random draws: `dissolveEffect` returns, and the `copy_rect`
calls of its reveal loop are pairwise different, `ceil(W / width) * ceil(H / height)` in
number, one for every block origin `(cx * width, cy * height)` inside the screen and no
others; so every block is copied exactly once, and every pixel of the screen lies in a
copied block.  This holds on the 1x1 path and on the general path. -/
theorem dissolveEffect_permutation (vs : VsGeom) (loom : Bool) (garbage : Int → Int)
    (rnd : Nat → Nat) (fuel : Nat) (width height : Int) (hw : 1 ≤ width) (hh : 1 ≤ height)
    (hW : 1 ≤ vs.width) (hH : 1 ≤ vs.height) (hsize : vs.size = vs.width * vs.height)
    (hf : vs.width < fuel ∧ vs.height < fuel) :
    ∃ calls, dissolveEffect vs loom true true garbage rnd fuel width height
        = Dissolve.returned calls ∧
      (calls.filter Present.isCopy).Nodup ∧
      (calls.filter Present.isCopy).length
        = ((vs.width + width - 1) / width * ((vs.height + height - 1) / height)).toNat ∧
      (∀ cx cy : Nat, (cx : Int) * width < vs.width → (cy : Int) * height < vs.height →
        Present.copy_rect (vs.xstart + (cy : Int) * height * vs.width + (cx : Int) * width)
          vs.width ((cx : Int) * width) ((cy : Int) * height + vs.topline) width height
            ∈ calls) ∧
      (∀ p ∈ calls, p = Present.update_screen ∨
        ∃ cx cy : Nat, (cx : Int) * width < vs.width ∧ (cy : Int) * height < vs.height ∧
          p = Present.copy_rect
            (vs.xstart + (cy : Int) * height * vs.width + (cx : Int) * width)
            vs.width ((cx : Int) * width) ((cy : Int) * height + vs.topline) width height) ∧
      (∀ px py : Int, 0 ≤ px → px < vs.width → 0 ≤ py → py < vs.height →
        ∃ x y : Int,
          Present.copy_rect (vs.xstart + y * vs.width + x) vs.width x (y + vs.topline)
            width height ∈ calls ∧ x ≤ px ∧ px < x + width ∧ y ≤ py ∧ py < y + height) := by
  have cw := dissolveEffect_ceil vs.width width (by omega) hw
  have ch := dissolveEffect_ceil vs.height height (by omega) hh
  unfold dissolveEffect
  rw [if_neg (by omega), if_neg (by omega)]
  simp only []
  generalize (if Int.tmod vs.width width ≠ 0 then Int.tdiv vs.width width + 1
    else Int.tdiv vs.width width) = w at cw ⊢
  generalize (if Int.tmod vs.height height ≠ 0 then Int.tdiv vs.height height + 1
    else Int.tdiv vs.height height) = h at ch ⊢
  have hw1 : 1 ≤ w := by
    have := (cw 0).mp (by omega)
    omega
  have hh1 : 1 ≤ h := by
    have := (ch 0).mp (by omega)
    omega
  obtain ⟨wN, rfl⟩ : ∃ wN : Nat, w = wN := ⟨w.toNat, by omega⟩
  obtain ⟨hN, rfl⟩ : ∃ hN : Nat, h = hN := ⟨h.toNat, by omega⟩
  have hceilw : ∀ b : Nat, (b : Int) * width < vs.width ↔ b < wN := by
    intro b
    rw [cw]
    omega
  have hceil : ∀ b : Nat, (b : Int) * height < vs.height ↔ b < hN := by
    intro b
    rw [ch]
    omega
  have hNpos : 1 ≤ wN * hN := Nat.mul_pos (by omega) (by omega)
  have eN : ((wN : Int) * (hN : Int)) = ((wN * hN : Nat) : Int) := by push_cast; rfl
  rw [dissolveEffect_ceil_div vs.width width hw _ cw,
    dissolveEffect_ceil_div vs.height height hh _ ch]
  rw [eN]
  generalize hNdef : wN * hN = N at hNpos eN ⊢
  have e1 : ((N : Int)).toNat = N := Int.toNat_ofNat N
  have e2 : ((N : Int) - 1).toNat = N - 1 := by omega
  rw [e1, e2]
  rw [if_neg (by simp)]
  generalize (if loom = true then (3 * (wN : Int) * (hN : Int)).tdiv 25 * 4
    else (3 * (wN : Int) * (hN : Int)).tdiv 25) = bbr
  have hN1 : 1 + (N - 1) = N := by omega
  by_cases h11 : width = 1 ∧ height = 1
  · rw [if_pos h11]
    simp only []
    obtain ⟨rfl, rfl⟩ := h11
    have eW : vs.width = (wN : Int) := by
      have a1 := (cw (vs.width - 1)).mp (by omega)
      have a2 := (cw vs.width)
      omega
    have eH : vs.height = (hN : Int) := by
      have a1 := (ch (vs.height - 1)).mp (by omega)
      have a2 := (ch vs.height)
      omega
    have esize : vs.size.toNat = N := by
      rw [hsize, eW, eH, eN]
      exact Int.toNat_ofNat N
    rw [esize]
    have hperm := dissolveEffect_shuffle_perm rnd (fun i => i) (fun a => a) (N - 1) 1 0
      (dissolveEffect.identity N 0 garbage) (le_refl _) (fun _ _ _ => rfl)
      (by
        unfold offsetsView
        simp only [List.range_succ, List.range_zero, List.nil_append, List.map_cons, List.map_nil,
          Nat.cast_zero]
        rw [dissolveEffect_identity_spec, if_pos (by omega)])
    rw [hN1, Nat.cast_one] at hperm
    obtain ⟨calls, hc, hnd, hlen, hcov, hall⟩ := dissolveEffect_tail vs 1 1 bbr N _ (fun a => a)
      (by omega) hperm (fun k k1 _ _ e => Int.ofNat.inj e)
    obtain ⟨b1, b2⟩ := dissolveEffect_pixel_blocks vs wN hN eW eH
    rw [hNdef] at b1 b2
    obtain ⟨r1, r2, r3⟩ := dissolveEffect_blocks vs 1 1 hw hh N (fun a => a) calls b1 b2 hcov hall
    exact ⟨calls, hc, hnd, hlen, r1, r2, r3⟩
  · rw [if_neg h11]
    obtain ⟨o1, eg, g1, _⟩ := dissolveEffect_grid_spec vs width height wN hN hceilw hceil fuel
      (by
        have := dissolveEffect_count_le vs.height height hh hN hceil
        omega)
      wN 0 fuel garbage (by omega)
      (by
        have := dissolveEffect_count_le vs.width width hw wN hceilw
        omega)
    simp only [Nat.cast_zero, Int.zero_mul, Nat.zero_mul] at eg
    rw [eg]
    simp only []
    rw [if_neg (by simp)]
    simp only []
    have hperm := dissolveEffect_shuffle_perm rnd
      (fun i => if 0 ≤ i ∧ i < (N : Int) then o1 i else garbage i) o1 (N - 1) 1 0
      o1 (le_refl _) (fun m h1 h2 => if_pos ⟨by omega, by omega⟩) (List.Perm.refl _)
    rw [hN1, Nat.cast_one] at hperm
    obtain ⟨b1, b2, b3⟩ := dissolveEffect_grid_blocks vs width height hw hh wN hN hceilw hceil o1 g1
    rw [hNdef] at b1 b2 b3
    obtain ⟨calls, hc, hnd, hlen, hcov, hall⟩ := dissolveEffect_tail vs width height bbr N _ o1
      (by omega) hperm b3
    obtain ⟨r1, r2, r3⟩ := dissolveEffect_blocks vs width height hw hh N o1 calls b1 b2 hcov hall
    exact ⟨calls, hc, hnd, hlen, r1, r2, r3⟩

/-! ## The dissolve on an empty target -/

/-- C30 as the code has it: on a zero-size target (a virtual screen of width 0 and height 0,
hence of size 0) `dissolveEffect` with block sizes other than 0 returns normally and makes
no backend call, neither `copy_rect` nor `update_screen`, whether the allocations succeed
or not and on the 1x1 path as on the general path. -/
theorem dissolveEffect_empty_target (vs : VsGeom) (loom malloc1 malloc2 : Bool)
    (garbage : Int → Int) (rnd : Nat → Nat) (fuel : Nat) (width height : Int)
    (hw : width ≠ 0) (hh : height ≠ 0) (hW : vs.width = 0) (hH : vs.height = 0)
    (hsize : vs.size = vs.width * vs.height) (hf : 1 ≤ fuel) :
    dissolveEffect vs loom malloc1 malloc2 garbage rnd fuel width height
      = Dissolve.returned [] := by
  obtain ⟨f, rfl⟩ : ∃ f, fuel = f + 1 := ⟨fuel - 1, by omega⟩
  have hs0 : vs.size = 0 := by rw [hsize, hW, Int.zero_mul]
  unfold dissolveEffect
  rw [if_neg hw, if_neg hh]
  simp only [hW, hH, hs0, Int.zero_tdiv, Int.zero_tmod, ne_eq, not_true_eq_false, if_false,
    Int.mul_zero, Int.zero_mul]
  cases malloc1
  · simp
  · simp only [Bool.not_eq_true, if_false]
    by_cases h11 : width = 1 ∧ height = 1
    · rw [if_pos h11]
      simp [dissolveEffect.blit]
    · rw [if_neg h11]
      simp only [dissolveEffect.grid, hW, lt_irrefl, if_false]
      cases malloc2
      · simp
      · simp [dissolveEffect.blit]

/-! ## The transition, decoder and fade theorems at concrete inputs -/

/-- C30 at the 8 x 4 dissolve of the zero-size screen: the call returns and makes no
backend call. -/
theorem dissolveEffect_empty_target_witness :
    dissolveEffect demoGeomEmpty false true true (fun _ => 0) (fun k => k) 20 8 4
      = Dissolve.returned [] :=
  dissolveEffect_empty_target demoGeomEmpty false true true (fun _ => 0) (fun k => k) 20 8 4
    (by decide) (by decide) rfl rfl rfl (by decide)

/-- C31 at the 8 x 4 dissolve of the 16 x 8 screen: the call returns, no block is copied
twice and the block at `(8, 4)` is copied. -/
theorem dissolveEffect_permutation_witness :
    ∃ calls, dissolveEffect demoGeom false true true (fun _ => 0) (fun k => k) 20 8 4
        = Dissolve.returned calls ∧
      (calls.filter Present.isCopy).Nodup ∧
      Present.copy_rect (0 + 1 * 4 * 16 + 1 * 8) 16 (1 * 8) (1 * 4 + 0) 8 4 ∈ calls := by
  obtain ⟨calls, e, nd, _, h, _⟩ := dissolveEffect_permutation demoGeom false (fun _ => 0)
    (fun k => k) 20 8 4 (by decide) (by decide) (by decide) (by decide) (by decide) (by decide)
  exact ⟨calls, e, nd, h 1 1 (by decide) (by decide)⟩

/-- C33 at the bit-packed demo strip of height 1: both decoders end with the same decoder
variables. -/
theorem unkDecodeB_unkDecodeC_colours_witness :
    (unkDecodeB (decompressBitmap.setup demoGdi 28) zeroMem 0 demoPacked 1 1).1
      = (unkDecodeC (decompressBitmap.setup demoGdi 28) zeroMem 0 demoPacked 1 1).1 :=
  (unkDecodeB_unkDecodeC_colours (decompressBitmap.setup demoGdi 28) zeroMem 0 demoPacked 1 1
    (by decide) (by decide)).2.2.1

/-- C34 at the run-colour demo strip of height 1: the call returns and has written the first
8 entries of the expansion. -/
theorem unkDecode8_expands_witness :
    ∃ o1 sp1, unkDecode8 demoGdi 8 zeroMem 0 demoRuns 1 1 = some (o1, sp1) ∧
      o1.log.map Prod.snd = (expandRuns demoRuns 1 (8 * 1)).take (8 * 1) := by
  obtain ⟨o1, sp1, e, h, _⟩ := unkDecode8_expands demoGdi 1 (by decide) (by decide) 8
    (by decide) zeroMem 0 demoRuns 1
  exact ⟨o1, sp1, e, h⟩

/-- C35 at the darkening of entries 1 to 3 to half brightness: the call returns and the
dirty range starts at entry 1 at the latest. -/
theorem darkenPalette_spec_witness :
    ∃ st1, darkenPalette 1 (some rampPalette) demoPal 128 128 128 1 3 = some st1 ∧
      st1.palDirtyMin = min demoPal.palDirtyMin 1 := by
  obtain ⟨st1, e, _, _, h, _⟩ := (darkenPalette_spec 1 rampPalette demoPal 128 128 128 1 3
    (by decide) (by decide) (by decide) (by decide)).1 (by decide)
  exact ⟨st1, e, h⟩

/-- C36 at the fade of entries 1 and 2 to `(200, 100, 0)` in 4 ticks: the intermediate red
channel of entry 1 starts at 256 times its palette byte. -/
theorem palManipulate_monotone_witness :
    rd16 demoFade.palManipIntermediatePal (6 * 1 + 2 * 0)
      = demoManip.currentPalette (3 * 1 + 0) % 256 * 256 :=
  (palManipulate_monotone 65536 4096 8192 demoManip demoFade 1 3
    (fun _ => 200) (fun _ => 100) (fun _ => 0) 4 (by decide) (Or.inr (by decide)) rfl
    (by decide) (by decide) 1 (by decide) (by decide) 0 (by decide) (by decide)).1

/-- C37 at the idle demo state: any number of calls leaves it as it is. -/
theorem palManipulate_frame_witness : palManipulateCalls 65536 3 demoManip = demoManip :=
  (palManipulate_frame 65536 demoManip).2.2.1 rfl 3

/-- C38 at cycle 0 of the demo palette with the timer advanced by 10: the call returns and
the fade counter is as before. -/
theorem cyclePalette_rotates_fade_witness :
    ∃ st1, cyclePalette.cycle 65536 10 0 demoPal = some st1 ∧
      st1.palManipCounter = demoPal.palManipCounter := by
  obtain ⟨st1, e, _, _, _, h⟩ := cyclePalette_rotates_fade 65536 10 0 demoPal (by decide)
    (by decide) (by decide) (by decide)
  exact ⟨st1, e, h⟩

/-- C39 at the bit-packed demo strip (code 28): the call returns. -/
theorem decompressBitmap_result_witness :
    ∃ u g1 o, decompressBitmap demoGdi 8 zeroMem 0 demoPacked 0 1 = Outcome.returned u g1 o :=
  (decompressBitmap_result demoGdi 8 zeroMem 0 demoPacked 0 1 (by decide) (by decide)
    (by decide)).2.1 (by decide)

end Scumm
